import Mathlib

/-! # The recursive-descent parser of `lab4/PARSE.C`

A shallow embedding of the extended TINY parser.  The C program keeps its
lookahead, the scanner registers, the error flag and all tree nodes in
process-wide storage; here they are the fields of one explicit state
`PState`, passed through every grammar procedure.  Tree nodes live in a heap
(a list of records): a pointer is an index into that list, `NULL` is `none`,
`p->f = v` rewrites one record in place, and an allocation appends a record.

The grammar procedures are mutually recursive, so each takes a step budget
(fuel): `none` means that no defined result was reached within the budget
(budget exhausted, or a dereference of `NULL` or of an unallocated node).
-/

namespace Parse

/-! ## Data model -/

/-- Modelled from the spec: the token categories declared in `globals.h`
(not part of the sources); these are the categories that `PARSE.C` names,
plus the scanner's own `ERROR` category.  `ENDFILE` is the first enumerator. -/
inductive TokenType
  | ENDFILE | ERROR
  | IF | THEN | ELSE | END | REPEAT | UNTIL | READ | WRITE
  | DO | WHILE | FOR | TO | DOWNTO | SWITCH | CASE | BREAK | DEFAULT
  | INT | STRING | BOOL
  | ID | NUM | STR
  | ASSIGN | EQ | LT | LTE | GT | GTE | PLUS | MINUS | TIMES | OVER
  | LPAREN | RPAREN | SEMI | COMMA
  deriving DecidableEq, Repr

/-- Modelled from the spec: the statement kinds of `globals.h`. -/
inductive StmtKind
  | DeclK | AssignK | ReadK | WriteK | IfK | ElseK | RepeatK | WhileK | ForK
  | ToK | DownK | SwitchK | CaseK | DefaultK
  deriving DecidableEq, Repr

/-- Modelled from the spec: the expression kinds of `globals.h`. -/
inductive ExpKind
  | OpK | ConstK | IdK | StrK
  deriving DecidableEq, Repr

/-- Modelled from the spec: node category together with the kind tag
(`nodekind` and the `kind` union of `globals.h`). -/
inductive Kind
  | stmt (k : StmtKind)
  | exp (k : ExpKind)
  | prog
  deriving DecidableEq, Repr

/-- Modelled from the spec: the `attr` union of a node (`op`, `val`, `name`);
`zero` is the zero-valued union of a freshly allocated node. -/
inductive Attr
  | zero
  | op (t : TokenType)
  | val (v : Int)
  | name (x : String)
  deriving DecidableEq, Repr

/-- Modelled from the spec: the `TreeNode` record of `globals.h`: three child
slots, a sibling link, the source line, the kind tag and the attribute. -/
structure TreeNode where
  child0 : Option Nat
  child1 : Option Nat
  child2 : Option Nat
  sibling : Option Nat
  lineno : Nat
  kind : Kind
  attr : Attr
  deriving DecidableEq, Repr

/-- One token as the scanner delivers it: category, lexeme, and the value of
the line counter once it has been scanned. -/
structure Token where
  type : TokenType
  text : String
  line : Nat
  deriving DecidableEq, Repr

/-- The process-wide parsing state: the static `token`, the scanner registers
`tokenString` and `lineno`, the scanner position (`input`: the tokens not yet
delivered), the flag `Error`, the lines written by `syntaxError`, and the
node heap. -/
structure PState where
  token : TokenType
  tokenString : String
  lineno : Nat
  input : List Token
  Error : Bool
  listing : List (Nat × String)
  heap : List TreeNode
  deriving DecidableEq, Repr

/-- What a grammar procedure yields: the returned pointer and the state. -/
abbrev Res := Option (Option Nat × PState)

/-! ## External collaborators -/

/-- Modelled from the spec: the scanner's `getToken` (`scan.h`): delivers the
next token and updates `tokenString` and `lineno`; past the last token it
delivers `ENDFILE` forever. -/
def getToken (s : PState) : TokenType × PState :=
  match s.input with
  | [] => (.ENDFILE, { s with tokenString := "" })
  | tk :: rest =>
    (tk.type, { s with tokenString := tk.text, lineno := tk.line, input := rest })

/-- The assignment `token = getToken();`. -/
def advance (s : PState) : PState :=
  { (getToken s).2 with token := (getToken s).1 }

/-- The state with its node heap replaced by `h`. -/
@[simps]
def PState.withHeap (s : PState) (h : List TreeNode) : PState :=
  { s with heap := h }

/-- Modelled from the spec: a freshly allocated node (`util.h`): all child
slots absent, sibling absent, attribute zero-valued, line number set to the
current line counter. -/
@[simps]
def freshNode (k : Kind) (s : PState) : TreeNode :=
  { child0 := none, child1 := none, child2 := none, sibling := none,
    lineno := s.lineno, kind := k, attr := .zero }

/-- Allocation: the new node is appended to the heap; its address is returned.
Allocation never yields `NULL` (exhaustion terminates the process). -/
def alloc (k : Kind) (s : PState) : Nat × PState :=
  (s.heap.length, s.withHeap (s.heap ++ [freshNode k s]))

/-- Modelled from the spec: `newStmtNode` of `util.h`. -/
def newStmtNode (k : StmtKind) (s : PState) : Nat × PState := alloc (.stmt k) s

/-- Modelled from the spec: `newExpNode` of `util.h`. -/
def newExpNode (k : ExpKind) (s : PState) : Nat × PState := alloc (.exp k) s

/-- Modelled from the spec: `newProgNode` of `util.h`. -/
def newProgNode (s : PState) : Nat × PState := alloc .prog s

/-- One decimal digit of `atoi`. -/
def digitVal (c : Char) : Option Nat :=
  if 48 ≤ c.toNat ∧ c.toNat ≤ 57 then some (c.toNat - 48) else none

/-- The digits read by `atoi`, most significant first, folded into `acc`. -/
def atoiDigits : List Char → Nat → Nat
  | [], acc => acc
  | c :: cs, acc =>
    match digitVal c with
    | some d => atoiDigits cs (10 * acc + d)
    | none => acc

/-- Modelled from the spec: the C library `atoi` on a lexeme: an optional
sign followed by decimal digits, stopping at the first other character
(values outside `int` are not defined by C and are not truncated here). -/
def atoi (x : String) : Int :=
  match x.toList with
  | '-' :: cs => - (atoiDigits cs 0 : Int)
  | '+' :: cs => (atoiDigits cs 0 : Int)
  | cs => (atoiDigits cs 0 : Int)

/-! ## Heap access -/

/-- The record `n` with child slot 0 set to `v`. -/
@[simps]
def TreeNode.withChild0 (v : Option Nat) (n : TreeNode) : TreeNode := { n with child0 := v }

/-- The record `n` with child slot 1 set to `v`. -/
@[simps]
def TreeNode.withChild1 (v : Option Nat) (n : TreeNode) : TreeNode := { n with child1 := v }

/-- The record `n` with child slot 2 set to `v`. -/
@[simps]
def TreeNode.withChild2 (v : Option Nat) (n : TreeNode) : TreeNode := { n with child2 := v }

/-- The record `n` with its sibling set to `v`. -/
@[simps]
def TreeNode.withSibling (v : Option Nat) (n : TreeNode) : TreeNode := { n with sibling := v }

/-- The record `n` with its attribute set to `a`. -/
@[simps]
def TreeNode.withAttr (a : Attr) (n : TreeNode) : TreeNode := { n with attr := a }

/-- The write `p->f = v`, as `g` applied to the record at address `p`;
undefined on an unallocated address. -/
def modifyNode (p : Nat) (g : TreeNode → TreeNode) (s : PState) : Option PState :=
  match s.heap[p]? with
  | some n => some (s.withHeap (s.heap.set p (g n)))
  | none => none

/-- The write `p->child[0] = v`. -/
def setChild0 (p : Nat) (v : Option Nat) (s : PState) : Option PState :=
  modifyNode p (TreeNode.withChild0 v) s

/-- The write `p->child[1] = v`. -/
def setChild1 (p : Nat) (v : Option Nat) (s : PState) : Option PState :=
  modifyNode p (TreeNode.withChild1 v) s

/-- The write `p->child[2] = v`. -/
def setChild2 (p : Nat) (v : Option Nat) (s : PState) : Option PState :=
  modifyNode p (TreeNode.withChild2 v) s

/-- The write `p->sibling = v`. -/
def setSibling (p : Nat) (v : Option Nat) (s : PState) : Option PState :=
  modifyNode p (TreeNode.withSibling v) s

/-- The write `p->attr = a` (one member of the union). -/
def setAttr (p : Nat) (a : Attr) (s : PState) : Option PState :=
  modifyNode p (TreeNode.withAttr a) s

/-! ## The parser -/

/-- `syntaxError`: writes the message with the current line to the listing and
sets `Error = TRUE`. -/
@[simps]
def syntaxError (message : String) (s : PState) : PState :=
  { s with Error := true, listing := s.listing ++ [(s.lineno, message)] }

/-- `match`: on the expected token fetch the next one, otherwise report an
error and leave the token where it is.  (`printToken` only writes text.) -/
def match_ (expected : TokenType) (s : PState) : PState :=
  if s.token = expected then advance s
  else syntaxError "unexpected token -> " s

/-- The loop test of `stmt_sequence`. -/
def seqContinues (tk : TokenType) : Bool :=
  tk ≠ .ENDFILE && tk ≠ .END && tk ≠ .ELSE && tk ≠ .UNTIL && tk ≠ .WHILE && tk ≠ .BREAK

/-- `read_stmt`. -/
def read_stmt (s : PState) : Res := do
  let (t, s) := newStmtNode .ReadK s
  let s := match_ .READ s
  let s ← (if s.token = .ID then setAttr t (.name s.tokenString) s else some s)
  let s := match_ .ID s
  pure (some t, s)

/-- `varlist`. -/
def varlist : Nat → PState → Res
  | 0, _ => none
  | f + 1, s => do
    let (t, s) := newExpNode .IdK s
    let p := t
    let s ← (if s.token = .ID then setAttr t (.name s.tokenString) s else some s)
    let s := match_ .ID s
    if s.token = .COMMA then do
      let s := match_ .COMMA s
      let (r, s) ← varlist f s
      let s ← setChild0 p r s
      pure (some t, s)
    else
      pure (some t, s)

/-- `decl_stmt`. -/
def decl_stmt (f : Nat) (s : PState) : Res :=
  if s.token ≠ .INT ∧ s.token ≠ .STRING ∧ s.token ≠ .BOOL then
    some (none, s)
  else do
    let (t, s) := newStmtNode .DeclK s
    let s ← setAttr t (.op s.token) s
    let s := match_ s.token s
    let (r, s) ← varlist f s
    let s ← setChild1 t r s
    pure (some t, s)

/-- The `while` loop of `declarations`, with its variables `t` and `p`. -/
def declarations_loop : Nat → Option Nat → Option Nat → PState → Res
  | 0, _, _, _ => none
  | f + 1, t, p, s =>
    if s.token ≠ .ENDFILE then do
      let s := match_ .SEMI s
      let (q, s) ← decl_stmt f s
      match q with
      | some _ =>
        match t with
        | none => declarations_loop f q q s
        | some _ =>
          match p with
          | none => none
          | some pa => do
            let s ← setSibling pa q s
            declarations_loop f t q s
      | none => some (t, s)
    else
      some (t, s)

/-- `declarations`. -/
def declarations (f : Nat) (s : PState) : Res := do
  let (t, s) ← decl_stmt f s
  match t with
  | none => pure (none, s)
  | some _ => declarations_loop f t t s

mutual

/-- `stmt_sequence`. -/
def stmt_sequence : Nat → PState → Res
  | 0, _ => none
  | f + 1, s => do
    let (t, s) ← statement f s
    stmt_sequence_loop f t t s

/-- The `while` loop of `stmt_sequence`, with its variables `t` and `p`. -/
def stmt_sequence_loop : Nat → Option Nat → Option Nat → PState → Res
  | 0, _, _, _ => none
  | f + 1, t, p, s =>
    if seqContinues s.token then do
      let s := match_ .SEMI s
      let (q, s) ← statement f s
      match q with
      | none => stmt_sequence_loop f t p s
      | some _ =>
        match t with
        | none => stmt_sequence_loop f q q s
        | some _ =>
          match p with
          | none => none
          | some pa =>
            match s.heap[pa]? with
            | none => none
            | some pn =>
              match pn.sibling with
              | some e => do
                let s ← setSibling e q s
                stmt_sequence_loop f t q s
              | none => do
                let s ← setSibling pa q s
                stmt_sequence_loop f t q s
    else
      some (t, s)

/-- `statement`. -/
def statement : Nat → PState → Res
  | 0, _ => none
  | f + 1, s =>
    match s.token with
    | .IF => if_stmt f s
    | .REPEAT => repeat_stmt f s
    | .ID => assign_stmt f s
    | .READ => read_stmt s
    | .WRITE => write_stmt f s
    | .DO => while_stmt f s
    | .FOR => for_stmt f s
    | .SWITCH => switch_stmt f s
    | _ => some (none, advance (syntaxError "unexpected token -> " s))

/-- `while_stmt`. -/
def while_stmt : Nat → PState → Res
  | 0, _ => none
  | f + 1, s => do
    let (t, s) := newStmtNode .WhileK s
    let s := match_ .DO s
    let (b, s) ← stmt_sequence f s
    let s ← setChild0 t b s
    let s := match_ .WHILE s
    let (c, s) ← exp f s
    let s ← setChild1 t c s
    pure (some t, s)

/-- `for_stmt`. -/
def for_stmt : Nat → PState → Res
  | 0, _ => none
  | f + 1, s => do
    let (t, s) := newStmtNode .ForK s
    let s := match_ .FOR s
    let (a, s) ← assign_stmt f s
    let s ← setChild0 t a s
    let (b, s) ← to_stmt f s
    let s ← setChild1 t b s
    let s := match_ .THEN s
    let (q, s) ← stmt_sequence f s
    let s ← setChild2 t q s
    let s := match_ .END s
    pure (some t, s)

/-- `to_stmt`. -/
def to_stmt : Nat → PState → Res
  | 0, _ => none
  | f + 1, s =>
    if s.token = .TO then do
      let (t, s) := newStmtNode .ToK s
      let s := match_ .TO s
      let (c, s) ← factor f s
      let s ← setChild0 t c s
      pure (some t, s)
    else do
      let (t, s) := newStmtNode .DownK s
      let s := match_ .DOWNTO s
      let (c, s) ← factor f s
      let s ← setChild0 t c s
      pure (some t, s)

/-- `if_stmt`. -/
def if_stmt : Nat → PState → Res
  | 0, _ => none
  | f + 1, s => do
    let (t, s) := newStmtNode .IfK s
    let s := match_ .IF s
    let (c, s) ← exp f s
    let s ← setChild0 t c s
    let s := match_ .THEN s
    let (b, s) ← stmt_sequence f s
    let s ← setChild1 t b s
    let s ← (if s.token = .ELSE then do
      let (q, s) := newStmtNode .ElseK s
      let s := match_ .ELSE s
      let (e, s) ← stmt_sequence f s
      let s ← setChild0 q e s
      setSibling t (some q) s
    else some s)
    let s := match_ .END s
    pure (some t, s)

/-- `switch_stmt`. -/
def switch_stmt : Nat → PState → Res
  | 0, _ => none
  | f + 1, s => do
    let (t, s) := newStmtNode .SwitchK s
    let s := match_ .SWITCH s
    let (c, s) ← factor f s
    let s ← setChild0 t c s
    let (q, s) ← case_stmt f s
    let s ← setChild1 t q s
    pure (some t, s)

/-- `case_stmt`. -/
def case_stmt : Nat → PState → Res
  | 0, _ => none
  | f + 1, s => do
    let (t, s) := newStmtNode .CaseK s
    let p := t
    let s := match_ .CASE s
    let (c, s) ← factor f s
    let s ← setChild0 t c s
    let (b, s) ← stmt_sequence f s
    let s ← setChild1 t b s
    let s := match_ .BREAK s
    let s ← (if s.token = .CASE then do
      let (r, s) ← case_stmt f s
      setSibling p r s
    else some s)
    let s ← (if s.token = .DEFAULT then do
      let (q, s) := newStmtNode .DefaultK s
      let s := match_ .DEFAULT s
      let (d, s) ← stmt_sequence f s
      let s ← setChild0 q d s
      setSibling p (some q) s
    else some s)
    pure (some t, s)

/-- `repeat_stmt`. -/
def repeat_stmt : Nat → PState → Res
  | 0, _ => none
  | f + 1, s => do
    let (t, s) := newStmtNode .RepeatK s
    let s := match_ .REPEAT s
    let (b, s) ← stmt_sequence f s
    let s ← setChild0 t b s
    let s := match_ .UNTIL s
    let (c, s) ← exp f s
    let s ← setChild1 t c s
    pure (some t, s)

/-- `assign_stmt`. -/
def assign_stmt : Nat → PState → Res
  | 0, _ => none
  | f + 1, s => do
    let (t, s) := newStmtNode .AssignK s
    let s ← (if s.token = .ID then setAttr t (.name s.tokenString) s else some s)
    let s := match_ .ID s
    let s := match_ .ASSIGN s
    let (c, s) ← exp f s
    let s ← setChild0 t c s
    pure (some t, s)

/-- `write_stmt`. -/
def write_stmt : Nat → PState → Res
  | 0, _ => none
  | f + 1, s => do
    let (t, s) := newStmtNode .WriteK s
    let s := match_ .WRITE s
    let (c, s) ← exp f s
    let s ← setChild0 t c s
    pure (some t, s)

/-- `exp`. -/
def exp : Nat → PState → Res
  | 0, _ => none
  | f + 1, s => do
    let (t, s) ← simple_exp f s
    if s.token = .LT ∨ s.token = .EQ ∨ s.token = .LTE ∨ s.token = .GT ∨ s.token = .GTE then do
      let (p, s) := newExpNode .OpK s
      let s ← setChild0 p t s
      let s ← setAttr p (.op s.token) s
      let s := match_ s.token s
      let (r, s) ← simple_exp f s
      let s ← setChild1 p r s
      pure (some p, s)
    else
      pure (t, s)

/-- `simple_exp`. -/
def simple_exp : Nat → PState → Res
  | 0, _ => none
  | f + 1, s => do
    let (t, s) ← term f s
    simple_exp_loop f t s

/-- The `while` loop of `simple_exp`, with its variable `t`. -/
def simple_exp_loop : Nat → Option Nat → PState → Res
  | 0, _, _ => none
  | f + 1, t, s =>
    if s.token = .PLUS ∨ s.token = .MINUS then do
      let (p, s) := newExpNode .OpK s
      let s ← setChild0 p t s
      let s ← setAttr p (.op s.token) s
      let s := match_ s.token s
      let (r, s) ← term f s
      let s ← setChild1 p r s
      simple_exp_loop f (some p) s
    else
      some (t, s)

/-- `term`. -/
def term : Nat → PState → Res
  | 0, _ => none
  | f + 1, s => do
    let (t, s) ← factor f s
    term_loop f t s

/-- The `while` loop of `term`, with its variable `t`. -/
def term_loop : Nat → Option Nat → PState → Res
  | 0, _, _ => none
  | f + 1, t, s =>
    if s.token = .TIMES ∨ s.token = .OVER then do
      let (p, s) := newExpNode .OpK s
      let s ← setChild0 p t s
      let s ← setAttr p (.op s.token) s
      let s := match_ s.token s
      let (r, s) ← factor f s
      let s ← setChild1 p r s
      term_loop f (some p) s
    else
      some (t, s)

/-- `factor`. -/
def factor : Nat → PState → Res
  | 0, _ => none
  | f + 1, s =>
    match s.token with
    | .NUM => do
      let (t, s) := newExpNode .ConstK s
      let s ← setAttr t (.val (atoi s.tokenString)) s
      let s := match_ .NUM s
      pure (some t, s)
    | .ID => do
      let (t, s) := newExpNode .IdK s
      let s ← setAttr t (.name s.tokenString) s
      let s := match_ .ID s
      pure (some t, s)
    | .STR => do
      let (t, s) := newExpNode .StrK s
      let s ← setAttr t (.name s.tokenString) s
      let s := match_ .STR s
      pure (some t, s)
    | .LPAREN => do
      let s := match_ .LPAREN s
      let (t, s) ← exp f s
      let s := match_ .RPAREN s
      pure (t, s)
    | _ => some (none, advance (syntaxError "unexpected token -> " s))

end

/-- `program`.  The source ends with `//return t;`: control reaches the
closing brace of a function declared to return `TreeNode*`, so what the
caller reads back is not the node `t` but an indeterminate value, here the
parameter `indet`. -/
def program (indet : Option Nat) (f : Nat) (s : PState) : Res := do
  let (t, s) := newProgNode s
  let (d, s) ← declarations f s
  let s ← setChild0 t d s
  let (q, s) ← stmt_sequence f s
  let s ← setChild1 t q s
  pure (indet, s)

/-- `parse`. -/
def parse (indet : Option Nat) (f : Nat) (s : PState) : Res := do
  let s := advance s
  let (t, s) ← program indet f s
  let s := if s.token ≠ .ENDFILE then syntaxError "Code ends before file\n" s else s
  pure (t, s)

/-- The state in which a parse starts: zero-initialised statics, no node
allocated, the scanner at the start of `toks`. -/
def initState (toks : List Token) : PState :=
  { token := .ENDFILE, tokenString := "", lineno := 0, input := toks,
    Error := false, listing := [], heap := [] }

/-! ## Reading trees off the heap -/

/-- A syntax tree detached from the heap: kind tag, attribute, the three
child slots and the sibling.  Line numbers are left out. -/
inductive Tree
  | absent
  | node (kind : Kind) (attr : Attr) (c0 c1 c2 sib : Tree)
  deriving DecidableEq, Repr

/-- `denotes h lo T p`: in heap `h` the pointer `p` is the root of exactly the
tree `T`, every node of it at an address `lo` or above. -/
def denotes (h : List TreeNode) (lo : Nat) : Tree → Option Nat → Bool
  | .absent, p => p.isNone
  | .node k a c0 c1 c2 sb, p =>
    match p with
    | none => false
    | some q =>
      match h[q]? with
      | none => false
      | some n =>
        decide (lo ≤ q) && decide (n.kind = k) && decide (n.attr = a) &&
          denotes h lo c0 n.child0 && denotes h lo c1 n.child1 &&
          denotes h lo c2 n.child2 && denotes h lo sb n.sibling

/-- An expression leaf or operator node has no sibling. -/
def Tree.const (v : Int) : Tree :=
  .node (.exp .ConstK) (.val v) .absent .absent .absent .absent

/-- An identifier leaf. -/
def Tree.ident (x : String) : Tree :=
  .node (.exp .IdK) (.name x) .absent .absent .absent .absent

/-- A string-literal leaf. -/
def Tree.str (x : String) : Tree :=
  .node (.exp .StrK) (.name x) .absent .absent .absent .absent

/-- A BinaryOp node: operator token, left operand in slot 0, right in slot 1. -/
def Tree.binop (o : TokenType) (l r : Tree) : Tree :=
  .node (.exp .OpK) (.op o) l r .absent .absent

/-- A statement node. -/
def Tree.stmt (k : StmtKind) (a : Attr) (c0 c1 c2 sib : Tree) : Tree :=
  .node (.stmt k) a c0 c1 c2 sib

/-- A token on line 1. -/
def tok (t : TokenType) (x : String) : Token := ⟨t, x, 1⟩

/-- The state in which a grammar procedure starts on `toks`: the first token
is the lookahead, the rest is still with the scanner. -/
def startOn (toks : List Token) : PState := advance (initState toks)

/-! ## Notions used in the statements -/

/-- `LessDef x y`: whatever `x` yields, `y` yields too. -/
def LessDef {α : Type} (x y : Option α) : Prop := ∀ a, x = some a → y = some a

/-- `Returns F s r s1`: started in state `s`, the procedure `F` returns `r`
and leaves the state `s1`, whenever the step budget is large enough. -/
def Returns (F : Nat → PState → Res) (s : PState) (r : Option Nat) (s1 : PState) : Prop :=
  ∃ N, ∀ f, N ≤ f → F f s = some (r, s1)

/-- `Pending s l`: the tokens not yet consumed in state `s`, the lookahead
first, are `l`; the empty list is the end of the file. -/
def Pending (s : PState) : List Token → Prop
  | [] => s.token = .ENDFILE ∧ s.input = []
  | tk :: l =>
    s.token = tk.type ∧ s.tokenString = tk.text ∧ s.lineno = tk.line ∧ s.input = l

/-- `HExt base h h1`: heap `h1` has every node of `h`, and the nodes below
address `base` are as they were in `h`. -/
def HExt (base : Nat) (h h1 : List TreeNode) : Prop :=
  h.length ≤ h1.length ∧ ∀ a, a < base → h1[a]? = h[a]?

/-- The grammar procedures at two budgets, the second at least as defined. -/
structure MonoAt (f g : Nat) : Prop where
  stmt_sequence : ∀ s, LessDef (stmt_sequence f s) (stmt_sequence g s)
  stmt_sequence_loop :
    ∀ t p s, LessDef (stmt_sequence_loop f t p s) (stmt_sequence_loop g t p s)
  statement : ∀ s, LessDef (statement f s) (statement g s)
  while_stmt : ∀ s, LessDef (while_stmt f s) (while_stmt g s)
  for_stmt : ∀ s, LessDef (for_stmt f s) (for_stmt g s)
  to_stmt : ∀ s, LessDef (to_stmt f s) (to_stmt g s)
  if_stmt : ∀ s, LessDef (if_stmt f s) (if_stmt g s)
  switch_stmt : ∀ s, LessDef (switch_stmt f s) (switch_stmt g s)
  case_stmt : ∀ s, LessDef (case_stmt f s) (case_stmt g s)
  repeat_stmt : ∀ s, LessDef (repeat_stmt f s) (repeat_stmt g s)
  assign_stmt : ∀ s, LessDef (assign_stmt f s) (assign_stmt g s)
  write_stmt : ∀ s, LessDef (write_stmt f s) (write_stmt g s)
  exp : ∀ s, LessDef (exp f s) (exp g s)
  simple_exp : ∀ s, LessDef (simple_exp f s) (simple_exp g s)
  simple_exp_loop : ∀ t s, LessDef (simple_exp_loop f t s) (simple_exp_loop g t s)
  term : ∀ s, LessDef (term f s) (term g s)
  term_loop : ∀ t s, LessDef (term_loop f t s) (term_loop g t s)
  factor : ∀ s, LessDef (factor f s) (factor g s)

/-! ## Worked inputs -/

/-- The tokens of `int x, y; x := 1 + 2; write x`. -/
def roundTripTokens : List Token :=
  [tok .INT "int", tok .ID "x", tok .COMMA ",", tok .ID "y", tok .SEMI ";",
   tok .ID "x", tok .ASSIGN ":=", tok .NUM "1", tok .PLUS "+", tok .NUM "2", tok .SEMI ";",
   tok .WRITE "write", tok .ID "x"]

/-- The tree that `int x, y; x := 1 + 2; write x` stands for. -/
def roundTripTree : Tree :=
  .node .prog .zero
    (.stmt .DeclK (.op .INT) .absent
      (.node (.exp .IdK) (.name "x") (.ident "y") .absent .absent .absent) .absent .absent)
    (.stmt .AssignK (.name "x") (.binop .PLUS (.const 1) (.const 2)) .absent .absent
      (.stmt .WriteK .zero (.ident "x") .absent .absent .absent))
    .absent .absent

/-- The tokens `, x2 , x3 ...` that continue an identifier list, as pairs of
a comma token and an identifier token. -/
def commaIds : List (Token × Token) → List Token
  | [] => []
  | (c, x) :: m => c :: x :: commaIds m

/-- The chain of Identifier nodes for the names `x, x2, x3 ...`: each node
holds one name and has the rest of the chain in child slot 0; no siblings. -/
def idChain : Token → List (Token × Token) → Tree
  | x, [] => .ident x.text
  | x, (_, y) :: m => .node (.exp .IdK) (.name x.text) (idChain y m) .absent .absent .absent

/-- The category of the next token of `l` (`ENDFILE` past the end). -/
def nextType (l : List Token) : TokenType := (l.head?.map Token.type).getD .ENDFILE

/-- `Reads F ok l T`: in every state whose pending tokens are `l` followed by
a token of a category in `ok`, the procedure `F` returns, having consumed
exactly `l` and recorded no error, a pointer to the tree `T`, all of whose
nodes it has newly allocated; older nodes are untouched. -/
def Reads (F : Nat → PState → Res) (ok : TokenType → Prop) (l : List Token) (T : Tree) : Prop :=
  ∀ (s : PState) (rest : List Token), Pending s (l ++ rest) → ok (nextType rest) →
    ∃ r s1, Returns F s r s1 ∧ Pending s1 rest ∧ s1.Error = s.Error ∧
      s1.listing = s.listing ∧ HExt s.heap.length s.heap s1.heap ∧
      denotes s1.heap s.heap.length T r = true

/-- The leaf that `factor` builds from one number, identifier or string token. -/
def leaf (tk : Token) : Tree :=
  match tk.type with
  | .NUM => .const (atoi tk.text)
  | .STR => .str tk.text
  | _ => .ident tk.text

/-- A number, identifier or string token. -/
def isAtom (tk : Token) : Prop := tk.type = .NUM ∨ tk.type = .ID ∨ tk.type = .STR

/-- The tokens `o1 x1 o2 x2 ...` of a list of operators, each with the tokens
and the tree of its right operand. -/
def flatOps : List (Token × List Token × Tree) → List Token
  | [] => []
  | (o, l, _) :: m => o :: (l ++ flatOps m)

/-- The left fold: each operator node takes what has been built so far as
child 0 and its own right operand as child 1. -/
def foldOps (acc : Tree) (ops : List (Token × List Token × Tree)) : Tree :=
  ops.foldl (fun a x => .binop x.1.type a x.2.2) acc

/-- The tokens of a product of atoms, `a0 o1 a1 ... on an`. -/
def atomOps (ops : List (Token × Token)) : List (Token × List Token × Tree) :=
  ops.map (fun p => (p.1, [p.2], leaf p.2))

/-- What may follow a term: anything but `*` and `/`. -/
def okTerm (tk : TokenType) : Prop := tk ≠ .TIMES ∧ tk ≠ .OVER

/-- What may follow a simple expression: anything but `+ - * /`. -/
def okSimple (tk : TokenType) : Prop := tk ≠ .PLUS ∧ tk ≠ .MINUS ∧ tk ≠ .TIMES ∧ tk ≠ .OVER

/-- The relational operators that `exp` tests for. -/
def isRelop (tk : TokenType) : Prop :=
  tk = .LT ∨ tk = .EQ ∨ tk = .LTE ∨ tk = .GT ∨ tk = .GTE

/-- The tokens of a sum of products of atoms: each operand is a first atom
with its `* /` continuation. -/
def termOps (ops : List (Token × Token × List (Token × Token))) :
    List (Token × List Token × Tree) :=
  ops.map (fun p => (p.1, p.2.1 :: flatOps (atomOps p.2.2), foldOps (leaf p.2.1) (atomOps p.2.2)))

/-- The number of scanner steps still ahead: two for every token with the
scanner, one more for a lookahead that is not `ENDFILE`.  It is zero exactly
at the end of the file. -/
def mu (s : PState) : Nat := 2 * s.input.length + (if s.token = .ENDFILE then 0 else 1)

/-- `Step base s s1`: from `s` to `s1` the heap has only grown, the nodes
below `base` are untouched, no token has been given back, and a recorded
error stays recorded. -/
structure Step (base : Nat) (s s1 : PState) : Prop where
  ext : HExt base s.heap s1.heap
  mu_le : mu s1 ≤ mu s
  err : s.Error = true → s1.Error = true

/-- What every grammar procedure guarantees for its result `r` and final
state `s1`: it has touched no node that existed when it was called, the node
it returns is one it has allocated, and it returns absent only with the error
flag set. -/
structure Post (s : PState) (r : Option Nat) (s1 : PState) : Prop where
  step : Step s.heap.length s s1
  fresh : ∀ p, r = some p → s.heap.length ≤ p ∧ p < s1.heap.length
  absent : r = none → s1.Error = true

/-- `Unit h q`: node `q` is a statement node other than Else, and either has
no sibling or is an If whose sibling is an Else node without sibling. -/
def Unit (h : List TreeNode) (q : Nat) : Prop :=
  ∃ n, h[q]? = some n ∧ (∃ k, n.kind = .stmt k ∧ k ≠ .ElseK) ∧
    (n.sibling = none ∨
      (n.kind = .stmt .IfK ∧ ∃ e m, n.sibling = some e ∧ q < e ∧ h[e]? = some m ∧
        m.kind = .stmt .ElseK ∧ m.sibling = none))

/-- `Runs F s`: started in `s`, the procedure `F` returns; it keeps the
guarantees of `Post` and, unless `s` is at the end of the file, it has
consumed at least one token. -/
def Runs (F : Nat → PState → Res) (s : PState) : Prop :=
  ∃ r s1, Returns F s r s1 ∧ Post s r s1 ∧ (mu s = 0 ∨ mu s1 < mu s)

/-- `RunsStmt F s`: as `Runs`, and the node returned, if any, is a `Unit`. -/
def RunsStmt (F : Nat → PState → Res) (s : PState) : Prop :=
  ∃ r s1, Returns F s r s1 ∧ Post s r s1 ∧ (mu s = 0 ∨ mu s1 < mu s) ∧
    ∀ p, r = some p → Unit s1.heap p

/-- `LoopRuns L t s`: the loop `L`, entered in state `s` with `t` built so
far, returns; it has touched no node that existed at its entry, and it
returns either `t` itself or a node it has allocated. -/
def LoopRuns (L : Nat → Option Nat → PState → Res) (t : Option Nat) (s : PState) : Prop :=
  ∃ r s1, Returns (fun f => L f t) s r s1 ∧ Step s.heap.length s s1 ∧
    (r = t ∨ ∃ p, r = some p ∧ s.heap.length ≤ p ∧ p < s1.heap.length)

/-- `RunsSeq s`: started in `s`, `stmt_sequence` returns, keeps `Post`,
consumes a token unless at the end of the file, and stops in front of one of
the tokens that end a sequence. -/
def RunsSeq (s : PState) : Prop :=
  ∃ r s1, Returns stmt_sequence s r s1 ∧ Post s r s1 ∧ (mu s = 0 ∨ mu s1 < mu s) ∧
    seqContinues s1.token = false

/-- `RunsCase s`: started in `s`, `case_stmt` returns a node, keeps `Post`,
consumes a token unless at the end of the file, and does not stop in front
of `default`. -/
def RunsCase (s : PState) : Prop :=
  ∃ r s1, Returns case_stmt s r s1 ∧ Post s r s1 ∧ (mu s = 0 ∨ mu s1 < mu s) ∧
    s1.token ≠ .DEFAULT

/-- What the loop of `stmt_sequence` relies on when entered with `t` and
`p`: when `t` is set, so is `p`, both are allocated at or above `base`, and
the sibling of `p`, if any, is allocated at or above `base` too. -/
def SeqPre (base : Nat) (t p : Option Nat) (s : PState) : Prop :=
  base ≤ s.heap.length ∧
    ∀ ta, t = some ta → base ≤ ta ∧ ta < s.heap.length ∧
      ∃ pa, p = some pa ∧ base ≤ pa ∧ pa < s.heap.length ∧
        ∀ n, s.heap[pa]? = some n → ∀ e, n.sibling = some e → base ≤ e ∧ e < s.heap.length

/-- `SeqLoopRuns base t p s`: the loop of `stmt_sequence` returns, touches no
node below `base`, returns `t` or a node it has seen allocated, returns
absent only if `t` was absent, and stops in front of a token that ends a
sequence. -/
def SeqLoopRuns (base : Nat) (t p : Option Nat) (s : PState) : Prop :=
  ∃ r s1, Returns (fun f => stmt_sequence_loop f t p) s r s1 ∧ Step base s s1 ∧
    (r = t ∨ ∃ x, r = some x ∧ s.heap.length ≤ x ∧ x < s1.heap.length) ∧
    (r = none → t = none) ∧ seqContinues s1.token = false

/-! ## The statement sequence with a record of its calls -/

/-- One call of `statement` made by `stmt_sequence`: what it returned and the
state it left. -/
abbrev Call := Option Nat × PState

/-- The result of a logged run: the pointer returned, the calls of
`statement` in the order they were made, the final state. -/
abbrev LogRes := Option (Option Nat × List Call × PState)

/-- Puts the call `c` in front of the record of a run. -/
def logged (c : Call) (x : LogRes) : LogRes :=
  x.map fun y => (y.1, c :: y.2.1, y.2.2)

/-- The loop of `stmt_sequence` once more, now also returning the record of
the calls of `statement` it makes.  The code is that of
`stmt_sequence_loop`; nothing in it reads the record. -/
def stmt_sequence_loop_log : Nat → Option Nat → Option Nat → PState → LogRes
  | 0, _, _, _ => none
  | f + 1, t, p, s =>
    if seqContinues s.token then do
      let s := match_ .SEMI s
      let (q, s) ← statement f s
      let c : Call := (q, s)
      match q with
      | none => logged c (stmt_sequence_loop_log f t p s)
      | some _ =>
        match t with
        | none => logged c (stmt_sequence_loop_log f q q s)
        | some _ =>
          match p with
          | none => none
          | some pa =>
            match s.heap[pa]? with
            | none => none
            | some pn =>
              match pn.sibling with
              | some e => do
                let s ← setSibling e q s
                logged c (stmt_sequence_loop_log f t q s)
              | none => do
                let s ← setSibling pa q s
                logged c (stmt_sequence_loop_log f t q s)
    else
      some (t, [], s)

/-- `stmt_sequence` with the record of its calls of `statement`. -/
def stmt_sequence_log : Nat → PState → LogRes
  | 0, _ => none
  | f + 1, s => do
    let (t, s) ← statement f s
    logged (t, s) (stmt_sequence_loop_log f t t s)

/-- A logged run without its record. -/
def unlog (x : LogRes) : Res := x.map fun y => (y.1, y.2.2)

/-- The calls that returned a node, each with the heap it left. -/
def results (log : List Call) : List (Nat × List TreeNode) :=
  log.filterMap fun c => c.1.map fun q => (q, c.2.heap)

/-- The heap `h` after the linking step of `stmt_sequence` for the last node
`q` and the new node `x`: `x` goes into the sibling of `q`, or, when `q` has a
sibling already, into the sibling of that sibling. -/
def linkAfter (h : List TreeNode) (q : Nat) (x : Option Nat) : List TreeNode :=
  match h[q]? with
  | none => h
  | some n =>
    match n.sibling with
    | none => h.set q (n.withSibling x)
    | some e =>
      match h[e]? with
      | none => h
      | some m => h.set e (m.withSibling x)

/-- `Kept h hq q x`: the nodes that a call of `statement` allocated, from its
result `q` up to the end of the heap `hq` it left, are in `h` as that call
left them, but for the one link to `x` written by `stmt_sequence`. -/
def Kept (h hq : List TreeNode) (q : Nat) (x : Option Nat) : Prop :=
  ∀ a, q ≤ a → a < hq.length → h[a]? = (linkAfter hq q x)[a]?

/-- `Threaded h l`: in the heap `h` every result of `l` is a `Unit` kept as
its call left it and linked to the result after it, the last one to nothing;
the nodes of a result lie below every later result. -/
def Threaded (h : List TreeNode) : List (Nat × List TreeNode) → Prop
  | [] => True
  | x :: l =>
    Unit x.2 x.1 ∧ Kept h x.2 x.1 (l.head?.map Prod.fst) ∧ (∀ y ∈ l, x.2.length ≤ y.1) ∧
      Threaded h l

/-- The statement after `q` in a sibling chain, an Else node that comes
directly after an If being passed over. -/
def follower (h : List TreeNode) (q : Nat) : Option Nat :=
  match h[q]? with
  | none => none
  | some n =>
    match n.sibling with
    | none => none
    | some e =>
      match h[e]? with
      | none => some e
      | some m => if n.kind = .stmt .IfK ∧ m.kind = .stmt .ElseK then m.sibling else some e

/-- `chainIs h l r`: the sibling chain that starts at `r` visits exactly the
nodes `l`, in this order, and then ends. -/
def chainIs (h : List TreeNode) : List Nat → Option Nat → Prop
  | [], r => r = none
  | q :: l, r => r = some q ∧ chainIs h l (follower h q)

/-- The tokens of `write x ; ; write y`. -/
def skipTokens : List Token :=
  [tok .WRITE "write", tok .ID "x", tok .SEMI ";", tok .SEMI ";", tok .WRITE "write",
   tok .ID "y"]

/-- The chain `Write x -> Write y`. -/
def skipTree : Tree :=
  .stmt .WriteK .zero (.ident "x") .absent .absent
    (.stmt .WriteK .zero (.ident "y") .absent .absent .absent)

/-- What a logged run of the loop of `stmt_sequence` from `s` to `s1`
guarantees besides the threading: nodes below `base` are untouched, every
result is a node allocated during the run, an error recorded when a call
returned stays recorded, and the run stops in front of a token that ends a
sequence. -/
structure Logged (base : Nat) (s : PState) (log : List Call) (s1 : PState) : Prop where
  step : Step base s s1
  fresh : ∀ y ∈ results log, s.heap.length ≤ y.1
  err : ∀ c ∈ log, c.2.Error = true → s1.Error = true
  stop : seqContinues s1.token = false

/-- `ReturnsLog s r log s1`: started in `s`, the logged `stmt_sequence`
returns `r` with the record `log` and leaves `s1`, whenever the step budget
is large enough. -/
def ReturnsLog (s : PState) (r : Option Nat) (log : List Call) (s1 : PState) : Prop :=
  ∃ N, ∀ f, N ≤ f → stmt_sequence_log f s = some (r, log, s1)

/-- `plainChain h l r`: following nothing but the sibling field from `r`
visits exactly the nodes `l`, in this order, and then ends. -/
def plainChain (h : List TreeNode) : List Nat → Option Nat → Prop
  | [], r => r = none
  | q :: l, r => r = some q ∧ ∃ n, h[q]? = some n ∧ plainChain h l n.sibling

/-! ## The two halves of `if_stmt` -/

/-- The first half of `if_stmt`, up to the test `token==ELSE`: the If node
and the state in which that test is made. -/
def if_stmt_then : Nat → PState → Option (Nat × PState)
  | 0, _ => none
  | f + 1, s => do
    let (t, s) := newStmtNode .IfK s
    let s := match_ .IF s
    let (c, s) ← exp f s
    let s ← setChild0 t c s
    let s := match_ .THEN s
    let (b, s) ← stmt_sequence f s
    let s ← setChild1 t b s
    pure (t, s)

/-- The tokens of `if x then write x else write y end; write z`. -/
def ifElseTokens : List Token :=
  [tok .IF "if", tok .ID "x", tok .THEN "then", tok .WRITE "write", tok .ID "x",
   tok .ELSE "else", tok .WRITE "write", tok .ID "y", tok .END "end", tok .SEMI ";",
   tok .WRITE "write", tok .ID "z"]

/-- The chain `If -> Else -> Write z`. -/
def ifElseTree : Tree :=
  .stmt .IfK .zero (.ident "x") (.stmt .WriteK .zero (.ident "x") .absent .absent .absent)
    .absent
    (.stmt .ElseK .zero (.stmt .WriteK .zero (.ident "y") .absent .absent .absent) .absent
      .absent (.stmt .WriteK .zero (.ident "z") .absent .absent .absent))

/-! ## Relational operators -/

/-- The state of `exp` once it has built the operator node over `t` and
matched the relational operator that is the lookahead of `s`. -/
def afterRelop (t : Option Nat) (s : PState) : PState :=
  advance (s.withHeap (s.heap ++
    [((freshNode (.exp .OpK) s).withChild0 t).withAttr (.op s.token)]))

/-- The tokens of `a < b < c`. -/
def relTokens (a b c : String) : List Token :=
  [tok .ID a, tok .LT "<", tok .ID b, tok .LT "<", tok .ID c]

/-- The tokens of `write a < b < c`. -/
def writeRelTokens (a b c : String) : List Token := tok .WRITE "write" :: relTokens a b c

/-! ## Switch and its cases -/

/-- What may follow a statement sequence: a token that ends it. -/
def okSeq (tk : TokenType) : Prop := seqContinues tk = false

/-- One clause `case v seq break` of a switch: its tokens, and the trees that
the value and the body stand for. -/
structure Clause where
  kw : Token
  value : List Token
  valueTree : Tree
  body : List Token
  bodyTree : Tree
  brk : Token

/-- A well-formed clause: the keyword `case`, a value that `factor` reads, a
body that `stmt_sequence` reads, the keyword `break`. -/
def Clause.wf (c : Clause) : Prop :=
  c.kw.type = .CASE ∧ Reads factor (fun _ => True) c.value c.valueTree ∧
    Reads stmt_sequence okSeq c.body c.bodyTree ∧ c.brk.type = .BREAK

/-- The tokens of one clause. -/
def Clause.tokens (c : Clause) : List Token := c.kw :: (c.value ++ (c.body ++ [c.brk]))

/-- The tokens of a list of clauses. -/
def clauseTokens : List Clause → List Token
  | [] => []
  | c :: cs => c.tokens ++ clauseTokens cs

/-- The chain of Case nodes of a list of clauses: value in child 0, body in
child 1, the next clause as sibling, `last` after the last clause. -/
def caseChain : List Clause → Tree → Tree
  | [], last => last
  | c :: cs, last => .stmt .CaseK .zero c.valueTree c.bodyTree .absent (caseChain cs last)

/-- The part `default seq` of a switch: its tokens, and the tree that the
body stands for. -/
structure DefaultPart where
  kw : Token
  body : List Token
  bodyTree : Tree

/-- A well-formed default part: the keyword `default` and a body that
`stmt_sequence` reads. -/
def DefaultPart.wf (d : DefaultPart) : Prop :=
  d.kw.type = .DEFAULT ∧ Reads stmt_sequence okSeq d.body d.bodyTree

/-- The tokens of the optional default part. -/
def defaultTokens : Option DefaultPart → List Token
  | none => []
  | some d => d.kw :: d.body

/-- The Default node of the optional default part, absent without one. -/
def defaultTree : Option DefaultPart → Tree
  | none => .absent
  | some d => .stmt .DefaultK .zero d.bodyTree .absent .absent .absent

/-- What may follow a switch: after a default part a token that ends a
sequence, without one anything but `case` and `default`. -/
def okSwitch (d : Option DefaultPart) (tk : TokenType) : Prop :=
  match d with
  | none => tk ≠ .CASE ∧ tk ≠ .DEFAULT
  | some _ => okSeq tk

/-- The rest of `case_stmt` from the test `token == CASE` on, for the Case
node `t` and the state `sB` left by `match(BREAK)`. -/
def case_stmt_tail (f : Nat) (t : Nat) (sB : PState) : Res :=
  (if sB.token = .CASE then
      (case_stmt f sB).bind (fun x => setSibling t x.1 x.2)
    else some sB).bind fun s6 =>
    (if s6.token = .DEFAULT then
      (stmt_sequence f (match_ .DEFAULT
          (s6.withHeap (s6.heap ++ [freshNode (.stmt .DefaultK) s6])))).bind
        (fun x => (setChild0 s6.heap.length x.1 x.2).bind
          (fun s7 => setSibling t (some s6.heap.length) s7))
    else some s6).bind fun s8 => some (some t, s8)

/-- `CaseHead c s rest sB n`: `case_stmt`, started in `s` on the clause `c`
followed by `rest`, has reached the test `token == CASE` in state `sB`: the
clause is consumed, no error is recorded, and the Case node `n` holds the
value and the body. -/
structure CaseHead (c : Clause) (s : PState) (rest : List Token) (sB : PState)
    (n : TreeNode) : Prop where
  unfold : ∃ N, ∀ f, N ≤ f → case_stmt (f + 1) s = case_stmt_tail f s.heap.length sB
  pending : Pending sB rest
  err : sB.Error = s.Error
  listing : sB.listing = s.listing
  ext : HExt s.heap.length s.heap sB.heap
  cell : sB.heap[s.heap.length]? = some n
  kind : n.kind = .stmt .CaseK
  attr : n.attr = .zero
  child2 : n.child2 = none
  sibling : n.sibling = none
  value : denotes sB.heap (s.heap.length + 1) c.valueTree n.child0 = true
  body : denotes sB.heap (s.heap.length + 1) c.bodyTree n.child1 = true

/-- The tokens of
`switch x case 1 write a break case 2 write b break default write c`. -/
def switchTokens : List Token :=
  [tok .SWITCH "switch", tok .ID "x",
   tok .CASE "case", tok .NUM "1", tok .WRITE "write", tok .ID "a", tok .BREAK "break",
   tok .CASE "case", tok .NUM "2", tok .WRITE "write", tok .ID "b", tok .BREAK "break",
   tok .DEFAULT "default", tok .WRITE "write", tok .ID "c"]

/-- The statement `write x` as a tree. -/
def writeTree (x : String) : Tree := .stmt .WriteK .zero (.ident x) .absent .absent .absent

/-- The tree of the switch above: `Case 1 -> Case 2 -> Default` under the
Switch node. -/
def switchTree : Tree :=
  .stmt .SwitchK .zero (.ident "x")
    (.stmt .CaseK .zero (.const 1) (writeTree "a") .absent
      (.stmt .CaseK .zero (.const 2) (writeTree "b") .absent
        (.stmt .DefaultK .zero (writeTree "c") .absent .absent .absent)))
    .absent .absent

/-! ## Sequences of well-formed statements -/

/-- What may follow a statement inside a sequence: a semicolon or a token
that ends the sequence. -/
def okStmt (tk : TokenType) : Prop := tk = .SEMI ∨ okSeq tk

/-- `ReadsNode F ok l k a c0 c1 c2`: in every state whose pending tokens are
`l` followed by a token of a category in `ok`, the procedure `F` returns,
having consumed exactly `l` and recorded no error, the first node it
allocates: a statement node of kind `k` with attribute `a`, no sibling, and the
children `c0`, `c1`, `c2`, which lie above it; older nodes are untouched. -/
def ReadsNode (F : Nat → PState → Res) (ok : TokenType → Prop) (l : List Token)
    (k : StmtKind) (a : Attr) (c0 c1 c2 : Tree) : Prop :=
  ∀ (s : PState) (rest : List Token), Pending s (l ++ rest) → ok (nextType rest) →
    ∃ s1 n, Returns F s (some s.heap.length) s1 ∧ Pending s1 rest ∧ s1.Error = s.Error ∧
      s1.listing = s.listing ∧ HExt s.heap.length s.heap s1.heap ∧
      s1.heap[s.heap.length]? = some n ∧ n.kind = .stmt k ∧ n.attr = a ∧ n.sibling = none ∧
      denotes s1.heap (s.heap.length + 1) c0 n.child0 = true ∧
      denotes s1.heap (s.heap.length + 1) c1 n.child1 = true ∧
      denotes s1.heap (s.heap.length + 1) c2 n.child2 = true

/-- A statement that is one node without sibling: its tokens, and the kind,
the attribute and the children of the node. -/
structure Simple where
  toks : List Token
  kind : StmtKind
  attr : Attr
  c0 : Tree
  c1 : Tree
  c2 : Tree

/-- The statement is one that `statement` reads. -/
def Simple.wf (x : Simple) : Prop := ReadsNode statement okStmt x.toks x.kind x.attr x.c0 x.c1 x.c2

/-- The tree of the statement, given the tree of what follows it. -/
def Simple.tree (x : Simple) (sib : Tree) : Tree := .stmt x.kind x.attr x.c0 x.c1 x.c2 sib

/-- The tokens `; s2 ; s3 ...` that continue a sequence. -/
def restTokens : List (Token × Simple) → List Token
  | [] => []
  | (sep, x) :: m => sep :: (x.toks ++ restTokens m)

/-- The sibling chain `s2 -> s3 -> ...` of the statements that continue a
sequence. -/
def restTree : List (Token × Simple) → Tree
  | [] => .absent
  | (_, x) :: m => x.tree (restTree m)

/-- The statement `write x`, for an identifier `x`. -/
def writeStmt (x : String) : Simple :=
  ⟨[tok .WRITE "write", tok .ID x], .WriteK, .zero, .ident x, .absent, .absent⟩

/-! ## Declarations -/

/-- The three type keywords that start a declaration. -/
def isTypeKw (tk : TokenType) : Prop := tk = .INT ∨ tk = .STRING ∨ tk = .BOOL

/-- The Declaration node as `decl_stmt` has it when it calls `varlist`: the
type keyword, the lookahead of `s`, is its attribute. -/
def declNode (s : PState) : TreeNode := (freshNode (.stmt .DeclK) s).withAttr (.op s.token)

/-- The state in which `decl_stmt` calls `varlist`: the Declaration node is
allocated and the type keyword is consumed. -/
def afterTypeKw (s : PState) : PState := advance (s.withHeap (s.heap ++ [declNode s]))

/-- The state that `parse` leaves when `program` has left `s`: the
trailing-input error is reported unless the lookahead is end-of-file. -/
def parseEnd (s : PState) : PState :=
  if s.token ≠ .ENDFILE then syntaxError "Code ends before file\n" s else s

/-- `ProgramRun s d q sF`: `program`, started in `s`, has returned and left
`sF`; `d` is what `declarations` returned and `q` what `stmt_sequence`
returned, both stored in the Program node, the first node allocated. -/
structure ProgramRun (s : PState) (d q : Option Nat) (sF : PState) : Prop where
  returns : ∀ indet, Returns (program indet) s indet sF
  step : Step s.heap.length s sF
  cell : sF.heap[s.heap.length]? =
    some (((freshNode .prog s).withChild0 d).withChild1 q)
  absent : q = none → sF.Error = true
  stop : seqContinues sF.token = false

/-! ## Termination -/

/-- `Total F`: from every state the procedure `F` returns. -/
def Total (F : Nat → PState → Res) : Prop := ∀ s, ∃ r s1, Returns F s r s1

/-- `Consumes F`: from every state `F` returns, and unless the state is at
the end of the file it has consumed at least one token. -/
def Consumes (F : Nat → PState → Res) : Prop :=
  ∀ s, ∃ r s1, Returns F s r s1 ∧ (mu s = 0 ∨ mu s1 < mu s)

/-- Every procedure of the parser is a total function of the parser state,
and the procedures that loops and recursive cycles go through consume a
token on every call that is not made at the end of the file. -/
structure AllTotal : Prop where
  parse : ∀ indet, Total (parse indet)
  program : ∀ indet, Total (program indet)
  declarations : Total declarations
  decl_stmt : Total decl_stmt
  varlist : Total varlist
  stmt_sequence : Consumes stmt_sequence
  statement : Consumes statement
  if_stmt : Consumes if_stmt
  repeat_stmt : Consumes repeat_stmt
  assign_stmt : Consumes assign_stmt
  read_stmt : ∀ s, ∃ r s1, read_stmt s = some (r, s1)
  write_stmt : Consumes write_stmt
  while_stmt : Consumes while_stmt
  for_stmt : Consumes for_stmt
  to_stmt : Consumes to_stmt
  switch_stmt : Consumes switch_stmt
  case_stmt : Consumes case_stmt
  exp : Consumes exp
  simple_exp : Consumes simple_exp
  term : Consumes term
  factor : Consumes factor
  declared : ∀ s, isTypeKw s.token → mu (afterTypeKw s) < mu s
  at_end : ∀ s, mu s = 0 ↔ s.token = .ENDFILE ∧ s.input = []

/-- The tokens of `write x end`. -/
def trailTokens : List Token := [tok .WRITE "write", tok .ID "x", tok .END "end"]

/-- The tokens of `int x ;`: a program without a statement. -/
def noStmtTokens : List Token := [tok .INT "int", tok .ID "x", tok .SEMI ";"]

/-! ## The head of `case_stmt` -/

/-- The first part of `case_stmt`, up to the test `token == CASE`: the Case
node and the state left by `match(BREAK)`. -/
def case_stmt_head : Nat → PState → Option (Nat × PState)
  | 0, _ => none
  | f + 1, s => do
    let (t, s) := newStmtNode .CaseK s
    let s := match_ .CASE s
    let (c, s) ← factor f s
    let s ← setChild0 t c s
    let (b, s) ← stmt_sequence f s
    let s ← setChild1 t b s
    let s := match_ .BREAK s
    pure (t, s)

/-- `CaseTest s sB n`: `case_stmt`, started in `s`, reaches its test
`token == CASE` in state `sB`; its Case node, the first node it allocated, is
`n` there and has no sibling yet. -/
structure CaseTest (s sB : PState) (n : TreeNode) : Prop where
  head : ∃ N, ∀ f, N ≤ f → case_stmt_head f s = some (s.heap.length, sB)
  cell : sB.heap[s.heap.length]? = some n
  kind : n.kind = .stmt .CaseK
  sibling : n.sibling = none

/-! ## `if_stmt` before its last `match` -/

/-- `if_stmt` up to its final `match(END)`: the If node and the state in
which that `match` is made. -/
def if_stmt_body : Nat → PState → Option (Nat × PState)
  | 0, _ => none
  | f + 1, s => do
    let (t, s) := newStmtNode .IfK s
    let s := match_ .IF s
    let (c, s) ← exp f s
    let s ← setChild0 t c s
    let s := match_ .THEN s
    let (b, s) ← stmt_sequence f s
    let s ← setChild1 t b s
    let s ← (if s.token = .ELSE then do
      let (q, s) := newStmtNode .ElseK s
      let s := match_ .ELSE s
      let (e, s) ← stmt_sequence f s
      let s ← setChild0 q e s
      setSibling t (some q) s
    else some s)
    pure (t, s)

/-- `IfEnd s sE c b n`: `if_stmt`, started in `s`, reaches its final
`match(END)` in state `sE`; `c` is what `exp` returned for the condition, `b`
what `stmt_sequence` returned for the then-part, and the If node `n`, the
first node allocated, holds them in child 0 and child 1. -/
structure IfEnd (s sE : PState) (c b : Option Nat) (n : TreeNode) : Prop where
  body : ∃ N, ∀ f, N ≤ f → if_stmt_body f s = some (s.heap.length, sE)
  cond : ∃ sc, Returns exp (match_ .IF (newStmtNode .IfK s).2) c sc ∧
    ∃ sb, Returns stmt_sequence (match_ .THEN (sc.withHeap (sc.heap.set s.heap.length
      ((freshNode (.stmt .IfK) s).withChild0 c)))) b sb
  cell : sE.heap[s.heap.length]? = some n
  kind : n.kind = .stmt .IfK
  child0 : n.child0 = c
  child1 : n.child1 = b
  child2 : n.child2 = none

/-- The tokens of `if x then write x`, the `end` missing. -/
def noEndTokens : List Token :=
  [tok .IF "if", tok .ID "x", tok .THEN "then", tok .WRITE "write", tok .ID "x"]

/-- The tree of `if x then write x`: a Program node without declarations
whose statement sequence is the one If node. -/
def noEndTree : Tree :=
  .node .prog .zero .absent
    (.stmt .IfK .zero (.ident "x") (.stmt .WriteK .zero (.ident "x") .absent .absent .absent)
      .absent .absent)
    .absent .absent

/-! ## `for` statements -/

/-- The tokens of `for i to 10 then write i end`. -/
def forToTokens : List Token :=
  [tok .FOR "for", tok .ID "i", tok .TO "to", tok .NUM "10", tok .THEN "then",
    tok .WRITE "write", tok .ID "i", tok .END "end"]

/-- The tokens of `for i downto 1 then write i end`. -/
def forDownTokens : List Token :=
  [tok .FOR "for", tok .ID "i", tok .DOWNTO "downto", tok .NUM "1", tok .THEN "then",
    tok .WRITE "write", tok .ID "i", tok .END "end"]

/-- The tokens of `for i := 1 to 10 then write i end`. -/
def forAssignToTokens : List Token :=
  [tok .FOR "for", tok .ID "i", tok .ASSIGN ":=", tok .NUM "1", tok .TO "to", tok .NUM "10",
    tok .THEN "then", tok .WRITE "write", tok .ID "i", tok .END "end"]

/-- The tokens of `for i := 10 downto 1 then write i end`. -/
def forAssignDownTokens : List Token :=
  [tok .FOR "for", tok .ID "i", tok .ASSIGN ":=", tok .NUM "10", tok .DOWNTO "downto",
    tok .NUM "1", tok .THEN "then", tok .WRITE "write", tok .ID "i", tok .END "end"]

/-- The body `write i`. -/
def writeI : Tree := .stmt .WriteK .zero (.ident "i") .absent .absent .absent

/-- A For node over `i`: the Assign node of `i` with value `init`, a bound
clause of kind `k` around the constant `v`, and the body `write i`. -/
def forTree (init : Tree) (k : StmtKind) (v : Int) : Tree :=
  .stmt .ForK .zero (.stmt .AssignK (.name "i") init .absent .absent .absent)
    (.stmt k .zero (.const v) .absent .absent .absent) writeI .absent

/-- Whether `r` points to a For node whose child 1 is a node of kind `k` with
child 0 the constant `v`, and whose child 2 is the body `write i`. -/
def boundIs (h : List TreeNode) (k : StmtKind) (v : Int) (r : Option Nat) : Bool :=
  match r with
  | none => false
  | some q =>
    match h[q]? with
    | none => false
    | some n =>
      decide (n.kind = .stmt .ForK) && denotes h 0 writeI n.child2 &&
        (match n.child1 with
          | none => false
          | some b =>
            match h[b]? with
            | none => false
            | some nb => decide (nb.kind = .stmt k) && denotes h 0 (.const v) nb.child0)

/-- `BoundIs toks k v`: `statement`, run on `toks`, returns a For node whose
child 1 is a node of kind `k` with child 0 the constant `v`, and whose child 2
is the body `write i`. -/
def BoundIs (toks : List Token) (k : StmtKind) (v : Int) : Prop :=
  ∃ r s1, Returns statement (startOn toks) r s1 ∧ boundIs s1.heap k v r = true

/-- The bound clause `to_stmt` builds in state `s`: ToBound in front of `to`,
DownToBound in front of anything else. -/
def boundKind (s : PState) : StmtKind := if s.token = .TO then .ToK else .DownK

/-- The token `to_stmt` matches in state `s`. -/
def boundToken (s : PState) : TokenType := if s.token = .TO then .TO else .DOWNTO

/-! ## Declaration lists -/

/-- One declaration without its semicolon: the type keyword, the first
identifier, and the `, x` pairs that follow. -/
structure Decl where
  kw : Token
  x : Token
  more : List (Token × Token)

/-- The declaration is well formed: a type keyword followed by identifiers
separated by commas. -/
def Decl.wf (d : Decl) : Prop :=
  isTypeKw d.kw.type ∧ d.x.type = .ID ∧ ∀ p ∈ d.more, p.1.type = .COMMA ∧ p.2.type = .ID

/-- The tokens of the declaration. -/
def Decl.toks (d : Decl) : List Token := d.kw :: d.x :: commaIds d.more

/-- The Declaration node of `d`: the keyword as attribute, the identifier
chain in child 1, and `sib` as sibling. -/
def Decl.tree (d : Decl) (sib : Tree) : Tree :=
  .stmt .DeclK (.op d.kw.type) .absent (idChain d.x d.more) .absent sib

/-- The tokens `; d2 ; d3 ...` that continue a declaration list. -/
def restDecls : List (Token × Decl) → List Token
  | [] => []
  | (sep, d) :: m => sep :: (d.toks ++ restDecls m)

/-- The sibling chain `d2 -> d3 -> ...` of the declarations that continue a
list. -/
def restDeclTree : List (Token × Decl) → Tree
  | [] => .absent
  | (_, d) :: m => d.tree (restDeclTree m)

/-- The token after a declaration list is not a type keyword. -/
def okDecls (tk : TokenType) : Prop := ¬ isTypeKw tk

/-- The declaration `int x`. -/
def intX : Decl := ⟨tok .INT "int", tok .ID "x", []⟩

/-- The declaration `bool a, b`. -/
def boolAB : Decl := ⟨tok .BOOL "bool", tok .ID "a", [(tok .COMMA ",", tok .ID "b")]⟩

/-! ## The sibling invariant -/

/-- Address `q` holds a statement-category node. -/
def stmtNode (h : List TreeNode) (q : Nat) : Prop :=
  ∃ n k, h[q]? = some n ∧ n.kind = .stmt k

/-- `SibInv h`: every node of the heap whose sibling field is set is a
statement-category node, and the sibling it points to is one too. -/
def SibInv (h : List TreeNode) : Prop :=
  ∀ (a : Nat) (n : TreeNode) (e : Nat), h[a]? = some n → n.sibling = some e →
    (∃ k, n.kind = .stmt k) ∧ stmtNode h e

/-- `Grows h h1`: every node of `h` is still allocated in `h1` with the kind
it had, and `h1` keeps the sibling invariant if `h` had it. -/
structure Grows (h h1 : List TreeNode) : Prop where
  kind : ∀ (a : Nat) (n : TreeNode), h[a]? = some n → ∃ n1, h1[a]? = some n1 ∧ n1.kind = n.kind
  ok : SibInv h → SibInv h1

/-- The result of a statement-level procedure: a statement-category node. -/
def StmtRes (r : Option Nat) (h : List TreeNode) : Prop := ∀ q, r = some q → stmtNode h q

/-- What is shown of the grammar procedures at budget `f`, whenever they
return: the heap has grown in the sense of `Grows`, and the statement-level
procedures return statement-category nodes.  The loops of `stmt_sequence` are
entered with statement-category nodes in `t` and `p`. -/
structure SibAt (f : Nat) : Prop where
  factor : ∀ s r s1, factor f s = some (r, s1) → Grows s.heap s1.heap
  term_loop : ∀ t s r s1, term_loop f t s = some (r, s1) → Grows s.heap s1.heap
  term : ∀ s r s1, term f s = some (r, s1) → Grows s.heap s1.heap
  simple_exp_loop : ∀ t s r s1, simple_exp_loop f t s = some (r, s1) → Grows s.heap s1.heap
  simple_exp : ∀ s r s1, simple_exp f s = some (r, s1) → Grows s.heap s1.heap
  exp : ∀ s r s1, exp f s = some (r, s1) → Grows s.heap s1.heap
  write_stmt : ∀ s r s1, write_stmt f s = some (r, s1) →
    Grows s.heap s1.heap ∧ StmtRes r s1.heap
  assign_stmt : ∀ s r s1, assign_stmt f s = some (r, s1) →
    Grows s.heap s1.heap ∧ StmtRes r s1.heap
  repeat_stmt : ∀ s r s1, repeat_stmt f s = some (r, s1) →
    Grows s.heap s1.heap ∧ StmtRes r s1.heap
  while_stmt : ∀ s r s1, while_stmt f s = some (r, s1) →
    Grows s.heap s1.heap ∧ StmtRes r s1.heap
  to_stmt : ∀ s r s1, to_stmt f s = some (r, s1) →
    Grows s.heap s1.heap ∧ StmtRes r s1.heap
  for_stmt : ∀ s r s1, for_stmt f s = some (r, s1) →
    Grows s.heap s1.heap ∧ StmtRes r s1.heap
  if_stmt : ∀ s r s1, if_stmt f s = some (r, s1) →
    Grows s.heap s1.heap ∧ StmtRes r s1.heap
  case_stmt : ∀ s r s1, case_stmt f s = some (r, s1) →
    Grows s.heap s1.heap ∧ StmtRes r s1.heap
  switch_stmt : ∀ s r s1, switch_stmt f s = some (r, s1) →
    Grows s.heap s1.heap ∧ StmtRes r s1.heap
  statement : ∀ s r s1, statement f s = some (r, s1) →
    Grows s.heap s1.heap ∧ StmtRes r s1.heap
  stmt_sequence_loop : ∀ t p s r s1, stmt_sequence_loop f t p s = some (r, s1) →
    StmtRes t s.heap → StmtRes p s.heap → Grows s.heap s1.heap ∧ StmtRes r s1.heap
  stmt_sequence : ∀ s r s1, stmt_sequence f s = some (r, s1) →
    Grows s.heap s1.heap ∧ StmtRes r s1.heap

/-- `Built F`: from every state whose heap has the sibling invariant, `F`
returns, and at whatever budget it returns the heap it leaves has the
invariant. -/
def Built (F : Nat → PState → Res) : Prop :=
  ∀ s, SibInv s.heap →
    (∃ r s1, Returns F s r s1) ∧ ∀ f r s1, F f s = some (r, s1) → SibInv s1.heap

/-- The sibling invariant of the parser: it holds of the empty heap in which
a parse starts, every grammar procedure keeps it, and in a heap that has it
no expression-category node and no Program node has its sibling set. -/
structure SiblingInvariant : Prop where
  start : ∀ toks, SibInv (initState toks).heap ∧ SibInv (startOn toks).heap
  parse : ∀ indet, Built (parse indet)
  program : ∀ indet, Built (program indet)
  declarations : Built declarations
  decl_stmt : Built decl_stmt
  varlist : Built varlist
  stmt_sequence : Built stmt_sequence
  statement : Built statement
  if_stmt : Built if_stmt
  repeat_stmt : Built repeat_stmt
  assign_stmt : Built assign_stmt
  read_stmt : Built (fun _ => read_stmt)
  write_stmt : Built write_stmt
  while_stmt : Built while_stmt
  for_stmt : Built for_stmt
  to_stmt : Built to_stmt
  switch_stmt : Built switch_stmt
  case_stmt : Built case_stmt
  exp : Built exp
  simple_exp : Built simple_exp
  term : Built term
  factor : Built factor
  whole_parse : ∀ (toks : List Token) (indet : Option Nat) (f : Nat) (r : Option Nat)
    (s1 : PState), Parse.parse indet f (initState toks) = some (r, s1) →
    ∀ (a : Nat) (n : TreeNode) (k : ExpKind), s1.heap[a]? = some n → n.kind = .exp k →
      n.sibling = none
  exp_nodes : ∀ h, SibInv h → ∀ (a : Nat) (n : TreeNode) (k : ExpKind), h[a]? = some n →
    n.kind = .exp k → n.sibling = none
  set_only : ∀ h, SibInv h → ∀ (a : Nat) (n : TreeNode), h[a]? = some n → n.sibling ≠ none →
    ∃ k, n.kind = .stmt k

/-! ## Statements as written -/

/-- An expression as written: one number, identifier or string token, a
parenthesised expression, or two expressions around an operator token. -/
inductive Ex
  | atom (tk : Token)
  | paren (lp : Token) (e : Ex) (rp : Token)
  | bin (a : Ex) (o : Token) (b : Ex)

/-- The tokens of the expression. -/
def Ex.toks : Ex → List Token
  | .atom tk => [tk]
  | .paren lp e rp => lp :: (e.toks ++ [rp])
  | .bin a o b => a.toks ++ o :: b.toks

/-- The tree of the expression: parentheses leave no node. -/
def Ex.tree : Ex → Tree
  | .atom tk => leaf tk
  | .paren _ e _ => e.tree
  | .bin a o b => .binop o.type a.tree b.tree

/-- The expression follows the grammar at level `lvl`: 0 for `factor` (an
atom or `( exp )`), 1 for `term` (factors joined by `*` `/`, nested to the
left), 2 for `simple-exp` (terms joined by `+` `-`, nested to the left), 3 for
`exp` (a simple expression, or two around one relational operator). -/
def Ex.wf : Nat → Ex → Bool
  | _, .atom tk => decide (tk.type = .NUM ∨ tk.type = .ID ∨ tk.type = .STR)
  | _, .paren lp e rp => decide (lp.type = .LPAREN) && Ex.wf 3 e && decide (rp.type = .RPAREN)
  | lvl, .bin a o b =>
    (decide (1 ≤ lvl) && decide (o.type = .TIMES ∨ o.type = .OVER) && Ex.wf 1 a && Ex.wf 0 b) ||
    (decide (2 ≤ lvl) && decide (o.type = .PLUS ∨ o.type = .MINUS) && Ex.wf 2 a && Ex.wf 1 b) ||
    (decide (3 ≤ lvl) && decide (o.type = .LT ∨ o.type = .EQ ∨ o.type = .LTE ∨ o.type = .GT ∨
      o.type = .GTE) && Ex.wf 2 a && Ex.wf 2 b)

/-- A phrase as written, without `else`: a statement (`read`, `write`,
assignment, `if ... then ... end`, `repeat`, `do ... while`, `for`, `switch`),
a chain of `case` clauses that ends with nothing (`done`) or with a `default`
part, or statements separated by semicolons. -/
inductive Ph
  | read (kw x : Token)
  | write (kw : Token) (e : Ex)
  | assign (x asg : Token) (e : Ex)
  | cond (kw : Token) (c : Ex) (th : Token) (body : Ph) (en : Token)
  | rep (kw : Token) (body : Ph) (u : Token) (e : Ex)
  | whl (kw : Token) (body : Ph) (w : Token) (e : Ex)
  | for_ (kw x asg : Token) (e : Ex) (dir : Token) (b : Ex) (th : Token) (body : Ph)
      (en : Token)
  | switch (kw : Token) (sel : Ex) (cs : Ph)
  | case (kw : Token) (v : Ex) (body : Ph) (brk : Token) (next : Ph)
  | done
  | dflt (kw : Token) (body : Ph)
  | seq (a : Ph) (semi : Token) (rest : Ph)

/-- What a phrase is read as: one statement, a statement sequence, a chain
of clauses that starts with `case`, or what may follow a clause. -/
inductive Role
  | stmt
  | seq
  | chain
  | tail
  deriving DecidableEq

/-- The tokens of the phrase. -/
def Ph.toks : Ph → List Token
  | .read kw x => [kw, x]
  | .write kw e => kw :: e.toks
  | .assign x asg e => x :: asg :: e.toks
  | .cond kw c th body en => kw :: (c.toks ++ th :: (body.toks ++ [en]))
  | .rep kw body u e => kw :: (body.toks ++ u :: e.toks)
  | .whl kw body w e => kw :: (body.toks ++ w :: e.toks)
  | .for_ kw x asg e dir b th body en =>
    kw :: x :: asg :: (e.toks ++ dir :: (b.toks ++ th :: (body.toks ++ [en])))
  | .switch kw sel cs => kw :: (sel.toks ++ cs.toks)
  | .case kw v body brk next => kw :: (v.toks ++ (body.toks ++ brk :: next.toks))
  | .done => []
  | .dflt kw body => kw :: body.toks
  | .seq a semi rest => a.toks ++ semi :: rest.toks

/-- The kind of the bound clause after the token `dir`. -/
def dirKind (dir : Token) : StmtKind := if dir.type = .TO then .ToK else .DownK

/-- The tree of the phrase, with `sib` as the sibling of its last statement:
a sequence is the sibling chain of its statements, a clause has the next
clause or the Default node as sibling. -/
def Ph.tree : Ph → Tree → Tree
  | .read _ x, sib => .stmt .ReadK (.name x.text) .absent .absent .absent sib
  | .write _ e, sib => .stmt .WriteK .zero e.tree .absent .absent sib
  | .assign x _ e, sib => .stmt .AssignK (.name x.text) e.tree .absent .absent sib
  | .cond _ c _ body _, sib => .stmt .IfK .zero c.tree (body.tree .absent) .absent sib
  | .rep _ body _ e, sib => .stmt .RepeatK .zero (body.tree .absent) e.tree .absent sib
  | .whl _ body _ e, sib => .stmt .WhileK .zero (body.tree .absent) e.tree .absent sib
  | .for_ _ x _ e dir b _ body _, sib =>
    .stmt .ForK .zero (.stmt .AssignK (.name x.text) e.tree .absent .absent .absent)
      (.stmt (dirKind dir) .zero b.tree .absent .absent .absent) (body.tree .absent) sib
  | .switch _ sel cs, sib => .stmt .SwitchK .zero sel.tree (cs.tree .absent) .absent sib
  | .case _ v body _ next, _ =>
    .stmt .CaseK .zero v.tree (body.tree .absent) .absent (next.tree .absent)
  | .done, _ => .absent
  | .dflt _ body, _ => .stmt .DefaultK .zero (body.tree .absent) .absent .absent .absent
  | .seq a _ rest, sib => a.tree (rest.tree sib)

/-- The chain of clauses ends without a `default` part. -/
def Ph.noDefault : Ph → Bool
  | .case _ _ _ _ next => next.noDefault
  | .dflt _ _ => false
  | _ => true

/-- The statement ends where its last token ends: it is not a switch with a
`default` part, whose body takes whatever statements follow. -/
def Ph.closed : Ph → Bool
  | .switch _ _ cs => cs.noDefault
  | _ => true

/-- The phrase follows the grammar in the role `r`.  In a sequence every
statement but the last is closed. -/
def Ph.wf : Ph → Role → Bool
  | .read kw x, r => (r == .stmt || r == .seq) && decide (kw.type = .READ) &&
      decide (x.type = .ID)
  | .write kw e, r => (r == .stmt || r == .seq) && decide (kw.type = .WRITE) && e.wf 3
  | .assign x asg e, r => (r == .stmt || r == .seq) && decide (x.type = .ID) &&
      decide (asg.type = .ASSIGN) && e.wf 3
  | .cond kw c th body en, r => (r == .stmt || r == .seq) && decide (kw.type = .IF) &&
      c.wf 3 && decide (th.type = .THEN) && body.wf .seq && decide (en.type = .END)
  | .rep kw body u e, r => (r == .stmt || r == .seq) && decide (kw.type = .REPEAT) &&
      body.wf .seq && decide (u.type = .UNTIL) && e.wf 3
  | .whl kw body w e, r => (r == .stmt || r == .seq) && decide (kw.type = .DO) &&
      body.wf .seq && decide (w.type = .WHILE) && e.wf 3
  | .for_ kw x asg e dir b th body en, r => (r == .stmt || r == .seq) &&
      decide (kw.type = .FOR) && decide (x.type = .ID) && decide (asg.type = .ASSIGN) &&
      e.wf 3 && decide (dir.type = .TO ∨ dir.type = .DOWNTO) && b.wf 0 &&
      decide (th.type = .THEN) && body.wf .seq && decide (en.type = .END)
  | .switch kw sel cs, r => (r == .stmt || r == .seq) && decide (kw.type = .SWITCH) &&
      sel.wf 0 && cs.wf .chain
  | .case kw v body brk next, r => (r == .chain || r == .tail) && decide (kw.type = .CASE) &&
      v.wf 0 && body.wf .seq && decide (brk.type = .BREAK) && next.wf .tail
  | .done, r => r == .tail
  | .dflt kw body, r => r == .tail && decide (kw.type = .DEFAULT) && body.wf .seq
  | .seq a semi rest, r => r == .seq && a.wf .stmt && a.closed &&
      decide (semi.type = .SEMI) && rest.wf .seq

/-- What may follow an expression: anything but an operator. -/
def okExp (tk : TokenType) : Prop := okSimple tk ∧ ¬ isRelop tk

/-- `TermSpine l T`: the tokens `l` are factors joined by `*` and `/`, each
read by `factor`, and `T` is their left fold. -/
def TermSpine (l : List Token) (T : Tree) : Prop :=
  ∃ l0 T0 ops, l = l0 ++ flatOps ops ∧ T = foldOps T0 ops ∧
    Reads factor (fun _ => True) l0 T0 ∧
    ∀ x ∈ ops, (x.1.type = .TIMES ∨ x.1.type = .OVER) ∧ Reads factor (fun _ => True) x.2.1 x.2.2

/-- `SimpleSpine l T`: the tokens `l` are terms joined by `+` and `-`, each
read by `term`, and `T` is their left fold. -/
def SimpleSpine (l : List Token) (T : Tree) : Prop :=
  ∃ l0 T0 ops, l = l0 ++ flatOps ops ∧ T = foldOps T0 ops ∧
    Reads term okTerm l0 T0 ∧
    ∀ x ∈ ops, (x.1.type = .PLUS ∨ x.1.type = .MINUS) ∧ Reads term okTerm x.2.1 x.2.2

/-- `Mid s k a c0 c1 c2 rest σ n`: a procedure that started in `s` by
allocating a statement node of kind `k` has reached the state `σ` with `rest`
pending and no error recorded; the node, now `n`, has the attribute `a`, no
sibling, and the trees `c0`, `c1`, `c2` in its child slots; older nodes are
untouched. -/
structure Mid (s : PState) (k : StmtKind) (a : Attr) (c0 c1 c2 : Tree) (rest : List Token)
    (σ : PState) (n : TreeNode) : Prop where
  pending : Pending σ rest
  err : σ.Error = s.Error
  listing : σ.listing = s.listing
  ext : HExt s.heap.length s.heap σ.heap
  cell : σ.heap[s.heap.length]? = some n
  kind : n.kind = .stmt k
  attr : n.attr = a
  sibling : n.sibling = none
  d0 : denotes σ.heap (s.heap.length + 1) c0 n.child0 = true
  d1 : denotes σ.heap (s.heap.length + 1) c1 n.child1 = true
  d2 : denotes σ.heap (s.heap.length + 1) c2 n.child2 = true

/-- The statement is one that `statement` reads in front of a token that
ends the sequence. -/
def Simple.wfLast (x : Simple) : Prop :=
  ReadsNode statement okSeq x.toks x.kind x.attr x.c0 x.c1 x.c2

/-- The statements `x ; m`: every one but the last is read by `statement` in
front of a semicolon as well, the last in front of a token that ends the
sequence. -/
def itemsOk : Simple → List (Token × Simple) → Prop
  | x, [] => x.wfLast
  | x, (sep, y) :: m => x.wf ∧ sep.type = .SEMI ∧ itemsOk y m

/-- The continuation `; y ; m` of a sequence. -/
def restOk : List (Token × Simple) → Prop
  | [] => True
  | (sep, y) :: m => sep.type = .SEMI ∧ itemsOk y m

/-- The node of a statement phrase: its tokens, kind, attribute and children
(for a phrase that is not a statement the value is not used). -/
def Ph.simple : Ph → Simple
  | .read kw x => ⟨[kw, x], .ReadK, .name x.text, .absent, .absent, .absent⟩
  | .write kw e => ⟨kw :: e.toks, .WriteK, .zero, e.tree, .absent, .absent⟩
  | .assign x asg e => ⟨x :: asg :: e.toks, .AssignK, .name x.text, e.tree, .absent, .absent⟩
  | .cond kw c th body en =>
    ⟨kw :: (c.toks ++ th :: (body.toks ++ [en])), .IfK, .zero, c.tree, body.tree .absent, .absent⟩
  | .rep kw body u e =>
    ⟨kw :: (body.toks ++ u :: e.toks), .RepeatK, .zero, body.tree .absent, e.tree, .absent⟩
  | .whl kw body w e =>
    ⟨kw :: (body.toks ++ w :: e.toks), .WhileK, .zero, body.tree .absent, e.tree, .absent⟩
  | .for_ kw x asg e dir b th body en =>
    ⟨kw :: x :: asg :: (e.toks ++ dir :: (b.toks ++ th :: (body.toks ++ [en]))), .ForK, .zero,
      .stmt .AssignK (.name x.text) e.tree .absent .absent .absent,
      .stmt (dirKind dir) .zero b.tree .absent .absent .absent, body.tree .absent⟩
  | .switch kw sel cs =>
    ⟨kw :: (sel.toks ++ cs.toks), .SwitchK, .zero, sel.tree, cs.tree .absent, .absent⟩
  | _ => ⟨[], .WriteK, .zero, .absent, .absent, .absent⟩

/-- What the clauses of a chain are read as: the semantic clauses and the
default part with the same tokens and the same tree. -/
def ChainAs (p : Ph) (cs : List Clause) (d : Option DefaultPart) : Prop :=
  p.toks = clauseTokens cs ++ defaultTokens d ∧ p.tree .absent = caseChain cs (defaultTree d) ∧
    (∀ c ∈ cs, c.wf) ∧ (∀ x ∈ d, x.wf) ∧ (p.noDefault = true ↔ d = none)

/-- What a sequence is read as: its statements one by one, with the same
tokens and the same tree. -/
def SeqAs (p : Ph) (x : Simple) (m : List (Token × Simple)) : Prop :=
  p.toks = x.toks ++ restTokens m ∧ p.tree .absent = x.tree (restTree m) ∧ itemsOk x m

/-- The statement `write x` as written. -/
def writePh (x : String) : Ph := .write (tok .WRITE "write") (.atom (tok .ID x))

/-- The statement `switch x case 1 write a break default write c`. -/
def openSwitch : Ph :=
  .switch (tok .SWITCH "switch") (.atom (tok .ID "x"))
    (.case (tok .CASE "case") (.atom (tok .NUM "1")) (writePh "a") (tok .BREAK "break")
      (.dflt (tok .DEFAULT "default") (writePh "c")))

/-- The tokens of `switch x case 1 write a break default write c ; write z`. -/
def openTokens : List Token := openSwitch.toks ++ tok .SEMI ";" :: (writePh "z").toks

/-- What the code builds on `openTokens`: one Switch node without sibling;
`write z` is the sibling of `write c` in the body of the Default node. -/
def swallowTree : Tree :=
  .stmt .SwitchK .zero (.ident "x")
    (.stmt .CaseK .zero (.const 1) (writeTree "a") .absent
      (.stmt .DefaultK .zero
        (.stmt .WriteK .zero (.ident "c") .absent .absent (writeTree "z"))
        .absent .absent .absent))
    .absent .absent

/-- The expression `a + 2 * (b - 1) < 10` as written. -/
def sampleEx : Ex :=
  .bin
    (.bin (.atom (tok .ID "a")) (tok .PLUS "+")
      (.bin (.atom (tok .NUM "2")) (tok .TIMES "*")
        (.paren (tok .LPAREN "(")
          (.bin (.atom (tok .ID "b")) (tok .MINUS "-") (.atom (tok .NUM "1")))
          (tok .RPAREN ")"))))
    (tok .LT "<") (.atom (tok .NUM "10"))

/-- A sequence that uses every statement form:
`read x ; x := a + 2 * (b - 1) < 10 ; if x then write x end ;
repeat switch x case 1 write a break ; do write q while x until z ;
for i := 1 downto 0 then write i ; write j end ;
switch x case 1 write a break default write c`. -/
def samplePh : Ph :=
  .seq (.read (tok .READ "read") (tok .ID "x")) (tok .SEMI ";")
    (.seq (.assign (tok .ID "x") (tok .ASSIGN ":=") sampleEx) (tok .SEMI ";")
      (.seq (.cond (tok .IF "if") (.atom (tok .ID "x")) (tok .THEN "then") (writePh "x")
          (tok .END "end")) (tok .SEMI ";")
        (.seq
          (.rep (tok .REPEAT "repeat")
            (.seq
              (.switch (tok .SWITCH "switch") (.atom (tok .ID "x"))
                (.case (tok .CASE "case") (.atom (tok .NUM "1")) (writePh "a")
                  (tok .BREAK "break") .done))
              (tok .SEMI ";")
              (.whl (tok .DO "do") (writePh "q") (tok .WHILE "while") (.atom (tok .ID "x"))))
            (tok .UNTIL "until") (.atom (tok .ID "z")))
          (tok .SEMI ";")
          (.seq
            (.for_ (tok .FOR "for") (tok .ID "i") (tok .ASSIGN ":=") (.atom (tok .NUM "1"))
              (tok .DOWNTO "downto") (.atom (tok .NUM "0")) (tok .THEN "then")
              (.seq (writePh "i") (tok .SEMI ";") (writePh "j")) (tok .END "end"))
            (tok .SEMI ";") openSwitch))))

/-! # Results -/

/-! ## More budget never changes a result -/

theorem LessDef.rfl1 {α : Type} (x : Option α) : LessDef x x := fun _ h => h

theorem LessDef.none1 {α : Type} (x : Option α) : LessDef none x := fun _ h => by cases h

theorem LessDef.bind1 {α β : Type} {x y : Option α} {k l : α → Option β}
    (h : LessDef x y) (hk : ∀ a, LessDef (k a) (l a)) : LessDef (x >>= k) (y >>= l) := by
  intro b hb
  cases x with
  | none => simp at hb
  | some a => rw [h a rfl]; exact hk a b hb

theorem LessDef.ite1 {α : Type} {c : Prop} [Decidable c] {a a1 b b1 : Option α}
    (h1 : LessDef a a1) (h2 : LessDef b b1) :
    LessDef (if c then a else b) (if c then a1 else b1) := by
  split <;> assumption

theorem monoAt : ∀ f g, f ≤ g → MonoAt f g := by
  intro f
  induction f with
  | zero =>
    intro g _
    constructor <;> intros <;>
      simp only [stmt_sequence.eq_1, stmt_sequence_loop.eq_1, statement.eq_1, while_stmt.eq_1,
        for_stmt.eq_1, to_stmt.eq_1, if_stmt.eq_1, switch_stmt.eq_1, case_stmt.eq_1,
        repeat_stmt.eq_1, assign_stmt.eq_1, write_stmt.eq_1, exp.eq_1, simple_exp.eq_1,
        simple_exp_loop.eq_1, term.eq_1, term_loop.eq_1, factor.eq_1] <;>
      exact LessDef.none1 _
  | succ f ih =>
    intro g hg
    obtain ⟨g, rfl⟩ : ∃ g1, g = g1 + 1 := ⟨g - 1, by omega⟩
    have m := ih g (by omega)
    constructor <;> intros <;>
      simp only [stmt_sequence.eq_2, stmt_sequence_loop.eq_2, statement.eq_2, while_stmt.eq_2,
        for_stmt.eq_2, to_stmt.eq_2, if_stmt.eq_2, switch_stmt.eq_2, case_stmt.eq_2,
        repeat_stmt.eq_2, assign_stmt.eq_2, write_stmt.eq_2, exp.eq_2, simple_exp.eq_2,
        simple_exp_loop.eq_2, term.eq_2, term_loop.eq_2, factor.eq_2] <;>
      repeat' with_reducible first
        | exact LessDef.rfl1 _
        | apply m.stmt_sequence | apply m.stmt_sequence_loop | apply m.statement
        | apply m.while_stmt | apply m.for_stmt | apply m.to_stmt | apply m.if_stmt
        | apply m.switch_stmt | apply m.case_stmt | apply m.repeat_stmt
        | apply m.assign_stmt | apply m.write_stmt | apply m.exp | apply m.simple_exp
        | apply m.simple_exp_loop | apply m.term | apply m.term_loop | apply m.factor
        | apply LessDef.bind1
        | apply LessDef.ite1
        | intro _
        | split

theorem varlist_mono : ∀ f g, f ≤ g → ∀ s, LessDef (varlist f s) (varlist g s) := by
  intro f
  induction f with
  | zero => intro g _ s; simp only [varlist.eq_1]; exact LessDef.none1 _
  | succ f ih =>
    intro g hg s
    obtain ⟨g, rfl⟩ : ∃ g1, g = g1 + 1 := ⟨g - 1, by omega⟩
    have h1 := ih g (by omega)
    simp only [varlist.eq_2]
    repeat' with_reducible first
      | exact LessDef.rfl1 _
      | apply h1
      | apply LessDef.bind1
      | apply LessDef.ite1
      | intro _

theorem decl_stmt_mono (f g : Nat) (hg : f ≤ g) (s : PState) :
    LessDef (decl_stmt f s) (decl_stmt g s) := by
  have h1 := varlist_mono f g hg
  simp only [decl_stmt]
  repeat' with_reducible first
    | exact LessDef.rfl1 _
    | apply h1
    | apply LessDef.bind1
    | apply LessDef.ite1
    | intro _

theorem declarations_loop_mono :
    ∀ f g, f ≤ g → ∀ t p s, LessDef (declarations_loop f t p s) (declarations_loop g t p s) := by
  intro f
  induction f with
  | zero => intro g _ t p s; simp only [declarations_loop.eq_1]; exact LessDef.none1 _
  | succ f ih =>
    intro g hg t p s
    obtain ⟨g, rfl⟩ : ∃ g1, g = g1 + 1 := ⟨g - 1, by omega⟩
    have h1 := ih g (by omega)
    have h2 := decl_stmt_mono f g (by omega)
    simp only [declarations_loop.eq_2]
    repeat' with_reducible first
      | exact LessDef.rfl1 _
      | apply h1
      | apply h2
      | apply LessDef.bind1
      | apply LessDef.ite1
      | intro _
      | split

theorem declarations_mono (f g : Nat) (hg : f ≤ g) (s : PState) :
    LessDef (declarations f s) (declarations g s) := by
  have h1 := declarations_loop_mono f g hg
  have h2 := decl_stmt_mono f g hg
  simp only [declarations]
  repeat' with_reducible first
    | exact LessDef.rfl1 _
    | apply h1
    | apply h2
    | apply LessDef.bind1
    | apply LessDef.ite1
    | intro _
    | split

theorem program_mono (i : Option Nat) (f g : Nat) (hg : f ≤ g) (s : PState) :
    LessDef (program i f s) (program i g s) := by
  have h1 := declarations_mono f g hg
  have h2 := (monoAt f g hg).stmt_sequence
  simp only [program]
  repeat' with_reducible first
    | exact LessDef.rfl1 _
    | apply h1
    | apply h2
    | apply LessDef.bind1
    | apply LessDef.ite1
    | intro _

theorem parse_mono (i : Option Nat) (f g : Nat) (hg : f ≤ g) (s : PState) :
    LessDef (parse i f s) (parse i g s) := by
  have h1 := program_mono i f g hg
  simp only [parse]
  repeat' with_reducible first
    | exact LessDef.rfl1 _
    | apply h1
    | apply LessDef.bind1
    | apply LessDef.ite1
    | intro _

/-- A check evaluated at one budget holds at every larger budget. -/
theorem checked_at {F : Nat → PState → Res} (hF : ∀ f g, f ≤ g → ∀ s, LessDef (F f s) (F g s))
    {N : Nat} {s : PState} {chk : Option Nat × PState → Bool}
    (h : (F N s).map chk = some true) (k : Nat) :
    ∃ r s1, F (N + k) s = some (r, s1) ∧ chk (r, s1) = true := by
  obtain ⟨⟨r, s1⟩, h1, h2⟩ := Option.map_eq_some'.mp h
  exact ⟨r, s1, hF N (N + k) (by omega) s _ h1, h2⟩

/-! ## The token primitive -/

/-- C1: when the lookahead equals `e`, `match` replaces it by the scanner's
next token (scanner registers and position as `getToken` leaves them) and the
error flag, the listing and the heap stay as they were; when it differs,
lookahead, lexeme, line and scanner position stay as they were and the error
flag is set.  `match_` is a total function: it returns in both cases. -/
theorem match_contract (s : PState) (e : TokenType) :
    (s.token = e →
      (match_ e s).token = (getToken s).1 ∧
      (match_ e s).tokenString = (getToken s).2.tokenString ∧
      (match_ e s).lineno = (getToken s).2.lineno ∧
      (match_ e s).input = (getToken s).2.input ∧
      (match_ e s).input = s.input.tail ∧
      (match_ e s).Error = s.Error ∧
      (match_ e s).listing = s.listing ∧
      (match_ e s).heap = s.heap) ∧
    (s.token ≠ e →
      (match_ e s).token = s.token ∧
      (match_ e s).tokenString = s.tokenString ∧
      (match_ e s).lineno = s.lineno ∧
      (match_ e s).input = s.input ∧
      (match_ e s).Error = true ∧
      (match_ e s).heap = s.heap) := by
  constructor
  · intro h
    simp only [match_, h, if_true, advance]
    cases hi : s.input <;> simp [getToken, hi]
  · intro h
    simp [match_, h, syntaxError]

/-! ## Worked inputs -/

/-- The tokens of `2 + 3 * 4`. -/
theorem prec_plain_checked :
    (exp 10 (startOn [tok .NUM "2", tok .PLUS "+", tok .NUM "3", tok .TIMES "*",
        tok .NUM "4"])).map
      (fun x => denotes x.2.heap 0
          (.binop .PLUS (.const 2) (.binop .TIMES (.const 3) (.const 4))) x.1
        && !x.2.Error && decide (x.2.token = .ENDFILE) && decide (x.2.input = []))
      = some true := by
  decide!

/-- The tokens of `(2 + 3) * 4`. -/
theorem prec_paren_checked :
    (exp 10 (startOn [tok .LPAREN "(", tok .NUM "2", tok .PLUS "+", tok .NUM "3",
        tok .RPAREN ")", tok .TIMES "*", tok .NUM "4"])).map
      (fun x => denotes x.2.heap 0
          (.binop .TIMES (.binop .PLUS (.const 2) (.const 3)) (.const 4)) x.1
        && !x.2.Error && decide (x.2.token = .ENDFILE) && decide (x.2.input = []))
      = some true := by
  decide!

/-- C7: on the tokens of `2 + 3 * 4`, `exp` returns
`BinaryOp(+, 2, BinaryOp(*, 3, 4))`, and on the tokens of `(2 + 3) * 4` it
returns `BinaryOp(*, BinaryOp(+, 2, 3), 4)`; in both cases no error is
recorded and the lookahead is left at end-of-file.  This holds at every step
budget from 10 on. -/
theorem exp_precedence (k : Nat) :
    (∃ r s1,
      exp (10 + k) (startOn [tok .NUM "2", tok .PLUS "+", tok .NUM "3", tok .TIMES "*",
        tok .NUM "4"]) = some (r, s1) ∧
      denotes s1.heap 0 (.binop .PLUS (.const 2) (.binop .TIMES (.const 3) (.const 4))) r
        = true ∧
      s1.Error = false ∧ s1.token = .ENDFILE ∧ s1.input = []) ∧
    (∃ r s1,
      exp (10 + k) (startOn [tok .LPAREN "(", tok .NUM "2", tok .PLUS "+", tok .NUM "3",
        tok .RPAREN ")", tok .TIMES "*", tok .NUM "4"]) = some (r, s1) ∧
      denotes s1.heap 0 (.binop .TIMES (.binop .PLUS (.const 2) (.const 3)) (.const 4)) r
        = true ∧
      s1.Error = false ∧ s1.token = .ENDFILE ∧ s1.input = []) := by
  have hm : ∀ f g, f ≤ g → ∀ s, LessDef (exp f s) (exp g s) :=
    fun f g h => (monoAt f g h).exp
  constructor
  · obtain ⟨r, s1, h, hc⟩ := checked_at hm prec_plain_checked k
    simp only [Bool.and_eq_true, Bool.not_eq_true', decide_eq_true_eq] at hc
    exact ⟨r, s1, h, hc.1.1.1, hc.1.1.2, hc.1.2, hc.2⟩
  · obtain ⟨r, s1, h, hc⟩ := checked_at hm prec_paren_checked k
    simp only [Bool.and_eq_true, Bool.not_eq_true', decide_eq_true_eq] at hc
    exact ⟨r, s1, h, hc.1.1.1, hc.1.1.2, hc.1.2, hc.2⟩

theorem round_trip_checked :
    (parse none 12 (initState roundTripTokens)).map
      (fun x => denotes x.2.heap 0 roundTripTree (some 0)
        && !x.2.Error && decide (x.2.token = .ENDFILE) && decide (x.2.input = [])
        && decide (x.2.listing = []) && decide (x.1 = none))
      = some true := by
  decide!

theorem program_indet (i : Option Nat) (f : Nat) (s : PState) :
    program i f s = (program none f s).map (fun x => (i, x.2)) := by
  simp only [program, newProgNode, alloc]
  cases declarations f _ with
  | none => rfl
  | some a =>
    obtain ⟨d, s1⟩ := a
    simp only [Option.bind_eq_bind, Option.some_bind]
    cases setChild0 _ d s1 with
    | none => rfl
    | some s2 =>
      simp only [Option.some_bind]
      cases stmt_sequence f s2 with
      | none => rfl
      | some b =>
        obtain ⟨q, s3⟩ := b
        simp only [Option.some_bind]
        cases setChild1 _ q s3 <;> rfl

theorem parse_indet (i : Option Nat) (f : Nat) (s : PState) :
    parse i f s = (parse none f s).map (fun x => (i, x.2)) := by
  simp only [parse]
  rw [program_indet]
  cases program none f (advance s) with
  | none => rfl
  | some a => rfl

/-- C10: parsing the tokens of `int x, y; x := 1 + 2; write x` records no
syntax error (flag false, nothing written to the listing), ends with the
lookahead at end-of-file, and builds, at the first address that `program`
allocates, a Program node whose child 0 is one Declaration (type `int`,
child 1 the chain `x -> y` through child slot 0, no sibling) and whose child 1
is `Assign(x, BinaryOp(+, 1, 2))` with sibling `Write(Identifier x)`, the
Write node having no sibling.  This holds at every step budget from 12 on and
whatever value `program` hands back. -/
theorem round_trip (indet : Option Nat) (k : Nat) :
    ∃ r s1,
      parse indet (12 + k) (initState roundTripTokens) = some (r, s1) ∧
      s1.Error = false ∧ s1.listing = [] ∧ s1.token = .ENDFILE ∧ s1.input = [] ∧
      (newProgNode (advance (initState roundTripTokens))).1 = 0 ∧
      denotes s1.heap 0 roundTripTree (some 0) = true := by
  obtain ⟨r, s1, h, hc⟩ := checked_at (parse_mono none) round_trip_checked k
  simp only [Bool.and_eq_true, Bool.not_eq_true', decide_eq_true_eq] at hc
  refine ⟨indet, s1, ?_, hc.1.1.1.1.2, hc.1.2, hc.1.1.1.2, hc.1.1.2, rfl, hc.1.1.1.1.1⟩
  rw [parse_indet, h]
  rfl

/-- C2 (what the code does): whatever the tokens, the pointer that `parse`
hands back is the indeterminate value it read from `program`, never the node
under construction.  On the tokens of `write x`, with an absent indeterminate
value, `parse` returns absent although the Program node sits at address 0
with the Write statement in child 1. -/
theorem program_return_lost :
    (∀ indet f s r s1, parse indet f s = some (r, s1) → r = indet) ∧
    (parse none 10 (initState [tok .WRITE "write", tok .ID "x"])).map
      (fun x => decide (x.1 = none) &&
        denotes x.2.heap 0
          (.node .prog .zero .absent (.stmt .WriteK .zero (.ident "x") .absent .absent .absent)
            .absent .absent) (some 0))
      = some true := by
  constructor
  · intro indet f s r s1 h
    rw [parse_indet] at h
    obtain ⟨x, -, hx⟩ := Option.map_eq_some'.mp h
    exact (congrArg Prod.fst hx).symm
  · decide!

/-! ## The primitive steps -/

@[simp] theorem advance_heap (s : PState) : (advance s).heap = s.heap := by
  simp only [advance, getToken]; split <;> rfl

@[simp] theorem advance_Error (s : PState) : (advance s).Error = s.Error := by
  simp only [advance, getToken]; split <;> rfl

@[simp] theorem advance_listing (s : PState) : (advance s).listing = s.listing := by
  simp only [advance, getToken]; split <;> rfl

@[simp] theorem advance_input (s : PState) : (advance s).input = s.input.tail := by
  simp only [advance, getToken]; split <;> simp_all

theorem match_hit {e : TokenType} {s : PState} (h : s.token = e) : match_ e s = advance s := by
  simp [match_, h]

theorem match_miss {e : TokenType} {s : PState} (h : s.token ≠ e) :
    match_ e s = syntaxError "unexpected token -> " s := by
  simp [match_, h]

@[simp] theorem match_self (s : PState) : match_ s.token s = advance s := match_hit rfl

@[simp] theorem match_heap (e : TokenType) (s : PState) : (match_ e s).heap = s.heap := by
  simp only [match_]; split <;> simp

@[simp] theorem alloc_fst (k : Kind) (s : PState) : (alloc k s).1 = s.heap.length := rfl

@[simp] theorem alloc_snd (k : Kind) (s : PState) :
    (alloc k s).2 = s.withHeap (s.heap ++ [freshNode k s]) := rfl

/-- A write succeeds exactly on an allocated address, and then changes that
one record and nothing else. -/
theorem modifyNode_eq_some {p : Nat} {g : TreeNode → TreeNode} {s s1 : PState} :
    modifyNode p g s = some s1 ↔
      ∃ n, s.heap[p]? = some n ∧ s1 = s.withHeap (s.heap.set p (g n)) := by
  unfold modifyNode
  cases h : s.heap[p]? with
  | none => simp
  | some n => simp [eq_comm]

theorem write_at {p : Nat} {n : TreeNode} (g : TreeNode → TreeNode) {s : PState}
    (h : s.heap[p]? = some n) :
    modifyNode p g s = some (s.withHeap (s.heap.set p (g n))) := by
  simp [modifyNode, h]

@[simp] theorem withHeap_withHeap (s : PState) (h h1 : List TreeNode) :
    (s.withHeap h).withHeap h1 = s.withHeap h1 := rfl

/-- A write to the node just allocated. -/
theorem write_fresh (g : TreeNode → TreeNode) (s : PState) (n : TreeNode) :
    modifyNode s.heap.length g (s.withHeap (s.heap ++ [n])) =
      some (s.withHeap (s.heap ++ [g n])) := by
  simp [modifyNode]

@[simp] theorem Pending_withHeap (s : PState) (h : List TreeNode) (l : List Token) :
    Pending (s.withHeap h) l ↔ Pending s l := by
  cases l <;> rfl

@[simp] theorem Pending_syntaxError (m : String) (s : PState) (l : List Token) :
    Pending (syntaxError m s) l ↔ Pending s l := by
  cases l <;> rfl

/-- The tokens pending after a fetch. -/
theorem Pending.step {s : PState} {tk : Token} {l : List Token}
    (h : Pending s (tk :: l)) : Pending (advance s) l := by
  obtain ⟨-, -, -, hi⟩ := h
  cases l with
  | nil => simp [Pending, advance, getToken, hi]
  | cons a l => simp [Pending, advance, getToken, hi]

theorem Pending.congr {s s1 : PState} {l : List Token} (h : Pending s l)
    (h1 : s1.token = s.token) (h2 : s1.tokenString = s.tokenString)
    (h3 : s1.lineno = s.lineno) (h4 : s1.input = s.input) : Pending s1 l := by
  cases l with
  | nil => exact ⟨h1 ▸ h.1, h4 ▸ h.2⟩
  | cons a l => exact ⟨h1 ▸ h.1, h2 ▸ h.2.1, h3 ▸ h.2.2.1, h4 ▸ h.2.2.2⟩

theorem Pending.token_next {s : PState} {l : List Token} (h : Pending s l) :
    s.token = nextType l := by
  cases l with
  | nil => exact h.1
  | cons a l => exact h.1

/-! ## Heaps that grow -/

theorem HExt.refl (base : Nat) (h : List TreeNode) : HExt base h h :=
  ⟨Nat.le_refl _, fun _ _ => rfl⟩

theorem HExt.trans {base : Nat} {h h1 h2 : List TreeNode} (a : HExt base h h1)
    (b : HExt base h1 h2) : HExt base h h2 :=
  ⟨Nat.le_trans a.1 b.1, fun x hx => (b.2 x hx).trans (a.2 x hx)⟩

theorem HExt.weaken {base base1 : Nat} {h h1 : List TreeNode} (a : HExt base h h1)
    (hb : base1 ≤ base) : HExt base1 h h1 :=
  ⟨a.1, fun x hx => a.2 x (Nat.lt_of_lt_of_le hx hb)⟩

theorem HExt.append {base : Nat} (h : List TreeNode) (n : TreeNode) (hb : base ≤ h.length) :
    HExt base h (h ++ [n]) :=
  ⟨by simp, fun x hx => List.getElem?_append_left (Nat.lt_of_lt_of_le hx hb)⟩

theorem HExt.set {base : Nat} (h : List TreeNode) (p : Nat) (n : TreeNode) (hb : base ≤ p) :
    HExt base h (h.set p n) :=
  ⟨by simp, fun x hx => List.getElem?_set_ne (by omega)⟩

/-- What `denotes` reads lies at or above `lo` and inside the heap: a heap
that agrees there denotes the same tree. -/
theorem denotes_of_agree {h h1 : List TreeNode} {lo : Nat}
    (hh : ∀ a, lo ≤ a → a < h.length → h1[a]? = h[a]?) :
    ∀ (T : Tree) (p : Option Nat), denotes h lo T p = true → denotes h1 lo T p = true := by
  intro T
  induction T with
  | absent => intro p hp; exact hp
  | node k a c0 c1 c2 sb i0 i1 i2 i3 =>
    intro p
    cases p with
    | none => intro hp; exact hp
    | some q =>
      simp only [denotes]
      cases hq : h[q]? with
      | none => intro hp; cases hp
      | some n =>
        simp only [Bool.and_eq_true, decide_eq_true_eq]
        rintro ⟨⟨⟨⟨⟨⟨x1, x2⟩, x3⟩, x4⟩, x5⟩, x6⟩, x7⟩
        have hlt : q < h.length := by
          by_contra hc
          rw [List.getElem?_eq_none (by omega)] at hq
          cases hq
        rw [hh q x1 hlt, hq]
        simp only [Bool.and_eq_true, decide_eq_true_eq]
        exact ⟨⟨⟨⟨⟨⟨x1, x2⟩, x3⟩, i0 _ x4⟩, i1 _ x5⟩, i2 _ x6⟩, i3 _ x7⟩

theorem denotes_lower {h : List TreeNode} {lo lo1 : Nat} (hl : lo1 ≤ lo) :
    ∀ (T : Tree) (p : Option Nat), denotes h lo T p = true → denotes h lo1 T p = true := by
  intro T
  induction T with
  | absent => intro p hp; exact hp
  | node k a c0 c1 c2 sb i0 i1 i2 i3 =>
    intro p
    cases p with
    | none => intro hp; exact hp
    | some q =>
      simp only [denotes]
      cases h[q]? with
      | none => intro hp; exact hp
      | some n =>
        simp only [Bool.and_eq_true, decide_eq_true_eq]
        rintro ⟨⟨⟨⟨⟨⟨x1, x2⟩, x3⟩, x4⟩, x5⟩, x6⟩, x7⟩
        exact ⟨⟨⟨⟨⟨⟨by omega, x2⟩, x3⟩, i0 _ x4⟩, i1 _ x5⟩, i2 _ x6⟩, i3 _ x7⟩

/-- A tree survives whatever a later procedure does: that procedure leaves
every node that existed before it untouched. -/
theorem denotes_of_HExt {h h1 : List TreeNode} {lo base : Nat} (e : HExt base h h1)
    (hb : h.length ≤ base) {T : Tree} {p : Option Nat} (hd : denotes h lo T p = true) :
    denotes h1 lo T p = true :=
  denotes_of_agree (fun a _ ha => e.2 a (by omega)) T p hd

/-- A tree above `lo` survives a write below `lo`. -/
theorem denotes_set_below {h : List TreeNode} {lo t : Nat} (n : TreeNode) (ht : t < lo)
    {T : Tree} {p : Option Nat} (hd : denotes h lo T p = true) :
    denotes (h.set t n) lo T p = true :=
  denotes_of_agree (fun a ha _ => List.getElem?_set_ne (by omega)) T p hd

theorem Returns.intro {F : Nat → PState → Res} {s : PState} {r : Option Nat} {s1 : PState}
    (N : Nat) (h : ∀ f, F (N + f) s = some (r, s1)) : Returns F s r s1 :=
  ⟨N, fun f hf => by obtain ⟨k, rfl⟩ : ∃ k, f = N + k := ⟨f - N, by omega⟩; exact h k⟩

/-! ## Identifier lists -/

theorem varlist_chain_aux (more : List (Token × Token)) :
    ∀ (x : Token) (rest : List Token) (s : PState),
      x.type = .ID → (∀ p ∈ more, p.1.type = .COMMA ∧ p.2.type = .ID) →
      nextType rest ≠ .COMMA →
      Pending s (x :: (commaIds more ++ rest)) →
      ∃ s1, Returns varlist s (some s.heap.length) s1 ∧
        HExt s.heap.length s.heap s1.heap ∧
        s1.heap.length = s.heap.length + (more.length + 1) ∧
        denotes s1.heap s.heap.length (idChain x more) (some s.heap.length) = true ∧
        Pending s1 rest ∧ s1.Error = s.Error ∧ s1.listing = s.listing := by
  induction more with
  | nil =>
    intro x rest s hx _ hrest hp
    have htok : s.token = .ID := hp.1.trans hx
    have hp1 : Pending (advance (s.withHeap (s.heap ++
        [(freshNode (.exp .IdK) s).withAttr (.name s.tokenString)]))) rest :=
      @Pending.step _ x _ ((Pending_withHeap _ _ _).mpr hp)
    have hnc : (advance (s.withHeap (s.heap ++
        [(freshNode (.exp .IdK) s).withAttr (.name s.tokenString)]))).token ≠ .COMMA := by
      rw [hp1.token_next]
      exact hrest
    refine ⟨_, Returns.intro 1 (fun f => ?_), ?_, ?_, ?_, hp1, by simp, by simp⟩
    · rw [Nat.add_comm, varlist.eq_2]
      simp only [newExpNode, alloc_fst, alloc_snd, PState.withHeap_token,
        PState.withHeap_tokenString, htok, if_true, setAttr, write_fresh,
        Option.bind_eq_bind, Option.some_bind, match_hit, hnc, if_false, Option.pure_def]
    · simp only [advance_heap, PState.withHeap_heap]
      exact HExt.append _ _ (Nat.le_refl _)
    · simp
    · simp [denotes, idChain, Tree.ident, hp.2.1]
  | cons cy more ih =>
    obtain ⟨c, y⟩ := cy
    intro x rest s hx hm hrest hp
    have htok : s.token = .ID := hp.1.trans hx
    have hc : c.type = .COMMA := (hm (c, y) (List.mem_cons_self _ _)).1
    have hy : y.type = .ID := (hm (c, y) (List.mem_cons_self _ _)).2
    have hp1 : Pending (advance (s.withHeap (s.heap ++
        [(freshNode (.exp .IdK) s).withAttr (.name s.tokenString)])))
        (c :: y :: (commaIds more ++ rest)) :=
      @Pending.step _ x _ ((Pending_withHeap _ _ _).mpr hp)
    have hp2 := Pending.step hp1
    obtain ⟨s1, ⟨N, hN⟩, he, hlen, hd, hpend, herr, hlist⟩ :=
      ih y rest _ hy (fun p hp => hm p (List.mem_cons_of_mem _ hp)) hrest hp2
    simp only [advance_heap, PState.withHeap_heap, List.length_append,
      List.length_singleton] at he hlen hd
    have hcell : s1.heap[s.heap.length]? =
        some ((freshNode (.exp .IdK) s).withAttr (.name s.tokenString)) := by
      rw [he.2 _ (Nat.lt_succ_self _)]
      simp
    refine ⟨s1.withHeap (s1.heap.set s.heap.length
        (((freshNode (.exp .IdK) s).withAttr (.name s.tokenString)).withChild0
          (some (s.heap.length + 1)))),
      ⟨N + 1, fun f hf => ?_⟩, ?_, ?_, ?_, ?_, ?_, ?_⟩
    · obtain ⟨f, rfl⟩ : ∃ g, f = g + 1 := ⟨f - 1, by omega⟩
      rw [varlist.eq_2]
      simp only [newExpNode, alloc_fst, alloc_snd, PState.withHeap_token,
        PState.withHeap_tokenString, htok, if_true, setAttr, write_fresh,
        Option.bind_eq_bind, Option.some_bind, match_hit, hp1.1, hc, Option.pure_def]
      rw [hN f (by omega)]
      simp only [Option.some_bind, advance_heap, PState.withHeap_heap, List.length_append,
        List.length_singleton, setChild0, write_at _ hcell]
    · refine HExt.trans (HExt.trans (HExt.append _ _ (Nat.le_refl _)) (he.weaken (by omega))) ?_
      exact HExt.set _ _ _ (Nat.le_refl _)
    · simp only [PState.withHeap_heap, List.length_set, hlen, List.length_cons]; omega
    · have hlt : s.heap.length < s1.heap.length := by omega
      simp only [PState.withHeap_heap, denotes, idChain, List.getElem?_set_self hlt,
        TreeNode.withChild0_kind, TreeNode.withAttr_kind, freshNode_kind,
        TreeNode.withChild0_attr, TreeNode.withAttr_attr, hp.2.1,
        TreeNode.withChild0_child0, TreeNode.withChild0_child1, TreeNode.withAttr_child1,
        freshNode_child1, TreeNode.withChild0_child2, TreeNode.withAttr_child2,
        freshNode_child2, TreeNode.withChild0_sibling, TreeNode.withAttr_sibling,
        freshNode_sibling, decide_True, Bool.true_and, Option.isNone_none, Bool.and_true,
        Nat.le_refl]
      exact denotes_lower (Nat.le_succ _) _ _ (denotes_set_below _ (Nat.lt_succ_self _) hd)
    · exact (Pending_withHeap _ _ _).mpr hpend
    · simpa using herr
    · simpa using hlist

/-- C6: for identifier tokens `x1 , x2 , ... , xn` followed by a token that
is not a comma, `varlist` returns, with no error recorded and exactly the
list consumed, a chain of exactly `n` newly allocated Identifier nodes linked
through child slot 0: node `i` holds the name `xi`, the last node has no
child 0, and no node has a sibling. -/
theorem varlist_chain (x : Token) (more : List (Token × Token)) (rest : List Token)
    (s : PState) (hx : x.type = .ID)
    (hm : ∀ p ∈ more, p.1.type = .COMMA ∧ p.2.type = .ID)
    (hrest : nextType rest ≠ .COMMA)
    (hp : Pending s (x :: (commaIds more ++ rest))) :
    ∃ r s1, Returns varlist s (some r) s1 ∧ s1.Error = s.Error ∧ s1.listing = s.listing ∧
      Pending s1 rest ∧ s1.heap.length = s.heap.length + (more.length + 1) ∧
      denotes s1.heap s.heap.length (idChain x more) (some r) = true := by
  obtain ⟨s1, h1, -, h3, h4, h5, h6, h7⟩ := varlist_chain_aux more x rest s hx hm hrest hp
  exact ⟨_, s1, h1, h6, h7, h5, h3, h4⟩

/-- C6 at `a, b, c` followed by `;`: a chain of three nodes. -/
theorem varlist_chain_abc :
    ∃ r s1, Returns varlist (startOn [tok .ID "a", tok .COMMA ",", tok .ID "b",
        tok .COMMA ",", tok .ID "c", tok .SEMI ";"]) (some r) s1 ∧
      s1.Error = false ∧ s1.listing = [] ∧ Pending s1 [tok .SEMI ";"] ∧
      s1.heap.length = 3 ∧
      denotes s1.heap 0
        (.node (.exp .IdK) (.name "a")
          (.node (.exp .IdK) (.name "b") (.ident "c") .absent .absent .absent)
          .absent .absent .absent) (some r) = true :=
  varlist_chain (tok .ID "a") [(tok .COMMA ",", tok .ID "b"), (tok .COMMA ",", tok .ID "c")]
    [tok .SEMI ";"] _ rfl (by decide) (by decide) ⟨rfl, rfl, rfl, rfl⟩

/-! ## Expressions: the left fold -/

theorem Returns.mono_loop {F : Nat → PState → Res} {s : PState} {r : Option Nat} {s1 : PState}
    (h : Returns F s r s1) (M : Nat) : ∃ N, M ≤ N ∧ ∀ f, N ≤ f → F f s = some (r, s1) := by
  obtain ⟨N, hN⟩ := h
  exact ⟨max M N, Nat.le_max_left _ _, fun f hf => hN f (by omega)⟩

theorem term_loop_exit (f : Nat) (t : Option Nat) (s : PState)
    (h1 : s.token ≠ .TIMES) (h2 : s.token ≠ .OVER) : term_loop (f + 1) t s = some (t, s) := by
  rw [term_loop.eq_2]; simp [h1, h2]

theorem term_loop_step (f : Nat) (t : Option Nat) (s : PState)
    (h : s.token = .TIMES ∨ s.token = .OVER) :
    term_loop (f + 1) t s =
      (factor f (advance (s.withHeap (s.heap ++
          [((freshNode (.exp .OpK) s).withChild0 t).withAttr (.op s.token)])))).bind
        (fun x => (setChild1 s.heap.length x.1 x.2).bind
          (fun s5 => term_loop f (some s.heap.length) s5)) := by
  rw [term_loop.eq_2]
  simp only [h, if_true, newExpNode, alloc_fst, alloc_snd, setChild0, setAttr, write_fresh,
    Option.bind_eq_bind, Option.some_bind, PState.withHeap_token]
  rw [match_hit (by simp)]

theorem term_loop_reads (ops : List (Token × List Token × Tree)) :
    ∀ (acc : Tree) (t : Option Nat) (s : PState) (rest : List Token) (lo : Nat),
      (∀ x ∈ ops, (x.1.type = .TIMES ∨ x.1.type = .OVER) ∧
        Reads factor (fun _ => True) x.2.1 x.2.2) →
      Pending s (flatOps ops ++ rest) →
      nextType rest ≠ .TIMES → nextType rest ≠ .OVER →
      lo ≤ s.heap.length → denotes s.heap lo acc t = true →
      ∃ r s1, Returns (fun f => term_loop f t) s r s1 ∧ Pending s1 rest ∧
        s1.Error = s.Error ∧ s1.listing = s.listing ∧
        HExt s.heap.length s.heap s1.heap ∧
        denotes s1.heap lo (foldOps acc ops) r = true := by
  induction ops with
  | nil =>
    intro acc t s rest lo _ hp h1 h2 _ hd
    have ht := hp.token_next
    simp only [flatOps, List.nil_append] at ht
    exact ⟨t, s, Returns.intro 1 (fun f => by
        rw [Nat.add_comm]; exact term_loop_exit f t s (ht ▸ h1) (ht ▸ h2)),
      hp, rfl, rfl, HExt.refl _ _, hd⟩
  | cons x ops ih =>
    obtain ⟨o, l, T⟩ := x
    intro acc t s rest lo hops hp h1 h2 hlo hd
    have ho := (hops (o, l, T) (List.mem_cons_self _ _)).1
    have hl := (hops (o, l, T) (List.mem_cons_self _ _)).2
    have htok : s.token = o.type := hp.1
    have hp1 : Pending (advance (s.withHeap (s.heap ++
        [((freshNode (.exp .OpK) s).withChild0 t).withAttr (.op s.token)])))
        (l ++ (flatOps ops ++ rest)) := by
      have hq : Pending (s.withHeap (s.heap ++
          [((freshNode (.exp .OpK) s).withChild0 t).withAttr (.op s.token)]))
          (o :: (l ++ (flatOps ops ++ rest))) := by
        rw [Pending_withHeap]
        simpa [flatOps, List.append_assoc] using hp
      exact Pending.step hq
    obtain ⟨r, s4, hret, hp4, herr4, hlist4, he4, hd4⟩ := hl _ _ hp1 trivial
    simp only [advance_heap, PState.withHeap_heap, List.length_append, List.length_singleton,
      advance_Error, advance_listing, PState.withHeap_Error, PState.withHeap_listing]
      at he4 hd4 herr4 hlist4
    have hcell : s4.heap[s.heap.length]? =
        some (((freshNode (.exp .OpK) s).withChild0 t).withAttr (.op s.token)) := by
      rw [he4.2 _ (Nat.lt_succ_self _)]
      simp
    have hlt : s.heap.length < s4.heap.length := by
      have := he4.1
      simp only [List.length_append, List.length_singleton] at this
      omega
    have hagree : ∀ a, a < s.heap.length →
        (s4.heap.set s.heap.length
          ((((freshNode (.exp .OpK) s).withChild0 t).withAttr (.op s.token)).withChild1 r))[a]?
          = s.heap[a]? := by
      intro a ha
      rw [List.getElem?_set_ne (by omega), he4.2 a (by omega),
        List.getElem?_append_left ha]
    obtain ⟨r1, s1, hret1, hp1f, herr1, hlist1, he1, hd1⟩ :=
      ih (.binop o.type acc T) (some s.heap.length)
        (s4.withHeap (s4.heap.set s.heap.length
          ((((freshNode (.exp .OpK) s).withChild0 t).withAttr (.op s.token)).withChild1 r)))
        rest lo (fun x hx => hops x (List.mem_cons_of_mem _ hx))
        ((Pending_withHeap _ _ _).mpr hp4) h1 h2
        (by simp only [PState.withHeap_heap, List.length_set]; omega)
        (by
          simp only [PState.withHeap_heap, denotes, Tree.binop, List.getElem?_set_self hlt,
            TreeNode.withChild1_kind, TreeNode.withAttr_kind, TreeNode.withChild0_kind,
            freshNode_kind, TreeNode.withChild1_attr, TreeNode.withAttr_attr, ← htok,
            TreeNode.withChild1_child0, TreeNode.withAttr_child0, TreeNode.withChild0_child0,
            TreeNode.withChild1_child1, TreeNode.withChild1_child2, TreeNode.withAttr_child2,
            TreeNode.withChild0_child2, freshNode_child2, TreeNode.withChild1_sibling,
            TreeNode.withAttr_sibling, TreeNode.withChild0_sibling, freshNode_sibling,
            decide_True, Bool.true_and, Option.isNone_none, Bool.and_true, hlo,
            Bool.and_eq_true]
          exact ⟨denotes_of_agree (fun a _ ha => hagree a ha) _ _ hd,
            denotes_lower (by omega) _ _ (denotes_set_below _ (Nat.lt_succ_self _) hd4)⟩)
    simp only [PState.withHeap_heap, List.length_set, PState.withHeap_Error,
      PState.withHeap_listing] at he1 herr1 hlist1
    obtain ⟨N1, hN1⟩ := hret
    obtain ⟨N2, hN2⟩ := hret1
    refine ⟨r1, s1, ⟨max N1 N2 + 1, fun f hf => ?_⟩, hp1f, by rw [herr1, herr4],
      by rw [hlist1, hlist4], ?_, hd1⟩
    · obtain ⟨f, rfl⟩ : ∃ g, f = g + 1 := ⟨f - 1, by omega⟩
      show term_loop (f + 1) t s = _
      rw [term_loop_step f t s (htok ▸ ho), hN1 f (by omega)]
      simp only [Option.some_bind, setChild1, write_at _ hcell]
      exact hN2 f (by omega)
    · have hl1 := he1.1
      simp only [List.length_set] at hl1
      refine ⟨by omega, fun a ha => ?_⟩
      rw [he1.2 a (by omega)]
      exact hagree a ha

theorem factor_atom {tk : Token} (h : isAtom tk) : Reads factor (fun _ => True) [tk] (leaf tk) := by
  intro s rest hp _
  have hp1 : ∀ n, Pending (advance (s.withHeap (s.heap ++ [n]))) rest := fun n =>
    @Pending.step _ tk _ ((Pending_withHeap _ _ _).mpr hp)
  have htok : s.token = tk.type := hp.1
  have htxt : s.tokenString = tk.text := hp.2.1
  rcases h with h | h | h
  · refine ⟨some s.heap.length, advance (s.withHeap (s.heap ++
        [(freshNode (.exp .ConstK) s).withAttr (.val (atoi s.tokenString))])),
      Returns.intro 1 (fun f => ?_), hp1 _, by simp, by simp, ?_, ?_⟩
    · rw [Nat.add_comm, factor.eq_2]
      simp only [htok, h, newExpNode, alloc_fst, alloc_snd, setAttr, write_fresh,
        Option.bind_eq_bind, Option.some_bind, PState.withHeap_tokenString, Option.pure_def]
      rw [match_hit (by simp [htok, h])]
    · simpa using HExt.append _ _ (Nat.le_refl _)
    · simp [denotes, leaf, h, Tree.const, htxt]
  · refine ⟨some s.heap.length, advance (s.withHeap (s.heap ++
        [(freshNode (.exp .IdK) s).withAttr (.name s.tokenString)])),
      Returns.intro 1 (fun f => ?_), hp1 _, by simp, by simp, ?_, ?_⟩
    · rw [Nat.add_comm, factor.eq_2]
      simp only [htok, h, newExpNode, alloc_fst, alloc_snd, setAttr, write_fresh,
        Option.bind_eq_bind, Option.some_bind, PState.withHeap_tokenString, Option.pure_def]
      rw [match_hit (by simp [htok, h])]
    · simpa using HExt.append _ _ (Nat.le_refl _)
    · simp [denotes, leaf, h, Tree.ident, htxt]
  · refine ⟨some s.heap.length, advance (s.withHeap (s.heap ++
        [(freshNode (.exp .StrK) s).withAttr (.name s.tokenString)])),
      Returns.intro 1 (fun f => ?_), hp1 _, by simp, by simp, ?_, ?_⟩
    · rw [Nat.add_comm, factor.eq_2]
      simp only [htok, h, newExpNode, alloc_fst, alloc_snd, setAttr, write_fresh,
        Option.bind_eq_bind, Option.some_bind, PState.withHeap_tokenString, Option.pure_def]
      rw [match_hit (by simp [htok, h])]
    · simpa using HExt.append _ _ (Nat.le_refl _)
    · simp [denotes, leaf, h, Tree.str, htxt]

theorem reads_term {l0 : List Token} {T0 : Tree} (ops : List (Token × List Token × Tree))
    (h0 : Reads factor (fun _ => True) l0 T0)
    (hops : ∀ x ∈ ops, (x.1.type = .TIMES ∨ x.1.type = .OVER) ∧
      Reads factor (fun _ => True) x.2.1 x.2.2) :
    Reads term okTerm (l0 ++ flatOps ops) (foldOps T0 ops) := by
  intro s rest hp hok
  rw [List.append_assoc] at hp
  obtain ⟨r0, s0, ⟨N0, hN0⟩, hp0, herr0, hlist0, he0, hd0⟩ := h0 s _ hp trivial
  obtain ⟨r, s1, ⟨N1, hN1⟩, hp1, herr1, hlist1, he1, hd1⟩ :=
    term_loop_reads ops T0 r0 s0 rest s.heap.length hops hp0 hok.1 hok.2 he0.1 hd0
  refine ⟨r, s1, ⟨max N0 N1 + 1, fun f hf => ?_⟩, hp1, by rw [herr1, herr0],
    by rw [hlist1, hlist0], he0.trans (he1.weaken he0.1), hd1⟩
  obtain ⟨f, rfl⟩ : ∃ g, f = g + 1 := ⟨f - 1, by omega⟩
  rw [term.eq_2, hN0 f (by omega)]
  exact hN1 f (by omega)

theorem simple_exp_loop_exit (f : Nat) (t : Option Nat) (s : PState)
    (h1 : s.token ≠ .PLUS) (h2 : s.token ≠ .MINUS) : simple_exp_loop (f + 1) t s = some (t, s) := by
  rw [simple_exp_loop.eq_2]; simp [h1, h2]

theorem simple_exp_loop_step (f : Nat) (t : Option Nat) (s : PState)
    (h : s.token = .PLUS ∨ s.token = .MINUS) :
    simple_exp_loop (f + 1) t s =
      (term f (advance (s.withHeap (s.heap ++
          [((freshNode (.exp .OpK) s).withChild0 t).withAttr (.op s.token)])))).bind
        (fun x => (setChild1 s.heap.length x.1 x.2).bind
          (fun s5 => simple_exp_loop f (some s.heap.length) s5)) := by
  rw [simple_exp_loop.eq_2]
  simp only [h, if_true, newExpNode, alloc_fst, alloc_snd, setChild0, setAttr, write_fresh,
    Option.bind_eq_bind, Option.some_bind, PState.withHeap_token]
  rw [match_hit (by simp)]

theorem simple_exp_loop_reads (ops : List (Token × List Token × Tree)) :
    ∀ (acc : Tree) (t : Option Nat) (s : PState) (rest : List Token) (lo : Nat),
      (∀ x ∈ ops, (x.1.type = .PLUS ∨ x.1.type = .MINUS) ∧
        Reads term okTerm x.2.1 x.2.2) →
      Pending s (flatOps ops ++ rest) →
      nextType rest ≠ .PLUS → nextType rest ≠ .MINUS →
      nextType rest ≠ .TIMES → nextType rest ≠ .OVER →
      lo ≤ s.heap.length → denotes s.heap lo acc t = true →
      ∃ r s1, Returns (fun f => simple_exp_loop f t) s r s1 ∧ Pending s1 rest ∧
        s1.Error = s.Error ∧ s1.listing = s.listing ∧
        HExt s.heap.length s.heap s1.heap ∧
        denotes s1.heap lo (foldOps acc ops) r = true := by
  induction ops with
  | nil =>
    intro acc t s rest lo _ hp h1 h2 _ _ _ hd
    have ht := hp.token_next
    simp only [flatOps, List.nil_append] at ht
    exact ⟨t, s, Returns.intro 1 (fun f => by
        rw [Nat.add_comm]; exact simple_exp_loop_exit f t s (ht ▸ h1) (ht ▸ h2)),
      hp, rfl, rfl, HExt.refl _ _, hd⟩
  | cons x ops ih =>
    obtain ⟨o, l, T⟩ := x
    intro acc t s rest lo hops hp h1 h2 h3 h4 hlo hd
    have ho := (hops (o, l, T) (List.mem_cons_self _ _)).1
    have hl := (hops (o, l, T) (List.mem_cons_self _ _)).2
    have htok : s.token = o.type := hp.1
    have hp1 : Pending (advance (s.withHeap (s.heap ++
        [((freshNode (.exp .OpK) s).withChild0 t).withAttr (.op s.token)])))
        (l ++ (flatOps ops ++ rest)) := by
      have hq : Pending (s.withHeap (s.heap ++
          [((freshNode (.exp .OpK) s).withChild0 t).withAttr (.op s.token)]))
          (o :: (l ++ (flatOps ops ++ rest))) := by
        rw [Pending_withHeap]
        simpa [flatOps, List.append_assoc] using hp
      exact Pending.step hq
    have hfol : okTerm (nextType (flatOps ops ++ rest)) := by
      cases ops with
      | nil => exact ⟨h3, h4⟩
      | cons y ys =>
        obtain ⟨o1, l1, T1⟩ := y
        have : o1.type = .PLUS ∨ o1.type = .MINUS :=
          (hops (o1, l1, T1) (List.mem_cons_of_mem _ (List.mem_cons_self _ _))).1
        simp only [flatOps, List.cons_append, nextType, List.head?_cons, Option.map_some',
          Option.getD_some, okTerm]
        rcases this with h | h <;> simp [h]
    obtain ⟨r, s4, hret, hp4, herr4, hlist4, he4, hd4⟩ := hl _ _ hp1 hfol
    simp only [advance_heap, PState.withHeap_heap, List.length_append, List.length_singleton,
      advance_Error, advance_listing, PState.withHeap_Error, PState.withHeap_listing]
      at he4 hd4 herr4 hlist4
    have hcell : s4.heap[s.heap.length]? =
        some (((freshNode (.exp .OpK) s).withChild0 t).withAttr (.op s.token)) := by
      rw [he4.2 _ (Nat.lt_succ_self _)]
      simp
    have hlt : s.heap.length < s4.heap.length := by
      have := he4.1
      simp only [List.length_append, List.length_singleton] at this
      omega
    have hagree : ∀ a, a < s.heap.length →
        (s4.heap.set s.heap.length
          ((((freshNode (.exp .OpK) s).withChild0 t).withAttr (.op s.token)).withChild1 r))[a]?
          = s.heap[a]? := by
      intro a ha
      rw [List.getElem?_set_ne (by omega), he4.2 a (by omega),
        List.getElem?_append_left ha]
    obtain ⟨r1, s1, hret1, hp1f, herr1, hlist1, he1, hd1⟩ :=
      ih (.binop o.type acc T) (some s.heap.length)
        (s4.withHeap (s4.heap.set s.heap.length
          ((((freshNode (.exp .OpK) s).withChild0 t).withAttr (.op s.token)).withChild1 r)))
        rest lo (fun x hx => hops x (List.mem_cons_of_mem _ hx))
        ((Pending_withHeap _ _ _).mpr hp4) h1 h2 h3 h4
        (by simp only [PState.withHeap_heap, List.length_set]; omega)
        (by
          simp only [PState.withHeap_heap, denotes, Tree.binop, List.getElem?_set_self hlt,
            TreeNode.withChild1_kind, TreeNode.withAttr_kind, TreeNode.withChild0_kind,
            freshNode_kind, TreeNode.withChild1_attr, TreeNode.withAttr_attr, ← htok,
            TreeNode.withChild1_child0, TreeNode.withAttr_child0, TreeNode.withChild0_child0,
            TreeNode.withChild1_child1, TreeNode.withChild1_child2, TreeNode.withAttr_child2,
            TreeNode.withChild0_child2, freshNode_child2, TreeNode.withChild1_sibling,
            TreeNode.withAttr_sibling, TreeNode.withChild0_sibling, freshNode_sibling,
            decide_True, Bool.true_and, Option.isNone_none, Bool.and_true, hlo,
            Bool.and_eq_true]
          exact ⟨denotes_of_agree (fun a _ ha => hagree a ha) _ _ hd,
            denotes_lower (by omega) _ _ (denotes_set_below _ (Nat.lt_succ_self _) hd4)⟩)
    simp only [PState.withHeap_heap, List.length_set, PState.withHeap_Error,
      PState.withHeap_listing] at he1 herr1 hlist1
    obtain ⟨N1, hN1⟩ := hret
    obtain ⟨N2, hN2⟩ := hret1
    refine ⟨r1, s1, ⟨max N1 N2 + 1, fun f hf => ?_⟩, hp1f, by rw [herr1, herr4],
      by rw [hlist1, hlist4], ?_, hd1⟩
    · obtain ⟨f, rfl⟩ : ∃ g, f = g + 1 := ⟨f - 1, by omega⟩
      show simple_exp_loop (f + 1) t s = _
      rw [simple_exp_loop_step f t s (htok ▸ ho), hN1 f (by omega)]
      simp only [Option.some_bind, setChild1, write_at _ hcell]
      exact hN2 f (by omega)
    · have hl1 := he1.1
      simp only [List.length_set] at hl1
      refine ⟨by omega, fun a ha => ?_⟩
      rw [he1.2 a (by omega)]
      exact hagree a ha

theorem reads_simple_exp {l0 : List Token} {T0 : Tree} (ops : List (Token × List Token × Tree))
    (h0 : Reads term okTerm l0 T0)
    (hops : ∀ x ∈ ops, (x.1.type = .PLUS ∨ x.1.type = .MINUS) ∧
      Reads term okTerm x.2.1 x.2.2) :
    Reads simple_exp okSimple (l0 ++ flatOps ops) (foldOps T0 ops) := by
  intro s rest hp hok
  rw [List.append_assoc] at hp
  have hfol : okTerm (nextType (flatOps ops ++ rest)) := by
    cases ops with
    | nil => exact ⟨hok.2.2.1, hok.2.2.2⟩
    | cons y ys =>
      obtain ⟨o1, l1, T1⟩ := y
      have : o1.type = .PLUS ∨ o1.type = .MINUS :=
        (hops (o1, l1, T1) (List.mem_cons_self _ _)).1
      simp only [flatOps, List.cons_append, nextType, List.head?_cons, Option.map_some',
        Option.getD_some, okTerm]
      rcases this with h | h <;> simp [h]
  obtain ⟨r0, s0, ⟨N0, hN0⟩, hp0, herr0, hlist0, he0, hd0⟩ := h0 s _ hp hfol
  obtain ⟨r, s1, ⟨N1, hN1⟩, hp1, herr1, hlist1, he1, hd1⟩ :=
    simple_exp_loop_reads ops T0 r0 s0 rest s.heap.length hops hp0 hok.1 hok.2.1 hok.2.2.1
      hok.2.2.2 he0.1 hd0
  refine ⟨r, s1, ⟨max N0 N1 + 1, fun f hf => ?_⟩, hp1, by rw [herr1, herr0],
    by rw [hlist1, hlist0], he0.trans (he1.weaken he0.1), hd1⟩
  obtain ⟨f, rfl⟩ : ∃ g, f = g + 1 := ⟨f - 1, by omega⟩
  rw [simple_exp.eq_2, hN0 f (by omega)]
  exact hN1 f (by omega)

theorem reads_atom_product (a0 : Token) (ops : List (Token × Token)) (ha : isAtom a0)
    (hops : ∀ p ∈ ops, (p.1.type = .TIMES ∨ p.1.type = .OVER) ∧ isAtom p.2) :
    Reads term okTerm (a0 :: flatOps (atomOps ops)) (foldOps (leaf a0) (atomOps ops)) := by
  refine @reads_term [a0] _ (atomOps ops) (factor_atom ha) (fun x hx => ?_)
  obtain ⟨p, hp, rfl⟩ := List.mem_map.mp hx
  exact ⟨(hops p hp).1, factor_atom (hops p hp).2⟩

/-- C8: `term` on atoms joined by `*` and `/`, followed by a token that is
neither, returns the left-nested tree: every operator node has what was built
so far in child 0 and the new right operand in child 1.  `simple_exp` does
the same with `+` and `-` over such terms. -/
theorem left_fold (a0 : Token) (ops : List (Token × Token))
    (sums : List (Token × Token × List (Token × Token))) (ha : isAtom a0)
    (hops : ∀ p ∈ ops, (p.1.type = .TIMES ∨ p.1.type = .OVER) ∧ isAtom p.2)
    (hsums : ∀ q ∈ sums, (q.1.type = .PLUS ∨ q.1.type = .MINUS) ∧ isAtom q.2.1 ∧
      ∀ p ∈ q.2.2, (p.1.type = .TIMES ∨ p.1.type = .OVER) ∧ isAtom p.2) :
    Reads term okTerm (a0 :: flatOps (atomOps ops)) (foldOps (leaf a0) (atomOps ops)) ∧
    Reads simple_exp okSimple ((a0 :: flatOps (atomOps ops)) ++ flatOps (termOps sums))
      (foldOps (foldOps (leaf a0) (atomOps ops)) (termOps sums)) := by
  refine ⟨reads_atom_product a0 ops ha hops, ?_⟩
  refine reads_simple_exp (termOps sums) (reads_atom_product a0 ops ha hops) (fun x hx => ?_)
  obtain ⟨q, hq, rfl⟩ := List.mem_map.mp hx
  exact ⟨(hsums q hq).1, reads_atom_product q.2.1 q.2.2 (hsums q hq).2.1 (hsums q hq).2.2⟩

/-- C8 at `a - b - c`: `Op(-, Op(-, a, b), c)`. -/
theorem left_fold_minus :
    ∃ r s1, Returns simple_exp (startOn [tok .ID "a", tok .MINUS "-", tok .ID "b",
        tok .MINUS "-", tok .ID "c"]) r s1 ∧
      Pending s1 [] ∧ s1.Error = false ∧
      denotes s1.heap 0
        (.binop .MINUS (.binop .MINUS (.ident "a") (.ident "b")) (.ident "c")) r = true := by
  obtain ⟨r, s1, h1, h2, h3, -, -, h6⟩ :=
    (left_fold (tok .ID "a") []
      [(tok .MINUS "-", tok .ID "b", []), (tok .MINUS "-", tok .ID "c", [])]
      (by simp [isAtom, tok]) (by simp) (by simp [isAtom, tok])).2
      (startOn [tok .ID "a", tok .MINUS "-", tok .ID "b", tok .MINUS "-", tok .ID "c"]) []
      ⟨rfl, rfl, rfl, rfl⟩ (by simp [okSimple, nextType])
  exact ⟨r, s1, h1, h2, h3, h6⟩

/-! ## Expressions: at most one relational operator -/

theorem isRelop_okSimple {tk : TokenType} (h : isRelop tk) : okSimple tk := by
  rcases h with h | h | h | h | h <;> simp [h, okSimple]

theorem exp_plain (f : Nat) (s : PState) {t : Option Nat} {s1 : PState}
    (h : simple_exp f s = some (t, s1)) (hr : ¬ isRelop s1.token) :
    exp (f + 1) s = some (t, s1) := by
  rw [exp.eq_2, h]
  simp only [isRelop] at hr
  simp [hr]

theorem exp_rel (f : Nat) (s : PState) {t : Option Nat} {s1 : PState}
    (h : simple_exp f s = some (t, s1)) (hr : isRelop s1.token) :
    exp (f + 1) s =
      (simple_exp f (advance (s1.withHeap (s1.heap ++
          [((freshNode (.exp .OpK) s1).withChild0 t).withAttr (.op s1.token)])))).bind
        (fun x => (setChild1 s1.heap.length x.1 x.2).bind
          (fun s5 => some (some s1.heap.length, s5))) := by
  rw [exp.eq_2, h]
  simp only [isRelop] at hr
  simp only [Option.bind_eq_bind, Option.some_bind, hr, if_true, newExpNode, alloc_fst,
    alloc_snd, setChild0, setAttr, write_fresh, PState.withHeap_token, Option.pure_def]
  rw [match_hit (by simp)]

theorem reads_exp_plain {l : List Token} {T : Tree} (h : Reads simple_exp okSimple l T) :
    Reads exp (fun tk => okSimple tk ∧ ¬ isRelop tk) l T := by
  intro s rest hp hok
  obtain ⟨r, s1, ⟨N, hN⟩, hp1, herr, hlist, he, hd⟩ := h s rest hp hok.1
  refine ⟨r, s1, ⟨N + 1, fun f hf => ?_⟩, hp1, herr, hlist, he, hd⟩
  obtain ⟨f, rfl⟩ : ∃ g, f = g + 1 := ⟨f - 1, by omega⟩
  exact exp_plain f s (hN f (by omega)) (hp1.token_next ▸ hok.2)

/-- After `l1 o l2`, with `o` relational, `exp` returns whatever follows:
a second relational operator is left pending. -/
theorem reads_exp_rel {l1 l2 : List Token} {T1 T2 : Tree} {o : Token}
    (h1 : Reads simple_exp okSimple l1 T1) (ho : isRelop o.type)
    (h2 : Reads simple_exp okSimple l2 T2) :
    Reads exp okSimple (l1 ++ o :: l2) (.binop o.type T1 T2) := by
  intro s rest hp hok
  rw [List.append_assoc] at hp
  obtain ⟨t, s1, ⟨N1, hN1⟩, hp1, herr1, hlist1, he1, hd1⟩ :=
    h1 s _ hp (by simpa [nextType] using isRelop_okSimple ho)
  have htok : s1.token = o.type := hp1.1
  have hp2 : Pending (advance (s1.withHeap (s1.heap ++
      [((freshNode (.exp .OpK) s1).withChild0 t).withAttr (.op s1.token)]))) (l2 ++ rest) :=
    @Pending.step _ o _ ((Pending_withHeap _ _ _).mpr hp1)
  obtain ⟨r, s4, ⟨N2, hN2⟩, hp4, herr4, hlist4, he4, hd4⟩ := h2 _ _ hp2 hok
  simp only [advance_heap, PState.withHeap_heap, List.length_append, List.length_singleton,
    advance_Error, advance_listing, PState.withHeap_Error, PState.withHeap_listing]
    at he4 hd4 herr4 hlist4
  have hcell : s4.heap[s1.heap.length]? =
      some (((freshNode (.exp .OpK) s1).withChild0 t).withAttr (.op s1.token)) := by
    rw [he4.2 _ (Nat.lt_succ_self _)]
    simp
  have hlt : s1.heap.length < s4.heap.length := by
    have := he4.1
    simp only [List.length_append, List.length_singleton] at this
    omega
  have hagree : ∀ a, a < s1.heap.length →
      (s4.heap.set s1.heap.length
        ((((freshNode (.exp .OpK) s1).withChild0 t).withAttr (.op s1.token)).withChild1 r))[a]?
        = s1.heap[a]? := by
    intro a ha
    rw [List.getElem?_set_ne (by omega), he4.2 a (by omega), List.getElem?_append_left ha]
  refine ⟨some s1.heap.length, s4.withHeap (s4.heap.set s1.heap.length
      ((((freshNode (.exp .OpK) s1).withChild0 t).withAttr (.op s1.token)).withChild1 r)),
    ⟨max N1 N2 + 1, fun f hf => ?_⟩, (Pending_withHeap _ _ _).mpr hp4,
    by simp [herr4, herr1], by simp [hlist4, hlist1], ?_, ?_⟩
  · obtain ⟨f, rfl⟩ : ∃ g, f = g + 1 := ⟨f - 1, by omega⟩
    rw [exp_rel f s (hN1 f (by omega)) (htok ▸ ho), hN2 f (by omega)]
    simp only [Option.some_bind, setChild1, write_at _ hcell]
  · refine ⟨by simp only [PState.withHeap_heap, List.length_set]; have := he1.1; omega,
      fun a ha => ?_⟩
    simp only [PState.withHeap_heap]
    rw [hagree a (by have := he1.1; omega)]
    exact he1.2 a ha
  · simp only [PState.withHeap_heap, denotes, Tree.binop, List.getElem?_set_self hlt,
      TreeNode.withChild1_kind, TreeNode.withAttr_kind, TreeNode.withChild0_kind,
      freshNode_kind, TreeNode.withChild1_attr, TreeNode.withAttr_attr, ← htok,
      TreeNode.withChild1_child0, TreeNode.withAttr_child0, TreeNode.withChild0_child0,
      TreeNode.withChild1_child1, TreeNode.withChild1_child2, TreeNode.withAttr_child2,
      TreeNode.withChild0_child2, freshNode_child2, TreeNode.withChild1_sibling,
      TreeNode.withAttr_sibling, TreeNode.withChild0_sibling, freshNode_sibling,
      decide_True, Bool.true_and, Option.isNone_none, Bool.and_true, he1.1,
      Bool.and_eq_true]
    exact ⟨denotes_of_agree (fun a _ ha => hagree a ha) _ _ hd1,
      denotes_lower (by have := he1.1; omega) _ _
        (denotes_set_below _ (Nat.lt_succ_self _) hd4)⟩

/-! ## Steps of the state -/

@[simp] theorem mu_withHeap (s : PState) (h : List TreeNode) : mu (s.withHeap h) = mu s := rfl

@[simp] theorem mu_syntaxError (m : String) (s : PState) : mu (syntaxError m s) = mu s := rfl

theorem mu_advance_le (s : PState) : mu (advance s) ≤ mu s := by
  unfold mu advance getToken
  cases hi : s.input with
  | nil => simp
  | cons tk l => simp only [List.length_cons]; split <;> split <;> omega

theorem mu_advance_lt (s : PState) (h : mu s ≠ 0) : mu (advance s) < mu s := by
  unfold mu advance getToken
  unfold mu at h
  cases hi : s.input with
  | nil =>
    rw [hi] at h
    simp only [List.length_nil, Nat.mul_zero, Nat.zero_add] at h ⊢
    split at h
    · exact absurd rfl h
    · simp [*]
  | cons tk l => simp only [List.length_cons]; split <;> split <;> omega

theorem mu_match_le (e : TokenType) (s : PState) : mu (match_ e s) ≤ mu s := by
  unfold match_
  split
  · exact mu_advance_le s
  · simp

theorem mu_pos_of_token {s : PState} (h : s.token ≠ .ENDFILE) : mu s ≠ 0 := by
  unfold mu
  simp [h]

theorem mu_eq_zero {s : PState} (h : mu s = 0) : s.token = .ENDFILE ∧ s.input = [] := by
  unfold mu at h
  by_cases ht : s.token = .ENDFILE
  · simp only [ht, if_true, Nat.add_zero, Nat.mul_eq_zero] at h
    exact ⟨ht, List.length_eq_zero.mp (by omega)⟩
  · simp [ht] at h

theorem advance_of_mu_zero {s : PState} (h : mu s = 0) : mu (advance s) = 0 := by
  have := mu_advance_le s
  omega

theorem advance_token_eof {s : PState} (h : s.input = []) : (advance s).token = .ENDFILE := by
  simp [advance, getToken, h]

theorem Step.here (base : Nat) (s : PState) : Step base s s :=
  ⟨HExt.refl _ _, Nat.le_refl _, id⟩

theorem Step.andThen {base : Nat} {s s1 s2 : PState} (a : Step base s s1) (b : Step base s1 s2) :
    Step base s s2 :=
  ⟨a.ext.trans b.ext, Nat.le_trans b.mu_le a.mu_le, fun h => b.err (a.err h)⟩

theorem Step.relax {base base1 : Nat} {s s1 : PState} (a : Step base s s1)
    (hb : base1 ≤ base) : Step base1 s s1 :=
  ⟨a.ext.weaken hb, a.mu_le, a.err⟩

/-- A step followed by a fetch. -/
theorem Step.then_advance {base : Nat} {s s1 : PState} (a : Step base s s1) :
    Step base s (advance s1) :=
  a.andThen ⟨by simpa using HExt.refl _ _, mu_advance_le _, by simp⟩

/-- A step followed by an error report. -/
theorem Step.then_error {base : Nat} {s s1 : PState} (m : String) (a : Step base s s1) :
    Step base s (syntaxError m s1) :=
  a.andThen ⟨by simpa using HExt.refl _ _, by simp, by simp⟩

/-- A step followed by `match`. -/
theorem Step.then_match {base : Nat} {s s1 : PState} (e : TokenType) (a : Step base s s1) :
    Step base s (match_ e s1) := by
  unfold match_
  split
  · exact a.then_advance
  · exact a.then_error _

/-- A step followed by an allocation. -/
theorem Step.then_alloc {base : Nat} {s s1 : PState} (n : TreeNode) (a : Step base s s1)
    (hb : base ≤ s1.heap.length) : Step base s (s1.withHeap (s1.heap ++ [n])) :=
  a.andThen ⟨HExt.append _ _ hb, by simp, by simp⟩

/-- A step followed by any change of the heap that grows it above `base`. -/
theorem Step.then_heap {base : Nat} {s s1 : PState} {h : List TreeNode} (a : Step base s s1)
    (hh : HExt base s1.heap h) : Step base s (s1.withHeap h) :=
  a.andThen ⟨hh, by simp, by simp⟩

/-- A step followed by a write at or above `base`. -/
theorem Step.then_write {base : Nat} {s s1 : PState} (t : Nat) (n : TreeNode)
    (a : Step base s s1) (hb : base ≤ t) : Step base s (s1.withHeap (s1.heap.set t n)) :=
  a.andThen ⟨HExt.set _ _ _ hb, by simp, by simp⟩

/-- A step followed by a procedure that keeps `Post`. -/
theorem Step.then_post {base : Nat} {s s1 s2 : PState} {r : Option Nat} (a : Step base s s1)
    (p : Post s1 r s2) (hb : base ≤ s1.heap.length) : Step base s s2 :=
  a.andThen (p.step.relax hb)

/-- A node that exists before a procedure runs is the same afterwards. -/
theorem Post.cell {s s1 : PState} {r : Option Nat} (p : Post s r s1) {t : Nat} {n : TreeNode}
    (h : s.heap[t]? = some n) : s1.heap[t]? = some n := by
  have hlt : t < s.heap.length := by
    by_contra hc
    rw [List.getElem?_eq_none (by omega)] at h
    cases h
  rw [p.step.ext.2 t hlt, h]

theorem Post.len {s s1 : PState} {r : Option Nat} (p : Post s r s1) :
    s.heap.length ≤ s1.heap.length := p.step.ext.1

theorem cell_lt {h : List TreeNode} {t : Nat} {n : TreeNode} (hc : h[t]? = some n) :
    t < h.length := by
  by_contra hx
  rw [List.getElem?_eq_none (by omega)] at hc
  cases hc

/-- More budget gives the same result: a procedure that returns, returns one
thing only. -/
theorem Returns.unique {F : Nat → PState → Res}
    (hF : ∀ f g, f ≤ g → ∀ s, LessDef (F f s) (F g s)) {s : PState} {r : Option Nat}
    {s1 : PState} (h : Returns F s r s1) {f : Nat} {x : Option Nat × PState}
    (hx : F f s = some x) : x = (r, s1) := by
  obtain ⟨N, hN⟩ := h
  have h1 := hF f (max N f) (Nat.le_max_right _ _) s x hx
  rw [hN (max N f) (Nat.le_max_left _ _)] at h1
  exact (Option.some.inj h1).symm

/-! ## Expressions always return -/

theorem factor_runs (s : PState) (hexp : ∀ s1, mu s1 < mu s → Runs exp s1) :
    Runs factor s := by
  have hatom : ∀ (k : ExpKind) (a : Attr), s.token ≠ .ENDFILE →
      (∀ f, factor (f + 1) s = some (some s.heap.length,
        advance (s.withHeap (s.heap ++ [(freshNode (.exp k) s).withAttr a])))) →
      Runs factor s := by
    intro k a hne hf
    refine ⟨_, _, Returns.intro 1 (fun f => by rw [Nat.add_comm]; exact hf f), ⟨?_, ?_, ?_⟩, ?_⟩
    · exact ((Step.here _ s).then_alloc _ (Nat.le_refl _)).then_advance
    · rintro p ⟨⟩; simp
    · intro h; cases h
    · right
      exact Nat.lt_of_lt_of_le (mu_advance_lt _ (by simpa using mu_pos_of_token hne))
        (by simp)
  by_cases h1 : s.token = .NUM
  · refine hatom .ConstK (.val (atoi s.tokenString)) (by simp [h1]) (fun f => ?_)
    rw [factor.eq_2]
    simp only [h1, newExpNode, alloc_fst, alloc_snd, setAttr, write_fresh,
      Option.bind_eq_bind, Option.some_bind, PState.withHeap_tokenString, Option.pure_def]
    rw [match_hit (by simp [h1])]
  by_cases h2 : s.token = .ID
  · refine hatom .IdK (.name s.tokenString) (by simp [h2]) (fun f => ?_)
    rw [factor.eq_2]
    simp only [h2, newExpNode, alloc_fst, alloc_snd, setAttr, write_fresh,
      Option.bind_eq_bind, Option.some_bind, PState.withHeap_tokenString, Option.pure_def]
    rw [match_hit (by simp [h2])]
  by_cases h3 : s.token = .STR
  · refine hatom .StrK (.name s.tokenString) (by simp [h3]) (fun f => ?_)
    rw [factor.eq_2]
    simp only [h3, newExpNode, alloc_fst, alloc_snd, setAttr, write_fresh,
      Option.bind_eq_bind, Option.some_bind, PState.withHeap_tokenString, Option.pure_def]
    rw [match_hit (by simp [h3])]
  by_cases h4 : s.token = .LPAREN
  · have hlt : mu (advance s) < mu s := mu_advance_lt s (mu_pos_of_token (by simp [h4]))
    obtain ⟨r, s1, ⟨N, hN⟩, hP, -⟩ := hexp _ hlt
    refine ⟨r, match_ .RPAREN s1, ⟨N + 1, fun f hf => ?_⟩, ⟨?_, ?_, ?_⟩, Or.inr ?_⟩
    · obtain ⟨f, rfl⟩ : ∃ g, f = g + 1 := ⟨f - 1, by omega⟩
      rw [factor.eq_2]
      simp only [h4, match_hit, Option.bind_eq_bind, hN f (by omega), Option.some_bind,
        Option.pure_def]
    · exact (((Step.here _ s).then_advance).then_post hP (by simp)).then_match _
    · intro p hp
      have := hP.fresh p hp
      simpa using this
    · intro hr
      exact ((Step.here 0 s1).then_match _).err (hP.absent hr)
    · have := hP.step.mu_le
      have := mu_match_le .RPAREN s1
      omega
  · refine ⟨none, advance (syntaxError "unexpected token -> " s),
      Returns.intro 1 (fun f => ?_), ⟨?_, ?_, ?_⟩, ?_⟩
    · rw [Nat.add_comm, factor.eq_2]
      split <;> simp_all
    · exact ((Step.here _ s).then_error _).then_advance
    · intro p hp; cases hp
    · intro _; simp
    · by_cases hz : mu s = 0
      · exact Or.inl hz
      · right
        have := mu_advance_lt (syntaxError "unexpected token -> " s) (by simpa using hz)
        simpa using this

theorem term_loop_runs (t : Option Nat) (s : PState)
    (hfac : ∀ s1, mu s1 < mu s → Runs factor s1)
    (hrec : ∀ t1 s1, mu s1 < mu s → LoopRuns term_loop t1 s1) : LoopRuns term_loop t s := by
  by_cases h : s.token = .TIMES ∨ s.token = .OVER
  · have hne : s.token ≠ .ENDFILE := by rcases h with h | h <;> simp [h]
    have hlt : mu (advance (s.withHeap (s.heap ++
        [((freshNode (.exp .OpK) s).withChild0 t).withAttr (.op s.token)]))) < mu s :=
      Nat.lt_of_lt_of_le (mu_advance_lt _ (by simpa using mu_pos_of_token hne)) (by simp)
    obtain ⟨c, s1, ⟨N1, hN1⟩, hP1, -⟩ := hfac _ hlt
    have hcell : s1.heap[s.heap.length]? =
        some (((freshNode (.exp .OpK) s).withChild0 t).withAttr (.op s.token)) :=
      hP1.cell (by simp)
    have hlen := hP1.len
    simp only [advance_heap, PState.withHeap_heap, List.length_append,
      List.length_singleton] at hlen
    obtain ⟨r, s2, ⟨N2, hN2⟩, hS2, hr2⟩ := hrec (some s.heap.length)
      (s1.withHeap (s1.heap.set s.heap.length
        ((((freshNode (.exp .OpK) s).withChild0 t).withAttr (.op s.token)).withChild1 c)))
      (by have := hP1.step.mu_le; simp only [mu_withHeap]; omega)
    have hlen2 := hS2.ext.1
    simp only [PState.withHeap_heap, List.length_set] at hlen2
    refine ⟨r, s2, ⟨max N1 N2 + 1, fun f hf => ?_⟩, ?_, Or.inr ?_⟩
    · obtain ⟨f, rfl⟩ : ∃ g, f = g + 1 := ⟨f - 1, by omega⟩
      show term_loop (f + 1) t s = _
      rw [term_loop_step f t s h, hN1 f (by omega)]
      simp only [Option.some_bind, setChild1, write_at _ hcell]
      exact hN2 f (by omega)
    · refine (((((Step.here _ s).then_alloc _ (Nat.le_refl _)).then_advance).then_post hP1
        (by simp)).then_write _ _ (Nat.le_refl _)).andThen (hS2.relax ?_)
      simp only [PState.withHeap_heap, List.length_set]; omega
    · rcases hr2 with rfl | ⟨p, rfl, hp1, hp2⟩
      · exact ⟨_, rfl, Nat.le_refl _, by omega⟩
      · refine ⟨p, rfl, ?_, hp2⟩
        simp only [PState.withHeap_heap, List.length_set] at hp1
        omega
  · refine ⟨t, s, Returns.intro 1 (fun f => ?_), Step.here _ _, Or.inl rfl⟩
    rw [Nat.add_comm]
    exact term_loop_exit f t s (fun hx => h (Or.inl hx)) (fun hx => h (Or.inr hx))

theorem term_runs (s : PState) (hfac : Runs factor s)
    (hloop : ∀ t1 s1, mu s1 ≤ mu s → LoopRuns term_loop t1 s1) : Runs term s := by
  obtain ⟨t, s1, ⟨N1, hN1⟩, hP1, hc1⟩ := hfac
  obtain ⟨r, s2, ⟨N2, hN2⟩, hS2, hr2⟩ := hloop t s1 hP1.step.mu_le
  refine ⟨r, s2, ⟨max N1 N2 + 1, fun f hf => ?_⟩, ⟨?_, ?_, ?_⟩, ?_⟩
  · obtain ⟨f, rfl⟩ : ∃ g, f = g + 1 := ⟨f - 1, by omega⟩
    rw [term.eq_2, hN1 f (by omega)]
    exact hN2 f (by omega)
  · exact (Step.here _ s).then_post hP1 (Nat.le_refl _) |>.andThen (hS2.relax hP1.len)
  · intro p hp
    rcases hr2 with rfl | ⟨q, rfl, hq1, hq2⟩
    · have := hP1.fresh p hp
      have := hS2.ext.1
      omega
    · cases hp
      have := hP1.len
      omega
  · intro hr
    rcases hr2 with rfl | ⟨q, rfl, -, -⟩
    · exact hS2.err (hP1.absent hr)
    · cases hr
  · have := hS2.mu_le
    omega

theorem simple_exp_loop_runs (t : Option Nat) (s : PState)
    (hterm : ∀ s1, mu s1 < mu s → Runs term s1)
    (hrec : ∀ t1 s1, mu s1 < mu s → LoopRuns simple_exp_loop t1 s1) : LoopRuns simple_exp_loop t s := by
  by_cases h : s.token = .PLUS ∨ s.token = .MINUS
  · have hne : s.token ≠ .ENDFILE := by rcases h with h | h <;> simp [h]
    have hlt : mu (advance (s.withHeap (s.heap ++
        [((freshNode (.exp .OpK) s).withChild0 t).withAttr (.op s.token)]))) < mu s :=
      Nat.lt_of_lt_of_le (mu_advance_lt _ (by simpa using mu_pos_of_token hne)) (by simp)
    obtain ⟨c, s1, ⟨N1, hN1⟩, hP1, -⟩ := hterm _ hlt
    have hcell : s1.heap[s.heap.length]? =
        some (((freshNode (.exp .OpK) s).withChild0 t).withAttr (.op s.token)) :=
      hP1.cell (by simp)
    have hlen := hP1.len
    simp only [advance_heap, PState.withHeap_heap, List.length_append,
      List.length_singleton] at hlen
    obtain ⟨r, s2, ⟨N2, hN2⟩, hS2, hr2⟩ := hrec (some s.heap.length)
      (s1.withHeap (s1.heap.set s.heap.length
        ((((freshNode (.exp .OpK) s).withChild0 t).withAttr (.op s.token)).withChild1 c)))
      (by have := hP1.step.mu_le; simp only [mu_withHeap]; omega)
    have hlen2 := hS2.ext.1
    simp only [PState.withHeap_heap, List.length_set] at hlen2
    refine ⟨r, s2, ⟨max N1 N2 + 1, fun f hf => ?_⟩, ?_, Or.inr ?_⟩
    · obtain ⟨f, rfl⟩ : ∃ g, f = g + 1 := ⟨f - 1, by omega⟩
      show simple_exp_loop (f + 1) t s = _
      rw [simple_exp_loop_step f t s h, hN1 f (by omega)]
      simp only [Option.some_bind, setChild1, write_at _ hcell]
      exact hN2 f (by omega)
    · refine (((((Step.here _ s).then_alloc _ (Nat.le_refl _)).then_advance).then_post hP1
        (by simp)).then_write _ _ (Nat.le_refl _)).andThen (hS2.relax ?_)
      simp only [PState.withHeap_heap, List.length_set]; omega
    · rcases hr2 with rfl | ⟨p, rfl, hp1, hp2⟩
      · exact ⟨_, rfl, Nat.le_refl _, by omega⟩
      · refine ⟨p, rfl, ?_, hp2⟩
        simp only [PState.withHeap_heap, List.length_set] at hp1
        omega
  · refine ⟨t, s, Returns.intro 1 (fun f => ?_), Step.here _ _, Or.inl rfl⟩
    rw [Nat.add_comm]
    exact simple_exp_loop_exit f t s (fun hx => h (Or.inl hx)) (fun hx => h (Or.inr hx))

theorem simple_exp_runs (s : PState) (hterm : Runs term s)
    (hloop : ∀ t1 s1, mu s1 ≤ mu s → LoopRuns simple_exp_loop t1 s1) : Runs simple_exp s := by
  obtain ⟨t, s1, ⟨N1, hN1⟩, hP1, hc1⟩ := hterm
  obtain ⟨r, s2, ⟨N2, hN2⟩, hS2, hr2⟩ := hloop t s1 hP1.step.mu_le
  refine ⟨r, s2, ⟨max N1 N2 + 1, fun f hf => ?_⟩, ⟨?_, ?_, ?_⟩, ?_⟩
  · obtain ⟨f, rfl⟩ : ∃ g, f = g + 1 := ⟨f - 1, by omega⟩
    rw [simple_exp.eq_2, hN1 f (by omega)]
    exact hN2 f (by omega)
  · exact (Step.here _ s).then_post hP1 (Nat.le_refl _) |>.andThen (hS2.relax hP1.len)
  · intro p hp
    rcases hr2 with rfl | ⟨q, rfl, hq1, hq2⟩
    · have := hP1.fresh p hp
      have := hS2.ext.1
      omega
    · cases hp
      have := hP1.len
      omega
  · intro hr
    rcases hr2 with rfl | ⟨q, rfl, -, -⟩
    · exact hS2.err (hP1.absent hr)
    · cases hr
  · have := hS2.mu_le
    omega

theorem exp_runs (s : PState) (hse : Runs simple_exp s)
    (hse2 : ∀ s1, mu s1 < mu s → Runs simple_exp s1) : Runs exp s := by
  obtain ⟨t, s1, ⟨N1, hN1⟩, hP1, hc1⟩ := hse
  by_cases hr : isRelop s1.token
  · have hne : s1.token ≠ .ENDFILE := by rcases hr with h | h | h | h | h <;> simp [h]
    have hlt : mu (advance (s1.withHeap (s1.heap ++
        [((freshNode (.exp .OpK) s1).withChild0 t).withAttr (.op s1.token)]))) < mu s1 :=
      Nat.lt_of_lt_of_le (mu_advance_lt _ (by simpa using mu_pos_of_token hne)) (by simp)
    have hmu1 := hP1.step.mu_le
    obtain ⟨c, s2, ⟨N2, hN2⟩, hP2, -⟩ := hse2 _ (Nat.lt_of_lt_of_le hlt hmu1)
    have hcell : s2.heap[s1.heap.length]? =
        some (((freshNode (.exp .OpK) s1).withChild0 t).withAttr (.op s1.token)) :=
      hP2.cell (by simp)
    have hlen := hP2.len
    simp only [advance_heap, PState.withHeap_heap, List.length_append,
      List.length_singleton] at hlen
    have hlen1 := hP1.len
    refine ⟨some s1.heap.length, s2.withHeap (s2.heap.set s1.heap.length
        ((((freshNode (.exp .OpK) s1).withChild0 t).withAttr (.op s1.token)).withChild1 c)),
      ⟨max N1 N2 + 1, fun f hf => ?_⟩, ⟨?_, ?_, ?_⟩, Or.inr ?_⟩
    · obtain ⟨f, rfl⟩ : ∃ g, f = g + 1 := ⟨f - 1, by omega⟩
      rw [exp_rel f s (hN1 f (by omega)) hr, hN2 f (by omega)]
      simp only [Option.some_bind, setChild1, write_at _ hcell]
    · exact ((((((Step.here _ s).then_post hP1 (Nat.le_refl _)).then_alloc _ hlen1).then_advance
        ).then_post hP2 (by simp; omega)).then_write _ _ hlen1)
    · rintro p ⟨⟩
      simp only [PState.withHeap_heap, List.length_set]
      omega
    · intro h; cases h
    · have := hP2.step.mu_le
      simp only [mu_withHeap]
      omega
  · refine ⟨t, s1, ⟨N1 + 1, fun f hf => ?_⟩, hP1, hc1⟩
    obtain ⟨f, rfl⟩ : ∃ g, f = g + 1 := ⟨f - 1, by omega⟩
    exact exp_plain f s (hN1 f (by omega)) hr

/-- Every procedure of the expression grammar returns, from every state. -/
theorem exp_level (s : PState) :
    Runs factor s ∧ (∀ t, LoopRuns term_loop t s) ∧ Runs term s ∧
      (∀ t, LoopRuns simple_exp_loop t s) ∧ Runs simple_exp s ∧ Runs exp s := by
  generalize hn : mu s = n
  induction n using Nat.strong_induction_on generalizing s with
  | _ n ih =>
    subst hn
    have hfac : Runs factor s := factor_runs s (fun s1 h1 => (ih _ h1 s1 rfl).2.2.2.2.2)
    have htl : ∀ t1 s1, mu s1 ≤ mu s → LoopRuns term_loop t1 s1 := by
      intro t1 s1 h1
      rcases Nat.lt_or_eq_of_le h1 with h | h
      · exact (ih _ h s1 rfl).2.1 t1
      · exact term_loop_runs t1 s1 (fun s2 h2 => (ih _ (h ▸ h2) s2 rfl).1)
          (fun t2 s2 h2 => (ih _ (h ▸ h2) s2 rfl).2.1 t2)
    have hterm : Runs term s := term_runs s hfac htl
    have hsl : ∀ t1 s1, mu s1 ≤ mu s → LoopRuns simple_exp_loop t1 s1 := by
      intro t1 s1 h1
      rcases Nat.lt_or_eq_of_le h1 with h | h
      · exact (ih _ h s1 rfl).2.2.2.1 t1
      · exact simple_exp_loop_runs t1 s1 (fun s2 h2 => (ih _ (h ▸ h2) s2 rfl).2.2.1)
          (fun t2 s2 h2 => (ih _ (h ▸ h2) s2 rfl).2.2.2.1 t2)
    have hse : Runs simple_exp s := simple_exp_runs s hterm hsl
    exact ⟨hfac, fun t => htl t s (Nat.le_refl _), hterm, fun t => hsl t s (Nat.le_refl _), hse,
      exp_runs s hse (fun s1 h1 => (ih _ h1 s1 rfl).2.2.2.2.1)⟩

/-! ## Statements always return -/

theorem cell_last (h : List TreeNode) (n : TreeNode) : (h ++ [n])[h.length]? = some n := by
  simp

theorem cell_set {h : List TreeNode} {t : Nat} (n : TreeNode) (hlt : t < h.length) :
    (h.set t n)[t]? = some n := List.getElem?_set_self hlt

theorem cell_set_ne {h : List TreeNode} {t a : Nat} (n : TreeNode) (hne : t ≠ a) :
    (h.set t n)[a]? = h[a]? := List.getElem?_set_ne hne

/-- A statement node that has no sibling is a `Unit`. -/
theorem Unit.single (k : StmtKind) {h : List TreeNode} {q : Nat} {n : TreeNode}
    (hc : h[q]? = some n) (hk : n.kind = .stmt k) (hne : k ≠ .ElseK) (hs : n.sibling = none) :
    Unit h q :=
  ⟨n, hc, ⟨k, hk, hne⟩, Or.inl hs⟩

theorem mu_progress {a b c : Nat} (h1 : b ≤ a) (h2 : c ≤ b) (h3 : b = 0 ∨ c < b) :
    a = 0 ∨ c < a := by omega

theorem write_stmt_runs (s : PState) : RunsStmt write_stmt s := by
  obtain ⟨c, s1, ⟨N1, hN1⟩, hP1, hc1⟩ :=
    (exp_level (match_ .WRITE (s.withHeap (s.heap ++ [freshNode (.stmt .WriteK) s])))).2.2.2.2.2
  have hcell : s1.heap[s.heap.length]? = some (freshNode (.stmt .WriteK) s) :=
    hP1.cell (by simp)
  have hlt := cell_lt hcell
  refine ⟨some s.heap.length, s1.withHeap (s1.heap.set s.heap.length
      ((freshNode (.stmt .WriteK) s).withChild0 c)),
    ⟨N1 + 1, fun f hf => ?_⟩, ⟨?_, ?_, ?_⟩, ?_, ?_⟩
  · obtain ⟨f, rfl⟩ : ∃ g, f = g + 1 := ⟨f - 1, by omega⟩
    rw [write_stmt.eq_2]
    simp only [newStmtNode, alloc_fst, alloc_snd, Option.bind_eq_bind, hN1 f (by omega),
      Option.some_bind, setChild0, write_at _ hcell, Option.pure_def]
  · exact ((((Step.here _ s).then_alloc _ (Nat.le_refl _)).then_match _).then_post hP1
      (by simp)).then_write _ _ (Nat.le_refl _)
  · rintro p ⟨⟩
    simpa using hlt
  · intro h; cases h
  · refine mu_progress ?_ hP1.step.mu_le hc1
    have h1 := mu_match_le TokenType.WRITE (s.withHeap (s.heap ++ [freshNode (.stmt .WriteK) s]))
    simpa using h1
  · rintro p ⟨⟩
    exact Unit.single .WriteK (cell_set _ hlt) rfl (by decide) rfl

theorem assign_stmt_runs (s : PState) : RunsStmt assign_stmt s := by
  obtain ⟨n0, hn0, hk0, hs0⟩ : ∃ n0 : TreeNode,
      (if s.token = .ID then
          setAttr s.heap.length (.name s.tokenString)
            (s.withHeap (s.heap ++ [freshNode (.stmt .AssignK) s]))
        else some (s.withHeap (s.heap ++ [freshNode (.stmt .AssignK) s])))
        = some (s.withHeap (s.heap ++ [n0])) ∧
      n0.kind = .stmt .AssignK ∧ n0.sibling = none := by
    by_cases h : s.token = .ID
    · exact ⟨(freshNode (.stmt .AssignK) s).withAttr (.name s.tokenString),
        by simp only [h, if_true, setAttr, write_fresh], rfl, rfl⟩
    · exact ⟨freshNode (.stmt .AssignK) s, by simp only [h, if_false], rfl, rfl⟩
  obtain ⟨c, s1, ⟨N1, hN1⟩, hP1, hc1⟩ :=
    (exp_level (match_ .ASSIGN (match_ .ID (s.withHeap (s.heap ++ [n0]))))).2.2.2.2.2
  have hcell : s1.heap[s.heap.length]? = some n0 := hP1.cell (by simp)
  have hlt := cell_lt hcell
  refine ⟨some s.heap.length, s1.withHeap (s1.heap.set s.heap.length (n0.withChild0 c)),
    ⟨N1 + 1, fun f hf => ?_⟩, ⟨?_, ?_, ?_⟩, ?_, ?_⟩
  · obtain ⟨f, rfl⟩ : ∃ g, f = g + 1 := ⟨f - 1, by omega⟩
    rw [assign_stmt.eq_2]
    simp only [newStmtNode, alloc_fst, alloc_snd, PState.withHeap_token,
      PState.withHeap_tokenString, hn0, Option.bind_eq_bind, Option.some_bind,
      hN1 f (by omega), setChild0, write_at _ hcell, Option.pure_def]
  · exact (((((Step.here _ s).then_alloc _ (Nat.le_refl _)).then_match _).then_match _).then_post
      hP1 (by simp)).then_write _ _ (Nat.le_refl _)
  · rintro p ⟨⟩
    simpa using hlt
  · intro h; cases h
  · refine mu_progress ?_ hP1.step.mu_le hc1
    have h1 := mu_match_le TokenType.ASSIGN (match_ .ID (s.withHeap (s.heap ++ [n0])))
    have h2 := mu_match_le TokenType.ID (s.withHeap (s.heap ++ [n0]))
    simp only [mu_withHeap] at h2
    omega
  · rintro p ⟨⟩
    exact Unit.single .AssignK (cell_set _ hlt) hk0 (by decide) hs0

theorem to_stmt_runs (s : PState) : Runs to_stmt s := by
  obtain ⟨k, e, hf⟩ : ∃ (k : StmtKind) (e : TokenType), ∀ f, to_stmt (f + 1) s =
      (factor f (match_ e (s.withHeap (s.heap ++ [freshNode (.stmt k) s])))).bind
        (fun x => (setChild0 s.heap.length x.1 x.2).bind
          (fun s5 => some (some s.heap.length, s5))) := by
    by_cases h : s.token = .TO
    · refine ⟨.ToK, .TO, fun f => ?_⟩
      rw [to_stmt.eq_2]
      simp only [h, if_true, newStmtNode, alloc_fst, alloc_snd, Option.bind_eq_bind,
        Option.pure_def]
    · refine ⟨.DownK, .DOWNTO, fun f => ?_⟩
      rw [to_stmt.eq_2]
      simp only [h, if_false, newStmtNode, alloc_fst, alloc_snd, Option.bind_eq_bind,
        Option.pure_def]
  obtain ⟨c, s1, ⟨N1, hN1⟩, hP1, hc1⟩ :=
    (exp_level (match_ e (s.withHeap (s.heap ++ [freshNode (.stmt k) s])))).1
  have hcell : s1.heap[s.heap.length]? = some (freshNode (.stmt k) s) := hP1.cell (by simp)
  have hlt := cell_lt hcell
  refine ⟨some s.heap.length, s1.withHeap (s1.heap.set s.heap.length
      ((freshNode (.stmt k) s).withChild0 c)),
    ⟨N1 + 1, fun f hf1 => ?_⟩, ⟨?_, ?_, ?_⟩, ?_⟩
  · obtain ⟨f, rfl⟩ : ∃ g, f = g + 1 := ⟨f - 1, by omega⟩
    rw [hf f, hN1 f (by omega)]
    simp only [Option.some_bind, setChild0, write_at _ hcell]
  · exact ((((Step.here _ s).then_alloc _ (Nat.le_refl _)).then_match _).then_post hP1
      (by simp)).then_write _ _ (Nat.le_refl _)
  · rintro p ⟨⟩
    simpa using hlt
  · intro h; cases h
  · refine mu_progress ?_ hP1.step.mu_le hc1
    have h1 := mu_match_le e (s.withHeap (s.heap ++ [freshNode (.stmt k) s]))
    simpa using h1

theorem advance_withHeap (s : PState) (h : List TreeNode) :
    advance (s.withHeap h) = (advance s).withHeap h := by
  obtain ⟨tk, ts, ln, inp, er, li, hp⟩ := s
  cases inp <;> rfl

theorem match_withHeap (e : TokenType) (s : PState) (h : List TreeNode) :
    match_ e (s.withHeap h) = (match_ e s).withHeap h := by
  simp only [match_, PState.withHeap_token]
  split
  · exact advance_withHeap s h
  · rfl

theorem mu_match_withHeap (e : TokenType) (s : PState) (h : List TreeNode) :
    mu (match_ e (s.withHeap h)) = mu (match_ e s) := by
  rw [match_withHeap, mu_withHeap]

theorem mu_match_hit_lt {e : TokenType} {s : PState} (h : s.token = e) (hne : e ≠ .ENDFILE) :
    mu (match_ e s) < mu s := by
  rw [match_hit h]
  exact mu_advance_lt s (mu_pos_of_token (h ▸ hne))

@[simp] theorem freshNode_withHeap (k : Kind) (s : PState) (h : List TreeNode) :
    freshNode k (s.withHeap h) = freshNode k s := rfl

theorem read_stmt_runs (s : PState) :
    ∃ s1, read_stmt s = some (some s.heap.length, s1) ∧ Post s (some s.heap.length) s1 ∧
      (s.token = .READ → mu s1 < mu s) ∧ Unit s1.heap s.heap.length := by
  obtain ⟨n0, hn0, hk0, hs0⟩ : ∃ n0 : TreeNode,
      (if (match_ .READ (s.withHeap (s.heap ++ [freshNode (.stmt .ReadK) s]))).token = .ID then
          setAttr s.heap.length
            (.name (match_ .READ (s.withHeap (s.heap ++ [freshNode (.stmt .ReadK) s]))).tokenString)
            (match_ .READ (s.withHeap (s.heap ++ [freshNode (.stmt .ReadK) s])))
        else some (match_ .READ (s.withHeap (s.heap ++ [freshNode (.stmt .ReadK) s]))))
        = some ((match_ .READ s).withHeap (s.heap ++ [n0])) ∧
      n0.kind = .stmt .ReadK ∧ n0.sibling = none := by
    rw [match_withHeap]
    by_cases h : ((match_ .READ s).withHeap (s.heap ++ [freshNode (.stmt .ReadK) s])).token = .ID
    · refine ⟨(freshNode (.stmt .ReadK) s).withAttr (.name (match_ .READ s).tokenString), ?_,
        rfl, rfl⟩
      simp only [h, if_true, setAttr, modifyNode, PState.withHeap_heap, cell_last,
        PState.withHeap_tokenString, withHeap_withHeap]
      simp
    · exact ⟨freshNode (.stmt .ReadK) s, by simp only [h, if_false], rfl, rfl⟩
  refine ⟨match_ .ID ((match_ .READ s).withHeap (s.heap ++ [n0])), ?_, ⟨?_, ?_, ?_⟩, ?_, ?_⟩
  · unfold read_stmt
    simp only [newStmtNode, alloc_fst, alloc_snd, hn0, Option.bind_eq_bind, Option.some_bind,
      Option.pure_def]
  · exact (((Step.here s.heap.length s).then_match _).then_heap
      (by simpa using HExt.append s.heap n0 (Nat.le_refl _))).then_match _
  · rintro p ⟨⟩
    simp
  · intro h; cases h
  · intro h
    have h1 := mu_match_le TokenType.ID ((match_ .READ s).withHeap (s.heap ++ [n0]))
    have h2 := mu_match_hit_lt h (by decide)
    simp only [mu_withHeap] at h1
    omega
  · exact Unit.single .ReadK (by simp) hk0 (by decide) hs0

theorem while_stmt_runs (s : PState)
    (hseq : ∀ s1, mu s1 ≤ mu (match_ .DO s) → RunsSeq s1) : RunsStmt while_stmt s := by
  obtain ⟨b, s1, ⟨N1, hN1⟩, hP1, hc1, -⟩ :=
    hseq (match_ .DO (s.withHeap (s.heap ++ [freshNode (.stmt .WhileK) s])))
      (by rw [mu_match_withHeap])
  have hcell1 : s1.heap[s.heap.length]? = some (freshNode (.stmt .WhileK) s) :=
    hP1.cell (by simp)
  have hlt1 := cell_lt hcell1
  obtain ⟨c, s2, ⟨N2, hN2⟩, hP2, hc2⟩ :=
    (exp_level (match_ .WHILE (s1.withHeap (s1.heap.set s.heap.length
      ((freshNode (.stmt .WhileK) s).withChild0 b))))).2.2.2.2.2
  have hcell2 : s2.heap[s.heap.length]? = some ((freshNode (.stmt .WhileK) s).withChild0 b) :=
    hP2.cell (by simpa using cell_set _ hlt1)
  have hlt2 := cell_lt hcell2
  refine ⟨some s.heap.length, s2.withHeap (s2.heap.set s.heap.length
      (((freshNode (.stmt .WhileK) s).withChild0 b).withChild1 c)),
    ⟨max N1 N2 + 1, fun f hf => ?_⟩, ⟨?_, ?_, ?_⟩, ?_, ?_⟩
  · obtain ⟨f, rfl⟩ : ∃ g, f = g + 1 := ⟨f - 1, by omega⟩
    rw [while_stmt.eq_2]
    simp only [newStmtNode, alloc_fst, alloc_snd, Option.bind_eq_bind, hN1 f (by omega),
      Option.some_bind, setChild0, write_at _ hcell1, hN2 f (by omega), setChild1,
      write_at _ hcell2, Option.pure_def]
  · exact (((((((Step.here _ s).then_alloc _ (Nat.le_refl _)).then_match _).then_post hP1
      (by simp)).then_write _ _ (Nat.le_refl _)).then_match _).then_post hP2
      (by simp; omega)).then_write _ _ (Nat.le_refl _)
  · rintro p ⟨⟩
    simpa using hlt2
  · intro h; cases h
  · have h1 := mu_match_le TokenType.DO (s.withHeap (s.heap ++ [freshNode (.stmt .WhileK) s]))
    have h2 := hP1.step.mu_le
    have h3 := mu_match_le TokenType.WHILE (s1.withHeap (s1.heap.set s.heap.length
      ((freshNode (.stmt .WhileK) s).withChild0 b)))
    have h4 := hP2.step.mu_le
    simp only [mu_withHeap] at h1 h3 ⊢
    omega
  · rintro p ⟨⟩
    exact Unit.single .WhileK (cell_set _ hlt2) rfl (by decide) rfl

theorem repeat_stmt_runs (s : PState)
    (hseq : ∀ s1, mu s1 ≤ mu (match_ .REPEAT s) → RunsSeq s1) : RunsStmt repeat_stmt s := by
  obtain ⟨b, s1, ⟨N1, hN1⟩, hP1, hc1, -⟩ :=
    hseq (match_ .REPEAT (s.withHeap (s.heap ++ [freshNode (.stmt .RepeatK) s])))
      (by rw [mu_match_withHeap])
  have hcell1 : s1.heap[s.heap.length]? = some (freshNode (.stmt .RepeatK) s) :=
    hP1.cell (by simp)
  have hlt1 := cell_lt hcell1
  obtain ⟨c, s2, ⟨N2, hN2⟩, hP2, hc2⟩ :=
    (exp_level (match_ .UNTIL (s1.withHeap (s1.heap.set s.heap.length
      ((freshNode (.stmt .RepeatK) s).withChild0 b))))).2.2.2.2.2
  have hcell2 : s2.heap[s.heap.length]? = some ((freshNode (.stmt .RepeatK) s).withChild0 b) :=
    hP2.cell (by simpa using cell_set _ hlt1)
  have hlt2 := cell_lt hcell2
  refine ⟨some s.heap.length, s2.withHeap (s2.heap.set s.heap.length
      (((freshNode (.stmt .RepeatK) s).withChild0 b).withChild1 c)),
    ⟨max N1 N2 + 1, fun f hf => ?_⟩, ⟨?_, ?_, ?_⟩, ?_, ?_⟩
  · obtain ⟨f, rfl⟩ : ∃ g, f = g + 1 := ⟨f - 1, by omega⟩
    rw [repeat_stmt.eq_2]
    simp only [newStmtNode, alloc_fst, alloc_snd, Option.bind_eq_bind, hN1 f (by omega),
      Option.some_bind, setChild0, write_at _ hcell1, hN2 f (by omega), setChild1,
      write_at _ hcell2, Option.pure_def]
  · exact (((((((Step.here _ s).then_alloc _ (Nat.le_refl _)).then_match _).then_post hP1
      (by simp)).then_write _ _ (Nat.le_refl _)).then_match _).then_post hP2
      (by simp; omega)).then_write _ _ (Nat.le_refl _)
  · rintro p ⟨⟩
    simpa using hlt2
  · intro h; cases h
  · have h1 := mu_match_le TokenType.REPEAT (s.withHeap (s.heap ++ [freshNode (.stmt .RepeatK) s]))
    have h2 := hP1.step.mu_le
    have h3 := mu_match_le TokenType.UNTIL (s1.withHeap (s1.heap.set s.heap.length
      ((freshNode (.stmt .RepeatK) s).withChild0 b)))
    have h4 := hP2.step.mu_le
    simp only [mu_withHeap] at h1 h3 ⊢
    omega
  · rintro p ⟨⟩
    exact Unit.single .RepeatK (cell_set _ hlt2) rfl (by decide) rfl

theorem for_stmt_runs (s : PState)
    (hseq : ∀ s1, mu s1 ≤ mu (match_ .FOR s) → RunsSeq s1) : RunsStmt for_stmt s := by
  obtain ⟨a, s1, ⟨N1, hN1⟩, hP1, hc1, -⟩ :=
    assign_stmt_runs (match_ .FOR (s.withHeap (s.heap ++ [freshNode (.stmt .ForK) s])))
  have hcell1 : s1.heap[s.heap.length]? = some (freshNode (.stmt .ForK) s) :=
    hP1.cell (by simp)
  have hlt1 := cell_lt hcell1
  obtain ⟨b, s2, ⟨N2, hN2⟩, hP2, hc2⟩ :=
    to_stmt_runs (s1.withHeap (s1.heap.set s.heap.length
      ((freshNode (.stmt .ForK) s).withChild0 a)))
  have hcell2 : s2.heap[s.heap.length]? = some ((freshNode (.stmt .ForK) s).withChild0 a) :=
    hP2.cell (by simpa using cell_set _ hlt1)
  have hlt2 := cell_lt hcell2
  have hm0 := mu_match_withHeap TokenType.FOR s (s.heap ++ [freshNode (.stmt .ForK) s])
  have hm1 := mu_match_le TokenType.FOR s
  have hm2 := hP1.step.mu_le
  have hm3 := hP2.step.mu_le
  have hm4 := mu_match_le TokenType.THEN (s2.withHeap (s2.heap.set s.heap.length
      (((freshNode (.stmt .ForK) s).withChild0 a).withChild1 b)))
  simp only [mu_withHeap] at hm3 hm4
  obtain ⟨q, s3, ⟨N3, hN3⟩, hP3, hc3, -⟩ :=
    hseq (match_ .THEN (s2.withHeap (s2.heap.set s.heap.length
      (((freshNode (.stmt .ForK) s).withChild0 a).withChild1 b)))) (by omega)
  have hcell3 : s3.heap[s.heap.length]? =
      some (((freshNode (.stmt .ForK) s).withChild0 a).withChild1 b) :=
    hP3.cell (by simpa using cell_set _ hlt2)
  have hlt3 := cell_lt hcell3
  have hm5 := hP3.step.mu_le
  have hm6 := mu_match_le TokenType.END (s3.withHeap (s3.heap.set s.heap.length
      ((((freshNode (.stmt .ForK) s).withChild0 a).withChild1 b).withChild2 q)))
  simp only [mu_withHeap] at hm6
  refine ⟨some s.heap.length, match_ .END (s3.withHeap (s3.heap.set s.heap.length
      ((((freshNode (.stmt .ForK) s).withChild0 a).withChild1 b).withChild2 q))),
    ⟨max N1 (max N2 N3) + 1, fun f hf => ?_⟩, ⟨?_, ?_, ?_⟩, ?_, ?_⟩
  · obtain ⟨f, rfl⟩ : ∃ g, f = g + 1 := ⟨f - 1, by omega⟩
    rw [for_stmt.eq_2]
    simp only [newStmtNode, alloc_fst, alloc_snd, Option.bind_eq_bind, hN1 f (by omega),
      Option.some_bind, setChild0, write_at _ hcell1, hN2 f (by omega), setChild1,
      write_at _ hcell2, hN3 f (by omega), setChild2, write_at _ hcell3, Option.pure_def]
  · exact ((((((((((Step.here _ s).then_alloc _ (Nat.le_refl _)).then_match _).then_post hP1
      (by simp)).then_write _ _ (Nat.le_refl _)).then_post hP2
      (by simp; omega)).then_write _ _ (Nat.le_refl _)).then_match _).then_post hP3
      (by simp; omega)).then_write _ _ (Nat.le_refl _)).then_match _
  · rintro p ⟨⟩
    simpa using hlt3
  · intro h; cases h
  · omega
  · rintro p ⟨⟩
    exact Unit.single .ForK (by simpa using cell_set _ hlt3) rfl (by decide) rfl

theorem if_stmt_runs (s : PState)
    (hseq : ∀ s1, mu s1 ≤ mu (match_ .IF s) → RunsSeq s1) : RunsStmt if_stmt s := by
  obtain ⟨c, s1, ⟨N1, hN1⟩, hP1, hc1⟩ :=
    (exp_level (match_ .IF (s.withHeap (s.heap ++ [freshNode (.stmt .IfK) s])))).2.2.2.2.2
  have hcell1 : s1.heap[s.heap.length]? = some (freshNode (.stmt .IfK) s) :=
    hP1.cell (by simp)
  have hlt1 := cell_lt hcell1
  have hm0 := mu_match_withHeap TokenType.IF s (s.heap ++ [freshNode (.stmt .IfK) s])
  have hm1 := mu_match_le TokenType.IF s
  have hm2 := hP1.step.mu_le
  have hm3 := mu_match_le TokenType.THEN (s1.withHeap (s1.heap.set s.heap.length
      ((freshNode (.stmt .IfK) s).withChild0 c)))
  simp only [mu_withHeap] at hm3
  obtain ⟨b, s2, ⟨N2, hN2⟩, hP2, hc2, -⟩ :=
    hseq (match_ .THEN (s1.withHeap (s1.heap.set s.heap.length
      ((freshNode (.stmt .IfK) s).withChild0 c)))) (by omega)
  have hcell2 : s2.heap[s.heap.length]? = some ((freshNode (.stmt .IfK) s).withChild0 c) :=
    hP2.cell (by simpa using cell_set _ hlt1)
  have hlt2 := cell_lt hcell2
  have hm4 := hP2.step.mu_le
  by_cases hel : s2.token = .ELSE
  · have hm5 := mu_match_le TokenType.ELSE (s2.withHeap (s2.heap.set s.heap.length
        (((freshNode (.stmt .IfK) s).withChild0 c).withChild1 b) ++
        [freshNode (.stmt .ElseK) s2]))
    simp only [mu_withHeap] at hm5
    obtain ⟨e, s3, ⟨N3, hN3⟩, hP3, hc3, -⟩ :=
      hseq (match_ .ELSE (s2.withHeap (s2.heap.set s.heap.length
        (((freshNode (.stmt .IfK) s).withChild0 c).withChild1 b) ++
        [freshNode (.stmt .ElseK) s2]))) (by omega)
    have hcellq : s3.heap[s2.heap.length]? = some (freshNode (.stmt .ElseK) s2) :=
      hP3.cell (by simp)
    have hcellt : s3.heap[s.heap.length]? =
        some (((freshNode (.stmt .IfK) s).withChild0 c).withChild1 b) :=
      hP3.cell (by
        simp only [match_heap, PState.withHeap_heap]
        rw [List.getElem?_append_left (by simpa using hlt2)]
        exact cell_set _ hlt2)
    have hltq := cell_lt hcellq
    have hlt3 := cell_lt hcellt
    have hne : s2.heap.length ≠ s.heap.length := by omega
    have hcellt1 : (s3.withHeap (s3.heap.set s2.heap.length
        ((freshNode (.stmt .ElseK) s2).withChild0 e))).heap[s.heap.length]? =
        some (((freshNode (.stmt .IfK) s).withChild0 c).withChild1 b) := by
      simp only [PState.withHeap_heap]
      rw [cell_set_ne _ hne]; exact hcellt
    have hm6 := hP3.step.mu_le
    refine ⟨some s.heap.length, match_ .END (s3.withHeap ((s3.heap.set s2.heap.length
        ((freshNode (.stmt .ElseK) s2).withChild0 e)).set s.heap.length
        ((((freshNode (.stmt .IfK) s).withChild0 c).withChild1 b).withSibling
          (some s2.heap.length)))),
      ⟨max N1 (max N2 N3) + 1, fun f hf => ?_⟩, ⟨?_, ?_, ?_⟩, ?_, ?_⟩
    · obtain ⟨f, rfl⟩ : ∃ g, f = g + 1 := ⟨f - 1, by omega⟩
      rw [if_stmt.eq_2]
      simp only [newStmtNode, alloc_fst, alloc_snd, Option.bind_eq_bind, hN1 f (by omega),
        Option.some_bind, setChild0, write_at _ hcell1, hN2 f (by omega), setChild1,
        write_at _ hcell2, PState.withHeap_token, hel, if_true, PState.withHeap_heap,
        List.length_set, withHeap_withHeap, freshNode_withHeap, hN3 f (by omega),
        write_at _ hcellq, setSibling, write_at _ hcellt1, Option.pure_def]
    · have h1 : HExt s.heap.length s2.heap (s2.heap.set s.heap.length
          (((freshNode (.stmt .IfK) s).withChild0 c).withChild1 b) ++
          [freshNode (.stmt .ElseK) s2]) :=
        (HExt.set _ _ _ (Nat.le_refl _)).trans (HExt.append _ _ (by simp; omega))
      have h2 : HExt s.heap.length s3.heap ((s3.heap.set s2.heap.length
          ((freshNode (.stmt .ElseK) s2).withChild0 e)).set s.heap.length
          ((((freshNode (.stmt .IfK) s).withChild0 c).withChild1 b).withSibling
            (some s2.heap.length))) :=
        (HExt.set _ _ _ (by omega)).trans (HExt.set _ _ _ (Nat.le_refl _))
      exact (((((((((((Step.here _ s).then_alloc _ (Nat.le_refl _)).then_match _).then_post hP1
        (by simp)).then_write _ _ (Nat.le_refl _)).then_match _).then_post hP2
        (by simp; omega)).then_heap h1).then_match _).then_post hP3
        (by simp; omega)).then_heap h2).then_match _
    · rintro p ⟨⟩
      simpa using hlt3
    · intro h; cases h
    · have hm7 := mu_match_le TokenType.END (s3.withHeap ((s3.heap.set s2.heap.length
        ((freshNode (.stmt .ElseK) s2).withChild0 e)).set s.heap.length
        ((((freshNode (.stmt .IfK) s).withChild0 c).withChild1 b).withSibling
          (some s2.heap.length))))
      simp only [mu_withHeap] at hm7
      omega
    · rintro p ⟨⟩
      refine ⟨_, by simpa using cell_set _ (by simpa using hlt3), ⟨.IfK, rfl, by decide⟩,
        Or.inr ⟨rfl, s2.heap.length, (freshNode (.stmt .ElseK) s2).withChild0 e, rfl, by omega,
          ?_, rfl, rfl⟩⟩
      simp only [match_heap, PState.withHeap_heap]
      rw [cell_set_ne _ (Ne.symm hne)]
      exact cell_set _ hltq
  · refine ⟨some s.heap.length, match_ .END (s2.withHeap (s2.heap.set s.heap.length
        (((freshNode (.stmt .IfK) s).withChild0 c).withChild1 b))),
      ⟨max N1 N2 + 1, fun f hf => ?_⟩, ⟨?_, ?_, ?_⟩, ?_, ?_⟩
    · obtain ⟨f, rfl⟩ : ∃ g, f = g + 1 := ⟨f - 1, by omega⟩
      rw [if_stmt.eq_2]
      simp only [newStmtNode, alloc_fst, alloc_snd, Option.bind_eq_bind, hN1 f (by omega),
        Option.some_bind, setChild0, write_at _ hcell1, hN2 f (by omega), setChild1,
        write_at _ hcell2, PState.withHeap_token, hel, if_false, Option.pure_def]
    · exact ((((((((Step.here _ s).then_alloc _ (Nat.le_refl _)).then_match _).then_post hP1
        (by simp)).then_write _ _ (Nat.le_refl _)).then_match _).then_post hP2
        (by simp; omega)).then_write _ _ (Nat.le_refl _)).then_match _
    · rintro p ⟨⟩
      simpa using hlt2
    · intro h; cases h
    · have hm7 := mu_match_le TokenType.END (s2.withHeap (s2.heap.set s.heap.length
        (((freshNode (.stmt .IfK) s).withChild0 c).withChild1 b)))
      simp only [mu_withHeap] at hm7
      omega
    · rintro p ⟨⟩
      exact Unit.single .IfK (by simpa using cell_set _ hlt2) rfl (by decide) rfl

theorem seqContinues_DEFAULT {tk : TokenType} (h : seqContinues tk = false) : tk ≠ .DEFAULT := by
  rintro rfl
  simp [seqContinues] at h

theorem case_stmt_runs (s : PState)
    (hseq : ∀ s1, mu s1 ≤ mu (match_ .CASE s) → RunsSeq s1)
    (hrec : ∀ s1, mu s1 < mu s → RunsCase s1) : RunsCase s := by
  obtain ⟨c, s1, ⟨N1, hN1⟩, hP1, hc1⟩ :=
    (exp_level (match_ .CASE (s.withHeap (s.heap ++ [freshNode (.stmt .CaseK) s])))).1
  have hcell1 : s1.heap[s.heap.length]? = some (freshNode (.stmt .CaseK) s) :=
    hP1.cell (by simp)
  have hlt1 := cell_lt hcell1
  have hm0 := mu_match_withHeap TokenType.CASE s (s.heap ++ [freshNode (.stmt .CaseK) s])
  have hm1 := mu_match_le TokenType.CASE s
  have hm2 := hP1.step.mu_le
  obtain ⟨b, s2, ⟨N2, hN2⟩, hP2, hc2, -⟩ :=
    hseq (s1.withHeap (s1.heap.set s.heap.length ((freshNode (.stmt .CaseK) s).withChild0 c)))
      (by simp only [mu_withHeap]; omega)
  have hcell2 : s2.heap[s.heap.length]? = some ((freshNode (.stmt .CaseK) s).withChild0 c) :=
    hP2.cell (by simpa using cell_set _ hlt1)
  have hlt2 := cell_lt hcell2
  have hm3 := hP2.step.mu_le
  simp only [mu_withHeap] at hm3
  obtain ⟨sB, hsB⟩ : ∃ x, x = match_ .BREAK (s2.withHeap (s2.heap.set s.heap.length
      (((freshNode (.stmt .CaseK) s).withChild0 c).withChild1 b))) := ⟨_, rfl⟩
  have hBheap : sB.heap = s2.heap.set s.heap.length
      (((freshNode (.stmt .CaseK) s).withChild0 c).withChild1 b) := by rw [hsB]; simp
  have hBmu : mu sB ≤ mu s2 := by
    rw [hsB]
    simpa using mu_match_le TokenType.BREAK (s2.withHeap (s2.heap.set s.heap.length
      (((freshNode (.stmt .CaseK) s).withChild0 c).withChild1 b)))
  have hBcell : sB.heap[s.heap.length]? =
      some (((freshNode (.stmt .CaseK) s).withChild0 c).withChild1 b) := by
    rw [hBheap]; exact cell_set _ hlt2
  have hBlen : sB.heap.length = s2.heap.length := by rw [hBheap]; simp
  have hStepB : Step s.heap.length s sB := by
    rw [hsB]
    exact (((((((Step.here _ s).then_alloc _ (Nat.le_refl _)).then_match _).then_post hP1
      (by simp)).then_write _ _ (Nat.le_refl _)).then_post hP2
      (by simp; omega)).then_write _ _ (Nat.le_refl _)).then_match _
  have hunfold : ∀ f, N1 ≤ f → N2 ≤ f → case_stmt (f + 1) s =
      ((if sB.token = .CASE then
          (case_stmt f sB).bind (fun x => setSibling s.heap.length x.1 x.2)
        else some sB).bind fun s6 =>
        (if s6.token = .DEFAULT then
          (stmt_sequence f (match_ .DEFAULT
              (s6.withHeap (s6.heap ++ [freshNode (.stmt .DefaultK) s6])))).bind
            (fun x => (setChild0 s6.heap.length x.1 x.2).bind
              (fun s7 => setSibling s.heap.length (some s6.heap.length) s7))
        else some s6).bind fun s8 => some (some s.heap.length, s8)) := by
    intro f h1 h2
    rw [case_stmt.eq_2]
    simp only [newStmtNode, alloc_fst, alloc_snd, Option.bind_eq_bind, hN1 f h1,
      Option.some_bind, setChild0, write_at _ hcell1, hN2 f h2, setChild1,
      write_at _ hcell2, Option.pure_def, ← hsB]
  by_cases hcs : sB.token = .CASE
  · have hmuB : mu sB < mu s := by
      have := @mu_pos_of_token sB (by simp [hcs])
      omega
    obtain ⟨r, s3, ⟨N3, hN3⟩, hP3, hc3, hnd3⟩ := hrec sB hmuB
    have hcell3 : s3.heap[s.heap.length]? =
        some (((freshNode (.stmt .CaseK) s).withChild0 c).withChild1 b) := hP3.cell hBcell
    have hlt3 := cell_lt hcell3
    have hm5 := hP3.step.mu_le
    refine ⟨some s.heap.length, s3.withHeap (s3.heap.set s.heap.length
        ((((freshNode (.stmt .CaseK) s).withChild0 c).withChild1 b).withSibling r)),
      ⟨max N1 (max N2 N3) + 1, fun f hf => ?_⟩, ⟨?_, ?_, ?_⟩, ?_, ?_⟩
    · obtain ⟨f, rfl⟩ : ∃ g, f = g + 1 := ⟨f - 1, by omega⟩
      rw [hunfold f (by omega) (by omega)]
      simp only [hcs, if_true, hN3 f (by omega), Option.some_bind, setSibling,
        write_at _ hcell3, PState.withHeap_token, hnd3, if_false]
    · exact (hStepB.then_post hP3 (by rw [hBlen]; omega)).then_write _ _ (Nat.le_refl _)
    · rintro p ⟨⟩
      simpa using hlt3
    · intro h; cases h
    · simp only [mu_withHeap]; omega
    · simpa using hnd3
  by_cases hdf : sB.token = .DEFAULT
  · have hm6 := mu_match_le TokenType.DEFAULT
      (sB.withHeap (sB.heap ++ [freshNode (.stmt .DefaultK) sB]))
    simp only [mu_withHeap] at hm6
    obtain ⟨d, s4, ⟨N4, hN4⟩, hP4, hc4, hstop4⟩ :=
      hseq (match_ .DEFAULT (sB.withHeap (sB.heap ++ [freshNode (.stmt .DefaultK) sB])))
        (by omega)
    have hcellq : s4.heap[sB.heap.length]? = some (freshNode (.stmt .DefaultK) sB) :=
      hP4.cell (by simp)
    have hcellt : s4.heap[s.heap.length]? =
        some (((freshNode (.stmt .CaseK) s).withChild0 c).withChild1 b) :=
      hP4.cell (by
        simp only [match_heap, PState.withHeap_heap]
        rw [List.getElem?_append_left (by rw [hBlen]; exact hlt2)]
        exact hBcell)
    have hltq := cell_lt hcellq
    have hlt4 := cell_lt hcellt
    have hne : sB.heap.length ≠ s.heap.length := by rw [hBlen]; omega
    have hcellt1 : (s4.withHeap (s4.heap.set sB.heap.length
        ((freshNode (.stmt .DefaultK) sB).withChild0 d))).heap[s.heap.length]? =
        some (((freshNode (.stmt .CaseK) s).withChild0 c).withChild1 b) := by
      simp only [PState.withHeap_heap]
      rw [cell_set_ne _ hne]; exact hcellt
    have hm7 := hP4.step.mu_le
    refine ⟨some s.heap.length, s4.withHeap ((s4.heap.set sB.heap.length
        ((freshNode (.stmt .DefaultK) sB).withChild0 d)).set s.heap.length
        ((((freshNode (.stmt .CaseK) s).withChild0 c).withChild1 b).withSibling
          (some sB.heap.length))),
      ⟨max N1 (max N2 N4) + 1, fun f hf => ?_⟩, ⟨?_, ?_, ?_⟩, ?_, ?_⟩
    · obtain ⟨f, rfl⟩ : ∃ g, f = g + 1 := ⟨f - 1, by omega⟩
      rw [hunfold f (by omega) (by omega), if_neg hcs]
      simp only [Option.some_bind, hdf, if_true, hN4 f (by omega), setChild0,
        write_at _ hcellq, setSibling, write_at _ hcellt1, PState.withHeap_heap,
        withHeap_withHeap]
    · have h2 : HExt s.heap.length s4.heap ((s4.heap.set sB.heap.length
          ((freshNode (.stmt .DefaultK) sB).withChild0 d)).set s.heap.length
          ((((freshNode (.stmt .CaseK) s).withChild0 c).withChild1 b).withSibling
            (some sB.heap.length))) :=
        (HExt.set _ _ _ (by rw [hBlen]; omega)).trans (HExt.set _ _ _ (Nat.le_refl _))
      exact ((((hStepB.then_alloc _ (by rw [hBlen]; omega)).then_match _).then_post hP4
        (by simp; rw [hBlen]; omega)).then_heap h2)
    · rintro p ⟨⟩
      simpa using hlt4
    · intro h; cases h
    · simp only [mu_withHeap]; omega
    · simpa using seqContinues_DEFAULT hstop4
  · refine ⟨some s.heap.length, sB, ⟨max N1 N2 + 1, fun f hf => ?_⟩, ⟨hStepB, ?_, ?_⟩, ?_, hdf⟩
    · obtain ⟨f, rfl⟩ : ∃ g, f = g + 1 := ⟨f - 1, by omega⟩
      rw [hunfold f (by omega) (by omega), if_neg hcs]
      simp only [Option.some_bind, if_neg hdf]
    · rintro p ⟨⟩
      rw [hBlen]
      exact ⟨Nat.le_refl _, hlt2⟩
    · intro h; cases h
    · omega

theorem switch_stmt_runs (s : PState)
    (hcase : ∀ s1, mu s1 ≤ mu (match_ .SWITCH s) → RunsCase s1) : RunsStmt switch_stmt s := by
  obtain ⟨c, s1, ⟨N1, hN1⟩, hP1, hc1⟩ :=
    (exp_level (match_ .SWITCH (s.withHeap (s.heap ++ [freshNode (.stmt .SwitchK) s])))).1
  have hcell1 : s1.heap[s.heap.length]? = some (freshNode (.stmt .SwitchK) s) :=
    hP1.cell (by simp)
  have hlt1 := cell_lt hcell1
  have hm0 := mu_match_withHeap TokenType.SWITCH s (s.heap ++ [freshNode (.stmt .SwitchK) s])
  have hm1 := mu_match_le TokenType.SWITCH s
  have hm2 := hP1.step.mu_le
  obtain ⟨q, s2, ⟨N2, hN2⟩, hP2, hc2, -⟩ :=
    hcase (s1.withHeap (s1.heap.set s.heap.length
      ((freshNode (.stmt .SwitchK) s).withChild0 c))) (by simp only [mu_withHeap]; omega)
  have hcell2 : s2.heap[s.heap.length]? = some ((freshNode (.stmt .SwitchK) s).withChild0 c) :=
    hP2.cell (by simpa using cell_set _ hlt1)
  have hlt2 := cell_lt hcell2
  have hm3 := hP2.step.mu_le
  simp only [mu_withHeap] at hm3
  refine ⟨some s.heap.length, s2.withHeap (s2.heap.set s.heap.length
      (((freshNode (.stmt .SwitchK) s).withChild0 c).withChild1 q)),
    ⟨max N1 N2 + 1, fun f hf => ?_⟩, ⟨?_, ?_, ?_⟩, ?_, ?_⟩
  · obtain ⟨f, rfl⟩ : ∃ g, f = g + 1 := ⟨f - 1, by omega⟩
    rw [switch_stmt.eq_2]
    simp only [newStmtNode, alloc_fst, alloc_snd, Option.bind_eq_bind, hN1 f (by omega),
      Option.some_bind, setChild0, write_at _ hcell1, hN2 f (by omega), setChild1,
      write_at _ hcell2, Option.pure_def]
  · exact ((((((Step.here _ s).then_alloc _ (Nat.le_refl _)).then_match _).then_post hP1
      (by simp)).then_write _ _ (Nat.le_refl _)).then_post hP2
      (by simp; omega)).then_write _ _ (Nat.le_refl _)
  · rintro p ⟨⟩
    simpa using hlt2
  · intro h; cases h
  · simp only [mu_withHeap]; omega
  · rintro p ⟨⟩
    exact Unit.single .SwitchK (cell_set _ hlt2) rfl (by decide) rfl

theorem statement_of {X : Nat → PState → Res} {s : PState}
    (h : ∀ f, statement (f + 1) s = X f s) (hX : RunsStmt X s) : RunsStmt statement s := by
  obtain ⟨r, s1, ⟨N, hN⟩, hrest⟩ := hX
  refine ⟨r, s1, ⟨N + 1, fun f hf => ?_⟩, hrest⟩
  obtain ⟨f, rfl⟩ : ∃ g, f = g + 1 := ⟨f - 1, by omega⟩
  rw [h f]
  exact hN f (by omega)

theorem statement_runs (s : PState) (hseq : ∀ s1, mu s1 < mu s → RunsSeq s1)
    (hcase : ∀ s1, mu s1 < mu s → RunsCase s1) : RunsStmt statement s := by
  have hlow : ∀ e : TokenType, s.token = e → e ≠ .ENDFILE →
      ∀ s1, mu s1 ≤ mu (match_ e s) → mu s1 < mu s :=
    fun e he hne s1 h1 => Nat.lt_of_le_of_lt h1 (mu_match_hit_lt he hne)
  by_cases h1 : s.token = .IF
  · exact statement_of (fun f => by rw [statement.eq_2]; simp only [h1])
      (if_stmt_runs s (fun s1 hs => hseq s1 (hlow _ h1 (by decide) s1 hs)))
  by_cases h2 : s.token = .REPEAT
  · exact statement_of (fun f => by rw [statement.eq_2]; simp only [h2])
      (repeat_stmt_runs s (fun s1 hs => hseq s1 (hlow _ h2 (by decide) s1 hs)))
  by_cases h3 : s.token = .ID
  · exact statement_of (fun f => by rw [statement.eq_2]; simp only [h3]) (assign_stmt_runs s)
  by_cases h4 : s.token = .READ
  · obtain ⟨s1, hr, hP, hmu, hu⟩ := read_stmt_runs s
    refine ⟨_, s1, Returns.intro 1 (fun f => ?_), hP, Or.inr (hmu h4), ?_⟩
    · rw [Nat.add_comm, statement.eq_2]
      simp only [h4, hr]
    · rintro p ⟨⟩
      exact hu
  by_cases h5 : s.token = .WRITE
  · exact statement_of (fun f => by rw [statement.eq_2]; simp only [h5]) (write_stmt_runs s)
  by_cases h6 : s.token = .DO
  · exact statement_of (fun f => by rw [statement.eq_2]; simp only [h6])
      (while_stmt_runs s (fun s1 hs => hseq s1 (hlow _ h6 (by decide) s1 hs)))
  by_cases h7 : s.token = .FOR
  · exact statement_of (fun f => by rw [statement.eq_2]; simp only [h7])
      (for_stmt_runs s (fun s1 hs => hseq s1 (hlow _ h7 (by decide) s1 hs)))
  by_cases h8 : s.token = .SWITCH
  · exact statement_of (fun f => by rw [statement.eq_2]; simp only [h8])
      (switch_stmt_runs s (fun s1 hs => hcase s1 (hlow _ h8 (by decide) s1 hs)))
  · refine ⟨none, advance (syntaxError "unexpected token -> " s),
      Returns.intro 1 (fun f => ?_), ⟨?_, ?_, ?_⟩, ?_, ?_⟩
    · rw [Nat.add_comm, statement.eq_2]
      split <;> simp_all
    · exact ((Step.here _ s).then_error _).then_advance
    · intro p hp; cases hp
    · intro _; simp
    · by_cases hz : mu s = 0
      · exact Or.inl hz
      · right
        have := mu_advance_lt (syntaxError "unexpected token -> " s) (by simpa using hz)
        simpa using this
    · intro p hp; cases hp

theorem stmt_sequence_loop_exit (f : Nat) (t p : Option Nat) (s : PState)
    (h : seqContinues s.token = false) : stmt_sequence_loop (f + 1) t p s = some (t, s) := by
  rw [stmt_sequence_loop.eq_2]
  simp [h]

theorem stmt_sequence_loop_step (f : Nat) (t p : Option Nat) (s : PState)
    (h : seqContinues s.token = true) :
    stmt_sequence_loop (f + 1) t p s =
      (statement f (match_ .SEMI s)).bind fun x =>
        match x.1 with
        | none => stmt_sequence_loop f t p x.2
        | some _ =>
          match t with
          | none => stmt_sequence_loop f x.1 x.1 x.2
          | some _ =>
            match p with
            | none => none
            | some pa =>
              match x.2.heap[pa]? with
              | none => none
              | some pn =>
                match pn.sibling with
                | some e => (setSibling e x.1 x.2).bind fun s3 => stmt_sequence_loop f t x.1 s3
                | none => (setSibling pa x.1 x.2).bind fun s3 => stmt_sequence_loop f t x.1 s3 := by
  rw [stmt_sequence_loop.eq_2]
  simp only [h, if_true, Option.bind_eq_bind]

theorem seqContinues_pos {s : PState} (h : seqContinues s.token = true) : mu s ≠ 0 := by
  apply mu_pos_of_token
  rintro he
  simp [he, seqContinues] at h

theorem stmt_sequence_loop_runs (base : Nat) (t p : Option Nat) (s : PState)
    (hpre : SeqPre base t p s)
    (hst : ∀ s1, mu s1 ≤ mu s → RunsStmt statement s1)
    (hrec : ∀ t1 p1 s1, mu s1 < mu s → SeqPre base t1 p1 s1 → SeqLoopRuns base t1 p1 s1) :
    SeqLoopRuns base t p s := by
  cases hc : seqContinues s.token with
  | false =>
    exact ⟨t, s, Returns.intro 1 (fun f => by
      rw [Nat.add_comm]; exact stmt_sequence_loop_exit f t p s hc),
      Step.here _ _, Or.inl rfl, id, hc⟩
  | true =>
    have hpos := seqContinues_pos hc
    have hmA := mu_match_le TokenType.SEMI s
    obtain ⟨q, s2, ⟨N2, hN2⟩, hP2, hc2, hu2⟩ := hst (match_ .SEMI s) hmA
    have hm2 := hP2.step.mu_le
    have hlt : mu s2 < mu s := by omega
    have hlen2 := hP2.len
    simp only [match_heap] at hlen2
    have hStep2 : Step base s s2 := ((Step.here _ s).then_match _).then_post hP2
      (by simpa using hpre.1)
    -- cells that existed before the statement are unchanged
    have hold : ∀ a n, s2.heap[a]? = some n → a < s.heap.length → s.heap[a]? = some n := by
      intro a n ha hlt
      rw [hP2.step.ext.2 a (by simpa using hlt)] at ha
      simpa using ha
    have hfin : ∀ (t1 p1 : Option Nat) (s3 : PState),
        (∀ f, N2 ≤ f → stmt_sequence_loop (f + 1) t p s = stmt_sequence_loop f t1 p1 s3) →
        Step base s s3 → s2.heap.length ≤ s3.heap.length → mu s3 ≤ mu s2 →
        SeqPre base t1 p1 s3 →
        (t1 = t ∨ ∃ qa, t1 = some qa ∧ s.heap.length ≤ qa ∧ qa < s2.heap.length ∧ t = none) →
        SeqLoopRuns base t p s := by
      intro t1 p1 s3 hun hS3 hl3 hmu3 hpre3 ht1
      obtain ⟨r, s4, ⟨N4, hN4⟩, hS4, hr4, hn4, hstop⟩ := hrec t1 p1 s3 (by omega) hpre3
      have hl4 := hS4.ext.1
      refine ⟨r, s4, ⟨max N2 N4 + 1, fun f hf => ?_⟩, hS3.andThen hS4, ?_, ?_, hstop⟩
      · obtain ⟨f, rfl⟩ : ∃ g, f = g + 1 := ⟨f - 1, by omega⟩
        show stmt_sequence_loop (f + 1) t p s = _
        rw [hun f (by omega)]
        exact hN4 f (by omega)
      · rcases hr4 with rfl | ⟨x, rfl, hx1, hx2⟩
        · rcases ht1 with rfl | ⟨qa, rfl, hq1, hq2, -⟩
          · exact Or.inl rfl
          · exact Or.inr ⟨qa, rfl, hq1, by omega⟩
        · exact Or.inr ⟨x, rfl, by omega, hx2⟩
      · intro hr
        rcases ht1 with rfl | ⟨qa, rfl, -, -, ht⟩
        · exact hn4 hr
        · exact ht
    have hbase2 : base ≤ s2.heap.length := by have := hpre.1; omega
    cases q with
    | none =>
      refine hfin t p s2 (fun f hf => ?_) hStep2 (Nat.le_refl _) (Nat.le_refl _) ?_ (Or.inl rfl)
      · rw [stmt_sequence_loop_step f t p s hc, hN2 f hf]
        rfl
      · refine ⟨hbase2, fun ta hta => ?_⟩
        obtain ⟨h1, h2, pa, hp, h3, h4, h5⟩ := hpre.2 ta hta
        refine ⟨h1, by omega, pa, hp, h3, by omega, fun n hn e he => ?_⟩
        have := h5 n (hold pa n hn h4) e he
        exact ⟨this.1, by omega⟩
    | some qa =>
      have hqf := hP2.fresh qa rfl
      simp only [match_heap] at hqf
      obtain ⟨nq, hnq, -, hsib⟩ := hu2 qa rfl
      have hqpre : ∀ (h3 : List TreeNode), h3.length = s2.heap.length →
          h3[qa]? = some nq → ∀ n, h3[qa]? = some n → ∀ e, n.sibling = some e →
            base ≤ e ∧ e < h3.length := by
        intro h3 hl3 hc3 n hn e he
        rw [hc3] at hn
        cases hn
        rcases hsib with hs | ⟨-, e1, m, hs, hlt1, hm, -, -⟩
        · rw [hs] at he; cases he
        · rw [hs] at he
          cases he
          have := cell_lt hm
          have := hpre.1
          omega
      cases t with
      | none =>
        refine hfin (some qa) (some qa) s2 (fun f hf => ?_) hStep2 (Nat.le_refl _)
          (Nat.le_refl _) ?_ (Or.inr ⟨qa, rfl, hqf.1, hqf.2, rfl⟩)
        · rw [stmt_sequence_loop_step f none p s hc, hN2 f hf]
          rfl
        · refine ⟨hbase2, fun ta hta => ?_⟩
          cases hta
          have := hpre.1
          exact ⟨by omega, hqf.2, qa, rfl, by omega, hqf.2, hqpre s2.heap rfl hnq⟩
      | some ta =>
        obtain ⟨h1, h2, pa, rfl, h3, h4, h5⟩ := hpre.2 ta rfl
        obtain ⟨pn, hpn⟩ : ∃ pn, s.heap[pa]? = some pn := ⟨_, List.getElem?_eq_getElem h4⟩
        have hpn2 : s2.heap[pa]? = some pn := hP2.cell (by simpa using hpn)
        cases hsb : pn.sibling with
        | some e =>
          have he := h5 pn hpn e hsb
          obtain ⟨en, hen⟩ : ∃ en, s2.heap[e]? = some en :=
            ⟨_, List.getElem?_eq_getElem (by omega)⟩
          refine hfin (some ta) (some qa) (s2.withHeap (s2.heap.set e (en.withSibling (some qa))))
            (fun f hf => ?_) (hStep2.then_write _ _ he.1) (by simp) (by simp) ?_ (Or.inl rfl)
          · rw [stmt_sequence_loop_step f (some ta) (some pa) s hc, hN2 f hf]
            simp only [Option.some_bind, hpn2, hsb, setSibling, write_at _ hen]
          · refine ⟨by simpa using hbase2, fun tb htb => ?_⟩
            cases htb
            have := hpre.1
            refine ⟨h1, by simp; omega, qa, rfl, by omega, by simpa using hqf.2, ?_⟩
            exact hqpre _ (by simp) (by
              simp only [PState.withHeap_heap]
              rw [cell_set_ne _ (by omega)]
              exact hnq)
        | none =>
          refine hfin (some ta) (some qa)
            (s2.withHeap (s2.heap.set pa (pn.withSibling (some qa))))
            (fun f hf => ?_) (hStep2.then_write _ _ h3) (by simp) (by simp) ?_ (Or.inl rfl)
          · rw [stmt_sequence_loop_step f (some ta) (some pa) s hc, hN2 f hf]
            simp only [Option.some_bind, hpn2, hsb, setSibling, write_at _ hpn2]
          · refine ⟨by simpa using hbase2, fun tb htb => ?_⟩
            cases htb
            have := hpre.1
            refine ⟨h1, by simp; omega, qa, rfl, by omega, by simpa using hqf.2, ?_⟩
            exact hqpre _ (by simp) (by
              simp only [PState.withHeap_heap]
              rw [cell_set_ne _ (by omega)]
              exact hnq)

theorem stmt_sequence_runs (s : PState) (hst : RunsStmt statement s)
    (hloop : ∀ t p s1, mu s1 ≤ mu s → SeqPre s.heap.length t p s1 →
      SeqLoopRuns s.heap.length t p s1) : RunsSeq s := by
  obtain ⟨t, s1, ⟨N1, hN1⟩, hP1, hc1, hu1⟩ := hst
  have hpre : SeqPre s.heap.length t t s1 := by
    refine ⟨hP1.len, fun ta hta => ?_⟩
    have hf := hP1.fresh ta hta
    obtain ⟨n, hn, -, hsib⟩ := hu1 ta hta
    refine ⟨hf.1, hf.2, ta, hta, hf.1, hf.2, fun n1 hn1 e he => ?_⟩
    rw [hn] at hn1
    cases hn1
    rcases hsib with hs | ⟨-, e1, m, hs, hlt1, hm, -, -⟩
    · rw [hs] at he; cases he
    · rw [hs] at he
      cases he
      have := cell_lt hm
      omega
  obtain ⟨r, s2, ⟨N2, hN2⟩, hS2, hr2, hn2, hstop⟩ := hloop t t s1 hP1.step.mu_le hpre
  have hm2 := hS2.mu_le
  refine ⟨r, s2, ⟨max N1 N2 + 1, fun f hf => ?_⟩, ⟨hP1.step.andThen hS2, ?_, ?_⟩, ?_, hstop⟩
  · obtain ⟨f, rfl⟩ : ∃ g, f = g + 1 := ⟨f - 1, by omega⟩
    rw [stmt_sequence.eq_2, hN1 f (by omega)]
    exact hN2 f (by omega)
  · intro x hx
    rcases hr2 with rfl | ⟨y, rfl, hy1, hy2⟩
    · have := hP1.fresh x hx
      have := hS2.ext.1
      omega
    · cases hx
      have := hP1.len
      omega
  · intro hr
    exact hS2.err (hP1.absent (hn2 hr))
  · omega

/-- Every procedure of the statement grammar returns, from every state. -/
theorem stmt_level (s : PState) :
    RunsSeq s ∧ RunsCase s ∧ RunsStmt statement s ∧
      ∀ base t p, SeqPre base t p s → SeqLoopRuns base t p s := by
  generalize hn : mu s = n
  induction n using Nat.strong_induction_on generalizing s with
  | _ n ih =>
    subst hn
    have hst : ∀ s1, mu s1 ≤ mu s → RunsStmt statement s1 := fun s1 h1 =>
      statement_runs s1 (fun s2 h2 => (ih _ (Nat.lt_of_lt_of_le h2 h1) s2 rfl).1)
        (fun s2 h2 => (ih _ (Nat.lt_of_lt_of_le h2 h1) s2 rfl).2.1)
    have hloop : ∀ base t p s1, mu s1 ≤ mu s → SeqPre base t p s1 →
        SeqLoopRuns base t p s1 := fun base t p s1 h1 hpre =>
      stmt_sequence_loop_runs base t p s1 hpre (fun s2 h2 => hst s2 (Nat.le_trans h2 h1))
        (fun t2 p2 s2 h2 hp2 =>
          (ih _ (Nat.lt_of_lt_of_le h2 h1) s2 rfl).2.2.2 base t2 p2 hp2)
    have hseq : ∀ s1, mu s1 ≤ mu s → RunsSeq s1 := fun s1 h1 =>
      stmt_sequence_runs s1 (hst s1 h1)
        (fun t p s2 h2 hpre => hloop _ t p s2 (Nat.le_trans h2 h1) hpre)
    exact ⟨hseq s (Nat.le_refl _),
      case_stmt_runs s (fun s1 h1 => hseq s1 (Nat.le_trans h1 (mu_match_le _ _)))
        (fun s1 h1 => (ih _ h1 s1 rfl).2.1),
      hst s (Nat.le_refl _), fun base t p hpre => hloop base t p s (Nat.le_refl _) hpre⟩

/-! ## The record of a statement sequence -/

/-- What a call of `statement` that has returned guarantees. -/
theorem statement_post {f : Nat} {s s1 : PState} {q : Option Nat}
    (h : statement f s = some (q, s1)) : Post s q s1 ∧ ∀ p, q = some p → Unit s1.heap p := by
  obtain ⟨r, s2, hR, hP, -, hU⟩ := (stmt_level s).2.2.1
  have hx := hR.unique (fun f g hfg s => (monoAt f g hfg).statement s) h
  cases hx
  exact ⟨hP, hU⟩

theorem logged_eq_some {c : Call} {x : LogRes} {r : Option Nat} {log : List Call}
    {s1 : PState} (h : logged c x = some (r, log, s1)) :
    ∃ rest, log = c :: rest ∧ x = some (r, rest, s1) := by
  unfold logged at h
  obtain ⟨⟨r1, l1, s2⟩, h1, h2⟩ := Option.map_eq_some'.mp h
  simp only [Prod.mk.injEq] at h2
  obtain ⟨rfl, rfl, rfl⟩ := h2
  exact ⟨l1, rfl, h1⟩

@[simp] theorem unlog_logged (c : Call) (x : LogRes) : unlog (logged c x) = unlog x := by
  cases x <;> rfl

/-- The record changes nothing: without it, the logged loop is the loop. -/
theorem unlog_loop : ∀ f t p s,
    unlog (stmt_sequence_loop_log f t p s) = stmt_sequence_loop f t p s := by
  intro f
  induction f with
  | zero => intro t p s; rw [stmt_sequence_loop_log, stmt_sequence_loop.eq_1]; rfl
  | succ f ih =>
    intro t p s
    rw [stmt_sequence_loop_log, stmt_sequence_loop.eq_2]
    split
    · simp only [Option.bind_eq_bind]
      cases statement f (match_ .SEMI s) with
      | none => rfl
      | some x =>
        obtain ⟨q, s2⟩ := x
        simp only [Option.some_bind]
        cases q with
        | none => simp only [unlog_logged, ih]
        | some qa =>
          cases t with
          | none => simp only [unlog_logged, ih]
          | some ta =>
            cases p with
            | none => rfl
            | some pa =>
              simp only
              cases s2.heap[pa]? with
              | none => rfl
              | some pn =>
                simp only
                cases pn.sibling with
                | none =>
                  simp only
                  cases setSibling pa (some qa) s2 with
                  | none => rfl
                  | some s3 => simp only [Option.some_bind, unlog_logged, ih]
                | some e =>
                  simp only
                  cases setSibling e (some qa) s2 with
                  | none => rfl
                  | some s3 => simp only [Option.some_bind, unlog_logged, ih]
    · rfl

/-- Without its record, the logged `stmt_sequence` is `stmt_sequence`. -/
theorem unlog_seq (f : Nat) (s : PState) :
    unlog (stmt_sequence_log f s) = stmt_sequence f s := by
  cases f with
  | zero => rw [stmt_sequence_log, stmt_sequence.eq_1]; rfl
  | succ f =>
    rw [stmt_sequence_log, stmt_sequence.eq_2]
    simp only [Option.bind_eq_bind]
    cases statement f s with
    | none => rfl
    | some x => simp only [Option.some_bind, unlog_logged, unlog_loop]

theorem LessDef.logged1 {c : Call} {x y : LogRes} (h : LessDef x y) :
    LessDef (logged c x) (logged c y) := by
  intro a ha
  cases x with
  | none => cases ha
  | some v => rw [h v rfl]; exact ha

/-- More budget never changes the record. -/
theorem loop_log_mono : ∀ f g, f ≤ g → ∀ t p s,
    LessDef (stmt_sequence_loop_log f t p s) (stmt_sequence_loop_log g t p s) := by
  intro f
  induction f with
  | zero => intro g _ t p s; rw [stmt_sequence_loop_log]; exact LessDef.none1 _
  | succ f ih =>
    intro g hg t p s
    obtain ⟨g, rfl⟩ : ∃ g1, g = g1 + 1 := ⟨g - 1, by omega⟩
    have m := monoAt f g (by omega)
    have ih1 := ih g (by omega)
    rw [stmt_sequence_loop_log, stmt_sequence_loop_log]
    repeat' with_reducible first
      | exact LessDef.rfl1 _
      | apply m.statement
      | apply ih1
      | apply LessDef.logged1
      | apply LessDef.bind1
      | apply LessDef.ite1
      | intro _
      | split

theorem seq_log_mono (f g : Nat) (hfg : f ≤ g) (s : PState) :
    LessDef (stmt_sequence_log f s) (stmt_sequence_log g s) := by
  cases f with
  | zero => rw [stmt_sequence_log]; exact LessDef.none1 _
  | succ f =>
    obtain ⟨g, rfl⟩ : ∃ g1, g = g1 + 1 := ⟨g - 1, by omega⟩
    rw [stmt_sequence_log, stmt_sequence_log]
    refine LessDef.bind1 ((monoAt f g (by omega)).statement s) (fun a => ?_)
    exact LessDef.logged1 (loop_log_mono f g (by omega) _ _ _)

@[simp] theorem results_nil : results [] = [] := rfl

@[simp] theorem results_cons_none (s : PState) (l : List Call) :
    results ((none, s) :: l) = results l := rfl

@[simp] theorem results_cons_some (q : Nat) (s : PState) (l : List Call) :
    results ((some q, s) :: l) = (q, s.heap) :: results l := rfl

theorem withSibling_none {n : TreeNode} (h : n.sibling = none) : n.withSibling none = n := by
  cases n
  simp only at h
  subst h
  rfl

/-- Linking to nothing leaves a `Unit` as it is. -/
theorem linkAfter_none {hq : List TreeNode} {q : Nat} (hu : Unit hq q) (a : Nat) :
    (linkAfter hq q none)[a]? = hq[a]? := by
  obtain ⟨n, hn, -, hs | ⟨-, e, m, hs, -, hm, -, hms⟩⟩ := hu
  · simp only [linkAfter, hn, hs, withSibling_none hs]
    by_cases ha : q = a
    · subst ha; rw [cell_set _ (cell_lt hn), hn]
    · rw [cell_set_ne _ ha]
  · simp only [linkAfter, hn, hs, hm, withSibling_none hms]
    by_cases ha : e = a
    · subst ha; rw [cell_set _ (cell_lt hm), hm]
    · rw [cell_set_ne _ ha]

/-- A `Unit` kept so far is where the link is written: one node, at or above
the `Unit` and allocated by the same call. -/
theorem Kept.site {h hq : List TreeNode} {q : Nat} (hu : Unit hq q) (hk : Kept h hq q none)
    (x : Option Nat) :
    ∃ a0 n0, q ≤ a0 ∧ a0 < hq.length ∧ h[a0]? = some n0 ∧
      linkAfter h q x = h.set a0 (n0.withSibling x) ∧
      linkAfter hq q x = hq.set a0 (n0.withSibling x) ∧
      ∃ n, h[q]? = some n ∧ (n.sibling = none ∧ a0 = q ∨ n.sibling = some a0) := by
  have hk1 : ∀ a, q ≤ a → a < hq.length → h[a]? = hq[a]? := fun a h1 h2 => by
    rw [hk a h1 h2, linkAfter_none hu]
  obtain ⟨n, hn, -, hs | ⟨-, e, m, hs, hlt, hm, -, hms⟩⟩ := hu
  · have hq1 := cell_lt hn
    have hn1 : h[q]? = some n := by rw [hk1 q (Nat.le_refl _) hq1, hn]
    refine ⟨q, n, Nat.le_refl _, hq1, hn1, ?_, ?_, n, hn1, Or.inl ⟨hs, rfl⟩⟩
    · simp only [linkAfter, hn1, hs]
    · simp only [linkAfter, hn, hs]
  · have he1 := cell_lt hm
    have hq1 := cell_lt hn
    have hn1 : h[q]? = some n := by rw [hk1 q (Nat.le_refl _) hq1, hn]
    have hm1 : h[e]? = some m := by rw [hk1 e (by omega) he1, hm]
    refine ⟨e, m, by omega, he1, hm1, ?_, ?_, n, hn1, Or.inr hs⟩
    · simp only [linkAfter, hn1, hs, hm1]
    · simp only [linkAfter, hn, hs, hm]

theorem Kept.self {hq : List TreeNode} {q : Nat} (hu : Unit hq q) : Kept hq hq q none :=
  fun a _ _ => (linkAfter_none hu a).symm

theorem Kept.frame {h h1 hq : List TreeNode} {q : Nat} {x : Option Nat} (hk : Kept h hq q x)
    (hh : ∀ a, q ≤ a → a < hq.length → h1[a]? = h[a]?) : Kept h1 hq q x :=
  fun a h1 h2 => by rw [hh a h1 h2, hk a h1 h2]

theorem Unit.lt {h : List TreeNode} {q : Nat} (hu : Unit h q) : q < h.length := by
  obtain ⟨n, hn, -⟩ := hu
  exact cell_lt hn

/-- The loop of `stmt_sequence`, entered with a chain whose last node `pa`
is a kept `Unit`: it returns the head of the chain, and what it appends is
threaded after `pa`. -/
theorem loop_log_some : ∀ (f ta pa : Nat) (hpa : List TreeNode) (s : PState) (r : Option Nat)
    (log : List Call) (s1 : PState),
    stmt_sequence_loop_log f (some ta) (some pa) s = some (r, log, s1) →
    Unit hpa pa → Kept s.heap hpa pa none → hpa.length ≤ s.heap.length →
    r = some ta ∧ Threaded s1.heap ((pa, hpa) :: results log) ∧ Logged pa s log s1 := by
  intro f
  induction f with
  | zero => intro ta pa hpa s r log s1 h; rw [stmt_sequence_loop_log] at h; cases h
  | succ f ih =>
    intro ta pa hpa s r log s1 h hu hk hlen
    rw [stmt_sequence_loop_log] at h
    have hpalt := hu.lt
    cases hc : seqContinues s.token with
    | false =>
      simp only [hc, Bool.false_eq_true, if_false, Option.some.injEq, Prod.mk.injEq] at h
      obtain ⟨rfl, rfl, rfl⟩ := h
      exact ⟨rfl, ⟨hu, hk, fun y hy => by simp at hy, trivial⟩,
        ⟨Step.here _ _, fun y hy => by simp at hy, fun c hm => by simp at hm, hc⟩⟩
    | true =>
      simp only [hc, if_true, Option.bind_eq_bind] at h
      cases hst : statement f (match_ .SEMI s) with
      | none => rw [hst] at h; cases h
      | some x =>
        obtain ⟨q, σ⟩ := x
        rw [hst] at h
        simp only [Option.some_bind] at h
        obtain ⟨hP, hU⟩ := statement_post hst
        have hlen2 := hP.len
        simp only [match_heap] at hlen2
        have hk2 : Kept σ.heap hpa pa none := fun a h1 h2 => by
          rw [hP.step.ext.2 a (by simp only [match_heap]; omega)]
          simpa using hk a h1 h2
        have hS : Step pa s σ :=
          ((Step.here _ s).then_match _).then_post hP (by simp only [match_heap]; omega)
        cases q with
        | none =>
          simp only at h
          obtain ⟨rest, rfl, hrest⟩ := logged_eq_some h
          obtain ⟨hr, hT, hL⟩ := ih ta pa hpa σ r rest s1 hrest hu hk2 (by omega)
          refine ⟨hr, by simpa using hT, ⟨hS.andThen hL.step, fun y hy => ?_, fun c hc => ?_,
            hL.stop⟩⟩
          · have := hL.fresh y (by simpa using hy)
            omega
          · rcases List.mem_cons.mp hc with rfl | hc
            · exact hL.step.err
            · exact hL.err c hc
        | some qa =>
          have hf := hP.fresh qa rfl
          simp only [match_heap] at hf
          have hU1 := hU qa rfl
          obtain ⟨a0, n0, ha1, ha2, hcell, hlink, hlink0, n, hn, hcase⟩ := hk2.site hu (some qa)
          have key : logged (some qa, σ) (stmt_sequence_loop_log f (some ta) (some qa)
              (σ.withHeap (σ.heap.set a0 (n0.withSibling (some qa))))) = some (r, log, s1) := by
            simp only [hn] at h
            rcases hcase with ⟨hs, rfl⟩ | hs
            · simp only [hs, setSibling, write_at _ hcell, Option.bind_eq_bind,
                Option.some_bind] at h
              exact h
            · simp only [hs, setSibling, write_at _ hcell, Option.bind_eq_bind,
                Option.some_bind] at h
              exact h
          obtain ⟨rest, rfl, hrest⟩ := logged_eq_some key
          have hk3 : Kept (σ.withHeap (σ.heap.set a0 (n0.withSibling (some qa)))).heap σ.heap
              qa none := (Kept.self hU1).frame (fun a h1 _ => by
            simp only [PState.withHeap_heap]
            exact cell_set_ne _ (by omega))
          obtain ⟨hr, hT, hL⟩ := ih ta qa σ.heap _ r rest s1 hrest hU1 hk3 (by simp)
          have hfr := hL.fresh
          simp only [PState.withHeap_heap, List.length_set] at hfr
          refine ⟨hr, ⟨hu, fun a h1 (h2 : a < hpa.length) => ?_,
              fun y hy => (?_ : hpa.length ≤ y.1), hT⟩,
            ⟨(hS.then_write a0 _ ha1).andThen (hL.step.relax (by omega)), fun y hy => ?_,
              fun c hc => ?_, hL.stop⟩⟩
          · rw [hL.step.ext.2 a (by omega)]
            simp only [PState.withHeap_heap, results_cons_some, List.head?_cons, Option.map_some']
            rw [hlink0]
            by_cases hx : a0 = a
            · subst hx
              rw [cell_set _ (cell_lt hcell), cell_set _ ha2]
            · rw [cell_set_ne _ hx, cell_set_ne _ hx, hk2 a h1 h2, linkAfter_none hu]
          · rcases List.mem_cons.mp (by simpa using hy) with rfl | hy
            · simp only; omega
            · have := hfr y hy
              omega
          · rcases List.mem_cons.mp (by simpa using hy) with rfl | hy
            · simp only; omega
            · have := hfr y hy
              omega
          · rcases List.mem_cons.mp hc with rfl | hc
            · exact fun he => hL.step.err (by simpa using he)
            · exact hL.err c hc

/-- The loop of `stmt_sequence`, entered with nothing built yet. -/
theorem loop_log_none : ∀ (f : Nat) (p : Option Nat) (s : PState) (r : Option Nat)
    (log : List Call) (s1 : PState),
    stmt_sequence_loop_log f none p s = some (r, log, s1) →
    r = (results log).head?.map Prod.fst ∧ Threaded s1.heap (results log) ∧
      Logged s.heap.length s log s1 := by
  intro f
  induction f with
  | zero => intro p s r log s1 h; rw [stmt_sequence_loop_log] at h; cases h
  | succ f ih =>
    intro p s r log s1 h
    rw [stmt_sequence_loop_log] at h
    cases hc : seqContinues s.token with
    | false =>
      simp only [hc, Bool.false_eq_true, if_false, Option.some.injEq, Prod.mk.injEq] at h
      obtain ⟨rfl, rfl, rfl⟩ := h
      exact ⟨rfl, trivial,
        ⟨Step.here _ _, fun y hy => by simp at hy, fun c hm => by simp at hm, hc⟩⟩
    | true =>
      simp only [hc, if_true, Option.bind_eq_bind] at h
      cases hst : statement f (match_ .SEMI s) with
      | none => rw [hst] at h; cases h
      | some x =>
        obtain ⟨q, σ⟩ := x
        rw [hst] at h
        simp only [Option.some_bind] at h
        obtain ⟨hP, hU⟩ := statement_post hst
        have hlen2 := hP.len
        simp only [match_heap] at hlen2
        have hS : Step s.heap.length s σ :=
          ((Step.here _ s).then_match _).then_post hP (by simp only [match_heap]; omega)
        cases q with
        | none =>
          simp only at h
          obtain ⟨rest, rfl, hrest⟩ := logged_eq_some h
          obtain ⟨hr, hT, hL⟩ := ih p σ r rest s1 hrest
          refine ⟨by simpa using hr, by simpa using hT,
            ⟨hS.andThen (hL.step.relax hlen2), fun y hy => ?_, fun c hc => ?_, hL.stop⟩⟩
          · have := hL.fresh y (by simpa using hy)
            omega
          · rcases List.mem_cons.mp hc with rfl | hc
            · exact hL.step.err
            · exact hL.err c hc
        | some qa =>
          simp only at h
          obtain ⟨rest, rfl, hrest⟩ := logged_eq_some h
          have hf := hP.fresh qa rfl
          simp only [match_heap] at hf
          have hU1 := hU qa rfl
          obtain ⟨hr, hT, hL⟩ :=
            loop_log_some f qa qa σ.heap σ r rest s1 hrest hU1 (Kept.self hU1) (Nat.le_refl _)
          refine ⟨by simpa using hr, by simpa using hT,
            ⟨hS.andThen (hL.step.relax hf.1), fun y hy => ?_, fun c hc => ?_, hL.stop⟩⟩
          · rcases List.mem_cons.mp (by simpa using hy) with rfl | hy
            · simp only; omega
            · have := hL.fresh y hy
              omega
          · rcases List.mem_cons.mp hc with rfl | hc
            · exact hL.step.err
            · exact hL.err c hc

/-- What a logged run of `stmt_sequence` that has returned guarantees. -/
theorem seq_log_post {f : Nat} {s s1 : PState} {r : Option Nat} {log : List Call}
    (h : stmt_sequence_log f s = some (r, log, s1)) :
    r = (results log).head?.map Prod.fst ∧ Threaded s1.heap (results log) ∧
      Logged s.heap.length s log s1 := by
  cases f with
  | zero => rw [stmt_sequence_log] at h; cases h
  | succ f =>
    rw [stmt_sequence_log] at h
    simp only [Option.bind_eq_bind] at h
    cases hst : statement f s with
    | none => rw [hst] at h; cases h
    | some x =>
      obtain ⟨q, σ⟩ := x
      rw [hst] at h
      simp only [Option.some_bind] at h
      obtain ⟨hP, hU⟩ := statement_post hst
      obtain ⟨rest, rfl, hrest⟩ := logged_eq_some h
      cases q with
      | none =>
        obtain ⟨hr, hT, hL⟩ := loop_log_none f none σ r rest s1 hrest
        refine ⟨by simpa using hr, by simpa using hT,
          ⟨hP.step.andThen (hL.step.relax hP.len), fun y hy => ?_, fun c hc => ?_, hL.stop⟩⟩
        · have := hL.fresh y (by simpa using hy)
          have := hP.len
          omega
        · rcases List.mem_cons.mp hc with rfl | hc
          · exact hL.step.err
          · exact hL.err c hc
      | some qa =>
        have hf := hP.fresh qa rfl
        have hU1 := hU qa rfl
        obtain ⟨hr, hT, hL⟩ :=
          loop_log_some f qa qa σ.heap σ r rest s1 hrest hU1 (Kept.self hU1) (Nat.le_refl _)
        refine ⟨by simpa using hr, by simpa using hT,
          ⟨hP.step.andThen (hL.step.relax hf.1), fun y hy => ?_, fun c hc => ?_, hL.stop⟩⟩
        · rcases List.mem_cons.mp (by simpa using hy) with rfl | hy
          · exact hf.1
          · have := hL.fresh y hy
            have := hP.len
            omega
        · rcases List.mem_cons.mp hc with rfl | hc
          · exact hL.step.err
          · exact hL.err c hc

/-- From every state the logged `stmt_sequence` returns, with the result and
the final state of `stmt_sequence` itself. -/
theorem seq_log_runs (s : PState) :
    ∃ r log s1, ReturnsLog s r log s1 ∧ Returns stmt_sequence s r s1 := by
  obtain ⟨r, s1, ⟨N, hN⟩, -⟩ := (stmt_level s).1
  have h1 := unlog_seq N s
  rw [hN N (Nat.le_refl _)] at h1
  obtain ⟨⟨r1, log, s2⟩, hx, hy⟩ := Option.map_eq_some'.mp h1
  simp only [Prod.mk.injEq] at hy
  obtain ⟨rfl, rfl⟩ := hy
  exact ⟨r1, log, s2, ⟨N, fun f hf => seq_log_mono N f hf s _ hx⟩, ⟨N, hN⟩⟩

/-- A kept `Unit` is still a statement node that is not an Else node. -/
theorem Kept.kind {h hq : List TreeNode} {q : Nat} {x : Option Nat} (hu : Unit hq q)
    (hk : Kept h hq q x) : ∃ n, h[q]? = some n ∧ ∃ k, n.kind = .stmt k ∧ k ≠ .ElseK := by
  have hq1 := hu.lt
  have h1 := hk q (Nat.le_refl _) hq1
  obtain ⟨n, hn, hkind, hs | ⟨-, e, m, hs, hlt, hm, -, hms⟩⟩ := hu
  · simp only [linkAfter, hn, hs, cell_set _ hq1] at h1
    exact ⟨_, h1, hkind⟩
  · simp only [linkAfter, hn, hs, hm] at h1
    rw [cell_set_ne _ (by omega), hn] at h1
    exact ⟨_, h1, hkind⟩

/-- After a kept `Unit` comes what it was linked to, provided that is not an
Else node. -/
theorem Kept.next {h hq : List TreeNode} {q : Nat} {x : Option Nat} (hu : Unit hq q)
    (hk : Kept h hq q x)
    (hx : ∀ y, x = some y → ∃ n, h[y]? = some n ∧ ∃ k, n.kind = .stmt k ∧ k ≠ .ElseK) :
    follower h q = x := by
  have hq1 := hu.lt
  have h1 := hk q (Nat.le_refl _) hq1
  obtain ⟨n, hn, hkind, hs | ⟨hif, e, m, hs, hlt, hm, hel, hms⟩⟩ := hu
  · simp only [linkAfter, hn, hs, cell_set _ hq1] at h1
    simp only [follower, h1, TreeNode.withSibling_sibling]
    cases x with
    | none => rfl
    | some y =>
      obtain ⟨n1, hn1, k, hk1, hk2⟩ := hx y rfl
      simp only [hn1, hk1, Kind.stmt.injEq, hk2, and_false, if_false]
  · have he1 := cell_lt hm
    have h2 := hk e (by omega) he1
    simp only [linkAfter, hn, hs, hm] at h1 h2
    rw [cell_set_ne _ (by omega), hn] at h1
    rw [cell_set _ he1] at h2
    simp only [follower, h1, hs, h2, hif, TreeNode.withSibling_kind, hel, and_self, if_true,
      TreeNode.withSibling_sibling]

/-- Threaded results form the sibling chain. -/
theorem Threaded.chain {h : List TreeNode} : ∀ l : List (Nat × List TreeNode),
    Threaded h l → chainIs h (l.map Prod.fst) (l.head?.map Prod.fst) := by
  intro l
  induction l with
  | nil => intro _; rfl
  | cons x l ih =>
    rintro ⟨hu, hk, -, hT⟩
    refine ⟨rfl, ?_⟩
    rw [hk.next hu (fun y hy => ?_)]
    · exact ih hT
    · cases l with
      | nil => cases hy
      | cons z l =>
        simp only [List.head?_cons, Option.map_some', Option.some.injEq] at hy
        subst hy
        exact hT.2.1.kind hT.1

/-- The addresses of threaded results increase. -/
theorem Threaded.sorted {h : List TreeNode} : ∀ l : List (Nat × List TreeNode),
    Threaded h l → (l.map Prod.fst).Pairwise (fun a b => a < b) := by
  intro l
  induction l with
  | nil => intro _; exact List.Pairwise.nil
  | cons x l ih =>
    rintro ⟨hu, -, ho, hT⟩
    rw [List.map_cons, List.pairwise_cons]
    refine ⟨fun b hb => ?_, ih hT⟩
    obtain ⟨y, hy, rfl⟩ := List.mem_map.mp hb
    have := ho y hy
    have := hu.lt
    omega

theorem Threaded.nodup {h : List TreeNode} {l : List (Nat × List TreeNode)}
    (hT : Threaded h l) : (l.map Prod.fst).Nodup :=
  (Threaded.sorted l hT).imp (fun hab => Nat.ne_of_lt hab)

theorem results_map_fst (log : List Call) :
    (results log).map Prod.fst = log.filterMap Prod.fst := by
  induction log with
  | nil => rfl
  | cons c l ih =>
    obtain ⟨q, s⟩ := c
    cases q with
    | none => simpa using ih
    | some qa => simpa using ih

/-- Where no result is an If node, the chain is by the sibling field alone. -/
theorem Threaded.plain {h : List TreeNode} : ∀ l : List (Nat × List TreeNode),
    Threaded h l → (∀ q ∈ l.map Prod.fst, ∀ n, h[q]? = some n → n.kind ≠ .stmt .IfK) →
    plainChain h (l.map Prod.fst) (l.head?.map Prod.fst) := by
  intro l
  induction l with
  | nil => intro _ _; rfl
  | cons x l ih =>
    rintro ⟨hu, hk, ho, hT⟩ hno
    have hq1 := hu.lt
    have h1 := hk x.1 (Nat.le_refl _) hq1
    obtain ⟨n1, hn1, -⟩ := hk.kind hu
    have hnot := hno x.1 (by simp) n1 hn1
    refine ⟨rfl, n1, hn1, ?_⟩
    have hsib : n1.sibling = l.head?.map Prod.fst := by
      obtain ⟨n, hn, -, hs | ⟨hif, e, m, hs, hlt, hm, -, -⟩⟩ := hu
      · simp only [linkAfter, hn, hs, cell_set _ hq1] at h1
        rw [hn1] at h1
        cases h1
        rfl
      · simp only [linkAfter, hn, hs, hm] at h1
        rw [cell_set_ne _ (by omega), hn, hn1] at h1
        cases h1
        exact absurd hif hnot
    rw [hsib]
    exact ih hT (fun q hq => hno q (List.mem_cons_of_mem _ hq))

/-- A checked run of the logged `stmt_sequence` holds at every larger budget. -/
theorem checked_log {N : Nat} {s : PState} {chk : Option Nat × List Call × PState → Bool}
    (h : (stmt_sequence_log N s).map chk = some true) :
    ∃ r log s1, ReturnsLog s r log s1 ∧ chk (r, log, s1) = true := by
  obtain ⟨⟨r, log, s1⟩, h1, h2⟩ := Option.map_eq_some'.mp h
  exact ⟨r, log, s1, ⟨N, fun f hf => seq_log_mono N f hf s _ h1⟩, h2⟩

theorem skip_checked :
    (stmt_sequence_log 12 (startOn skipTokens)).map
      (fun x => denotes x.2.2.heap 0 skipTree x.1 &&
        decide (x.2.1.map Prod.fst = [some 0, none, some 2]) &&
        decide (x.2.2.token = .ENDFILE))
      = some true := by
  decide!

/-! ## If, Else and what follows -/

/-- `if_stmt` is its first half followed by the Else part and `match(END)`. -/
theorem if_stmt_split (f : Nat) (s : PState) :
    if_stmt (f + 1) s = (if_stmt_then (f + 1) s).bind fun x =>
      (if x.2.token = .ELSE then
        (stmt_sequence f (match_ .ELSE (newStmtNode .ElseK x.2).2)).bind fun y =>
          (setChild0 (newStmtNode .ElseK x.2).1 y.1 y.2).bind fun s3 =>
            setSibling x.1 (some (newStmtNode .ElseK x.2).1) s3
      else some x.2).bind fun s4 => some (some x.1, match_ .END s4) := by
  rw [if_stmt.eq_2, if_stmt_then]
  simp only [Option.bind_eq_bind, Option.pure_def]
  cases exp f (match_ .IF (newStmtNode .IfK s).2) with
  | none => rfl
  | some x1 =>
    simp only [Option.some_bind]
    cases setChild0 (newStmtNode .IfK s).1 x1.1 x1.2 with
    | none => rfl
    | some s2 =>
      simp only [Option.some_bind]
      cases stmt_sequence f (match_ .THEN s2) with
      | none => rfl
      | some x2 =>
        simp only [Option.some_bind]
        cases setChild1 (newStmtNode .IfK s).1 x2.1 x2.2 with
        | none => rfl
        | some s3 => rfl

/-- The first half of `if_stmt` always returns: the If node is the first
node allocated, and at the test it has no sibling. -/
theorem if_stmt_then_runs (s : PState) :
    ∃ sb n, (∃ N, ∀ f, N ≤ f → if_stmt_then f s = some (s.heap.length, sb)) ∧
      sb.heap[s.heap.length]? = some n ∧ n.kind = .stmt .IfK ∧ n.sibling = none := by
  obtain ⟨c, s1, ⟨N1, hN1⟩, hP1, -⟩ :=
    (exp_level (match_ .IF (s.withHeap (s.heap ++ [freshNode (.stmt .IfK) s])))).2.2.2.2.2
  have hcell1 : s1.heap[s.heap.length]? = some (freshNode (.stmt .IfK) s) :=
    hP1.cell (by simp)
  have hlt1 := cell_lt hcell1
  obtain ⟨b, s2, ⟨N2, hN2⟩, hP2, -⟩ :=
    (stmt_level (match_ .THEN (s1.withHeap (s1.heap.set s.heap.length
      ((freshNode (.stmt .IfK) s).withChild0 c))))).1
  have hcell2 : s2.heap[s.heap.length]? = some ((freshNode (.stmt .IfK) s).withChild0 c) :=
    hP2.cell (by simpa using cell_set _ hlt1)
  have hlt2 := cell_lt hcell2
  refine ⟨s2.withHeap (s2.heap.set s.heap.length
      (((freshNode (.stmt .IfK) s).withChild0 c).withChild1 b)), _,
    ⟨max N1 N2 + 1, fun f hf => ?_⟩, by simpa using cell_set _ hlt2, rfl, rfl⟩
  obtain ⟨f, rfl⟩ : ∃ g, f = g + 1 := ⟨f - 1, by omega⟩
  rw [if_stmt_then]
  simp only [newStmtNode, alloc_fst, alloc_snd, Option.bind_eq_bind, hN1 f (by omega),
    Option.some_bind, setChild0, write_at _ hcell1, hN2 f (by omega), setChild1,
    write_at _ hcell2, Option.pure_def]

/-- When the test `token==ELSE` succeeds, `if_stmt` returns the If node with
the Else node as its sibling; the Else node holds what `stmt_sequence`
returned for the else part and has no sibling. -/
theorem if_stmt_else (s sb : PState)
    (hthen : ∃ N, ∀ f, N ≤ f → if_stmt_then f s = some (s.heap.length, sb))
    (n : TreeNode) (hn : sb.heap[s.heap.length]? = some n) (hel : sb.token = .ELSE) :
    ∃ d sd s1 m, Returns stmt_sequence (match_ .ELSE (newStmtNode .ElseK sb).2) d sd ∧
      Returns if_stmt s (some s.heap.length) s1 ∧
      s1.heap[s.heap.length]? = some (n.withSibling (some sb.heap.length)) ∧
      s1.heap[sb.heap.length]? = some m ∧ m.kind = .stmt .ElseK ∧ m.child0 = d ∧
      m.sibling = none := by
  obtain ⟨N0, hN0⟩ := hthen
  have hlt := cell_lt hn
  obtain ⟨d, sd, ⟨N3, hN3⟩, hP3, -⟩ := (stmt_level (match_ .ELSE (newStmtNode .ElseK sb).2)).1
  have hcellq : sd.heap[sb.heap.length]? = some (freshNode (.stmt .ElseK) sb) :=
    hP3.cell (by simp [newStmtNode])
  have hcellt : sd.heap[s.heap.length]? = some n :=
    hP3.cell (by
      simp only [newStmtNode, alloc_snd, match_heap, PState.withHeap_heap]
      rw [List.getElem?_append_left hlt]
      exact hn)
  have hltq := cell_lt hcellq
  have hne : sb.heap.length ≠ s.heap.length := by omega
  have hcellt1 : (sd.withHeap (sd.heap.set sb.heap.length
      ((freshNode (.stmt .ElseK) sb).withChild0 d))).heap[s.heap.length]? = some n := by
    simp only [PState.withHeap_heap]
    rw [cell_set_ne _ hne]; exact hcellt
  refine ⟨d, sd, match_ .END (sd.withHeap ((sd.heap.set sb.heap.length
      ((freshNode (.stmt .ElseK) sb).withChild0 d)).set s.heap.length
      (n.withSibling (some sb.heap.length)))), (freshNode (.stmt .ElseK) sb).withChild0 d,
    ⟨N3, hN3⟩, ⟨max N0 N3 + 1, fun f hf => ?_⟩, ?_, ?_, rfl, rfl, rfl⟩
  · obtain ⟨f, rfl⟩ : ∃ g, f = g + 1 := ⟨f - 1, by omega⟩
    rw [if_stmt_split, hN0 (f + 1) (by omega)]
    simp only [Option.some_bind, hel, if_true, hN3 f (by omega)]
    simp only [newStmtNode, alloc_fst, setChild0, write_at _ hcellq, setSibling,
      write_at _ hcellt1, withHeap_withHeap, PState.withHeap_heap, Option.some_bind]
  · simp only [match_heap, PState.withHeap_heap]
    exact cell_set _ (by simpa using cell_lt hcellt)
  · simp only [match_heap, PState.withHeap_heap]
    rw [cell_set_ne _ (Ne.symm hne)]
    exact cell_set _ hltq

theorem Threaded.drop {h : List TreeNode} : ∀ l1 l : List (Nat × List TreeNode),
    Threaded h (l1 ++ l) → Threaded h l := by
  intro l1
  induction l1 with
  | nil => intro l hT; exact hT
  | cons x l1 ih => intro l hT; exact ih l hT.2.2.2

/-- A checked run returns its result at every larger budget. -/
theorem checked_returns {F : Nat → PState → Res}
    (hF : ∀ f g, f ≤ g → ∀ s, LessDef (F f s) (F g s))
    {N : Nat} {s : PState} {chk : Option Nat × PState → Bool}
    (h : (F N s).map chk = some true) :
    ∃ r s1, Returns F s r s1 ∧ chk (r, s1) = true := by
  obtain ⟨⟨r, s1⟩, h1, h2⟩ := Option.map_eq_some'.mp h
  exact ⟨r, s1, ⟨N, fun f hf => hF N f hf s _ h1⟩, h2⟩

theorem if_else_checked :
    (stmt_sequence 16 (startOn ifElseTokens)).map
      (fun x => denotes x.2.heap 0 ifElseTree x.1 && !x.2.Error)
      = some true := by
  decide!

/-- C3: from every state the first half of `if_stmt` reaches the test
`token==ELSE`, and when the lookahead there is `ELSE`, `if_stmt` returns the
If node with the newly allocated Else node as its sibling; the Else node
holds in child 0 what `stmt_sequence` returned for the else part and has no
sibling.  In a run of `stmt_sequence`, whenever a call of `statement` came
back with a node `a` that has a sibling `e` and a later call returned the
next node `b`, then `a` is an If node that is in the end exactly as that call
left it (its sibling is still `e`), `e` is the Else node and has got `b` as
its sibling, nothing else of it being changed, and the chain goes on from `b`
through the later results.  On the tokens of
`if x then write x else write y end; write z` the result is
`If -> Else -> Write z` by sibling, without error. -/
theorem else_threading :
    (∀ s : PState, ∃ sb n,
      (∃ N, ∀ f, N ≤ f → if_stmt_then f s = some (s.heap.length, sb)) ∧
      sb.heap[s.heap.length]? = some n ∧ n.kind = .stmt .IfK ∧
      (sb.token = .ELSE → ∃ d sd s1 m,
        Returns stmt_sequence (match_ .ELSE (newStmtNode .ElseK sb).2) d sd ∧
        Returns if_stmt s (some s.heap.length) s1 ∧
        s1.heap[s.heap.length]? = some (n.withSibling (some sb.heap.length)) ∧
        s1.heap[sb.heap.length]? = some m ∧ m.kind = .stmt .ElseK ∧ m.child0 = d ∧
        m.sibling = none)) ∧
    (∀ s : PState, ∃ r log s1, ReturnsLog s r log s1 ∧ Returns stmt_sequence s r s1 ∧
      ∀ l1 a ha b hb l2, results log = l1 ++ (a, ha) :: (b, hb) :: l2 →
        ∀ n e, ha[a]? = some n → n.sibling = some e →
          n.kind = .stmt .IfK ∧ s1.heap[a]? = some n ∧
          (∃ m, ha[e]? = some m ∧ m.kind = .stmt .ElseK ∧
            s1.heap[e]? = some (m.withSibling (some b))) ∧
          chainIs s1.heap (b :: l2.map Prod.fst) (some b)) ∧
    (∃ r s1, Returns stmt_sequence (startOn ifElseTokens) r s1 ∧ s1.Error = false ∧
      denotes s1.heap 0 ifElseTree r = true) := by
  refine ⟨fun s => ?_, fun s => ?_, ?_⟩
  · obtain ⟨sb, n, hthen, hn, hk, -⟩ := if_stmt_then_runs s
    exact ⟨sb, n, hthen, hn, hk, if_stmt_else s sb hthen n hn⟩
  · obtain ⟨r, log, s1, ⟨N, hN⟩, hR1⟩ := seq_log_runs s
    obtain ⟨-, hT, -⟩ := seq_log_post (hN N (Nat.le_refl _))
    refine ⟨r, log, s1, ⟨N, hN⟩, hR1, fun l1 a ha b hb l2 hres n e hn hs => ?_⟩
    rw [hres] at hT
    obtain ⟨hu, hk, -, hT2⟩ := Threaded.drop _ _ hT
    have ha1 := hk a (Nat.le_refl _) hu.lt
    obtain ⟨n1, hn1, -, hs1 | ⟨hif, e1, m, hs1, hlt, hm, hel, hms⟩⟩ := hu
    · simp only at hn1
      rw [hn] at hn1
      cases hn1
      rw [hs] at hs1
      cases hs1
    · simp only at hn1 hm hlt
      rw [hn] at hn1
      cases hn1
      rw [hs] at hs1
      cases hs1
      have he1 := hk e (by simp only; omega) (cell_lt hm)
      simp only [linkAfter, hn, hs, hm, List.head?_cons, Option.map_some'] at ha1 he1
      rw [cell_set_ne _ (by omega), hn] at ha1
      rw [cell_set _ (cell_lt hm)] at he1
      exact ⟨hif, ha1, ⟨m, hm, hel, he1⟩, Threaded.chain _ hT2⟩
  · obtain ⟨r, s1, hR, hc⟩ :=
      checked_returns (fun f g h => (monoAt f g h).stmt_sequence) if_else_checked
    simp only [Bool.and_eq_true, Bool.not_eq_true'] at hc
    exact ⟨r, s1, hR, hc.2, hc.1⟩

/-! ## Relational operators do not chain -/

theorem reads_atom_simple {tk : Token} (h : isAtom tk) :
    Reads simple_exp okSimple [tk] (leaf tk) := by
  have h1 := reads_term [] (factor_atom h) (by simp)
  have h2 := reads_simple_exp [] h1 (by simp)
  simpa [flatOps, foldOps] using h2

/-- What `exp` itself consumes is nothing, or one relational operator between
its two calls of `simple_exp`; after the second call it returns at once. -/
theorem exp_one_relop (s : PState) :
    ∃ t sA, Returns simple_exp s t sA ∧
      (¬ isRelop sA.token → Returns exp s t sA) ∧
      (isRelop sA.token → ∃ x sB s1, Returns simple_exp (afterRelop t sA) x sB ∧
        Returns exp s (some sA.heap.length) s1 ∧ s1 = sB.withHeap s1.heap) := by
  obtain ⟨t, sA, ⟨N1, hN1⟩, -, -⟩ := (exp_level s).2.2.2.2.1
  refine ⟨t, sA, ⟨N1, hN1⟩, fun hr => ⟨N1 + 1, fun f hf => ?_⟩, fun hr => ?_⟩
  · obtain ⟨f, rfl⟩ : ∃ g, f = g + 1 := ⟨f - 1, by omega⟩
    exact exp_plain f s (hN1 f (by omega)) hr
  · obtain ⟨x, sB, ⟨N2, hN2⟩, hP2, -⟩ := (exp_level (afterRelop t sA)).2.2.2.2.1
    have hcell : sB.heap[sA.heap.length]? =
        some (((freshNode (.exp .OpK) sA).withChild0 t).withAttr (.op sA.token)) :=
      hP2.cell (by simp [afterRelop])
    refine ⟨x, sB, sB.withHeap (sB.heap.set sA.heap.length
      ((((freshNode (.exp .OpK) sA).withChild0 t).withAttr (.op sA.token)).withChild1 x)),
      ⟨N2, hN2⟩, ⟨max N1 N2 + 1, fun f hf => ?_⟩, rfl⟩
    obtain ⟨f, rfl⟩ : ∃ g, f = g + 1 := ⟨f - 1, by omega⟩
    rw [exp_rel f s (hN1 f (by omega)) hr]
    have h2 := hN2 f (by omega)
    unfold afterRelop at h2
    rw [h2]
    simp only [Option.some_bind, setChild1, write_at _ hcell]

theorem statement_write (f : Nat) (s : PState) (h : s.token = .WRITE) :
    statement (f + 1) s = write_stmt f s := by
  rw [statement.eq_2]
  simp only [h]

theorem statement_other (f : Nat) (s : PState) (h : s.token = .LT) :
    statement (f + 1) s = some (none, advance (syntaxError "unexpected token -> " s)) := by
  rw [statement.eq_2]
  simp only [h]

/-- `write_stmt` in terms of the run of `exp` inside it. -/
theorem write_stmt_of_exp {s s1 : PState} {c : Option Nat}
    (hR : Returns exp (match_ .WRITE (newStmtNode .WriteK s).2) c s1)
    (hcell : s1.heap[s.heap.length]? = some (freshNode (.stmt .WriteK) s)) :
    Returns write_stmt s (some s.heap.length)
      (s1.withHeap (s1.heap.set s.heap.length ((freshNode (.stmt .WriteK) s).withChild0 c))) := by
  obtain ⟨N1, hN1⟩ := hR
  refine ⟨N1 + 1, fun f hf => ?_⟩
  obtain ⟨f, rfl⟩ : ∃ g, f = g + 1 := ⟨f - 1, by omega⟩
  rw [write_stmt.eq_2]
  simp only [Option.bind_eq_bind, hN1 f (by omega), Option.some_bind]
  simp only [newStmtNode, alloc_fst, setChild0, write_at _ hcell, Option.some_bind,
    Option.pure_def]

/-- A call of `statement` that returns absent is passed over by the loop. -/
theorem loop_log_skip (f : Nat) (t p : Option Nat) {s σ : PState}
    (hc : seqContinues s.token = true) (hst : statement f (match_ .SEMI s) = some (none, σ)) :
    stmt_sequence_loop_log (f + 1) t p s = logged (none, σ) (stmt_sequence_loop_log f t p σ) := by
  rw [stmt_sequence_loop_log]
  simp only [hc, if_true, Option.bind_eq_bind, hst, Option.some_bind]

theorem seq_log_first (f : Nat) {s σ : PState} {q : Option Nat}
    (hst : statement f s = some (q, σ)) :
    stmt_sequence_log (f + 1) s = logged (q, σ) (stmt_sequence_loop_log f q q σ) := by
  rw [stmt_sequence_log]
  simp only [Option.bind_eq_bind, hst, Option.some_bind]

theorem exp_rel_abc (a b c : String) :
    ∃ r s1, Returns exp (startOn (relTokens a b c)) r s1 ∧
      Pending s1 [tok .LT "<", tok .ID c] ∧ s1.Error = false ∧
      denotes s1.heap 0 (.binop .LT (.ident a) (.ident b)) r = true := by
  have ha : isAtom (tok .ID a) := Or.inr (Or.inl rfl)
  have hb : isAtom (tok .ID b) := Or.inr (Or.inl rfl)
  have hexp := @reads_exp_rel [tok .ID a] [tok .ID b] _ _ (tok .LT "<")
    (reads_atom_simple ha) (Or.inl rfl) (reads_atom_simple hb)
  obtain ⟨r, s1, hR, hp, herr, -, -, hd⟩ := hexp (startOn (relTokens a b c))
    [tok .LT "<", tok .ID c] ⟨rfl, rfl, rfl, rfl⟩ (by simp [okSimple, nextType, tok])
  exact ⟨r, s1, hR, hp, herr, hd⟩

/-- C9: for all identifiers `a`, `b`, `c`, on the tokens `a < b < c` the
procedure `exp` returns `BinaryOp(<, Identifier a, Identifier b)` without
error and leaves `< c` pending; `stmt_sequence` on `write a < b < c` returns
the Write node, whose child 0 is `BinaryOp(<, a, b)`, with the error flag
set.  In general, from every state `exp` calls `simple_exp`, and then either
returns its result (lookahead not relational), or matches the one relational
operator, calls `simple_exp` once more and returns in the state that call
left, heap apart: a relational operator that follows stays the lookahead. -/
theorem relop_no_chain :
    (∀ a b c : String, ∃ r s1, Returns exp (startOn (relTokens a b c)) r s1 ∧
      Pending s1 [tok .LT "<", tok .ID c] ∧ s1.Error = false ∧
      denotes s1.heap 0 (.binop .LT (.ident a) (.ident b)) r = true) ∧
    (∀ a b c : String, ∃ w n s1,
      Returns stmt_sequence (startOn (writeRelTokens a b c)) (some w) s1 ∧
      s1.Error = true ∧ s1.heap[w]? = some n ∧ n.kind = .stmt .WriteK ∧
      denotes s1.heap 0 (.binop .LT (.ident a) (.ident b)) n.child0 = true) ∧
    (∀ s : PState, ∃ t sA, Returns simple_exp s t sA ∧
      (¬ isRelop sA.token → Returns exp s t sA) ∧
      (isRelop sA.token → ∃ x sB s1, Returns simple_exp (afterRelop t sA) x sB ∧
        Returns exp s (some sA.heap.length) s1 ∧ s1 = sB.withHeap s1.heap)) := by
  refine ⟨exp_rel_abc, fun a b c => ?_, exp_one_relop⟩
  have ha : isAtom (tok .ID a) := Or.inr (Or.inl rfl)
  have hb : isAtom (tok .ID b) := Or.inr (Or.inl rfl)
  have hexp := @reads_exp_rel [tok .ID a] [tok .ID b] _ _ (tok .LT "<")
    (reads_atom_simple ha) (Or.inl rfl) (reads_atom_simple hb)
  generalize hs0 : startOn (writeRelTokens a b c) = s0
  have htok0 : s0.token = .WRITE := by subst hs0; rfl
  have hlen0 : s0.heap.length = 0 := by subst hs0; rfl
  have hpA : Pending (match_ .WRITE (newStmtNode .WriteK s0).2)
      ([tok .ID a] ++ tok .LT "<" :: [tok .ID b] ++ [tok .LT "<", tok .ID c]) := by
    subst hs0; exact ⟨rfl, rfl, rfl, rfl⟩
  have hlenA : (match_ .WRITE (newStmtNode .WriteK s0).2).heap.length = 1 := by
    simp [newStmtNode, hlen0]
  obtain ⟨c0, s1, hR1, hp1, -, -, hext1, hd1⟩ := hexp _ _ hpA
    (by simp [okSimple, nextType, tok])
  rw [hlenA] at hext1 hd1
  have hcell1 : s1.heap[s0.heap.length]? = some (freshNode (.stmt .WriteK) s0) := by
    rw [hlen0, hext1.2 0 (by omega)]
    simp [newStmtNode, hlen0]
  -- the first call of `statement`
  obtain ⟨N1, hN1⟩ := write_stmt_of_exp hR1 hcell1
  generalize hσ1 : s1.withHeap (s1.heap.set s0.heap.length
    ((freshNode (.stmt .WriteK) s0).withChild0 c0)) = σ1 at hN1
  have htok1 : σ1.token = .LT := by subst hσ1; exact hp1.1
  -- the second call, on the second `<`
  have hmiss : match_ .SEMI σ1 = syntaxError "unexpected token -> " σ1 :=
    match_miss (by rw [htok1]; decide)
  generalize hσ2 : advance (syntaxError "unexpected token -> "
    (syntaxError "unexpected token -> " σ1)) = σ2
  have herr2 : σ2.Error = true := by subst hσ2; simp
  obtain ⟨r, log, sF, ⟨N, hN⟩, hRF⟩ := seq_log_runs s0
  obtain ⟨hr, hT, hL⟩ := seq_log_post (hN N (Nat.le_refl _))
  have hrun := hN (max N N1 + 3) (by omega)
  rw [show max N N1 + 3 = (max N N1 + 1 + 1) + 1 from rfl,
    seq_log_first _ (by rw [statement_write _ _ htok0]; exact hN1 _ (by omega)),
    loop_log_skip _ _ _ (by rw [htok1]; rfl)
      (by rw [hmiss, statement_other _ _ (by simpa using htok1), hσ2])] at hrun
  obtain ⟨rest1, hlog1, hrun1⟩ := logged_eq_some hrun
  obtain ⟨rest2, hlog2, -⟩ := logged_eq_some hrun1
  subst hlog2
  subst hlog1
  simp only [results_cons_some, results_cons_none, List.head?_cons, Option.map_some'] at hr hT
  subst hr
  obtain ⟨hu, hk, -, -⟩ := hT
  simp only at hu hk
  have hcellσ : σ1.heap[s0.heap.length]? = some ((freshNode (.stmt .WriteK) s0).withChild0 c0) := by
    subst hσ1
    exact cell_set _ (cell_lt hcell1)
  have hw := hk s0.heap.length (Nat.le_refl _) hu.lt
  simp only [linkAfter, hcellσ, TreeNode.withChild0_sibling, freshNode_sibling,
    cell_set _ hu.lt] at hw
  refine ⟨s0.heap.length, _, sF, hRF, hL.err (none, σ2) (by simp) herr2, hw, rfl, ?_⟩
  simp only [TreeNode.withSibling_child0, TreeNode.withChild0_child0]
  refine denotes_lower (Nat.zero_le 1) _ _ (denotes_of_agree (fun x hx1 hx2 => ?_) _ _
    (?_ : denotes σ1.heap 1 _ c0 = true))
  · rw [hk x (by omega) hx2]
    simp only [linkAfter, hcellσ, TreeNode.withChild0_sibling, freshNode_sibling]
    exact cell_set_ne _ (by omega)
  · subst hσ1
    exact denotes_set_below _ (by omega) hd1

/-! ## Reading statements -/

theorem Reads.narrow {F : Nat → PState → Res} {ok ok1 : TokenType → Prop} {l : List Token}
    {T : Tree} (h : Reads F ok l T) (hok : ∀ tk, ok1 tk → ok tk) : Reads F ok1 l T :=
  fun s rest hp h1 => h s rest hp (hok _ h1)

theorem okSeq_exp {tk : TokenType} (h : okSeq tk) : okSimple tk ∧ ¬ isRelop tk := by
  unfold okSeq seqContinues at h
  unfold okSimple isRelop
  cases tk <;> simp_all

/-- `write e`, for an expression `e` that `exp` reads. -/
theorem reads_write {l : List Token} {T : Tree} {ok : TokenType → Prop} {w : Token}
    (hw : w.type = .WRITE) (h : Reads exp ok l T) :
    Reads write_stmt ok (w :: l) (.stmt .WriteK .zero T .absent .absent .absent) := by
  intro s rest hp hok
  have htok : s.token = .WRITE := hp.1.trans hw
  have hpA : Pending (match_ .WRITE (newStmtNode .WriteK s).2) (l ++ rest) := by
    rw [match_hit (by simpa [newStmtNode] using htok)]
    exact Pending.step ((Pending_withHeap _ _ _).mpr hp)
  obtain ⟨c, s1, hR, hp1, herr, hlist, hext, hd⟩ := h _ rest hpA hok
  have hlenA : (match_ .WRITE (newStmtNode .WriteK s).2).heap.length = s.heap.length + 1 := by
    simp [newStmtNode]
  rw [hlenA] at hext hd
  have hcell : s1.heap[s.heap.length]? = some (freshNode (.stmt .WriteK) s) := by
    rw [hext.2 _ (Nat.lt_succ_self _)]
    simp [newStmtNode]
  have hlt := cell_lt hcell
  refine ⟨_, _, write_stmt_of_exp hR hcell, (Pending_withHeap _ _ _).mpr hp1, ?_, ?_, ?_, ?_⟩
  · rw [PState.withHeap_Error, herr, match_hit (by simpa [newStmtNode] using htok)]
    simp [newStmtNode]
  · rw [PState.withHeap_listing, hlist, match_hit (by simpa [newStmtNode] using htok)]
    simp [newStmtNode]
  · have h1 : HExt s.heap.length s.heap (match_ .WRITE (newStmtNode .WriteK s).2).heap := by
      simpa [newStmtNode] using HExt.append s.heap _ (Nat.le_refl _)
    exact (h1.trans (hext.weaken (Nat.le_succ _))).trans (HExt.set _ _ _ (Nat.le_refl _))
  · simp only [Tree.stmt, denotes, PState.withHeap_heap, cell_set _ hlt, Nat.le_refl,
      decide_True, TreeNode.withChild0_kind, freshNode_kind, TreeNode.withChild0_attr,
      freshNode_attr, TreeNode.withChild0_child0, TreeNode.withChild0_child1,
      freshNode_child1, TreeNode.withChild0_child2, freshNode_child2,
      TreeNode.withChild0_sibling, freshNode_sibling, Option.isNone_none, Bool.and_true,
      Bool.true_and]
    exact denotes_lower (Nat.le_succ _) _ _ (denotes_set_below _ (Nat.lt_succ_self _) hd)

/-- A statement that starts with `write` is read by `statement` as by
`write_stmt`. -/
theorem reads_statement_write {l : List Token} {T : Tree} {ok : TokenType → Prop} {w : Token}
    (hw : w.type = .WRITE) (h : Reads write_stmt ok (w :: l) T) :
    Reads statement ok (w :: l) T := by
  intro s rest hp hok
  obtain ⟨r, s1, ⟨N, hN⟩, hrest⟩ := h s rest hp hok
  refine ⟨r, s1, ⟨N + 1, fun f hf => ?_⟩, hrest⟩
  obtain ⟨f, rfl⟩ : ∃ g, f = g + 1 := ⟨f - 1, by omega⟩
  rw [statement_write f s (hp.1.trans hw)]
  exact hN f (by omega)

/-- One statement followed by a token that ends a sequence is a sequence. -/
theorem reads_seq_single {l : List Token} {T : Tree} (h : Reads statement okSeq l T) :
    Reads stmt_sequence okSeq l T := by
  intro s rest hp hok
  obtain ⟨r, s1, ⟨N, hN⟩, hp1, hrest⟩ := h s rest hp hok
  refine ⟨r, s1, ⟨N + 2, fun f hf => ?_⟩, hp1, hrest⟩
  obtain ⟨f, rfl⟩ : ∃ g, f = g + 2 := ⟨f - 2, by omega⟩
  rw [stmt_sequence.eq_2, hN (f + 1) (by omega)]
  exact stmt_sequence_loop_exit f r r s1 (by rw [hp1.token_next]; exact hok)

/-- The sequence `write x`. -/
theorem reads_write_id (x : String) :
    Reads stmt_sequence okSeq [tok .WRITE "write", tok .ID x] (writeTree x) := by
  have ha : isAtom (tok .ID x) := Or.inr (Or.inl rfl)
  have h1 : Reads exp okSeq [tok .ID x] (leaf (tok .ID x)) :=
    (reads_exp_plain (reads_atom_simple ha)).narrow (fun _ => okSeq_exp)
  exact reads_seq_single (reads_statement_write rfl (reads_write rfl h1))

/-! ## The chain of cases -/

theorem okSwitch_not_default {d : Option DefaultPart} {tk : TokenType} (h : okSwitch d tk) :
    tk ≠ .DEFAULT := by
  cases d with
  | none => exact h.2
  | some _ => exact seqContinues_DEFAULT h

/-- A node with the fields of a Case node denotes the Case tree. -/
theorem denotes_stmt {h : List TreeNode} {t : Nat} {n : TreeNode} {k : StmtKind}
    {T0 T1 T3 : Tree} (hc : h[t]? = some n) (hk : n.kind = .stmt k) (ha : n.attr = .zero)
    (h2 : n.child2 = none) (d0 : denotes h (t + 1) T0 n.child0 = true)
    (d1 : denotes h (t + 1) T1 n.child1 = true) (d3 : denotes h (t + 1) T3 n.sibling = true) :
    denotes h t (.stmt k .zero T0 T1 .absent T3) (some t) = true := by
  simp only [Tree.stmt, denotes, hc, Nat.le_refl, decide_True, hk, ha, h2, Option.isNone_none,
    Bool.and_true, Bool.true_and, Bool.and_eq_true]
  exact ⟨⟨denotes_lower (Nat.le_succ _) _ _ d0, denotes_lower (Nat.le_succ _) _ _ d1⟩,
    denotes_lower (Nat.le_succ _) _ _ d3⟩

/-- On a well-formed clause `case_stmt` reaches its test `token == CASE`
with the clause consumed and the Case node filled in. -/
theorem case_head (c : Clause) (hc : c.wf) (s : PState) (rest : List Token)
    (hp : Pending s (c.kw :: (c.value ++ (c.body ++ c.brk :: rest)))) :
    ∃ sB n, CaseHead c s rest sB n := by
  obtain ⟨hkw, hval, hbody, hbrk⟩ := hc
  have htok : s.token = .CASE := hp.1.trans hkw
  have hA : match_ .CASE (s.withHeap (s.heap ++ [freshNode (.stmt .CaseK) s])) =
      advance (s.withHeap (s.heap ++ [freshNode (.stmt .CaseK) s])) := match_hit htok
  have hpA : Pending (match_ .CASE (s.withHeap (s.heap ++ [freshNode (.stmt .CaseK) s])))
      (c.value ++ (c.body ++ c.brk :: rest)) := by
    rw [hA]
    exact Pending.step ((Pending_withHeap _ _ _).mpr hp)
  obtain ⟨v, s1, ⟨N1, hN1⟩, hp1, herr1, hlist1, hext1, hd1⟩ := hval _ _ hpA trivial
  simp only [match_heap, PState.withHeap_heap, List.length_append, List.length_singleton]
    at hext1 hd1
  have hcell1 : s1.heap[s.heap.length]? = some (freshNode (.stmt .CaseK) s) := by
    rw [hext1.2 _ (Nat.lt_succ_self _)]
    simp
  have hlt1 := cell_lt hcell1
  obtain ⟨b, s2, ⟨N2, hN2⟩, hp2, herr2, hlist2, hext2, hd2⟩ :=
    hbody (s1.withHeap (s1.heap.set s.heap.length ((freshNode (.stmt .CaseK) s).withChild0 v)))
      (c.brk :: rest) ((Pending_withHeap _ _ _).mpr hp1)
      (by simp [nextType, okSeq, seqContinues, hbrk])
  simp only [PState.withHeap_heap, List.length_set, PState.withHeap_Error,
    PState.withHeap_listing] at hext2 hd2 herr2 hlist2
  have hcell2 : s2.heap[s.heap.length]? = some ((freshNode (.stmt .CaseK) s).withChild0 v) := by
    rw [hext2.2 _ hlt1]
    exact cell_set _ hlt1
  have hlt2 := cell_lt hcell2
  have htok2 : s2.token = .BREAK := hp2.1.trans hbrk
  have hB : match_ .BREAK (s2.withHeap (s2.heap.set s.heap.length
      (((freshNode (.stmt .CaseK) s).withChild0 v).withChild1 b))) =
      advance (s2.withHeap (s2.heap.set s.heap.length
        (((freshNode (.stmt .CaseK) s).withChild0 v).withChild1 b))) := match_hit htok2
  have hlen1 := hext1.1
  simp only [List.length_append, List.length_singleton] at hlen1
  have hlen2 := hext2.1
  refine ⟨match_ .BREAK (s2.withHeap (s2.heap.set s.heap.length
      (((freshNode (.stmt .CaseK) s).withChild0 v).withChild1 b))),
    ((freshNode (.stmt .CaseK) s).withChild0 v).withChild1 b,
    ⟨⟨max N1 N2, fun f hf => ?_⟩, ?_, ?_, ?_, ?_, ?_, rfl, rfl, rfl, rfl, ?_, ?_⟩⟩
  · rw [case_stmt.eq_2]
    simp only [newStmtNode, alloc_fst, alloc_snd, Option.bind_eq_bind, hN1 f (by omega),
      Option.some_bind, setChild0, write_at _ hcell1, hN2 f (by omega), setChild1,
      write_at _ hcell2, Option.pure_def, case_stmt_tail]
  · rw [hB]
    exact Pending.step ((Pending_withHeap _ _ _).mpr hp2)
  · rw [hB, advance_Error, PState.withHeap_Error, herr2, herr1, hA, advance_Error,
      PState.withHeap_Error]
  · rw [hB, advance_listing, PState.withHeap_listing, hlist2, hlist1, hA, advance_listing,
      PState.withHeap_listing]
  · rw [match_heap, PState.withHeap_heap]
    exact ((((HExt.append s.heap _ (Nat.le_refl _)).trans (hext1.weaken (Nat.le_succ _))).trans
      (HExt.set _ _ _ (Nat.le_refl _))).trans (hext2.weaken (by omega))).trans
      (HExt.set _ _ _ (Nat.le_refl _))
  · rw [match_heap, PState.withHeap_heap]
    exact cell_set _ hlt2
  · rw [match_heap, PState.withHeap_heap]
    refine denotes_set_below _ (Nat.lt_succ_self _) (denotes_of_HExt hext2 (by simp) ?_)
    exact denotes_set_below _ (Nat.lt_succ_self _) hd1
  · rw [match_heap, PState.withHeap_heap]
    exact denotes_set_below _ (Nat.lt_succ_self _) (denotes_lower (by omega) _ _ hd2)

/-- A well-formed list of clauses, with or without a default part, is read by
`case_stmt` as the chain of its Case nodes, the Default node last. -/
theorem reads_cases (d : Option DefaultPart) (hd : ∀ x ∈ d, x.wf) :
    ∀ (cs : List Clause) (c : Clause), c.wf → (∀ x ∈ cs, x.wf) →
      Reads case_stmt (okSwitch d) (c.tokens ++ (clauseTokens cs ++ defaultTokens d))
        (caseChain (c :: cs) (defaultTree d)) := by
  intro cs
  induction cs with
  | nil =>
    intro c hc _ s rest hp hok
    cases d with
    | none =>
      obtain ⟨sB, n, H⟩ := case_head c hc s rest (by
        simpa [Clause.tokens, clauseTokens, defaultTokens] using hp)
      obtain ⟨N, hN⟩ := H.unfold
      have htk := H.pending.token_next
      refine ⟨some s.heap.length, sB, ⟨N + 1, fun f hf => ?_⟩, H.pending, H.err, H.listing,
        H.ext, ?_⟩
      · obtain ⟨f, rfl⟩ : ∃ g, f = g + 1 := ⟨f - 1, by omega⟩
        rw [hN f (by omega)]
        simp only [case_stmt_tail, htk, hok.1, hok.2, if_false, Option.some_bind]
      · refine denotes_stmt H.cell H.kind H.attr H.child2 H.value H.body ?_
        rw [H.sibling]
        rfl
    | some dp =>
      obtain ⟨hdk, hdb⟩ := hd dp rfl
      obtain ⟨sB, n, H⟩ := case_head c hc s (dp.kw :: (dp.body ++ rest)) (by
        simpa [Clause.tokens, clauseTokens, defaultTokens] using hp)
      obtain ⟨N, hN⟩ := H.unfold
      have htk : sB.token = .DEFAULT := H.pending.1.trans hdk
      have hD : match_ .DEFAULT (sB.withHeap (sB.heap ++ [freshNode (.stmt .DefaultK) sB])) =
          advance (sB.withHeap (sB.heap ++ [freshNode (.stmt .DefaultK) sB])) := match_hit htk
      obtain ⟨e, s4, ⟨N4, hN4⟩, hp4, herr4, hlist4, hext4, hd4⟩ :=
        hdb (match_ .DEFAULT (sB.withHeap (sB.heap ++ [freshNode (.stmt .DefaultK) sB]))) rest
          (by rw [hD]; exact Pending.step ((Pending_withHeap _ _ _).mpr H.pending)) hok
      simp only [match_heap, PState.withHeap_heap, List.length_append, List.length_singleton]
        at hext4 hd4
      have hltB := cell_lt H.cell
      have hcellq : s4.heap[sB.heap.length]? = some (freshNode (.stmt .DefaultK) sB) := by
        rw [hext4.2 _ (Nat.lt_succ_self _)]
        simp
      have hcellt : s4.heap[s.heap.length]? = some n := by
        rw [hext4.2 _ (by omega), List.getElem?_append_left hltB]
        exact H.cell
      have hltq := cell_lt hcellq
      have hne : sB.heap.length ≠ s.heap.length := by omega
      have hcellt1 : (s4.withHeap (s4.heap.set sB.heap.length
          ((freshNode (.stmt .DefaultK) sB).withChild0 e))).heap[s.heap.length]? = some n := by
        rw [PState.withHeap_heap, cell_set_ne _ hne]
        exact hcellt
      have hextB4 : HExt sB.heap.length sB.heap s4.heap :=
        (HExt.append sB.heap _ (Nat.le_refl _)).trans (hext4.weaken (Nat.le_succ _))
      refine ⟨some s.heap.length, s4.withHeap ((s4.heap.set sB.heap.length
          ((freshNode (.stmt .DefaultK) sB).withChild0 e)).set s.heap.length
          (n.withSibling (some sB.heap.length))), ⟨max N N4 + 1, fun f hf => ?_⟩,
        (Pending_withHeap _ _ _).mpr hp4, ?_, ?_, ?_, ?_⟩
      · obtain ⟨f, rfl⟩ : ∃ g, f = g + 1 := ⟨f - 1, by omega⟩
        rw [hN f (by omega)]
        have hcs : sB.token ≠ .CASE := by rw [htk]; decide
        simp only [case_stmt_tail, if_neg hcs, Option.some_bind]
        simp only [htk, if_true, Option.some_bind,
          hN4 f (by omega), setChild0, write_at _ hcellq, setSibling, write_at _ hcellt1,
          withHeap_withHeap, PState.withHeap_heap]
      · rw [PState.withHeap_Error, herr4, hD, advance_Error, PState.withHeap_Error, H.err]
      · rw [PState.withHeap_listing, hlist4, hD, advance_listing, PState.withHeap_listing,
          H.listing]
      · rw [PState.withHeap_heap]
        exact ((H.ext.trans (hextB4.weaken H.ext.1)).trans
          (HExt.set _ _ _ H.ext.1)).trans (HExt.set _ _ _ (Nat.le_refl _))
      · have hlt4 := cell_lt hcellt
        have hsetq : ((s4.heap.set sB.heap.length
            ((freshNode (.stmt .DefaultK) sB).withChild0 e)).set s.heap.length
            (n.withSibling (some sB.heap.length)))[sB.heap.length]? =
            some ((freshNode (.stmt .DefaultK) sB).withChild0 e) := by
          rw [cell_set_ne _ (Ne.symm hne)]
          exact cell_set _ hltq
        refine denotes_stmt (cell_set _ (by simpa using hlt4)) H.kind H.attr H.child2 ?_ ?_ ?_
        · exact denotes_set_below _ (Nat.lt_succ_self _) (denotes_of_HExt
            (hextB4.trans (HExt.set _ _ _ (Nat.le_refl _))) (Nat.le_refl _) H.value)
        · exact denotes_set_below _ (Nat.lt_succ_self _) (denotes_of_HExt
            (hextB4.trans (HExt.set _ _ _ (Nat.le_refl _))) (Nat.le_refl _) H.body)
        · refine denotes_lower (by omega : s.heap.length + 1 ≤ sB.heap.length) _ _
            (denotes_stmt hsetq rfl rfl rfl ?_ rfl rfl)
          exact denotes_set_below _ (by omega) (denotes_set_below _ (Nat.lt_succ_self _) hd4)
  | cons c2 cs ih =>
    intro c hc hcs s rest hp hok
    have hc2 := hcs c2 (List.mem_cons_self _ _)
    obtain ⟨sB, n, H⟩ := case_head c hc s
      ((c2.tokens ++ (clauseTokens cs ++ defaultTokens d)) ++ rest) (by
        simpa [Clause.tokens, clauseTokens, List.append_assoc] using hp)
    obtain ⟨N, hN⟩ := H.unfold
    have htk : sB.token = .CASE := H.pending.1.trans hc2.1
    obtain ⟨r, s3, ⟨N3, hN3⟩, hp3, herr3, hlist3, hext3, hd3⟩ :=
      ih c2 hc2 (fun x hx => hcs x (List.mem_cons_of_mem _ hx)) sB rest H.pending hok
    have hltB := cell_lt H.cell
    have hcell3 : s3.heap[s.heap.length]? = some n := by
      rw [hext3.2 _ hltB]
      exact H.cell
    have hlt3 := cell_lt hcell3
    have htk3 : s3.token ≠ .DEFAULT := by
      rw [hp3.token_next]
      exact okSwitch_not_default hok
    refine ⟨some s.heap.length, s3.withHeap (s3.heap.set s.heap.length (n.withSibling r)),
      ⟨max N N3 + 1, fun f hf => ?_⟩, (Pending_withHeap _ _ _).mpr hp3, ?_, ?_, ?_, ?_⟩
    · obtain ⟨f, rfl⟩ : ∃ g, f = g + 1 := ⟨f - 1, by omega⟩
      rw [hN f (by omega)]
      simp only [case_stmt_tail, htk, if_true, hN3 f (by omega), Option.some_bind, setSibling,
        write_at _ hcell3, PState.withHeap_token, htk3, if_false]
    · rw [PState.withHeap_Error, herr3, H.err]
    · rw [PState.withHeap_listing, hlist3, H.listing]
    · rw [PState.withHeap_heap]
      exact (H.ext.trans (hext3.weaken H.ext.1)).trans (HExt.set _ _ _ (Nat.le_refl _))
    · refine denotes_stmt (cell_set _ hlt3) H.kind H.attr H.child2 ?_ ?_ ?_
      · exact denotes_set_below _ (Nat.lt_succ_self _)
          (denotes_of_HExt hext3 (Nat.le_refl _) H.value)
      · exact denotes_set_below _ (Nat.lt_succ_self _)
          (denotes_of_HExt hext3 (Nat.le_refl _) H.body)
      · exact denotes_lower (by omega : s.heap.length + 1 ≤ sB.heap.length) _ _
          (denotes_set_below _ hltB hd3)

theorem leaf_one : leaf (tok .NUM "1") = .const 1 := by decide

theorem leaf_two : leaf (tok .NUM "2") = .const 2 := by decide

/-- C5: a well-formed switch, that is the keyword `switch`, a selector that
`factor` reads, one or more clauses `case v seq break` (each value read by
`factor`, each body by `stmt_sequence`) and optionally `default seq`, is read
by `switch_stmt` without any error being recorded, as a Switch node with the
selector in child 0 and in child 1 the first Case node; from there the
sibling chain is Case 1, ..., Case n in source order, then the Default node
exactly when the default part is present, then nothing.  Every Case node has
its value in child 0 and its body in child 1. -/
theorem switch_chain (sw : Token) (sel : List Token) (selTree : Tree) (c : Clause)
    (cs : List Clause) (d : Option DefaultPart) (hsw : sw.type = .SWITCH)
    (hsel : Reads factor (fun _ => True) sel selTree) (hc : ∀ x ∈ c :: cs, x.wf)
    (hd : ∀ x ∈ d, x.wf) :
    Reads switch_stmt (okSwitch d) (sw :: (sel ++ (clauseTokens (c :: cs) ++ defaultTokens d)))
      (.stmt .SwitchK .zero selTree (caseChain (c :: cs) (defaultTree d)) .absent .absent) := by
  intro s rest hp hok
  have htok : s.token = .SWITCH := hp.1.trans hsw
  have hA : match_ .SWITCH (s.withHeap (s.heap ++ [freshNode (.stmt .SwitchK) s])) =
      advance (s.withHeap (s.heap ++ [freshNode (.stmt .SwitchK) s])) := match_hit htok
  obtain ⟨v, s1, ⟨N1, hN1⟩, hp1, herr1, hlist1, hext1, hd1⟩ :=
    hsel (match_ .SWITCH (s.withHeap (s.heap ++ [freshNode (.stmt .SwitchK) s])))
      ((c.tokens ++ (clauseTokens cs ++ defaultTokens d)) ++ rest) (by
        rw [hA]
        have := Pending.step ((Pending_withHeap s (s.heap ++ [freshNode (.stmt .SwitchK) s])
          _).mpr hp)
        simpa [clauseTokens, List.append_assoc] using this) trivial
  simp only [match_heap, PState.withHeap_heap, List.length_append, List.length_singleton]
    at hext1 hd1
  have hcell1 : s1.heap[s.heap.length]? = some (freshNode (.stmt .SwitchK) s) := by
    rw [hext1.2 _ (Nat.lt_succ_self _)]
    simp
  have hlt1 := cell_lt hcell1
  obtain ⟨q, s2, ⟨N2, hN2⟩, hp2, herr2, hlist2, hext2, hd2⟩ :=
    reads_cases d hd cs c (hc c (List.mem_cons_self _ _))
      (fun x hx => hc x (List.mem_cons_of_mem _ hx))
      (s1.withHeap (s1.heap.set s.heap.length ((freshNode (.stmt .SwitchK) s).withChild0 v)))
      rest ((Pending_withHeap _ _ _).mpr hp1) hok
  simp only [PState.withHeap_heap, List.length_set, PState.withHeap_Error,
    PState.withHeap_listing] at hext2 hd2 herr2 hlist2
  have hcell2 : s2.heap[s.heap.length]? =
      some ((freshNode (.stmt .SwitchK) s).withChild0 v) := by
    rw [hext2.2 _ hlt1]
    exact cell_set _ hlt1
  have hlt2 := cell_lt hcell2
  have hlen1 := hext1.1
  simp only [List.length_append, List.length_singleton] at hlen1
  refine ⟨some s.heap.length, s2.withHeap (s2.heap.set s.heap.length
      (((freshNode (.stmt .SwitchK) s).withChild0 v).withChild1 q)),
    ⟨max N1 N2 + 1, fun f hf => ?_⟩, (Pending_withHeap _ _ _).mpr hp2, ?_, ?_, ?_, ?_⟩
  · obtain ⟨f, rfl⟩ : ∃ g, f = g + 1 := ⟨f - 1, by omega⟩
    rw [switch_stmt.eq_2]
    simp only [newStmtNode, alloc_fst, alloc_snd, Option.bind_eq_bind, hN1 f (by omega),
      Option.some_bind, setChild0, write_at _ hcell1, hN2 f (by omega), setChild1,
      write_at _ hcell2, Option.pure_def]
  · rw [PState.withHeap_Error, herr2, herr1, hA, advance_Error, PState.withHeap_Error]
  · rw [PState.withHeap_listing, hlist2, hlist1, hA, advance_listing,
      PState.withHeap_listing]
  · rw [PState.withHeap_heap]
    exact ((((HExt.append s.heap _ (Nat.le_refl _)).trans (hext1.weaken (Nat.le_succ _))).trans
      (HExt.set _ _ _ (Nat.le_refl _))).trans (hext2.weaken (by omega))).trans
      (HExt.set _ _ _ (Nat.le_refl _))
  · refine denotes_stmt (cell_set _ hlt2) rfl rfl rfl ?_ ?_ rfl
    · refine denotes_set_below _ (Nat.lt_succ_self _) (denotes_of_HExt hext2 (by simp) ?_)
      exact denotes_set_below _ (Nat.lt_succ_self _) hd1
    · exact denotes_set_below _ (Nat.lt_succ_self _) (denotes_lower (by omega) _ _ hd2)

/-- The switch
`switch x case 1 write a break case 2 write b break default write c`:
the chain under the Switch node is `Case 1 -> Case 2 -> Default`. -/
theorem switch_chain_worked :
    ∃ r s1, Returns switch_stmt (startOn switchTokens) r s1 ∧ Pending s1 [] ∧
      s1.Error = false ∧ denotes s1.heap 0 switchTree r = true := by
  have hx : isAtom (tok .ID "x") := Or.inr (Or.inl rfl)
  have h1 : isAtom (tok .NUM "1") := Or.inl rfl
  have h2 : isAtom (tok .NUM "2") := Or.inl rfl
  obtain ⟨r, s1, hR, hp, herr, -, -, hd⟩ :=
    switch_chain (tok .SWITCH "switch") [tok .ID "x"] (.ident "x")
      ⟨tok .CASE "case", [tok .NUM "1"], .const 1, [tok .WRITE "write", tok .ID "a"],
        writeTree "a", tok .BREAK "break"⟩
      [⟨tok .CASE "case", [tok .NUM "2"], .const 2, [tok .WRITE "write", tok .ID "b"],
        writeTree "b", tok .BREAK "break"⟩]
      (some ⟨tok .DEFAULT "default", [tok .WRITE "write", tok .ID "c"], writeTree "c"⟩)
      rfl (factor_atom hx)
      (by
        intro x hx
        simp only [List.mem_cons, List.mem_singleton, List.not_mem_nil, or_false] at hx
        rcases hx with rfl | rfl
        · exact ⟨rfl, leaf_one ▸ factor_atom h1, reads_write_id "a", rfl⟩
        · exact ⟨rfl, leaf_two ▸ factor_atom h2, reads_write_id "b", rfl⟩)
      (by
        intro x hx
        cases hx
        exact ⟨rfl, reads_write_id "c"⟩)
      (startOn switchTokens) [] ⟨rfl, rfl, rfl, rfl⟩
      (by simp [okSwitch, okSeq, nextType, seqContinues])
  exact ⟨r, s1, hR, hp, herr, hd⟩

/-! ## Sequences of well-formed statements -/

theorem denotes_node {h : List TreeNode} {t : Nat} {n : TreeNode} {k : StmtKind} {a : Attr}
    {T0 T1 T2 T3 : Tree} (hc : h[t]? = some n) (hk : n.kind = .stmt k) (ha : n.attr = a)
    (d0 : denotes h (t + 1) T0 n.child0 = true) (d1 : denotes h (t + 1) T1 n.child1 = true)
    (d2 : denotes h (t + 1) T2 n.child2 = true) (d3 : denotes h (t + 1) T3 n.sibling = true) :
    denotes h t (.stmt k a T0 T1 T2 T3) (some t) = true := by
  simp only [Tree.stmt, denotes, hc, Nat.le_refl, decide_True, hk, ha, Bool.true_and,
    Bool.and_eq_true]
  exact ⟨⟨⟨denotes_lower (Nat.le_succ _) _ _ d0, denotes_lower (Nat.le_succ _) _ _ d1⟩,
    denotes_lower (Nat.le_succ _) _ _ d2⟩, denotes_lower (Nat.le_succ _) _ _ d3⟩

theorem okStmt_next {m : List (Token × Simple)} {rest : List Token}
    (hm : ∀ p ∈ m, p.1.type = .SEMI ∧ p.2.wf) (hok : okSeq (nextType rest)) :
    okStmt (nextType (restTokens m ++ rest)) := by
  cases m with
  | nil => exact Or.inr hok
  | cons p m =>
    obtain ⟨sep, x⟩ := p
    exact Or.inl (hm (sep, x) (List.mem_cons_self _ _)).1

/-- The loop of `stmt_sequence` on `; s2 ; s3 ...`: the chain of these
statements is built above the nodes that exist, and the last node `p` so far
gets it as its sibling; nothing else is changed. -/
theorem seq_loop_reads : ∀ (m : List (Token × Simple)), (∀ p ∈ m, p.1.type = .SEMI ∧ p.2.wf) →
    ∀ (t p : Nat) (np : TreeNode) (s : PState) (rest : List Token),
      Pending s (restTokens m ++ rest) → okSeq (nextType rest) →
      s.heap[p]? = some np → np.sibling = none →
      ∃ x s1, Returns (fun f => stmt_sequence_loop f (some t) (some p)) s (some t) s1 ∧
        Pending s1 rest ∧ s1.Error = s.Error ∧ s1.listing = s.listing ∧
        s.heap.length ≤ s1.heap.length ∧
        (∀ a, a < s.heap.length → a ≠ p → s1.heap[a]? = s.heap[a]?) ∧
        s1.heap[p]? = some (np.withSibling x) ∧
        denotes s1.heap s.heap.length (restTree m) x = true := by
  intro m
  induction m with
  | nil =>
    intro _ t p np s rest hp hok hnp hsib
    refine ⟨none, s, Returns.intro 1 (fun f => ?_), hp, rfl, rfl, Nat.le_refl _,
      fun _ _ _ => rfl, by rw [withSibling_none hsib]; exact hnp, rfl⟩
    rw [Nat.add_comm]
    exact stmt_sequence_loop_exit f _ _ s (by rw [hp.token_next]; exact hok)
  | cons px m ih =>
    obtain ⟨sep, x⟩ := px
    intro hm t p np s rest hp hok hnp hsib
    obtain ⟨hsep, hx⟩ := hm (sep, x) (List.mem_cons_self _ _)
    have hm1 : ∀ p ∈ m, p.1.type = .SEMI ∧ p.2.wf := fun p hp => hm p (List.mem_cons_of_mem _ hp)
    have hplt := cell_lt hnp
    have htok : s.token = .SEMI := hp.1.trans hsep
    have hA : match_ .SEMI s = advance s := match_hit htok
    have hpA : Pending (match_ .SEMI s) (x.toks ++ (restTokens m ++ rest)) := by
      rw [hA]
      have hp1 : Pending s (sep :: (x.toks ++ (restTokens m ++ rest))) := by
        simpa [restTokens, List.append_assoc] using hp
      exact Pending.step hp1
    obtain ⟨σ, n, ⟨N1, hN1⟩, hp1, herr1, hlist1, hext1, hcell1, hk1, ha1, hs1, d0, d1, d2⟩ :=
      hx _ _ hpA (okStmt_next hm1 hok)
    simp only [match_heap] at hext1 hcell1 d0 d1 d2 hN1
    have hqlt := cell_lt hcell1
    have hnpσ : σ.heap[p]? = some np := by rw [hext1.2 _ hplt]; exact hnp
    have hne : p ≠ s.heap.length := by omega
    have hcellq : (σ.withHeap (σ.heap.set p (np.withSibling (some s.heap.length)))).heap[
        s.heap.length]? = some n := by
      rw [PState.withHeap_heap, cell_set_ne _ hne]
      exact hcell1
    obtain ⟨x1, s1, ⟨N2, hN2⟩, hp2, herr2, hlist2, hlen2, hfr2, hq2, hd2⟩ :=
      ih hm1 t s.heap.length n (σ.withHeap (σ.heap.set p (np.withSibling (some s.heap.length))))
        rest ((Pending_withHeap _ _ _).mpr hp1) hok hcellq hs1
    simp only [PState.withHeap_heap, List.length_set, PState.withHeap_Error,
      PState.withHeap_listing] at hlen2 hfr2 hd2 herr2 hlist2
    have hlen1 := hext1.1
    refine ⟨some s.heap.length, s1, ⟨max N1 N2 + 1, fun f hf => ?_⟩, hp2, ?_, ?_, by omega,
      fun a ha1 ha2 => ?_, ?_, ?_⟩
    · obtain ⟨f, rfl⟩ : ∃ g, f = g + 1 := ⟨f - 1, by omega⟩
      show stmt_sequence_loop (f + 1) (some t) (some p) s = _
      rw [stmt_sequence_loop_step f _ _ s (by rw [htok]; rfl), hN1 f (by omega)]
      simp only [Option.some_bind, hnpσ, hsib, setSibling, write_at _ hnpσ]
      exact hN2 f (by omega)
    · rw [herr2, herr1, hA, advance_Error]
    · rw [hlist2, hlist1, hA, advance_listing]
    · rw [hfr2 a (by omega) (by omega), cell_set_ne _ (Ne.symm ha2), hext1.2 a ha1]
    · rw [hfr2 p (by omega) hne]
      exact cell_set _ (by omega)
    · have hagree : ∀ a, s.heap.length + 1 ≤ a → a < σ.heap.length → s1.heap[a]? = σ.heap[a]? :=
        fun a h1 h2 => by
          rw [hfr2 a h2 (by omega), cell_set_ne _ (by omega)]
      exact denotes_node hq2 hk1 ha1 (denotes_of_agree hagree _ _ d0)
        (denotes_of_agree hagree _ _ d1) (denotes_of_agree hagree _ _ d2)
        (denotes_lower (by omega) _ _ hd2)

/-- Well-formed statements `s1 ; s2 ; ... ; sn`, none of them an If with an
Else part, are read by `stmt_sequence` as the chain `s1 -> s2 -> ... -> sn`. -/
theorem reads_seq (x : Simple) (m : List (Token × Simple)) (hx : x.wf)
    (hm : ∀ p ∈ m, p.1.type = .SEMI ∧ p.2.wf) :
    Reads stmt_sequence okSeq (x.toks ++ restTokens m) (x.tree (restTree m)) := by
  intro s rest hp hok
  obtain ⟨σ, n, ⟨N1, hN1⟩, hp1, herr1, hlist1, hext1, hcell1, hk1, ha1, hs1, d0, d1, d2⟩ :=
    hx s (restTokens m ++ rest) (by simpa [List.append_assoc] using hp) (okStmt_next hm hok)
  obtain ⟨x1, s1, ⟨N2, hN2⟩, hp2, herr2, hlist2, hlen2, hfr2, hq2, hd2⟩ :=
    seq_loop_reads m hm s.heap.length s.heap.length n σ rest hp1 hok hcell1 hs1
  have hqlt := cell_lt hcell1
  refine ⟨some s.heap.length, s1, ⟨max N1 N2 + 1, fun f hf => ?_⟩, hp2, herr2.trans herr1,
    hlist2.trans hlist1, ⟨Nat.le_trans hext1.1 hlen2, fun a ha => ?_⟩, ?_⟩
  · obtain ⟨f, rfl⟩ : ∃ g, f = g + 1 := ⟨f - 1, by omega⟩
    rw [stmt_sequence.eq_2, hN1 f (by omega)]
    exact hN2 f (by omega)
  · rw [hfr2 a (by omega) (by omega), hext1.2 a ha]
  · have hagree : ∀ a, s.heap.length + 1 ≤ a → a < σ.heap.length → s1.heap[a]? = σ.heap[a]? :=
      fun a h1 h2 => hfr2 a h2 (by omega)
    exact denotes_node hq2 hk1 ha1 (denotes_of_agree hagree _ _ d0)
      (denotes_of_agree hagree _ _ d1) (denotes_of_agree hagree _ _ d2)
      (denotes_lower (by omega) _ _ hd2)

/-- `write e` as a node, for an expression `e` that `exp` reads. -/
theorem reads_write_node {l : List Token} {T : Tree} {ok : TokenType → Prop} {w : Token}
    (hw : w.type = .WRITE) (h : Reads exp ok l T) :
    ReadsNode write_stmt ok (w :: l) .WriteK .zero T .absent .absent := by
  intro s rest hp hok
  have htok : s.token = .WRITE := hp.1.trans hw
  have hA : match_ .WRITE (newStmtNode .WriteK s).2 = advance (newStmtNode .WriteK s).2 :=
    match_hit (by simpa [newStmtNode] using htok)
  have hpA : Pending (match_ .WRITE (newStmtNode .WriteK s).2) (l ++ rest) := by
    rw [hA]
    exact Pending.step ((Pending_withHeap _ _ _).mpr hp)
  obtain ⟨c, s1, hR, hp1, herr, hlist, hext, hd⟩ := h _ rest hpA hok
  have hlenA : (match_ .WRITE (newStmtNode .WriteK s).2).heap.length = s.heap.length + 1 := by
    simp [newStmtNode]
  rw [hlenA] at hext hd
  have hcell : s1.heap[s.heap.length]? = some (freshNode (.stmt .WriteK) s) := by
    rw [hext.2 _ (Nat.lt_succ_self _)]
    simp [newStmtNode]
  have hlt := cell_lt hcell
  refine ⟨_, _, write_stmt_of_exp hR hcell, (Pending_withHeap _ _ _).mpr hp1, ?_, ?_, ?_,
    cell_set _ hlt, rfl, rfl, rfl, denotes_set_below _ (Nat.lt_succ_self _) hd, rfl, rfl⟩
  · rw [PState.withHeap_Error, herr, hA]
    simp [newStmtNode]
  · rw [PState.withHeap_listing, hlist, hA]
    simp [newStmtNode]
  · have h1 : HExt s.heap.length s.heap (match_ .WRITE (newStmtNode .WriteK s).2).heap := by
      simpa [newStmtNode] using HExt.append s.heap _ (Nat.le_refl _)
    exact (h1.trans (hext.weaken (Nat.le_succ _))).trans (HExt.set _ _ _ (Nat.le_refl _))

/-- The statement `write x` is one that `statement` reads. -/
theorem writeStmt_wf (x : String) : (writeStmt x).wf := by
  have ha : isAtom (tok .ID x) := Or.inr (Or.inl rfl)
  have h1 : Reads exp okStmt [tok .ID x] (leaf (tok .ID x)) :=
    (reads_exp_plain (reads_atom_simple ha)).narrow (fun tk htk => by
      rcases htk with rfl | h
      · exact ⟨by simp [okSimple], by simp [isRelop]⟩
      · exact okSeq_exp h)
  intro s rest hp hok
  obtain ⟨s1, n, ⟨N, hN⟩, hrest⟩ := reads_write_node rfl h1 s rest hp hok
  refine ⟨s1, n, ⟨N + 1, fun f hf => ?_⟩, hrest⟩
  obtain ⟨f, rfl⟩ : ∃ g, f = g + 1 := ⟨f - 1, by omega⟩
  rw [statement_write f s hp.1]
  exact hN f (by omega)

/-! ## Declarations always return -/

/-- The Identifier node that `varlist` starts with: it holds the lexeme when
the lookahead is an identifier. -/
theorem varlist_node (s : PState) : ∃ n0 : TreeNode,
    (if s.token = .ID then
        setAttr s.heap.length (.name s.tokenString)
          (s.withHeap (s.heap ++ [freshNode (.exp .IdK) s]))
      else some (s.withHeap (s.heap ++ [freshNode (.exp .IdK) s])))
      = some (s.withHeap (s.heap ++ [n0])) ∧
    n0.kind = .exp .IdK ∧ n0.sibling = none := by
  by_cases h : s.token = .ID
  · exact ⟨(freshNode (.exp .IdK) s).withAttr (.name s.tokenString),
      by simp only [h, if_true, setAttr, write_fresh], rfl, rfl⟩
  · exact ⟨freshNode (.exp .IdK) s, by simp only [h, if_false], rfl, rfl⟩

/-- From every state `varlist` returns the node it allocates first; it
touches no node that existed before. -/
theorem varlist_runs (s : PState) :
    ∃ s1, Returns varlist s (some s.heap.length) s1 ∧ Step s.heap.length s s1 ∧
      s.heap.length < s1.heap.length := by
  generalize hn : mu s = n
  induction n using Nat.strong_induction_on generalizing s with
  | _ n ih =>
    subst hn
    obtain ⟨n0, hn0, -, -⟩ := varlist_node s
    have hm1 := mu_match_le TokenType.ID (s.withHeap (s.heap ++ [n0]))
    simp only [mu_withHeap] at hm1
    by_cases hc : (match_ .ID (s.withHeap (s.heap ++ [n0]))).token = .COMMA
    · have hm2 := @mu_match_hit_lt TokenType.COMMA _ hc (by decide)
      obtain ⟨s2, ⟨N, hN⟩, hS2, hlt2⟩ :=
        ih _ (by omega) (match_ .COMMA (match_ .ID (s.withHeap (s.heap ++ [n0])))) rfl
      simp only [match_heap, PState.withHeap_heap, List.length_append,
        List.length_singleton] at hS2 hlt2 hN
      have hcell : s2.heap[s.heap.length]? = some n0 := by
        rw [hS2.ext.2 _ (Nat.lt_succ_self _)]
        simp
      refine ⟨s2.withHeap (s2.heap.set s.heap.length
          (n0.withChild0 (some (s.heap.length + 1)))), ⟨N + 1, fun f hf => ?_⟩, ?_, ?_⟩
      · obtain ⟨f, rfl⟩ : ∃ g, f = g + 1 := ⟨f - 1, by omega⟩
        rw [varlist.eq_2]
        simp only [newExpNode, alloc_fst, alloc_snd, PState.withHeap_token,
          PState.withHeap_tokenString, hn0, Option.bind_eq_bind, Option.some_bind, hc,
          if_true, hN f (by omega), setChild0, write_at _ hcell, Option.pure_def]
      · exact (((((Step.here _ s).then_alloc _ (Nat.le_refl _)).then_match _).then_match
          _).andThen (hS2.relax (Nat.le_succ _))).then_write _ _ (Nat.le_refl _)
      · simp only [PState.withHeap_heap, List.length_set]
        omega
    · refine ⟨match_ .ID (s.withHeap (s.heap ++ [n0])), Returns.intro 1 (fun f => ?_), ?_, ?_⟩
      · rw [Nat.add_comm, varlist.eq_2]
        simp only [newExpNode, alloc_fst, alloc_snd, PState.withHeap_token,
          PState.withHeap_tokenString, hn0, Option.bind_eq_bind, Option.some_bind, hc,
          if_false, Option.pure_def]
      · exact ((Step.here _ s).then_alloc _ (Nat.le_refl _)).then_match _
      · simp
/-- Without a type keyword as lookahead `decl_stmt` returns absent and leaves
the state as it is. -/
theorem decl_stmt_none (f : Nat) (s : PState) (h : ¬ isTypeKw s.token) :
    decl_stmt f s = some (none, s) := by
  unfold isTypeKw at h
  simp only [not_or] at h
  simp only [decl_stmt, h, not_false_eq_true, and_self, if_true, ne_eq]

/-- On a type keyword `decl_stmt` consumes it, calls `varlist` and returns
the Declaration node with the result of `varlist` in child 1. -/
theorem decl_stmt_some (s : PState) (h : isTypeKw s.token) :
    ∃ sv, Returns varlist (afterTypeKw s) (some (s.heap.length + 1)) sv ∧
      Step (s.heap.length + 1) (afterTypeKw s) sv ∧ s.heap.length + 1 < sv.heap.length ∧
      Returns decl_stmt s (some s.heap.length)
        (sv.withHeap (sv.heap.set s.heap.length
          ((declNode s).withChild1 (some (s.heap.length + 1))))) := by
  obtain ⟨sv, ⟨N, hN⟩, hS, hlt⟩ := varlist_runs (afterTypeKw s)
  have hlenA : (afterTypeKw s).heap.length = s.heap.length + 1 := by simp [afterTypeKw]
  rw [hlenA] at hN hS hlt
  have hcell : sv.heap[s.heap.length]? = some (declNode s) := by
    rw [hS.ext.2 _ (Nat.lt_succ_self _)]
    simp [afterTypeKw]
  have hcond : ¬ (s.token ≠ .INT ∧ s.token ≠ .STRING ∧ s.token ≠ .BOOL) := by
    rcases h with h | h | h <;> simp [h]
  refine ⟨sv, ⟨N, hN⟩, hS, hlt, ⟨N, fun f hf => ?_⟩⟩
  have h2 := hN f hf
  unfold afterTypeKw declNode at h2
  simp only [decl_stmt, hcond, if_false, newStmtNode, alloc_fst, alloc_snd,
    PState.withHeap_token, setAttr, write_fresh, Option.bind_eq_bind, Option.some_bind,
    match_hit, h2, setChild1, write_at _ hcell, Option.pure_def, declNode]

/-- `decl_stmt` consumes a token whenever it returns a node. -/
theorem mu_afterTypeKw (s : PState) (h : isTypeKw s.token) : mu (afterTypeKw s) < mu s := by
  have h1 : s.token ≠ .ENDFILE := by rcases h with h | h | h <;> simp [h]
  have := mu_advance_lt (s.withHeap (s.heap ++ [declNode s])) (by
    simpa using mu_pos_of_token h1)
  simpa [afterTypeKw] using this

/-- The loop of `declarations`, entered with a chain whose last node `pa` is
allocated: it returns the head of the chain and touches no node below
`base`. -/
theorem declarations_loop_runs (base ta pa : Nat) (s : PState) (hb : base ≤ pa)
    (hpa : pa < s.heap.length) :
    ∃ s1, Returns (fun f => declarations_loop f (some ta) (some pa)) s (some ta) s1 ∧
      Step base s s1 := by
  generalize hn : mu s = n
  induction n using Nat.strong_induction_on generalizing s pa with
  | _ n ih =>
    subst hn
    by_cases he : s.token = .ENDFILE
    · refine ⟨s, Returns.intro 1 (fun f => ?_), Step.here _ _⟩
      show declarations_loop (1 + f) (some ta) (some pa) s = _
      rw [Nat.add_comm, declarations_loop]
      simp only [he, ne_eq, not_true_eq_false, if_false]
    · have hm := mu_match_le TokenType.SEMI s
      by_cases hk : isTypeKw (match_ .SEMI s).token
      · obtain ⟨sv, -, hS, hlt, ⟨N, hN⟩⟩ := decl_stmt_some (match_ .SEMI s) hk
        have hmk := mu_afterTypeKw _ hk
        have hmv := hS.mu_le
        simp only [match_heap] at hS hlt hN
        have hlenv := hS.ext.1
        simp only [afterTypeKw, advance_heap, PState.withHeap_heap, List.length_append,
          List.length_singleton] at hlenv
        obtain ⟨sD, hsD⟩ : ∃ x, x = sv.withHeap (sv.heap.set s.heap.length
            ((declNode (match_ .SEMI s)).withChild1 (some (s.heap.length + 1)))) := ⟨_, rfl⟩
        rw [← hsD] at hN
        have hlenD : sD.heap.length = sv.heap.length := by rw [hsD]; simp
        have hmuD : mu sD = mu sv := by rw [hsD]; simp
        obtain ⟨np, hnp⟩ : ∃ np, sD.heap[pa]? = some np :=
          ⟨_, List.getElem?_eq_getElem (by omega)⟩
        obtain ⟨s1, ⟨N1, hN1⟩, hS1⟩ := ih _ (by simp only [mu_withHeap]; omega)
          s.heap.length (sD.withHeap (sD.heap.set pa (np.withSibling (some s.heap.length))))
          (by omega) (by simp; omega) rfl
        refine ⟨s1, ⟨max N N1 + 1, fun f hf => ?_⟩, ?_⟩
        · obtain ⟨f, rfl⟩ : ∃ g, f = g + 1 := ⟨f - 1, by omega⟩
          show declarations_loop (f + 1) (some ta) (some pa) s = _
          rw [declarations_loop]
          simp only [he, ne_eq, not_false_eq_true, if_true, Option.bind_eq_bind,
            hN f (by omega), Option.some_bind, setSibling, write_at _ hnp]
          exact hN1 f (by omega)
        · have hA : Step base s (afterTypeKw (match_ .SEMI s)) := by
            unfold afterTypeKw
            exact (((Step.here _ s).then_match _).then_alloc _ (by simp; omega)).then_advance
          have hD : Step base s sD := by
            rw [hsD]
            exact (hA.andThen (hS.relax (by omega))).then_write _ _ (by omega)
          exact (hD.then_write _ _ hb).andThen hS1
      · refine ⟨match_ .SEMI s, Returns.intro 1 (fun f => ?_), (Step.here _ s).then_match _⟩
        show declarations_loop (1 + f) (some ta) (some pa) s = _
        rw [Nat.add_comm, declarations_loop]
        simp only [he, ne_eq, not_false_eq_true, if_true, Option.bind_eq_bind,
          decl_stmt_none f _ hk, Option.some_bind]
/-- From every state `declarations` returns: absent with the state
untouched when the lookahead is not a type keyword, else the first
Declaration node. -/
theorem declarations_runs (s : PState) :
    ∃ r s1, Returns declarations s r s1 ∧ Step s.heap.length s s1 ∧
      (¬ isTypeKw s.token → r = none ∧ s1 = s) ∧
      (isTypeKw s.token → r = some s.heap.length) := by
  by_cases hk : isTypeKw s.token
  · obtain ⟨sv, -, hS, hlt, ⟨N, hN⟩⟩ := decl_stmt_some s hk
    obtain ⟨sD, hsD⟩ : ∃ x, x = sv.withHeap (sv.heap.set s.heap.length
        ((declNode s).withChild1 (some (s.heap.length + 1)))) := ⟨_, rfl⟩
    rw [← hsD] at hN
    have hlenD : sD.heap.length = sv.heap.length := by rw [hsD]; simp
    have hD : Step s.heap.length s sD := by
      rw [hsD]
      have hA : Step s.heap.length s (afterTypeKw s) := by
        unfold afterTypeKw
        exact ((Step.here _ s).then_alloc _ (Nat.le_refl _)).then_advance
      exact (hA.andThen (hS.relax (Nat.le_succ _))).then_write _ _ (Nat.le_refl _)
    obtain ⟨s1, ⟨N1, hN1⟩, hS1⟩ :=
      declarations_loop_runs s.heap.length s.heap.length s.heap.length sD (Nat.le_refl _)
        (by omega)
    refine ⟨some s.heap.length, s1, ⟨max N N1, fun f hf => ?_⟩, hD.andThen hS1,
      fun h => absurd hk h, fun _ => rfl⟩
    simp only [declarations, Option.bind_eq_bind, hN f (by omega), Option.some_bind]
    exact hN1 f (by omega)
  · refine ⟨none, s, ⟨0, fun f _ => ?_⟩, Step.here _ _, fun _ => ⟨rfl, rfl⟩,
      fun h => absurd h hk⟩
    simp only [declarations, Option.bind_eq_bind, decl_stmt_none f s hk, Option.some_bind,
      Option.pure_def]

/-- From every state `program` returns, with the results of `declarations`
and `stmt_sequence` stored in the Program node. -/
theorem program_runs (s : PState) : ∃ d q sF, ProgramRun s d q sF := by
  obtain ⟨d, s1, ⟨N1, hN1⟩, hS1, -, -⟩ :=
    declarations_runs (s.withHeap (s.heap ++ [freshNode .prog s]))
  simp only [PState.withHeap_heap, List.length_append, List.length_singleton] at hS1
  have hcell1 : s1.heap[s.heap.length]? = some (freshNode .prog s) := by
    rw [hS1.ext.2 _ (Nat.lt_succ_self _)]
    simp
  have hlt1 := cell_lt hcell1
  obtain ⟨q, s2, ⟨N2, hN2⟩, hP2, -, hstop⟩ :=
    (stmt_level (s1.withHeap (s1.heap.set s.heap.length
      ((freshNode .prog s).withChild0 d)))).1
  have hcell2 : s2.heap[s.heap.length]? = some ((freshNode .prog s).withChild0 d) :=
    hP2.cell (by simpa using cell_set _ hlt1)
  have hlt2 := cell_lt hcell2
  refine ⟨d, q, s2.withHeap (s2.heap.set s.heap.length
      (((freshNode .prog s).withChild0 d).withChild1 q)),
    ⟨fun indet => ⟨max N1 N2, fun f hf => ?_⟩, ?_, by simpa using cell_set _ hlt2,
      fun h => by simpa using hP2.absent h, by simpa using hstop⟩⟩
  · simp only [program, newProgNode, alloc_fst, alloc_snd, Option.bind_eq_bind,
      hN1 f (by omega), Option.some_bind, setChild0, write_at _ hcell1, hN2 f (by omega),
      setChild1, write_at _ hcell2, Option.pure_def]
  · exact (((((Step.here _ s).then_alloc _ (Nat.le_refl _)).andThen
      (hS1.relax (Nat.le_succ _))).then_write _ _ (Nat.le_refl _)).then_post hP2
      (by simp; omega)).then_write _ _ (Nat.le_refl _)

/-- From every state `parse` returns: it fetches the first token, runs
`program` and reports the trailing-input error unless the lookahead is
end-of-file. -/
theorem parse_runs (s : PState) :
    ∃ d q sF, ProgramRun (advance s) d q sF ∧
      ∀ indet, Returns (parse indet) s indet (parseEnd sF) := by
  obtain ⟨d, q, sF, H⟩ := program_runs (advance s)
  refine ⟨d, q, sF, H, fun indet => ?_⟩
  obtain ⟨N, hN⟩ := H.returns indet
  refine ⟨N, fun f hf => ?_⟩
  simp only [parse, Option.bind_eq_bind, hN f hf, Option.some_bind, Option.pure_def,
    parseEnd]

/-! ## Tokens that start nothing -/

/-- What the default branch of `statement` and of `factor` leaves: the error
is reported, the lookahead is the scanner's next token, the heap is as it
was. -/
theorem skipped_token (s : PState) :
    (advance (syntaxError "unexpected token -> " s)).Error = true ∧
    (advance (syntaxError "unexpected token -> " s)).token = (getToken s).1 ∧
    (advance (syntaxError "unexpected token -> " s)).input = s.input.tail ∧
    (advance (syntaxError "unexpected token -> " s)).heap = s.heap := by
  refine ⟨by simp, ?_, by simp, by simp⟩
  simp only [advance, getToken, syntaxError]
  cases s.input <;> rfl

/-- C13: in a state whose lookahead is none of `IF, REPEAT, ID, READ, WRITE,
DO, FOR, SWITCH`, `statement` returns absent at every budget from 1 on, and
in a state whose lookahead is none of `NUM, ID, STR, LPAREN` so does `factor`;
the state left has the error flag set, the scanner's next token as lookahead
(one token consumed) and the heap unchanged: no node is allocated. -/
theorem unrecognized_token (s : PState) :
    (s.token ≠ .IF ∧ s.token ≠ .REPEAT ∧ s.token ≠ .ID ∧ s.token ≠ .READ ∧
        s.token ≠ .WRITE ∧ s.token ≠ .DO ∧ s.token ≠ .FOR ∧ s.token ≠ .SWITCH →
      ∃ s1, (∀ f, statement (f + 1) s = some (none, s1)) ∧ s1.Error = true ∧
        s1.token = (getToken s).1 ∧ s1.input = s.input.tail ∧ s1.heap = s.heap) ∧
    (s.token ≠ .NUM ∧ s.token ≠ .ID ∧ s.token ≠ .STR ∧ s.token ≠ .LPAREN →
      ∃ s1, (∀ f, factor (f + 1) s = some (none, s1)) ∧ s1.Error = true ∧
        s1.token = (getToken s).1 ∧ s1.input = s.input.tail ∧ s1.heap = s.heap) := by
  constructor
  · intro h
    refine ⟨advance (syntaxError "unexpected token -> " s), fun f => ?_, skipped_token s⟩
    rw [statement.eq_2]
    split <;> simp_all
  · intro h
    refine ⟨advance (syntaxError "unexpected token -> " s), fun f => ?_, skipped_token s⟩
    rw [factor.eq_2]
    split <;> simp_all

/-- On `then x`, `statement` passes over `then`; on `) x`, `factor` passes
over `)`. -/
theorem unrecognized_token_then :
    (∃ s1, (∀ f, statement (f + 1) (startOn [tok .THEN "then", tok .ID "x"]) = some (none, s1)) ∧
      s1.Error = true ∧ s1.token = .ID ∧ s1.input = [] ∧ s1.heap = []) ∧
    (∃ s1, (∀ f, factor (f + 1) (startOn [tok .RPAREN ")", tok .ID "x"]) = some (none, s1)) ∧
      s1.Error = true ∧ s1.token = .ID ∧ s1.input = [] ∧ s1.heap = []) := by
  obtain ⟨s1, h1, h2, h3, h4, h5⟩ :=
    (unrecognized_token (startOn [tok .THEN "then", tok .ID "x"])).1 (by decide)
  obtain ⟨s2, k1, k2, k3, k4, k5⟩ :=
    (unrecognized_token (startOn [tok .RPAREN ")", tok .ID "x"])).2 (by decide)
  exact ⟨⟨s1, h1, h2, h3, h4, h5⟩, ⟨s2, k1, k2, k3, k4, k5⟩⟩
/-! ## One declaration -/

/-- C14: without a type keyword as lookahead `decl_stmt` returns absent, at
every budget, and leaves the whole state as it is.  On a type keyword `k` it
allocates the Declaration node, consumes exactly the keyword (the state in
which `varlist` starts has the scanner's next token as lookahead and the error
flag unchanged), and returns that node: kind Declaration, attribute `k`,
child 1 what `varlist` returned, child 0, child 2 and sibling absent; the
token state it leaves is the one `varlist` left. -/
theorem decl_stmt_contract (s : PState) :
    (¬ isTypeKw s.token → ∀ f, decl_stmt f s = some (none, s)) ∧
    (isTypeKw s.token → ∃ v sv s1 n, Returns varlist (afterTypeKw s) v sv ∧
      Returns decl_stmt s (some s.heap.length) s1 ∧ s1 = sv.withHeap s1.heap ∧
      s1.heap[s.heap.length]? = some n ∧ n.kind = .stmt .DeclK ∧ n.attr = .op s.token ∧
      n.child1 = v ∧ n.child0 = none ∧ n.child2 = none ∧ n.sibling = none) ∧
    ((afterTypeKw s).token = (getToken s).1 ∧ (afterTypeKw s).input = s.input.tail ∧
      (afterTypeKw s).Error = s.Error) := by
  refine ⟨fun h f => decl_stmt_none f s h, fun h => ?_, ?_, by simp [afterTypeKw],
    by simp [afterTypeKw]⟩
  · obtain ⟨sv, hv, hS, hlt, hR⟩ := decl_stmt_some s h
    exact ⟨_, sv, _, _, hv, hR, rfl, by simpa using cell_set _ (by omega), rfl, rfl, rfl, rfl,
      rfl, rfl⟩
  · obtain ⟨tk, ts, ln, inp, er, li, hp⟩ := s
    cases inp <;> rfl

/-- On `int x, y ;` the Declaration node has the attribute `int` and the
chain `x -> y` in child 1; on `x` nothing happens. -/
theorem decl_stmt_contract_int :
    (∃ s1, Returns decl_stmt (startOn [tok .INT "int", tok .ID "x", tok .COMMA ",",
        tok .ID "y", tok .SEMI ";"]) (some 0) s1 ∧ s1.token = .SEMI ∧ s1.Error = false ∧
      denotes s1.heap 0 (.stmt .DeclK (.op .INT) .absent
        (.node (.exp .IdK) (.name "x") (.ident "y") .absent .absent .absent) .absent .absent)
        (some 0) = true) ∧
    (∀ f, decl_stmt f (startOn [tok .ID "x"]) = some (none, startOn [tok .ID "x"])) := by
  refine ⟨?_, (decl_stmt_contract (startOn [tok .ID "x"])).1
    (by unfold isTypeKw; decide)⟩
  obtain ⟨v, sv, s1, n, -, hR, -, -⟩ :=
    (decl_stmt_contract (startOn [tok .INT "int", tok .ID "x", tok .COMMA ",",
      tok .ID "y", tok .SEMI ";"])).2.1 (Or.inl rfl)
  have hchk : (decl_stmt 5 (startOn [tok .INT "int", tok .ID "x", tok .COMMA ",",
      tok .ID "y", tok .SEMI ";"])).map (fun x => decide (x.2.token = .SEMI) && !x.2.Error &&
        denotes x.2.heap 0 (.stmt .DeclK (.op .INT) .absent
          (.node (.exp .IdK) (.name "x") (.ident "y") .absent .absent .absent) .absent .absent)
          (some 0)) = some true := by decide!
  obtain ⟨x, hx, hc⟩ := Option.map_eq_some'.mp hchk
  have hu := hR.unique decl_stmt_mono hx
  subst hu
  simp only [Bool.and_eq_true, decide_eq_true_eq, Bool.not_eq_true'] at hc
  exact ⟨s1, hR, hc.1.1, hc.1.2, hc.2⟩

/-! ## The whole parse -/

theorem trailing_checked :
    (program none 10 (startOn trailTokens)).map
        (fun x => decide (x.2.token = .END) && !x.2.Error) = some true ∧
      (parse none 10 (initState trailTokens)).map
        (fun x => decide (x.2.token = .END) && x.2.Error) = some true := by
  decide!

/-- C16: from every state `parse` returns after `program` has returned, in
the state `program` left but for the trailing-input report: when the
lookahead left by `program` is not end-of-file the error flag is set (the
lookahead stays), when it is end-of-file nothing is changed, so the flag is
the one `program` left.  On `write x end`, `program` stops without error in
front of `end`, and `parse` sets the flag. -/
theorem parse_trailing :
    (∀ s : PState, ∃ d q sF, ProgramRun (advance s) d q sF ∧
      (∀ indet, Returns (parse indet) s indet (parseEnd sF)) ∧
      (sF.token ≠ .ENDFILE → (parseEnd sF).Error = true ∧ (parseEnd sF).token = sF.token) ∧
      (sF.token = .ENDFILE → parseEnd sF = sF)) ∧
    (∃ sP sF, Returns (program none) (startOn trailTokens) none sP ∧ sP.token = .END ∧
      sP.Error = false ∧ Returns (parse none) (initState trailTokens) none sF ∧
      sF.Error = true ∧ sF.token = .END) := by
  constructor
  · intro s
    obtain ⟨d, q, sF, H, hR⟩ := parse_runs s
    refine ⟨d, q, sF, H, hR, fun h => ?_, fun h => ?_⟩
    · simp [parseEnd, h]
    · simp [parseEnd, h]
  · obtain ⟨r1, sP, hP, hc1⟩ := checked_returns (program_mono none) trailing_checked.1
    obtain ⟨r2, sF, hF, hc2⟩ := checked_returns (parse_mono none) trailing_checked.2
    simp only [Bool.and_eq_true, decide_eq_true_eq, Bool.not_eq_true'] at hc1 hc2
    obtain ⟨N1, hN1⟩ := hP
    obtain ⟨N2, hN2⟩ := hF
    have e1 : r1 = none := by
      have h := hN1 N1 (Nat.le_refl _)
      rw [program_indet] at h
      obtain ⟨x, -, hx⟩ := Option.map_eq_some'.mp h
      exact (congrArg Prod.fst hx).symm
    have e2 : r2 = none := by
      have h := hN2 N2 (Nat.le_refl _)
      rw [parse_indet] at h
      obtain ⟨x, -, hx⟩ := Option.map_eq_some'.mp h
      exact (congrArg Prod.fst hx).symm
    subst e1 e2
    exact ⟨sP, sF, ⟨N1, hN1⟩, hc1.1, hc1.2, ⟨N2, hN2⟩, hc2.2, hc2.1⟩

theorem Consumes.of_runs {F : Nat → PState → Res} (h : ∀ s, Runs F s) : Consumes F := by
  intro s
  obtain ⟨r, s1, hR, -, hc⟩ := h s
  exact ⟨r, s1, hR, hc⟩

theorem Consumes.of_stmt {F : Nat → PState → Res} (h : ∀ s, RunsStmt F s) : Consumes F := by
  intro s
  obtain ⟨r, s1, hR, -, hc, -⟩ := h s
  exact ⟨r, s1, hR, hc⟩

/-- C17: every procedure of the parser returns from every state, for every
finite token stream, well-formed or not; the scanner model delivers the
tokens of the stream in order and then end-of-file for ever.  The measure
`mu` counts the scanner steps still ahead and is zero exactly at the end of
the file; every call of a statement or expression procedure made before the
end of the file lowers it, and so does `decl_stmt` whenever it returns a
node, which is what bounds the loops and the recursive cycles. -/
theorem parse_terminates : AllTotal where
  parse := fun indet s => by
    obtain ⟨d, q, sF, -, hR⟩ := parse_runs s
    exact ⟨_, _, hR indet⟩
  program := fun indet s => by
    obtain ⟨d, q, sF, H⟩ := program_runs s
    exact ⟨_, _, H.returns indet⟩
  declarations := fun s => by
    obtain ⟨r, s1, hR, -⟩ := declarations_runs s
    exact ⟨r, s1, hR⟩
  decl_stmt := fun s => by
    by_cases hk : isTypeKw s.token
    · obtain ⟨sv, -, -, -, hR⟩ := decl_stmt_some s hk
      exact ⟨_, _, hR⟩
    · exact ⟨none, s, ⟨0, fun f _ => decl_stmt_none f s hk⟩⟩
  varlist := fun s => by
    obtain ⟨s1, hR, -⟩ := varlist_runs s
    exact ⟨_, s1, hR⟩
  stmt_sequence := fun s => by
    obtain ⟨r, s1, hR, -, hc, -⟩ := (stmt_level s).1
    exact ⟨r, s1, hR, hc⟩
  statement := Consumes.of_stmt fun s => (stmt_level s).2.2.1
  if_stmt := Consumes.of_stmt fun s => if_stmt_runs s fun s1 _ => (stmt_level s1).1
  repeat_stmt := Consumes.of_stmt fun s => repeat_stmt_runs s fun s1 _ => (stmt_level s1).1
  assign_stmt := Consumes.of_stmt assign_stmt_runs
  read_stmt := fun s => by
    obtain ⟨s1, h, -⟩ := read_stmt_runs s
    exact ⟨_, s1, h⟩
  write_stmt := Consumes.of_stmt write_stmt_runs
  while_stmt := Consumes.of_stmt fun s => while_stmt_runs s fun s1 _ => (stmt_level s1).1
  for_stmt := Consumes.of_stmt fun s => for_stmt_runs s fun s1 _ => (stmt_level s1).1
  to_stmt := Consumes.of_runs to_stmt_runs
  switch_stmt := Consumes.of_stmt fun s => switch_stmt_runs s fun s1 _ => (stmt_level s1).2.1
  case_stmt := fun s => by
    obtain ⟨r, s1, hR, -, hc, -⟩ := (stmt_level s).2.1
    exact ⟨r, s1, hR, hc⟩
  exp := Consumes.of_runs fun s => (exp_level s).2.2.2.2.2
  simple_exp := Consumes.of_runs fun s => (exp_level s).2.2.2.2.1
  term := Consumes.of_runs fun s => (exp_level s).2.2.1
  factor := Consumes.of_runs fun s => (exp_level s).1
  declared := mu_afterTypeKw
  at_end := fun s => ⟨mu_eq_zero, fun h => by simp [mu, h.1, h.2]⟩

/-! ## Absent results -/

/-- A procedure that always keeps `Post` returns absent only with the error
flag set, at whatever budget it returns. -/
theorem absent_of_post {F : Nat → PState → Res}
    (hF : ∀ f g, f ≤ g → ∀ s, LessDef (F f s) (F g s))
    (hR : ∀ s, ∃ r s1, Returns F s r s1 ∧ Post s r s1) :
    ∀ f s s1, F f s = some (none, s1) → s1.Error = true := by
  intro f s s1 h
  obtain ⟨r, s2, hRet, hP⟩ := hR s
  have hu := hRet.unique hF h
  simp only [Prod.mk.injEq] at hu
  obtain ⟨rfl, rfl⟩ := hu
  exact hP.absent rfl

theorem no_stmt_checked :
    (parse none 10 (initState noStmtTokens)).map
      (fun x => x.2.Error && decide (x.2.token = .ENDFILE) &&
        denotes x.2.heap 0 (.node .prog .zero
          (.stmt .DeclK (.op .INT) .absent (.ident "x") .absent .absent) .absent .absent
          .absent) (some 0)) = some true := by
  decide!

/-- C20: whenever `exp`, `simple_exp`, `term`, `factor`, `statement` or
`stmt_sequence` returns absent, at whatever budget, the error flag is set in
the state it leaves (and each of them does return, from every state).  From
every state `parse` returns, and if it leaves the error flag unset, then what
`stmt_sequence` returned to `program`, which is child 1 of the Program node,
is a node.  On `int x ;`, a program without a statement, the flag is set and
child 1 of the Program node is absent. -/
theorem absent_is_error :
    ((∀ f s s1, exp f s = some (none, s1) → s1.Error = true) ∧
      (∀ f s s1, simple_exp f s = some (none, s1) → s1.Error = true) ∧
      (∀ f s s1, term f s = some (none, s1) → s1.Error = true) ∧
      (∀ f s s1, factor f s = some (none, s1) → s1.Error = true) ∧
      (∀ f s s1, statement f s = some (none, s1) → s1.Error = true) ∧
      (∀ f s s1, stmt_sequence f s = some (none, s1) → s1.Error = true)) ∧
    (Total exp ∧ Total simple_exp ∧ Total term ∧ Total factor ∧ Total statement ∧
      Total stmt_sequence) ∧
    (∀ s : PState, ∃ d q sF, ProgramRun (advance s) d q sF ∧
      (∀ indet, Returns (parse indet) s indet (parseEnd sF)) ∧
      ((parseEnd sF).Error = false → ∃ x, q = some x)) ∧
    (∃ sF, Returns (parse none) (initState noStmtTokens) none sF ∧ sF.Error = true ∧
      denotes sF.heap 0 (.node .prog .zero
        (.stmt .DeclK (.op .INT) .absent (.ident "x") .absent .absent) .absent .absent
        .absent) (some 0) = true) := by
  have r1 : ∀ s, ∃ r s1, Returns exp s r s1 ∧ Post s r s1 := fun s => by
    obtain ⟨r, s1, hR, hP, -⟩ := (exp_level s).2.2.2.2.2
    exact ⟨r, s1, hR, hP⟩
  have r2 : ∀ s, ∃ r s1, Returns simple_exp s r s1 ∧ Post s r s1 := fun s => by
    obtain ⟨r, s1, hR, hP, -⟩ := (exp_level s).2.2.2.2.1
    exact ⟨r, s1, hR, hP⟩
  have r3 : ∀ s, ∃ r s1, Returns term s r s1 ∧ Post s r s1 := fun s => by
    obtain ⟨r, s1, hR, hP, -⟩ := (exp_level s).2.2.1
    exact ⟨r, s1, hR, hP⟩
  have r4 : ∀ s, ∃ r s1, Returns factor s r s1 ∧ Post s r s1 := fun s => by
    obtain ⟨r, s1, hR, hP, -⟩ := (exp_level s).1
    exact ⟨r, s1, hR, hP⟩
  have r5 : ∀ s, ∃ r s1, Returns statement s r s1 ∧ Post s r s1 := fun s => by
    obtain ⟨r, s1, hR, hP, -⟩ := (stmt_level s).2.2.1
    exact ⟨r, s1, hR, hP⟩
  have r6 : ∀ s, ∃ r s1, Returns stmt_sequence s r s1 ∧ Post s r s1 := fun s => by
    obtain ⟨r, s1, hR, hP, -⟩ := (stmt_level s).1
    exact ⟨r, s1, hR, hP⟩
  have tot : ∀ {F : Nat → PState → Res}, (∀ s, ∃ r s1, Returns F s r s1 ∧ Post s r s1) →
      Total F := fun h s => by
    obtain ⟨r, s1, hR, -⟩ := h s
    exact ⟨r, s1, hR⟩
  refine ⟨⟨absent_of_post (fun f g h => (monoAt f g h).exp) r1,
      absent_of_post (fun f g h => (monoAt f g h).simple_exp) r2,
      absent_of_post (fun f g h => (monoAt f g h).term) r3,
      absent_of_post (fun f g h => (monoAt f g h).factor) r4,
      absent_of_post (fun f g h => (monoAt f g h).statement) r5,
      absent_of_post (fun f g h => (monoAt f g h).stmt_sequence) r6⟩,
    ⟨tot r1, tot r2, tot r3, tot r4, tot r5, tot r6⟩, fun s => ?_, ?_⟩
  · obtain ⟨d, q, sF, H, hR⟩ := parse_runs s
    refine ⟨d, q, sF, H, hR, fun he => ?_⟩
    cases q with
    | some x => exact ⟨x, rfl⟩
    | none =>
      have h1 := H.absent rfl
      have h2 : (parseEnd sF).Error = true := by
        unfold parseEnd
        split <;> simp [h1]
      rw [h2] at he
      cases he
  · obtain ⟨r, sF, ⟨N, hN⟩, hc⟩ := checked_returns (parse_mono none) no_stmt_checked
    simp only [Bool.and_eq_true, decide_eq_true_eq] at hc
    have e : r = none := by
      have h := hN N (Nat.le_refl _)
      rw [parse_indet] at h
      obtain ⟨x, -, hx⟩ := Option.map_eq_some'.mp h
      exact (congrArg Prod.fst hx).symm
    subst e
    exact ⟨sF, ⟨N, hN⟩, hc.1.1, hc.2⟩

/-! ## Case nodes and the Default node -/

/-- A procedure returns one thing only. -/
theorem Returns.agree {F : Nat → PState → Res}
    (hF : ∀ f g, f ≤ g → ∀ s, LessDef (F f s) (F g s)) {s : PState} {r r1 : Option Nat}
    {s1 s2 : PState} (h : Returns F s r s1) (h1 : Returns F s r1 s2) : r1 = r ∧ s2 = s1 := by
  obtain ⟨N, hN⟩ := h1
  have hu := h.unique hF (hN N (Nat.le_refl _))
  simp only [Prod.mk.injEq] at hu
  exact hu

/-- `case_stmt` is its head followed by the two tests. -/
theorem case_stmt_split (f : Nat) (s : PState) :
    case_stmt (f + 1) s = (case_stmt_head (f + 1) s).bind fun x => case_stmt_tail f x.1 x.2 := by
  rw [case_stmt.eq_2, case_stmt_head]
  simp only [Option.bind_eq_bind, Option.pure_def, case_stmt_tail]
  cases factor f (match_ .CASE (newStmtNode .CaseK s).2) with
  | none => rfl
  | some x1 =>
    simp only [Option.some_bind]
    cases setChild0 (newStmtNode .CaseK s).1 x1.1 x1.2 with
    | none => rfl
    | some s2 =>
      simp only [Option.some_bind]
      cases stmt_sequence f s2 with
      | none => rfl
      | some x2 =>
        simp only [Option.some_bind]
        cases setChild1 (newStmtNode .CaseK s).1 x2.1 x2.2 with
        | none => rfl
        | some s3 => rfl

/-- From every state `case_stmt` reaches its test `token == CASE`. -/
theorem case_test (s : PState) : ∃ sB n, CaseTest s sB n := by
  obtain ⟨c, s1, ⟨N1, hN1⟩, hP1, -⟩ :=
    (exp_level (match_ .CASE (s.withHeap (s.heap ++ [freshNode (.stmt .CaseK) s])))).1
  have hcell1 : s1.heap[s.heap.length]? = some (freshNode (.stmt .CaseK) s) :=
    hP1.cell (by simp)
  have hlt1 := cell_lt hcell1
  obtain ⟨b, s2, ⟨N2, hN2⟩, hP2, -⟩ :=
    (stmt_level (s1.withHeap (s1.heap.set s.heap.length
      ((freshNode (.stmt .CaseK) s).withChild0 c)))).1
  have hcell2 : s2.heap[s.heap.length]? = some ((freshNode (.stmt .CaseK) s).withChild0 c) :=
    hP2.cell (by simpa using cell_set _ hlt1)
  have hlt2 := cell_lt hcell2
  refine ⟨match_ .BREAK (s2.withHeap (s2.heap.set s.heap.length
      (((freshNode (.stmt .CaseK) s).withChild0 c).withChild1 b))), _,
    ⟨⟨max N1 N2 + 1, fun f hf => ?_⟩, by simpa using cell_set _ hlt2, rfl, rfl⟩⟩
  obtain ⟨f, rfl⟩ : ∃ g, f = g + 1 := ⟨f - 1, by omega⟩
  rw [case_stmt_head]
  simp only [newStmtNode, alloc_fst, alloc_snd, Option.bind_eq_bind, hN1 f (by omega),
    Option.some_bind, setChild0, write_at _ hcell1, hN2 f (by omega), setChild1,
    write_at _ hcell2, Option.pure_def]

/-- After the test, with `case` as lookahead: the recursive call returns,
never in front of `default`, and its result becomes the sibling. -/
theorem case_tail_case {s sB : PState} {n : TreeNode} (H : CaseTest s sB n)
    (hcs : sB.token = .CASE) :
    ∃ r s3, Returns case_stmt sB r s3 ∧ s3.token ≠ .DEFAULT ∧ Post sB r s3 ∧
      Returns case_stmt s (some s.heap.length)
        (s3.withHeap (s3.heap.set s.heap.length (n.withSibling r))) := by
  obtain ⟨N, hN⟩ := H.head
  obtain ⟨r, s3, ⟨N3, hN3⟩, hP3, -, hnd3⟩ := (stmt_level sB).2.1
  have hcell3 : s3.heap[s.heap.length]? = some n := hP3.cell H.cell
  refine ⟨r, s3, ⟨N3, hN3⟩, hnd3, hP3, ⟨max N N3 + 1, fun f hf => ?_⟩⟩
  obtain ⟨f, rfl⟩ : ∃ g, f = g + 1 := ⟨f - 1, by omega⟩
  rw [case_stmt_split, hN (f + 1) (by omega)]
  simp only [Option.some_bind, case_stmt_tail, hcs, if_true, hN3 f (by omega), setSibling,
    write_at _ hcell3, PState.withHeap_token, hnd3, if_false]

/-- After the test, with `default` as lookahead: the Default node is built
and becomes the sibling. -/
theorem case_tail_default {s sB : PState} {n : TreeNode} (H : CaseTest s sB n)
    (hdf : sB.token = .DEFAULT) :
    ∃ d sd, Returns stmt_sequence (match_ .DEFAULT (newStmtNode .DefaultK sB).2) d sd ∧
      seqContinues sd.token = false ∧
      Post (match_ .DEFAULT (newStmtNode .DefaultK sB).2) d sd ∧
      Returns case_stmt s (some s.heap.length)
        (sd.withHeap ((sd.heap.set sB.heap.length
          ((freshNode (.stmt .DefaultK) sB).withChild0 d)).set s.heap.length
          (n.withSibling (some sB.heap.length)))) := by
  obtain ⟨N, hN⟩ := H.head
  have hcs : sB.token ≠ .CASE := by rw [hdf]; decide
  obtain ⟨d, sd, ⟨N4, hN4⟩, hP4, -, hstop⟩ :=
    (stmt_level (match_ .DEFAULT (newStmtNode .DefaultK sB).2)).1
  have hltB := cell_lt H.cell
  have hcellq : sd.heap[sB.heap.length]? = some (freshNode (.stmt .DefaultK) sB) :=
    hP4.cell (by simp [newStmtNode])
  have hcellt : sd.heap[s.heap.length]? = some n :=
    hP4.cell (by
      simp only [newStmtNode, alloc_snd, match_heap, PState.withHeap_heap]
      rw [List.getElem?_append_left hltB]
      exact H.cell)
  have hne : sB.heap.length ≠ s.heap.length := by omega
  have hcellt1 : (sd.withHeap (sd.heap.set sB.heap.length
      ((freshNode (.stmt .DefaultK) sB).withChild0 d))).heap[s.heap.length]? = some n := by
    rw [PState.withHeap_heap, cell_set_ne _ hne]
    exact hcellt
  refine ⟨d, sd, ⟨N4, hN4⟩, hstop, hP4, ⟨max N N4 + 1, fun f hf => ?_⟩⟩
  obtain ⟨f, rfl⟩ : ∃ g, f = g + 1 := ⟨f - 1, by omega⟩
  have h4 := hN4 f (by omega)
  simp only [newStmtNode, alloc_snd] at h4
  rw [case_stmt_split, hN (f + 1) (by omega)]
  simp only [Option.some_bind, case_stmt_tail, if_neg hcs]
  simp only [hdf, if_true, h4, Option.some_bind, setChild0, write_at _ hcellq, setSibling,
    write_at _ hcellt1, withHeap_withHeap, PState.withHeap_heap]

/-- After the test, with neither as lookahead: `case_stmt` returns at once. -/
theorem case_tail_none {s sB : PState} {n : TreeNode} (H : CaseTest s sB n)
    (hcs : sB.token ≠ .CASE) (hdf : sB.token ≠ .DEFAULT) :
    Returns case_stmt s (some s.heap.length) sB := by
  obtain ⟨N, hN⟩ := H.head
  refine ⟨N + 1, fun f hf => ?_⟩
  obtain ⟨f, rfl⟩ : ∃ g, f = g + 1 := ⟨f - 1, by omega⟩
  rw [case_stmt_split, hN (f + 1) (by omega)]
  simp only [Option.some_bind, case_stmt_tail, if_neg hcs, if_neg hdf]

/-- From every state `case_stmt` returns its Case node, and never in front
of `default`. -/
theorem case_stmt_node (s : PState) :
    ∃ s1 n1, Returns case_stmt s (some s.heap.length) s1 ∧ s1.token ≠ .DEFAULT ∧
      s1.heap[s.heap.length]? = some n1 ∧ n1.kind = .stmt .CaseK := by
  obtain ⟨sB, n, H⟩ := case_test s
  have hltB := cell_lt H.cell
  by_cases hcs : sB.token = .CASE
  · obtain ⟨r, s3, -, hnd, hP3, hR⟩ := case_tail_case H hcs
    have hlen := hP3.len
    have hlt3 : s.heap.length < s3.heap.length := by omega
    exact ⟨_, n.withSibling r, hR, by simpa using hnd, by simpa using cell_set _ hlt3,
      H.kind⟩
  by_cases hdf : sB.token = .DEFAULT
  · obtain ⟨d, sd, -, hstop, hP4, hR⟩ := case_tail_default H hdf
    have hlen := hP4.len
    simp only [newStmtNode, alloc_snd, match_heap, PState.withHeap_heap, List.length_append,
      List.length_singleton] at hlen
    have hlt4 : s.heap.length < (sd.heap.set sB.heap.length
        ((freshNode (.stmt .DefaultK) sB).withChild0 d)).length := by
      rw [List.length_set]; omega
    exact ⟨_, n.withSibling (some sB.heap.length), hR,
      by simpa using seqContinues_DEFAULT hstop, by simpa using cell_set _ hlt4, H.kind⟩
  · exact ⟨sB, n, case_tail_none H hcs hdf, hdf, H.cell, H.kind⟩
/-- C19: from every state `case_stmt` returns its Case node, and the
lookahead it leaves is never `DEFAULT`.  `case_stmt` is `case_stmt_head`
followed by its two tests (`case_stmt_tail`); in the state `sB` of the first
test: with `CASE` as lookahead the recursive call returns the next Case node
and leaves a lookahead other than `DEFAULT`, so `case_stmt` returns in the
state that call left, changed in one place only, the sibling of its Case
node, which is the next Case node (no Default node is allocated); a Default
node is built and made the sibling only with `DEFAULT` as lookahead at the
first test, that is when no further Case was parsed; with neither,
`case_stmt` returns at once. -/
theorem case_never_default :
    (∀ s : PState, ∃ s1 n1, Returns case_stmt s (some s.heap.length) s1 ∧
      s1.token ≠ .DEFAULT ∧ s1.heap[s.heap.length]? = some n1 ∧ n1.kind = .stmt .CaseK) ∧
    (∀ f s, case_stmt (f + 1) s =
      (case_stmt_head (f + 1) s).bind fun x => case_stmt_tail f x.1 x.2) ∧
    (∀ s : PState, ∃ sB n, CaseTest s sB n ∧
      (sB.token = .CASE → ∃ s3 nr, Returns case_stmt sB (some sB.heap.length) s3 ∧
        s3.token ≠ .DEFAULT ∧ s3.heap[sB.heap.length]? = some nr ∧ nr.kind = .stmt .CaseK ∧
        Returns case_stmt s (some s.heap.length)
          (s3.withHeap (s3.heap.set s.heap.length (n.withSibling (some sB.heap.length))))) ∧
      (sB.token = .DEFAULT → ∃ d sd,
        Returns stmt_sequence (match_ .DEFAULT (newStmtNode .DefaultK sB).2) d sd ∧
        Returns case_stmt s (some s.heap.length)
          (sd.withHeap ((sd.heap.set sB.heap.length
            ((freshNode (.stmt .DefaultK) sB).withChild0 d)).set s.heap.length
            (n.withSibling (some sB.heap.length))))) ∧
      (sB.token ≠ .CASE → sB.token ≠ .DEFAULT →
        Returns case_stmt s (some s.heap.length) sB)) := by
  refine ⟨case_stmt_node, case_stmt_split, fun s => ?_⟩
  obtain ⟨sB, n, H⟩ := case_test s
  refine ⟨sB, n, H, fun hcs => ?_, fun hdf => ?_, fun hcs hdf => case_tail_none H hcs hdf⟩
  · obtain ⟨r, s3, hR3, -, -, hR⟩ := case_tail_case H hcs
    obtain ⟨s4, nr, hR4, hnd, hcell, hk⟩ := case_stmt_node sB
    obtain ⟨h1, h2⟩ := hR4.agree (fun f g h => (monoAt f g h).case_stmt) hR3
    subst h1 h2
    exact ⟨_, nr, hR4, hnd, hcell, hk, hR⟩
  · obtain ⟨d, sd, hRd, -, -, hR⟩ := case_tail_default H hdf
    exact ⟨d, sd, hRd, hR⟩

/-! ## A missing `end` -/

/-- `if_stmt` is its body followed by `match(END)`. -/
theorem if_stmt_body_split (f : Nat) (s : PState) :
    if_stmt (f + 1) s = (if_stmt_body (f + 1) s).map fun x => (some x.1, match_ .END x.2) := by
  rw [if_stmt.eq_2, if_stmt_body]
  simp only [Option.bind_eq_bind, Option.pure_def]
  cases exp f (match_ .IF (newStmtNode .IfK s).2) with
  | none => rfl
  | some x1 =>
    simp only [Option.some_bind]
    cases setChild0 (newStmtNode .IfK s).1 x1.1 x1.2 with
    | none => rfl
    | some s2 =>
      simp only [Option.some_bind]
      cases stmt_sequence f (match_ .THEN s2) with
      | none => rfl
      | some x2 =>
        simp only [Option.some_bind]
        cases setChild1 (newStmtNode .IfK s).1 x2.1 x2.2 with
        | none => rfl
        | some s3 =>
          simp only [Option.some_bind]
          cases (if s3.token = TokenType.ELSE then
            (stmt_sequence f (match_ .ELSE (newStmtNode .ElseK s3).2)).bind fun x =>
              (setChild0 (newStmtNode .ElseK s3).1 x.1 x.2).bind fun s4 =>
                setSibling (newStmtNode .IfK s).1 (some (newStmtNode .ElseK s3).1) s4
            else some s3) <;> rfl

/-- From every state `if_stmt` reaches its final `match(END)`, with the
condition and the then-part stored in the If node. -/
theorem if_stmt_end (s : PState) : ∃ sE c b n, IfEnd s sE c b n := by
  obtain ⟨c, s1, ⟨N1, hN1⟩, hP1, -⟩ := (exp_level (match_ .IF (newStmtNode .IfK s).2)).2.2.2.2.2
  have hcell1 : s1.heap[s.heap.length]? = some (freshNode (.stmt .IfK) s) :=
    hP1.cell (by simp [newStmtNode])
  have hlt1 := cell_lt hcell1
  obtain ⟨b, s2, ⟨N2, hN2⟩, hP2, -⟩ :=
    (stmt_level (match_ .THEN (s1.withHeap (s1.heap.set s.heap.length
      ((freshNode (.stmt .IfK) s).withChild0 c))))).1
  have hcell2 : s2.heap[s.heap.length]? = some ((freshNode (.stmt .IfK) s).withChild0 c) :=
    hP2.cell (by simpa using cell_set _ hlt1)
  have hlt2 := cell_lt hcell2
  obtain ⟨sT, hsT⟩ : ∃ x, x = s2.withHeap (s2.heap.set s.heap.length
      (((freshNode (.stmt .IfK) s).withChild0 c).withChild1 b)) := ⟨_, rfl⟩
  have hcellT : sT.heap[s.heap.length]? =
      some (((freshNode (.stmt .IfK) s).withChild0 c).withChild1 b) := by
    rw [hsT]; exact cell_set _ hlt2
  have hltT := cell_lt hcellT
  have hunfold : ∀ f, N1 ≤ f → N2 ≤ f → if_stmt_body (f + 1) s =
      (if sT.token = .ELSE then
        (stmt_sequence f (match_ .ELSE (newStmtNode .ElseK sT).2)).bind fun x =>
          (setChild0 sT.heap.length x.1 x.2).bind fun s4 =>
            setSibling s.heap.length (some sT.heap.length) s4
      else some sT).bind fun s5 => some (s.heap.length, s5) := by
    intro f h1 h2
    rw [if_stmt_body]
    simp only [Option.bind_eq_bind, hN1 f h1, Option.some_bind]
    simp only [newStmtNode, alloc_fst, setChild0, write_at _ hcell1, Option.some_bind,
      hN2 f h2, setChild1, write_at _ hcell2, ← hsT, Option.pure_def]
  by_cases hel : sT.token = .ELSE
  · obtain ⟨e, s3, ⟨N3, hN3⟩, hP3, -⟩ :=
      (stmt_level (match_ .ELSE (newStmtNode .ElseK sT).2)).1
    have hcellq : s3.heap[sT.heap.length]? = some (freshNode (.stmt .ElseK) sT) :=
      hP3.cell (by simp [newStmtNode])
    have hcellt : s3.heap[s.heap.length]? =
        some (((freshNode (.stmt .IfK) s).withChild0 c).withChild1 b) :=
      hP3.cell (by
        simp only [newStmtNode, alloc_snd, match_heap, PState.withHeap_heap]
        rw [List.getElem?_append_left hltT]
        exact hcellT)
    have hne : sT.heap.length ≠ s.heap.length := by omega
    have hcellt1 : (s3.withHeap (s3.heap.set sT.heap.length
        ((freshNode (.stmt .ElseK) sT).withChild0 e))).heap[s.heap.length]? =
        some (((freshNode (.stmt .IfK) s).withChild0 c).withChild1 b) := by
      rw [PState.withHeap_heap, cell_set_ne _ hne]
      exact hcellt
    have hlt3 : s.heap.length < (s3.heap.set sT.heap.length
        ((freshNode (.stmt .ElseK) sT).withChild0 e)).length := by
      rw [List.length_set]; exact cell_lt hcellt
    refine ⟨s3.withHeap ((s3.heap.set sT.heap.length
        ((freshNode (.stmt .ElseK) sT).withChild0 e)).set s.heap.length
        ((((freshNode (.stmt .IfK) s).withChild0 c).withChild1 b).withSibling
          (some sT.heap.length))), c, b,
      (((freshNode (.stmt .IfK) s).withChild0 c).withChild1 b).withSibling
        (some sT.heap.length),
      ⟨⟨max N1 (max N2 N3) + 1, fun f hf => ?_⟩, ⟨s1, ⟨N1, hN1⟩, s2, ⟨N2, hN2⟩⟩,
        by simpa using cell_set _ hlt3, rfl, rfl, rfl, rfl⟩⟩
    obtain ⟨f, rfl⟩ : ∃ g, f = g + 1 := ⟨f - 1, by omega⟩
    rw [hunfold f (by omega) (by omega)]
    simp only [hel, if_true, hN3 f (by omega), Option.some_bind, setChild0,
      write_at _ hcellq, setSibling, write_at _ hcellt1, withHeap_withHeap,
      PState.withHeap_heap]
  · refine ⟨sT, c, b, _, ⟨⟨max N1 N2 + 1, fun f hf => ?_⟩,
      ⟨s1, ⟨N1, hN1⟩, s2, ⟨N2, hN2⟩⟩, hcellT, rfl, rfl, rfl, rfl⟩⟩
    obtain ⟨f, rfl⟩ : ∃ g, f = g + 1 := ⟨f - 1, by omega⟩
    rw [hunfold f (by omega) (by omega)]
    simp only [hel, if_false, Option.some_bind]

theorem no_end_checked :
    (parse none 12 (initState noEndTokens)).map
      (fun x => x.2.Error && decide (x.2.token = .ENDFILE) &&
        denotes x.2.heap 0 noEndTree (some 0)) = some true := by
  decide!

/-- C12 (what the code does): parsing `if x then write x` sets the error flag
and stops at end-of-file with the whole tree built at the address `program`
allocates first: the Program node's statement sequence is an If node with
child 0 the identifier `x`, child 1 the Write of `x`, child 2 and sibling
absent.  But `parse` does not return that tree: it hands back the
indeterminate value it read from `program` (see C2), so with an absent
indeterminate value it returns absent, not the Program node at address 0.
In general, from every state `if_stmt` reaches its final `match(END)`, in a
state `sE` where the If node already holds the result of `exp` in child 0 and
that of the then-sequence in child 1; it then returns that node, the heap
untouched by the `match`; and when the lookahead of `sE` is not `END` the
`match` sets the error flag and leaves lookahead, token text, line number and
remaining input as they were. -/
theorem missing_end :
    (∃ sF, (∀ indet, Returns (parse indet) (initState noEndTokens) indet sF) ∧
      ¬ Returns (parse none) (initState noEndTokens) (some 0) sF ∧
      sF.Error = true ∧ sF.token = .ENDFILE ∧
      (newProgNode (advance (initState noEndTokens))).1 = 0 ∧
      denotes sF.heap 0 noEndTree (some 0) = true) ∧
    (∀ s : PState, ∃ sE c b n, IfEnd s sE c b n ∧
      Returns if_stmt s (some s.heap.length) (match_ .END sE) ∧
      (match_ .END sE).heap = sE.heap ∧
      (sE.token ≠ .END → (match_ .END sE).Error = true ∧
        (match_ .END sE).token = sE.token ∧ (match_ .END sE).tokenString = sE.tokenString ∧
        (match_ .END sE).lineno = sE.lineno ∧ (match_ .END sE).input = sE.input)) := by
  constructor
  · obtain ⟨r, sF, hR, hc⟩ := checked_returns (parse_mono none) no_end_checked
    simp only [Bool.and_eq_true, decide_eq_true_eq] at hc
    obtain ⟨d, q, sP, -, hRp⟩ := parse_runs (initState noEndTokens)
    have hr : r = none := ((hRp none).agree (parse_mono none) hR).1
    subst hr
    obtain ⟨N, hN⟩ := hR
    refine ⟨sF, fun indet => ⟨N, fun f hf => ?_⟩, fun h0 => ?_, hc.1.1, hc.1.2, rfl, hc.2⟩
    · rw [parse_indet, hN f hf]
      rfl
    · have := (h0.agree (parse_mono none) ⟨N, hN⟩).1
      cases this
  · intro s
    obtain ⟨sE, c, b, n, H⟩ := if_stmt_end s
    obtain ⟨N, hN⟩ := H.body
    refine ⟨sE, c, b, n, H, ⟨N + 1, fun f hf => ?_⟩, match_heap _ _, fun h => ?_⟩
    · obtain ⟨f, rfl⟩ : ∃ g, f = g + 1 := ⟨f - 1, by omega⟩
      rw [if_stmt_body_split, hN (f + 1) (by omega)]
      rfl
    · rw [match_miss h]
      simp [syntaxError]

/-! ## The bound clause of `for` -/

/-- From every state `to_stmt` returns a node of kind `boundKind s` around
what `factor` returns after the `match`. -/
theorem to_stmt_kind (s : PState) : ∃ c sf, Returns factor
      (match_ (boundToken s) (s.withHeap (s.heap ++ [freshNode (.stmt (boundKind s)) s]))) c sf ∧
    Returns to_stmt s (some s.heap.length) (sf.withHeap (sf.heap.set s.heap.length
      ((freshNode (.stmt (boundKind s)) s).withChild0 c))) := by
  have hf : ∀ f, to_stmt (f + 1) s =
      (factor f (match_ (boundToken s)
        (s.withHeap (s.heap ++ [freshNode (.stmt (boundKind s)) s])))).bind
        (fun x => (setChild0 s.heap.length x.1 x.2).bind
          (fun s5 => some (some s.heap.length, s5))) := by
    intro f
    rw [to_stmt.eq_2]
    by_cases h : s.token = .TO
    · simp only [boundKind, boundToken, h, if_true, newStmtNode, alloc_fst, alloc_snd,
        Option.bind_eq_bind, Option.pure_def]
    · simp only [boundKind, boundToken, h, if_false, newStmtNode, alloc_fst, alloc_snd,
        Option.bind_eq_bind, Option.pure_def]
  obtain ⟨c, s1, ⟨N1, hN1⟩, hP1, -⟩ := (exp_level (match_ (boundToken s)
    (s.withHeap (s.heap ++ [freshNode (.stmt (boundKind s)) s])))).1
  have hcell : s1.heap[s.heap.length]? = some (freshNode (.stmt (boundKind s)) s) :=
    hP1.cell (by simp)
  refine ⟨c, s1, ⟨N1, hN1⟩, ⟨N1 + 1, fun f hf1 => ?_⟩⟩
  obtain ⟨f, rfl⟩ : ∃ g, f = g + 1 := ⟨f - 1, by omega⟩
  rw [hf f, hN1 f (by omega)]
  simp only [Option.some_bind, setChild0, write_at _ hcell]

theorem for_bare_checked :
    (statement 10 (startOn forToTokens)).map
        (fun x => denotes x.2.heap 0 (forTree .absent .DownK 10) x.1 && x.2.Error &&
          boundIs x.2.heap .DownK 10 x.1 && !boundIs x.2.heap .ToK 10 x.1) = some true ∧
      (statement 10 (startOn forDownTokens)).map
        (fun x => denotes x.2.heap 0 (forTree .absent .DownK 1) x.1 && x.2.Error &&
          boundIs x.2.heap .DownK 1 x.1) = some true := by
  decide!

theorem for_assign_checked :
    (statement 10 (startOn forAssignToTokens)).map
        (fun x => denotes x.2.heap 0 (forTree (.const 1) .ToK 10) x.1 && !x.2.Error &&
          boundIs x.2.heap .ToK 10 x.1) = some true ∧
      (statement 10 (startOn forAssignDownTokens)).map
        (fun x => denotes x.2.heap 0 (forTree (.const 10) .DownK 1) x.1 && !x.2.Error &&
          boundIs x.2.heap .DownK 1 x.1) = some true := by
  decide!

/-- C11, the claim as stated fails: on `for i to 10 then write i end` the
node in child 1 of the For node is not a ToBound node. -/
theorem for_to_not_tobound : ¬ BoundIs forToTokens .ToK 10 := by
  rintro ⟨r, s1, hR, hb⟩
  obtain ⟨r0, s0, hR0, hc⟩ := checked_returns (fun f g h => (monoAt f g h).statement)
    for_bare_checked.1
  obtain ⟨h1, h2⟩ := hR0.agree (fun f g h => (monoAt f g h).statement) hR
  subst h1 h2
  simp only [Bool.and_eq_true, Bool.not_eq_true'] at hc
  rw [hc.2] at hb
  cases hb

/-- C11, amended: on `for i to 10 then write i end` `statement` returns, with
the error flag set, a For node whose child 0 is an Assign node of `i` without
value, whose child 1 is a DownToBound node around the constant 10 and whose
child 2 is the body `write i`; on `for i downto 1 then write i end`, again
with the error flag set, child 1 is a DownToBound node around the constant 1.
With the init assignment written, `for i := 1 to 10 then write i end` gives a
ToBound node around 10 and `for i := 10 downto 1 then write i end` a
DownToBound node around 1, both without error and with the same body.  In
every state `to_stmt` builds ToBound exactly when its own lookahead is `to`,
and DownToBound otherwise. -/
theorem for_bound :
    (∃ r s1, Returns statement (startOn forToTokens) r s1 ∧ s1.Error = true ∧
      denotes s1.heap 0 (forTree .absent .DownK 10) r = true ∧
      boundIs s1.heap .DownK 10 r = true) ∧
    (∃ r s1, Returns statement (startOn forDownTokens) r s1 ∧ s1.Error = true ∧
      denotes s1.heap 0 (forTree .absent .DownK 1) r = true ∧
      boundIs s1.heap .DownK 1 r = true) ∧
    (∃ r s1, Returns statement (startOn forAssignToTokens) r s1 ∧ s1.Error = false ∧
      denotes s1.heap 0 (forTree (.const 1) .ToK 10) r = true ∧
      boundIs s1.heap .ToK 10 r = true) ∧
    (∃ r s1, Returns statement (startOn forAssignDownTokens) r s1 ∧ s1.Error = false ∧
      denotes s1.heap 0 (forTree (.const 10) .DownK 1) r = true ∧
      boundIs s1.heap .DownK 1 r = true) ∧
    (∀ s : PState, ∃ c sf, Returns factor
        (match_ (boundToken s) (s.withHeap (s.heap ++ [freshNode (.stmt (boundKind s)) s])))
        c sf ∧
      Returns to_stmt s (some s.heap.length) (sf.withHeap (sf.heap.set s.heap.length
        ((freshNode (.stmt (boundKind s)) s).withChild0 c))) ∧
      (s.token = .TO → boundKind s = .ToK) ∧ (s.token ≠ .TO → boundKind s = .DownK)) := by
  have hm : ∀ f g, f ≤ g → ∀ s, LessDef (statement f s) (statement g s) :=
    fun f g h => (monoAt f g h).statement
  obtain ⟨r1, s1, hR1, hc1⟩ := checked_returns hm for_bare_checked.1
  obtain ⟨r2, s2, hR2, hc2⟩ := checked_returns hm for_bare_checked.2
  obtain ⟨r3, s3, hR3, hc3⟩ := checked_returns hm for_assign_checked.1
  obtain ⟨r4, s4, hR4, hc4⟩ := checked_returns hm for_assign_checked.2
  simp only [Bool.and_eq_true, Bool.not_eq_true'] at hc1 hc2 hc3 hc4
  refine ⟨⟨r1, s1, hR1, hc1.1.1.2, hc1.1.1.1, hc1.1.2⟩, ⟨r2, s2, hR2, hc2.1.2, hc2.1.1, hc2.2⟩,
    ⟨r3, s3, hR3, hc3.1.2, hc3.1.1, hc3.2⟩, ⟨r4, s4, hR4, hc4.1.2, hc4.1.1, hc4.2⟩, fun s => ?_⟩
  obtain ⟨c, sf, h1, h2⟩ := to_stmt_kind s
  exact ⟨c, sf, h1, h2, fun h => by simp [boundKind, h], fun h => by simp [boundKind, h]⟩

/-! ## Declaration lists -/

/-- A well-formed declaration is read by `decl_stmt` as one Declaration node. -/
theorem reads_decl (d : Decl) (hd : d.wf) :
    ReadsNode decl_stmt (fun tk => tk ≠ .COMMA) d.toks .DeclK (.op d.kw.type) .absent
      (idChain d.x d.more) .absent := by
  intro s rest hp hok
  obtain ⟨hkw, hx, hm⟩ := hd
  have hp0 : Pending s (d.kw :: d.x :: (commaIds d.more ++ rest)) := by
    simpa [Decl.toks] using hp
  have htok : s.token = d.kw.type := hp0.1
  have hty : isTypeKw s.token := by rw [htok]; exact hkw
  have hpA : Pending (afterTypeKw s) (d.x :: (commaIds d.more ++ rest)) :=
    Pending.step ((Pending_withHeap _ _ _).mpr hp0)
  obtain ⟨sv, hRv, -, -, hRd⟩ := decl_stmt_some s hty
  obtain ⟨s1, hR1, he, hlen, hden, hpend, herr, hlist⟩ :=
    varlist_chain_aux d.more d.x rest (afterTypeKw s) hx hm hok hpA
  have hlenA : (afterTypeKw s).heap.length = s.heap.length + 1 := by simp [afterTypeKw]
  have hheapA : (afterTypeKw s).heap = s.heap ++ [declNode s] := by simp [afterTypeKw]
  rw [hlenA] at hR1 he hlen hden
  rw [hheapA] at he
  obtain ⟨-, hsv⟩ := hRv.agree varlist_mono hR1
  subst hsv
  have hlt : s.heap.length < s1.heap.length := by omega
  refine ⟨_, (declNode s).withChild1 (some (s.heap.length + 1)), hRd,
    (Pending_withHeap _ _ _).mpr hpend, ?_, ?_, ⟨?_, fun a ha => ?_⟩, ?_, rfl, ?_, rfl, rfl, ?_,
    rfl⟩
  · simpa [afterTypeKw] using herr
  · simpa [afterTypeKw] using hlist
  · simp only [PState.withHeap_heap, List.length_set]
    omega
  · rw [PState.withHeap_heap, cell_set_ne _ (by omega), he.2 a (by omega)]
    exact List.getElem?_append_left ha
  · simpa using cell_set _ hlt
  · simp [declNode, htok]
  · exact denotes_set_below _ (Nat.lt_succ_self _) hden

/-- Before a token that is not a type keyword `decl_stmt` does nothing, so
the loop of `declarations` leaves after its `match(SEMI)`. -/
theorem declarations_loop_exit (f : Nat) (t p : Option Nat) (s : PState)
    (h : s.token = .SEMI) (hn : ¬ isTypeKw (advance s).token) :
    declarations_loop (f + 1) t p s = some (t, advance s) := by
  rw [declarations_loop]
  simp only [h, ne_eq, not_false_eq_true, if_true, match_hit, reduceCtorEq,
    decl_stmt_none f _ hn, Option.bind_eq_bind, Option.some_bind]

/-- What follows a declaration inside a list is a semicolon, not a comma. -/
theorem restDecls_next {m : List (Token × Decl)} {semi : Token}
    (hm : ∀ p ∈ m, p.1.type = .SEMI ∧ p.2.wf) (hsemi : semi.type = .SEMI) (rest : List Token) :
    nextType (restDecls m ++ semi :: rest) ≠ .COMMA := by
  cases m with
  | nil => simp [restDecls, nextType, hsemi]
  | cons py m =>
    obtain ⟨sep1, d1⟩ := py
    have h : sep1.type = .SEMI := (hm (sep1, d1) (List.mem_cons_self _ _)).1
    simp [restDecls, nextType, h]

/-- The loop of `declarations` on `; d2 ; d3 ... ;`: the chain of these
declarations is built above the nodes that exist, and the last node `p` so far
gets it as its sibling; nothing else is changed. -/
theorem decl_loop_reads : ∀ (m : List (Token × Decl)), (∀ p ∈ m, p.1.type = .SEMI ∧ p.2.wf) →
    ∀ (t p : Nat) (np : TreeNode) (s : PState) (semi : Token) (rest : List Token),
      Pending s (restDecls m ++ semi :: rest) → semi.type = .SEMI → okDecls (nextType rest) →
      s.heap[p]? = some np → np.sibling = none →
      ∃ x s1, Returns (fun f => declarations_loop f (some t) (some p)) s (some t) s1 ∧
        Pending s1 rest ∧ s1.Error = s.Error ∧ s1.listing = s.listing ∧
        s.heap.length ≤ s1.heap.length ∧
        (∀ a, a < s.heap.length → a ≠ p → s1.heap[a]? = s.heap[a]?) ∧
        s1.heap[p]? = some (np.withSibling x) ∧
        denotes s1.heap s.heap.length (restDeclTree m) x = true := by
  intro m
  induction m with
  | nil =>
    intro _ t p np s semi rest hp hsemi hok hnp hsib
    have hp0 : Pending s (semi :: rest) := by simpa [restDecls] using hp
    have htok : s.token = .SEMI := hp0.1.trans hsemi
    have hp1 := Pending.step hp0
    refine ⟨none, advance s, Returns.intro 1 (fun f => ?_), hp1, by simp, by simp,
      by simp, fun _ _ _ => by simp, by rw [withSibling_none hsib]; simpa using hnp, rfl⟩
    rw [Nat.add_comm]
    exact declarations_loop_exit f _ _ s htok (by rw [hp1.token_next]; exact hok)
  | cons px m ih =>
    obtain ⟨sep, d⟩ := px
    intro hm t p np s semi rest hp hsemi hok hnp hsib
    obtain ⟨hsep, hd⟩ := hm (sep, d) (List.mem_cons_self _ _)
    have hm1 : ∀ p ∈ m, p.1.type = .SEMI ∧ p.2.wf := fun p hp => hm p (List.mem_cons_of_mem _ hp)
    have hplt := cell_lt hnp
    have htok : s.token = .SEMI := hp.1.trans hsep
    have hA : match_ .SEMI s = advance s := match_hit htok
    have hpA : Pending (advance s) (d.toks ++ (restDecls m ++ semi :: rest)) := by
      have hp1 : Pending s (sep :: (d.toks ++ (restDecls m ++ semi :: rest))) := by
        simpa [restDecls, List.append_assoc] using hp
      exact Pending.step hp1
    have hnext := restDecls_next hm1 hsemi rest
    obtain ⟨σ, n, ⟨N1, hN1⟩, hp1, herr1, hlist1, hext1, hcell1, hk1, ha1, hs1, d0, d1, d2⟩ :=
      reads_decl d hd _ _ hpA hnext
    simp only [advance_heap] at hext1 hcell1 d0 d1 d2 hN1
    have hqlt := cell_lt hcell1
    have hnpσ : σ.heap[p]? = some np := by rw [hext1.2 _ hplt]; exact hnp
    have hne : p ≠ s.heap.length := by omega
    have hcellq : (σ.withHeap (σ.heap.set p (np.withSibling (some s.heap.length)))).heap[
        s.heap.length]? = some n := by
      rw [PState.withHeap_heap, cell_set_ne _ hne]
      exact hcell1
    obtain ⟨x1, s1, ⟨N2, hN2⟩, hp2, herr2, hlist2, hlen2, hfr2, hq2, hd2⟩ :=
      ih hm1 t s.heap.length n (σ.withHeap (σ.heap.set p (np.withSibling (some s.heap.length))))
        semi rest ((Pending_withHeap _ _ _).mpr hp1) hsemi hok hcellq hs1
    simp only [PState.withHeap_heap, List.length_set, PState.withHeap_Error,
      PState.withHeap_listing] at hlen2 hfr2 hd2 herr2 hlist2
    have hlen1 := hext1.1
    refine ⟨some s.heap.length, s1, ⟨max N1 N2 + 1, fun f hf => ?_⟩, hp2, ?_, ?_, by omega,
      fun a ha1 ha2 => ?_, ?_, ?_⟩
    · obtain ⟨f, rfl⟩ : ∃ g, f = g + 1 := ⟨f - 1, by omega⟩
      show declarations_loop (f + 1) (some t) (some p) s = _
      rw [declarations_loop]
      simp only [htok, ne_eq, not_false_eq_true, if_true, match_hit, reduceCtorEq,
        hN1 f (by omega), Option.bind_eq_bind, Option.some_bind, setSibling,
        write_at _ hnpσ]
      exact hN2 f (by omega)
    · rw [herr2, herr1, advance_Error]
    · rw [hlist2, hlist1, advance_listing]
    · rw [hfr2 a (by omega) (by omega), cell_set_ne _ (Ne.symm ha2), hext1.2 a ha1]
    · rw [hfr2 p (by omega) hne]
      exact cell_set _ (by omega)
    · have hagree : ∀ a, s.heap.length + 1 ≤ a → a < σ.heap.length → s1.heap[a]? = σ.heap[a]? :=
        fun a h1 h2 => by
          rw [hfr2 a h2 (by omega), cell_set_ne _ (by omega)]
      exact denotes_node hq2 hk1 ha1 (denotes_of_agree hagree _ _ d0)
        (denotes_of_agree hagree _ _ d1) (denotes_of_agree hagree _ _ d2)
        (denotes_lower (by omega) _ _ hd2)

/-- C15: for well-formed declarations `d1 ; d2 ; ... ; dk ;` (each a type
keyword and identifiers separated by commas) followed by a token that is not
a type keyword, `declarations` returns the `k` Declaration nodes chained by
sibling in source order, the last without sibling, each with its keyword as
attribute and its identifier chain in child 1; it records no error, leaves
older nodes untouched and stops with the token after the final semicolon as
lookahead.  When the first lookahead is not a type keyword, `declarations`
returns absent and leaves the state as it was, at every budget. -/
theorem declarations_chain (d : Decl) (m : List (Token × Decl)) (semi : Token)
    (hd : d.wf) (hm : ∀ p ∈ m, p.1.type = .SEMI ∧ p.2.wf) (hsemi : semi.type = .SEMI) :
    Reads declarations okDecls (d.toks ++ restDecls m ++ [semi]) (d.tree (restDeclTree m)) ∧
      ∀ (f : Nat) (s : PState), ¬ isTypeKw s.token → declarations f s = some (none, s) := by
  constructor
  · intro s rest hp hok
    obtain ⟨σ, n, ⟨N1, hN1⟩, hp1, herr1, hlist1, hext1, hcell1, hk1, ha1, hs1, d0, d1, d2⟩ :=
      reads_decl d hd s (restDecls m ++ semi :: rest)
        (by simpa [List.append_assoc] using hp) (restDecls_next hm hsemi rest)
    obtain ⟨x1, s1, ⟨N2, hN2⟩, hp2, herr2, hlist2, hlen2, hfr2, hq2, hd2⟩ :=
      decl_loop_reads m hm s.heap.length s.heap.length n σ semi rest hp1 hsemi hok hcell1 hs1
    have hqlt := cell_lt hcell1
    refine ⟨some s.heap.length, s1, ⟨max N1 N2, fun f hf => ?_⟩, hp2, herr2.trans herr1,
      hlist2.trans hlist1, ⟨Nat.le_trans hext1.1 hlen2, fun a ha => ?_⟩, ?_⟩
    · rw [declarations, hN1 f (by omega)]
      exact hN2 f (by omega)
    · rw [hfr2 a (by omega) (by omega), hext1.2 a ha]
    · have hagree : ∀ a, s.heap.length + 1 ≤ a → a < σ.heap.length → s1.heap[a]? = σ.heap[a]? :=
        fun a h1 h2 => hfr2 a h2 (by omega)
      exact denotes_node hq2 hk1 ha1 (denotes_of_agree hagree _ _ d0)
        (denotes_of_agree hagree _ _ d1) (denotes_of_agree hagree _ _ d2)
        (denotes_lower (by omega) _ _ hd2)
  · intro f s h
    rw [declarations, decl_stmt_none f s h]
    rfl

/-- C15 at `int x ; bool a, b ;` followed by `write x`: two Declaration
nodes, the first with the second as sibling, no error, and `write` as the
lookahead. -/
theorem declarations_chain_two :
    ∃ r s1, Returns declarations (startOn [tok .INT "int", tok .ID "x", tok .SEMI ";",
        tok .BOOL "bool", tok .ID "a", tok .COMMA ",", tok .ID "b", tok .SEMI ";",
        tok .WRITE "write", tok .ID "x"]) r s1 ∧
      Pending s1 [tok .WRITE "write", tok .ID "x"] ∧ s1.Error = false ∧ s1.listing = [] ∧
      denotes s1.heap 0
        (.stmt .DeclK (.op .INT) .absent (.ident "x") .absent
          (.stmt .DeclK (.op .BOOL) .absent
            (.node (.exp .IdK) (.name "a") (.ident "b") .absent .absent .absent)
            .absent .absent)) r = true := by
  obtain ⟨r, s1, h1, h2, h3, h4, -, h6⟩ :=
    (declarations_chain intX [(tok .SEMI ";", boolAB)] (tok .SEMI ";")
      ⟨Or.inl rfl, rfl, by simp [intX]⟩
      (by
        intro p hp
        simp only [List.mem_singleton] at hp
        subst hp
        exact ⟨rfl, Or.inr (Or.inr rfl), rfl, by simp [boolAB, tok]⟩)
      rfl).1
      (startOn [tok .INT "int", tok .ID "x", tok .SEMI ";",
        tok .BOOL "bool", tok .ID "a", tok .COMMA ",", tok .ID "b", tok .SEMI ";",
        tok .WRITE "write", tok .ID "x"])
      [tok .WRITE "write", tok .ID "x"] ⟨rfl, rfl, rfl, rfl⟩ (by
        unfold okDecls isTypeKw nextType
        decide)
  exact ⟨r, s1, h1, h2, h3, h4, h6⟩

/-! ## The sibling invariant -/

theorem Grows.same (h : List TreeNode) : Grows h h :=
  ⟨fun _ n hn => ⟨n, hn, rfl⟩, fun hi => hi⟩

theorem Grows.compose {h h1 h2 : List TreeNode} (a : Grows h h1) (b : Grows h1 h2) :
    Grows h h2 := by
  refine ⟨fun x n hn => ?_, fun hi => b.ok (a.ok hi)⟩
  obtain ⟨n1, h1, k1⟩ := a.kind x n hn
  obtain ⟨n2, h2, k2⟩ := b.kind x n1 h1
  exact ⟨n2, h2, k2.trans k1⟩

/-- A statement-category node stays one. -/
theorem stmtNode.keep {h h1 : List TreeNode} {q : Nat} (hq : stmtNode h q) (g : Grows h h1) :
    stmtNode h1 q := by
  obtain ⟨n, k, hn, hk⟩ := hq
  obtain ⟨n1, h1, k1⟩ := g.kind q n hn
  exact ⟨n1, k, h1, k1.trans hk⟩

theorem StmtRes.keep_all {r : Option Nat} {h h1 : List TreeNode} (hr : StmtRes r h)
    (g : Grows h h1) : StmtRes r h1 :=
  fun q hq => (hr q hq).keep g

/-- Allocation of a node without sibling. -/
theorem Grows.push (h : List TreeNode) (n : TreeNode) (hn : n.sibling = none) :
    Grows h (h ++ [n]) := by
  have hk : ∀ a m, h[a]? = some m → (h ++ [n])[a]? = some m := fun a m hm => by
    rw [List.getElem?_append_left (cell_lt hm)]; exact hm
  refine ⟨fun a m hm => ⟨m, hk a m hm, rfl⟩, fun hi a m e hm he => ?_⟩
  by_cases ha : a < h.length
  · rw [List.getElem?_append_left ha] at hm
    obtain ⟨h1, n2, k2, h2, h3⟩ := hi a m e hm he
    exact ⟨h1, n2, k2, hk _ _ h2, h3⟩
  · have hlt := cell_lt hm
    simp only [List.length_append, List.length_singleton] at hlt
    have hal : a = h.length := by omega
    subst hal
    simp only [cell_last, Option.some.injEq] at hm
    subst hm
    rw [hn] at he
    cases he

/-- A write that changes neither the kind nor the sibling of the node. -/
theorem Grows.store {h : List TreeNode} {p : Nat} {n : TreeNode} (n1 : TreeNode)
    (hc : h[p]? = some n) (hk : n1.kind = n.kind) (hs : n1.sibling = n.sibling) :
    Grows h (h.set p n1) := by
  have hplt := cell_lt hc
  have hkind : ∀ (a : Nat) (m : TreeNode), h[a]? = some m →
      ∃ m1, (h.set p n1)[a]? = some m1 ∧ m1.kind = m.kind := by
    intro a m hm
    by_cases ha : a = p
    · subst ha
      rw [hc] at hm
      cases hm
      exact ⟨n1, cell_set _ hplt, hk⟩
    · exact ⟨m, by rw [cell_set_ne _ (Ne.symm ha)]; exact hm, rfl⟩
  refine ⟨hkind, fun hi a m e hm he => ?_⟩
  have hst : ∀ q, stmtNode h q → stmtNode (h.set p n1) q := fun q ⟨x, k, hx, hxk⟩ => by
    obtain ⟨m1, h1, k1⟩ := hkind q x hx
    exact ⟨m1, k, h1, k1.trans hxk⟩
  by_cases ha : a = p
  · subst ha
    rw [cell_set _ hplt] at hm
    cases hm
    obtain ⟨⟨k, h1⟩, h2⟩ := hi a n e hc (hs ▸ he)
    exact ⟨⟨k, hk.trans h1⟩, hst _ h2⟩
  · rw [cell_set_ne _ (Ne.symm ha)] at hm
    obtain ⟨h1, h2⟩ := hi a m e hm he
    exact ⟨h1, hst _ h2⟩

/-- The write `p->sibling = v` on a statement-category node `p`, with `v`
absent or a statement-category node. -/
theorem Grows.link {h : List TreeNode} {p : Nat} {n : TreeNode} {v : Option Nat}
    (hc : h[p]? = some n) (hp : SibInv h → ∃ k, n.kind = .stmt k)
    (hv : SibInv h → StmtRes v h) : Grows h (h.set p (n.withSibling v)) := by
  have hplt := cell_lt hc
  have hkind : ∀ (a : Nat) (m : TreeNode), h[a]? = some m →
      ∃ m1, (h.set p (n.withSibling v))[a]? = some m1 ∧ m1.kind = m.kind := by
    intro a m hm
    by_cases ha : a = p
    · subst ha
      rw [hc] at hm
      cases hm
      exact ⟨_, cell_set _ hplt, rfl⟩
    · exact ⟨m, by rw [cell_set_ne _ (Ne.symm ha)]; exact hm, rfl⟩
  refine ⟨hkind, fun hi a m e hm he => ?_⟩
  have hst : ∀ q, stmtNode h q → stmtNode (h.set p (n.withSibling v)) q :=
    fun q ⟨x, k, hx, hxk⟩ => by
      obtain ⟨m1, h1, k1⟩ := hkind q x hx
      exact ⟨m1, k, h1, k1.trans hxk⟩
  by_cases ha : a = p
  · subst ha
    rw [cell_set _ hplt] at hm
    cases hm
    exact ⟨hp hi, hst _ (hv hi e he)⟩
  · rw [cell_set_ne _ (Ne.symm ha)] at hm
    obtain ⟨h1, h2⟩ := hi a m e hm he
    exact ⟨h1, hst _ h2⟩

theorem Grows.on_advance {h : List TreeNode} {s : PState} (g : Grows h s.heap) :
    Grows h (advance s).heap := by
  rw [advance_heap]; exact g

theorem Grows.on_match {h : List TreeNode} {s : PState} (g : Grows h s.heap) (e : TokenType) :
    Grows h (match_ e s).heap := by
  rw [match_heap]; exact g

theorem Grows.on_alloc {h : List TreeNode} {s : PState} (g : Grows h s.heap) (k : Kind) :
    Grows h (alloc k s).2.heap :=
  g.compose (Grows.push _ _ rfl)

theorem Grows.on_write {h : List TreeNode} {s s1 : PState} {p : Nat} {w : TreeNode → TreeNode}
    (g : Grows h s.heap) (hw : modifyNode p w s = some s1)
    (hk : ∀ n, (w n).kind = n.kind) (hs : ∀ n, (w n).sibling = n.sibling) :
    Grows h s1.heap := by
  obtain ⟨n, hn, rfl⟩ := modifyNode_eq_some.mp hw
  exact g.compose (Grows.store _ hn (hk n) (hs n))

theorem Grows.on_child0 {h : List TreeNode} {s s1 : PState} {p : Nat} {v : Option Nat}
    (g : Grows h s.heap) (hw : setChild0 p v s = some s1) : Grows h s1.heap :=
  g.on_write hw (fun _ => rfl) (fun _ => rfl)

theorem Grows.on_child1 {h : List TreeNode} {s s1 : PState} {p : Nat} {v : Option Nat}
    (g : Grows h s.heap) (hw : setChild1 p v s = some s1) : Grows h s1.heap :=
  g.on_write hw (fun _ => rfl) (fun _ => rfl)

theorem Grows.on_child2 {h : List TreeNode} {s s1 : PState} {p : Nat} {v : Option Nat}
    (g : Grows h s.heap) (hw : setChild2 p v s = some s1) : Grows h s1.heap :=
  g.on_write hw (fun _ => rfl) (fun _ => rfl)

theorem Grows.on_attr {h : List TreeNode} {s s1 : PState} {p : Nat} {a : Attr}
    (g : Grows h s.heap) (hw : setAttr p a s = some s1) : Grows h s1.heap :=
  g.on_write hw (fun _ => rfl) (fun _ => rfl)

theorem Grows.on_sibling {h : List TreeNode} {s s1 : PState} {p : Nat} {v : Option Nat}
    (g : Grows h s.heap) (hw : setSibling p v s = some s1)
    (hp : SibInv s.heap → stmtNode s.heap p) (hv : SibInv s.heap → StmtRes v s.heap) :
    Grows h s1.heap := by
  obtain ⟨n, hn, rfl⟩ := modifyNode_eq_some.mp hw
  refine g.compose (Grows.link hn (fun hi => ?_) hv)
  obtain ⟨m, k, hm, hk⟩ := hp hi
  rw [hn] at hm
  cases hm
  exact ⟨k, hk⟩

/-- The node a procedure has just allocated is a statement-category node. -/
theorem stmtNode.fresh (k : StmtKind) (s : PState) :
    stmtNode (newStmtNode k s).2.heap (newStmtNode k s).1 :=
  ⟨freshNode (.stmt k) s, k, by simp [newStmtNode, alloc], rfl⟩

theorem Grows.on_error {h : List TreeNode} {s : PState} (g : Grows h s.heap) (m : String) :
    Grows h (syntaxError m s).heap := g

theorem Grows.on_stmt {h : List TreeNode} {s : PState} (g : Grows h s.heap) (k : StmtKind) :
    Grows h (newStmtNode k s).2.heap := g.on_alloc (.stmt k)

theorem Grows.on_exp {h : List TreeNode} {s : PState} (g : Grows h s.heap) (k : ExpKind) :
    Grows h (newExpNode k s).2.heap := g.on_alloc (.exp k)

/-- The guarded write of the name in `assign_stmt`, `read_stmt` and `varlist`. -/
theorem Grows.on_name {h : List TreeNode} {s s1 : PState} {p : Nat} {a : Attr} {c : Prop}
    [Decidable c] (g : Grows h s.heap)
    (hw : (if c then setAttr p a s else some s) = some s1) : Grows h s1.heap := by
  split at hw
  · exact g.on_attr hw
  · cases hw
    exact g

/-- A procedure that returns the node it allocated first. -/
theorem built_node {s s1 : PState} {k : StmtKind} {r : Option Nat}
    (g : Grows (newStmtNode k s).2.heap s1.heap) (hr : some (newStmtNode k s).1 = r) :
    Grows s.heap s1.heap ∧ StmtRes r s1.heap := by
  subst hr
  refine ⟨((Grows.same s.heap).on_stmt k).compose g, fun q hq => ?_⟩
  cases hq
  exact (stmtNode.fresh k s).keep g

theorem StmtRes.absent (h : List TreeNode) : StmtRes none h := fun _ hq => by cases hq

theorem factor_sib {f : Nat} (ih : SibAt f) (s : PState) (r : Option Nat) (s1 : PState)
    (h : factor (f + 1) s = some (r, s1)) : Grows s.heap s1.heap := by
  rw [factor.eq_2] at h
  split at h <;>
    simp only [Option.bind_eq_bind, Option.pure_def, Option.bind_eq_some, Option.some.injEq,
      Prod.mk.injEq, Prod.exists] at h
  · obtain ⟨a, h1, -, rfl⟩ := h
    exact (((Grows.same s.heap).on_exp .ConstK).on_attr h1).on_match _
  · obtain ⟨a, h1, -, rfl⟩ := h
    exact (((Grows.same s.heap).on_exp .IdK).on_attr h1).on_match _
  · obtain ⟨a, h1, -, rfl⟩ := h
    exact (((Grows.same s.heap).on_exp .StrK).on_attr h1).on_match _
  · obtain ⟨a, b, h1, -, rfl⟩ := h
    exact (((Grows.same s.heap).on_match .LPAREN).compose (ih.exp _ _ _ h1)).on_match _
  · obtain ⟨-, rfl⟩ := h
    exact ((Grows.same s.heap).on_error _).on_advance

theorem term_loop_sib {f : Nat} (ih : SibAt f) (t : Option Nat) (s : PState) (r : Option Nat)
    (s1 : PState) (h : term_loop (f + 1) t s = some (r, s1)) : Grows s.heap s1.heap := by
  rw [term_loop.eq_2] at h
  split at h <;>
    simp only [Option.bind_eq_bind, Option.pure_def, Option.bind_eq_some, Option.some.injEq,
      Prod.mk.injEq, Prod.exists] at h
  · obtain ⟨a, h1, b, h2, c, d, h3, e, h4, h5⟩ := h
    exact (((((((Grows.same s.heap).on_exp .OpK).on_child0 h1).on_attr h2).on_match _).compose
      (ih.factor _ _ _ h3)).on_child1 h4).compose (ih.term_loop _ _ _ _ h5)
  · obtain ⟨-, rfl⟩ := h
    exact Grows.same _

theorem term_sib {f : Nat} (ih : SibAt f) (s : PState) (r : Option Nat) (s1 : PState)
    (h : term (f + 1) s = some (r, s1)) : Grows s.heap s1.heap := by
  rw [term.eq_2] at h
  simp only [Option.bind_eq_bind, Option.bind_eq_some, Prod.exists] at h
  obtain ⟨a, b, h1, h2⟩ := h
  exact (ih.factor _ _ _ h1).compose (ih.term_loop _ _ _ _ h2)

theorem simple_exp_loop_sib {f : Nat} (ih : SibAt f) (t : Option Nat) (s : PState)
    (r : Option Nat) (s1 : PState) (h : simple_exp_loop (f + 1) t s = some (r, s1)) :
    Grows s.heap s1.heap := by
  rw [simple_exp_loop.eq_2] at h
  split at h <;>
    simp only [Option.bind_eq_bind, Option.pure_def, Option.bind_eq_some, Option.some.injEq,
      Prod.mk.injEq, Prod.exists] at h
  · obtain ⟨a, h1, b, h2, c, d, h3, e, h4, h5⟩ := h
    exact (((((((Grows.same s.heap).on_exp .OpK).on_child0 h1).on_attr h2).on_match _).compose
      (ih.term _ _ _ h3)).on_child1 h4).compose (ih.simple_exp_loop _ _ _ _ h5)
  · obtain ⟨-, rfl⟩ := h
    exact Grows.same _

theorem simple_exp_sib {f : Nat} (ih : SibAt f) (s : PState) (r : Option Nat) (s1 : PState)
    (h : simple_exp (f + 1) s = some (r, s1)) : Grows s.heap s1.heap := by
  rw [simple_exp.eq_2] at h
  simp only [Option.bind_eq_bind, Option.bind_eq_some, Prod.exists] at h
  obtain ⟨a, b, h1, h2⟩ := h
  exact (ih.term _ _ _ h1).compose (ih.simple_exp_loop _ _ _ _ h2)

theorem exp_sib {f : Nat} (ih : SibAt f) (s : PState) (r : Option Nat) (s1 : PState)
    (h : exp (f + 1) s = some (r, s1)) : Grows s.heap s1.heap := by
  rw [exp.eq_2] at h
  simp only [Option.bind_eq_bind, Option.bind_eq_some, Prod.exists] at h
  obtain ⟨t, s2, h0, h⟩ := h
  have g0 := ih.simple_exp _ _ _ h0
  split at h <;>
    simp only [Option.bind_eq_bind, Option.pure_def, Option.bind_eq_some, Option.some.injEq,
      Prod.mk.injEq, Prod.exists] at h
  · obtain ⟨a, h1, b, h2, c, d, h3, e, h4, -, rfl⟩ := h
    exact (((((g0.on_exp .OpK).on_child0 h1).on_attr h2).on_match _).compose
      (ih.simple_exp _ _ _ h3)).on_child1 h4
  · obtain ⟨-, rfl⟩ := h
    exact g0

theorem read_stmt_sib (s : PState) (r : Option Nat) (s1 : PState)
    (h : read_stmt s = some (r, s1)) : Grows s.heap s1.heap ∧ StmtRes r s1.heap := by
  rw [read_stmt] at h
  simp only [Option.bind_eq_bind, Option.pure_def, Option.bind_eq_some, Option.some.injEq,
    Prod.mk.injEq, Prod.exists] at h
  obtain ⟨a, h1, hr, rfl⟩ := h
  exact built_node ((((Grows.same _).on_match .READ).on_name h1).on_match .ID) hr

theorem write_stmt_sib {f : Nat} (ih : SibAt f) (s : PState) (r : Option Nat) (s1 : PState)
    (h : write_stmt (f + 1) s = some (r, s1)) : Grows s.heap s1.heap ∧ StmtRes r s1.heap := by
  rw [write_stmt.eq_2] at h
  simp only [Option.bind_eq_bind, Option.pure_def, Option.bind_eq_some, Option.some.injEq,
    Prod.mk.injEq, Prod.exists] at h
  obtain ⟨c, s3, h1, s4, h2, hr, rfl⟩ := h
  exact built_node ((((Grows.same _).on_match .WRITE).compose (ih.exp _ _ _ h1)).on_child0 h2) hr

theorem assign_stmt_sib {f : Nat} (ih : SibAt f) (s : PState) (r : Option Nat) (s1 : PState)
    (h : assign_stmt (f + 1) s = some (r, s1)) : Grows s.heap s1.heap ∧ StmtRes r s1.heap := by
  rw [assign_stmt.eq_2] at h
  simp only [Option.bind_eq_bind, Option.pure_def, Option.bind_eq_some, Option.some.injEq,
    Prod.mk.injEq, Prod.exists] at h
  obtain ⟨a, h1, c, s3, h2, s4, h3, hr, rfl⟩ := h
  exact built_node ((((((Grows.same _).on_name h1).on_match .ID).on_match .ASSIGN).compose
    (ih.exp _ _ _ h2)).on_child0 h3) hr

theorem repeat_stmt_sib {f : Nat} (ih : SibAt f) (s : PState) (r : Option Nat) (s1 : PState)
    (h : repeat_stmt (f + 1) s = some (r, s1)) : Grows s.heap s1.heap ∧ StmtRes r s1.heap := by
  rw [repeat_stmt.eq_2] at h
  simp only [Option.bind_eq_bind, Option.pure_def, Option.bind_eq_some, Option.some.injEq,
    Prod.mk.injEq, Prod.exists] at h
  obtain ⟨b, s3, h1, s4, h2, c, s5, h3, s6, h4, hr, rfl⟩ := h
  exact built_node (((((((Grows.same _).on_match .REPEAT).compose
    (ih.stmt_sequence _ _ _ h1).1).on_child0 h2).on_match .UNTIL).compose
    (ih.exp _ _ _ h3)).on_child1 h4) hr

theorem while_stmt_sib {f : Nat} (ih : SibAt f) (s : PState) (r : Option Nat) (s1 : PState)
    (h : while_stmt (f + 1) s = some (r, s1)) : Grows s.heap s1.heap ∧ StmtRes r s1.heap := by
  rw [while_stmt.eq_2] at h
  simp only [Option.bind_eq_bind, Option.pure_def, Option.bind_eq_some, Option.some.injEq,
    Prod.mk.injEq, Prod.exists] at h
  obtain ⟨b, s3, h1, s4, h2, c, s5, h3, s6, h4, hr, rfl⟩ := h
  exact built_node (((((((Grows.same _).on_match .DO).compose
    (ih.stmt_sequence _ _ _ h1).1).on_child0 h2).on_match .WHILE).compose
    (ih.exp _ _ _ h3)).on_child1 h4) hr

theorem to_stmt_sib {f : Nat} (ih : SibAt f) (s : PState) (r : Option Nat) (s1 : PState)
    (h : to_stmt (f + 1) s = some (r, s1)) : Grows s.heap s1.heap ∧ StmtRes r s1.heap := by
  rw [to_stmt.eq_2] at h
  split at h <;>
    simp only [Option.bind_eq_bind, Option.pure_def, Option.bind_eq_some, Option.some.injEq,
      Prod.mk.injEq, Prod.exists] at h
  · obtain ⟨c, s3, h1, s4, h2, hr, rfl⟩ := h
    exact built_node ((((Grows.same _).on_match .TO).compose (ih.factor _ _ _ h1)).on_child0 h2) hr
  · obtain ⟨c, s3, h1, s4, h2, hr, rfl⟩ := h
    exact built_node ((((Grows.same _).on_match .DOWNTO).compose
      (ih.factor _ _ _ h1)).on_child0 h2) hr

theorem for_stmt_sib {f : Nat} (ih : SibAt f) (s : PState) (r : Option Nat) (s1 : PState)
    (h : for_stmt (f + 1) s = some (r, s1)) : Grows s.heap s1.heap ∧ StmtRes r s1.heap := by
  rw [for_stmt.eq_2] at h
  simp only [Option.bind_eq_bind, Option.pure_def, Option.bind_eq_some, Option.some.injEq,
    Prod.mk.injEq, Prod.exists] at h
  obtain ⟨a, s3, h1, s4, h2, b, s5, h3, s6, h4, q, s7, h5, s8, h6, hr, rfl⟩ := h
  exact built_node ((((((((((Grows.same _).on_match .FOR).compose
    (ih.assign_stmt _ _ _ h1).1).on_child0 h2).compose (ih.to_stmt _ _ _ h3).1).on_child1
    h4).on_match .THEN).compose (ih.stmt_sequence _ _ _ h5).1).on_child2 h6).on_match .END) hr

theorem if_stmt_sib {f : Nat} (ih : SibAt f) (s : PState) (r : Option Nat) (s1 : PState)
    (h : if_stmt (f + 1) s = some (r, s1)) : Grows s.heap s1.heap ∧ StmtRes r s1.heap := by
  rw [if_stmt.eq_2] at h
  simp only [Option.bind_eq_bind, Option.pure_def, Option.bind_eq_some, Option.some.injEq,
    Prod.mk.injEq, Prod.exists] at h
  obtain ⟨c, s3, h1, s4, h2, b, s5, h3, s6, h4, s7, h5, hr, rfl⟩ := h
  have gA : Grows (newStmtNode .IfK s).2.heap s6.heap :=
    ((((((Grows.same _).on_match .IF).compose (ih.exp _ _ _ h1)).on_child0 h2).on_match
      .THEN).compose (ih.stmt_sequence _ _ _ h3).1).on_child1 h4
  split at h5
  · simp only [Option.bind_eq_bind, Option.bind_eq_some, Prod.exists] at h5
    obtain ⟨e, s8, h6, s9, h7, h8⟩ := h5
    have gB : Grows (newStmtNode .ElseK s6).2.heap s9.heap :=
      (((Grows.same _).on_match .ELSE).compose (ih.stmt_sequence _ _ _ h6).1).on_child0 h7
    have gAB : Grows (newStmtNode .IfK s).2.heap s9.heap := (gA.on_stmt .ElseK).compose gB
    refine built_node ((gAB.on_sibling h8 (fun _ => (stmtNode.fresh .IfK s).keep gAB)
      (fun _ q hq => ?_)).on_match .END) hr
    cases hq
    exact (stmtNode.fresh .ElseK s6).keep gB
  · cases h5
    exact built_node (gA.on_match .END) hr

theorem case_stmt_sib {f : Nat} (ih : SibAt f) (s : PState) (r : Option Nat) (s1 : PState)
    (h : case_stmt (f + 1) s = some (r, s1)) : Grows s.heap s1.heap ∧ StmtRes r s1.heap := by
  rw [case_stmt.eq_2] at h
  simp only [Option.bind_eq_bind, Option.pure_def, Option.bind_eq_some, Option.some.injEq,
    Prod.mk.injEq, Prod.exists] at h
  obtain ⟨c, s3, h1, s4, h2, b, s5, h3, s6, h4, s7, h5, s8, h6, hr, rfl⟩ := h
  have gA : Grows (newStmtNode .CaseK s).2.heap (match_ .BREAK s6).heap :=
    ((((((Grows.same _).on_match .CASE).compose (ih.factor _ _ _ h1)).on_child0 h2).compose
      (ih.stmt_sequence _ _ _ h3).1).on_child1 h4).on_match .BREAK
  have gB : Grows (newStmtNode .CaseK s).2.heap s7.heap := by
    split at h5
    · simp only [Option.bind_eq_bind, Option.bind_eq_some, Prod.exists] at h5
      obtain ⟨r2, s9, h7, h8⟩ := h5
      obtain ⟨g9, hr2⟩ := ih.case_stmt _ _ _ h7
      have gA9 := gA.compose g9
      exact gA9.on_sibling h8 (fun _ => (stmtNode.fresh .CaseK s).keep gA9) (fun _ => hr2)
    · cases h5
      exact gA
  split at h6
  · simp only [Option.bind_eq_bind, Option.bind_eq_some, Prod.exists] at h6
    obtain ⟨d, s9, h7, s10, h8, h9⟩ := h6
    have gC : Grows (newStmtNode .DefaultK s7).2.heap s10.heap :=
      (((Grows.same _).on_match .DEFAULT).compose (ih.stmt_sequence _ _ _ h7).1).on_child0 h8
    have gBC : Grows (newStmtNode .CaseK s).2.heap s10.heap := (gB.on_stmt .DefaultK).compose gC
    refine built_node (gBC.on_sibling h9 (fun _ => (stmtNode.fresh .CaseK s).keep gBC)
      (fun _ q hq => ?_)) hr
    cases hq
    exact (stmtNode.fresh .DefaultK s7).keep gC
  · cases h6
    exact built_node gB hr

theorem switch_stmt_sib {f : Nat} (ih : SibAt f) (s : PState) (r : Option Nat) (s1 : PState)
    (h : switch_stmt (f + 1) s = some (r, s1)) : Grows s.heap s1.heap ∧ StmtRes r s1.heap := by
  rw [switch_stmt.eq_2] at h
  simp only [Option.bind_eq_bind, Option.pure_def, Option.bind_eq_some, Option.some.injEq,
    Prod.mk.injEq, Prod.exists] at h
  obtain ⟨c, s3, h1, s4, h2, q, s5, h3, s6, h4, hr, rfl⟩ := h
  exact built_node ((((((Grows.same _).on_match .SWITCH).compose (ih.factor _ _ _ h1)).on_child0
    h2).compose (ih.case_stmt _ _ _ h3).1).on_child1 h4) hr

theorem statement_sib {f : Nat} (ih : SibAt f) (s : PState) (r : Option Nat) (s1 : PState)
    (h : statement (f + 1) s = some (r, s1)) : Grows s.heap s1.heap ∧ StmtRes r s1.heap := by
  rw [statement.eq_2] at h
  split at h
  · exact ih.if_stmt _ _ _ h
  · exact ih.repeat_stmt _ _ _ h
  · exact ih.assign_stmt _ _ _ h
  · exact read_stmt_sib _ _ _ h
  · exact ih.write_stmt _ _ _ h
  · exact ih.while_stmt _ _ _ h
  · exact ih.for_stmt _ _ _ h
  · exact ih.switch_stmt _ _ _ h
  · simp only [Option.some.injEq, Prod.mk.injEq] at h
    obtain ⟨rfl, rfl⟩ := h
    exact ⟨((Grows.same s.heap).on_error _).on_advance, StmtRes.absent _⟩

theorem stmt_sequence_loop_sib {f : Nat} (ih : SibAt f) (t p : Option Nat) (s : PState)
    (r : Option Nat) (s1 : PState) (h : stmt_sequence_loop (f + 1) t p s = some (r, s1))
    (ht : StmtRes t s.heap) (hp : StmtRes p s.heap) :
    Grows s.heap s1.heap ∧ StmtRes r s1.heap := by
  rw [stmt_sequence_loop.eq_2] at h
  split at h
  · simp only [Option.bind_eq_bind, Option.bind_eq_some, Prod.exists] at h
    obtain ⟨q, s2, h2, h⟩ := h
    obtain ⟨g2, hq⟩ := ih.statement _ _ _ h2
    have g : Grows s.heap s2.heap := ((Grows.same s.heap).on_match .SEMI).compose g2
    cases q with
    | none =>
      obtain ⟨g3, hr⟩ := ih.stmt_sequence_loop _ _ _ _ _ h (ht.keep_all g) (hp.keep_all g)
      exact ⟨g.compose g3, hr⟩
    | some qa =>
      cases t with
      | none =>
        obtain ⟨g3, hr⟩ := ih.stmt_sequence_loop _ _ _ _ _ h hq hq
        exact ⟨g.compose g3, hr⟩
      | some ta =>
        cases p with
        | none => cases h
        | some pa =>
          simp only at h
          cases hpn : s2.heap[pa]? with
          | none => rw [hpn] at h; cases h
          | some pn =>
            rw [hpn] at h
            simp only at h
            cases hsib : pn.sibling with
            | none =>
              rw [hsib] at h
              simp only [Option.bind_eq_bind, Option.bind_eq_some] at h
              obtain ⟨s3, h3, h⟩ := h
              have gl : Grows s2.heap s3.heap :=
                (Grows.same _).on_sibling h3 (fun _ => (hp pa rfl).keep g) (fun _ => hq)
              obtain ⟨g3, hr⟩ := ih.stmt_sequence_loop _ _ _ _ _ h
                (ht.keep_all (g.compose gl)) (hq.keep_all gl)
              exact ⟨(g.compose gl).compose g3, hr⟩
            | some e =>
              rw [hsib] at h
              simp only [Option.bind_eq_bind, Option.bind_eq_some] at h
              obtain ⟨s3, h3, h⟩ := h
              have gl : Grows s2.heap s3.heap :=
                (Grows.same _).on_sibling h3 (fun hi => (hi pa pn e hpn hsib).2) (fun _ => hq)
              obtain ⟨g3, hr⟩ := ih.stmt_sequence_loop _ _ _ _ _ h
                (ht.keep_all (g.compose gl)) (hq.keep_all gl)
              exact ⟨(g.compose gl).compose g3, hr⟩
  · simp only [Option.some.injEq, Prod.mk.injEq] at h
    obtain ⟨rfl, rfl⟩ := h
    exact ⟨Grows.same _, ht⟩

theorem stmt_sequence_sib {f : Nat} (ih : SibAt f) (s : PState) (r : Option Nat) (s1 : PState)
    (h : stmt_sequence (f + 1) s = some (r, s1)) : Grows s.heap s1.heap ∧ StmtRes r s1.heap := by
  rw [stmt_sequence.eq_2] at h
  simp only [Option.bind_eq_bind, Option.bind_eq_some, Prod.exists] at h
  obtain ⟨t, s2, h1, h2⟩ := h
  obtain ⟨g1, ht⟩ := ih.statement _ _ _ h1
  obtain ⟨g2, hr⟩ := ih.stmt_sequence_loop _ _ _ _ _ h2 ht ht
  exact ⟨g1.compose g2, hr⟩

/-- The sibling invariant is kept at every budget. -/
theorem sibAt : ∀ f, SibAt f := by
  intro f
  induction f with
  | zero =>
    exact
      { factor := fun _ _ _ h => by rw [factor.eq_1] at h; cases h
        term_loop := fun _ _ _ _ h => by rw [term_loop.eq_1] at h; cases h
        term := fun _ _ _ h => by rw [term.eq_1] at h; cases h
        simple_exp_loop := fun _ _ _ _ h => by rw [simple_exp_loop.eq_1] at h; cases h
        simple_exp := fun _ _ _ h => by rw [simple_exp.eq_1] at h; cases h
        exp := fun _ _ _ h => by rw [exp.eq_1] at h; cases h
        write_stmt := fun _ _ _ h => by rw [write_stmt.eq_1] at h; cases h
        assign_stmt := fun _ _ _ h => by rw [assign_stmt.eq_1] at h; cases h
        repeat_stmt := fun _ _ _ h => by rw [repeat_stmt.eq_1] at h; cases h
        while_stmt := fun _ _ _ h => by rw [while_stmt.eq_1] at h; cases h
        to_stmt := fun _ _ _ h => by rw [to_stmt.eq_1] at h; cases h
        for_stmt := fun _ _ _ h => by rw [for_stmt.eq_1] at h; cases h
        if_stmt := fun _ _ _ h => by rw [if_stmt.eq_1] at h; cases h
        case_stmt := fun _ _ _ h => by rw [case_stmt.eq_1] at h; cases h
        switch_stmt := fun _ _ _ h => by rw [switch_stmt.eq_1] at h; cases h
        statement := fun _ _ _ h => by rw [statement.eq_1] at h; cases h
        stmt_sequence_loop := fun _ _ _ _ _ h => by rw [stmt_sequence_loop.eq_1] at h; cases h
        stmt_sequence := fun _ _ _ h => by rw [stmt_sequence.eq_1] at h; cases h }
  | succ f ih =>
    exact
      { factor := factor_sib ih
        term_loop := term_loop_sib ih
        term := term_sib ih
        simple_exp_loop := simple_exp_loop_sib ih
        simple_exp := simple_exp_sib ih
        exp := exp_sib ih
        write_stmt := write_stmt_sib ih
        assign_stmt := assign_stmt_sib ih
        repeat_stmt := repeat_stmt_sib ih
        while_stmt := while_stmt_sib ih
        to_stmt := to_stmt_sib ih
        for_stmt := for_stmt_sib ih
        if_stmt := if_stmt_sib ih
        case_stmt := case_stmt_sib ih
        switch_stmt := switch_stmt_sib ih
        statement := statement_sib ih
        stmt_sequence_loop := stmt_sequence_loop_sib ih
        stmt_sequence := stmt_sequence_sib ih }

theorem varlist_sib : ∀ (f : Nat) (s : PState) (r : Option Nat) (s1 : PState),
    varlist f s = some (r, s1) → Grows s.heap s1.heap := by
  intro f
  induction f with
  | zero => intro s r s1 h; rw [varlist.eq_1] at h; cases h
  | succ f ih =>
    intro s r s1 h
    rw [varlist.eq_2] at h
    simp only [Option.bind_eq_bind, Option.bind_eq_some] at h
    obtain ⟨a, h1, h⟩ := h
    have g1 := (((Grows.same s.heap).on_exp .IdK).on_name h1).on_match .ID
    split at h <;>
      simp only [Option.bind_eq_bind, Option.pure_def, Option.bind_eq_some, Option.some.injEq,
        Prod.mk.injEq, Prod.exists] at h
    · obtain ⟨c, s3, h2, s4, h3, -, rfl⟩ := h
      exact (((g1.on_match .COMMA).compose (ih _ _ _ h2)).on_child0 h3)
    · obtain ⟨-, rfl⟩ := h
      exact g1

theorem decl_stmt_sib (f : Nat) (s : PState) (r : Option Nat) (s1 : PState)
    (h : decl_stmt f s = some (r, s1)) : Grows s.heap s1.heap ∧ StmtRes r s1.heap := by
  rw [decl_stmt] at h
  split at h
  · simp only [Option.some.injEq, Prod.mk.injEq] at h
    obtain ⟨rfl, rfl⟩ := h
    exact ⟨Grows.same _, StmtRes.absent _⟩
  · simp only [Option.bind_eq_bind, Option.pure_def, Option.bind_eq_some, Option.some.injEq,
      Prod.mk.injEq, Prod.exists] at h
    obtain ⟨a, h1, c, s3, h2, s4, h3, hr, rfl⟩ := h
    exact built_node (((((Grows.same _).on_attr h1).on_match _).compose
      (varlist_sib _ _ _ _ h2)).on_child1 h3) hr

theorem declarations_loop_sib : ∀ (f : Nat) (t p : Option Nat) (s : PState) (r : Option Nat)
    (s1 : PState), declarations_loop f t p s = some (r, s1) →
    StmtRes t s.heap → StmtRes p s.heap → Grows s.heap s1.heap ∧ StmtRes r s1.heap := by
  intro f
  induction f with
  | zero => intro t p s r s1 h; rw [declarations_loop] at h; cases h
  | succ f ih =>
    intro t p s r s1 h ht hp
    rw [declarations_loop] at h
    split at h
    · simp only [Option.bind_eq_bind, Option.bind_eq_some, Prod.exists] at h
      obtain ⟨q, s2, h2, h⟩ := h
      obtain ⟨g2, hq⟩ := decl_stmt_sib _ _ _ _ h2
      have g : Grows s.heap s2.heap := ((Grows.same s.heap).on_match .SEMI).compose g2
      cases q with
      | none =>
        simp only [Option.some.injEq, Prod.mk.injEq] at h
        obtain ⟨rfl, rfl⟩ := h
        exact ⟨g, ht.keep_all g⟩
      | some qa =>
        cases t with
        | none =>
          obtain ⟨g3, hr⟩ := ih _ _ _ _ _ h hq hq
          exact ⟨g.compose g3, hr⟩
        | some ta =>
          cases p with
          | none => cases h
          | some pa =>
            simp only [Option.bind_eq_bind, Option.bind_eq_some] at h
            obtain ⟨s3, h3, h⟩ := h
            have gl : Grows s2.heap s3.heap :=
              (Grows.same _).on_sibling h3 (fun _ => (hp pa rfl).keep g) (fun _ => hq)
            obtain ⟨g3, hr⟩ := ih _ _ _ _ _ h (ht.keep_all (g.compose gl)) (hq.keep_all gl)
            exact ⟨(g.compose gl).compose g3, hr⟩
    · simp only [Option.some.injEq, Prod.mk.injEq] at h
      obtain ⟨rfl, rfl⟩ := h
      exact ⟨Grows.same _, ht⟩

theorem declarations_sib (f : Nat) (s : PState) (r : Option Nat) (s1 : PState)
    (h : declarations f s = some (r, s1)) : Grows s.heap s1.heap ∧ StmtRes r s1.heap := by
  rw [declarations] at h
  simp only [Option.bind_eq_bind, Option.bind_eq_some, Prod.exists] at h
  obtain ⟨t, s2, h1, h2⟩ := h
  obtain ⟨g1, ht⟩ := decl_stmt_sib _ _ _ _ h1
  cases t with
  | none =>
    simp only [Option.pure_def, Option.some.injEq, Prod.mk.injEq] at h2
    obtain ⟨rfl, rfl⟩ := h2
    exact ⟨g1, StmtRes.absent _⟩
  | some ta =>
    obtain ⟨g2, hr⟩ := declarations_loop_sib _ _ _ _ _ _ h2 ht ht
    exact ⟨g1.compose g2, hr⟩

theorem program_sib (indet : Option Nat) (f : Nat) (s : PState) (r : Option Nat) (s1 : PState)
    (h : program indet f s = some (r, s1)) : Grows s.heap s1.heap := by
  rw [program] at h
  simp only [Option.bind_eq_bind, Option.pure_def, Option.bind_eq_some, Option.some.injEq,
    Prod.mk.injEq, Prod.exists] at h
  obtain ⟨d, s2, h1, s3, h2, q, s4, h3, s5, h4, -, rfl⟩ := h
  exact (((((Grows.same s.heap).on_alloc .prog).compose (declarations_sib _ _ _ _ h1).1).on_child0
    h2).compose ((sibAt f).stmt_sequence _ _ _ h3).1).on_child1 h4

theorem parse_sib (indet : Option Nat) (f : Nat) (s : PState) (r : Option Nat) (s1 : PState)
    (h : parse indet f s = some (r, s1)) : Grows s.heap s1.heap := by
  rw [parse] at h
  simp only [Option.bind_eq_bind, Option.pure_def, Option.bind_eq_some, Option.some.injEq,
    Prod.mk.injEq, Prod.exists] at h
  obtain ⟨t, s2, h1, -, rfl⟩ := h
  have g := (Grows.same s.heap).on_advance.compose (program_sib _ _ _ _ _ h1)
  split
  · exact g.on_error _
  · exact g

theorem SibInv.empty : SibInv [] := fun a n e hn _ => by simp at hn

/-- In a heap with the invariant an expression-category node has no sibling. -/
theorem SibInv.exp_absent {h : List TreeNode} (hi : SibInv h) {a : Nat} {n : TreeNode}
    {k : ExpKind} (hn : h[a]? = some n) (hk : n.kind = .exp k) : n.sibling = none := by
  cases hsib : n.sibling with
  | none => rfl
  | some e =>
    obtain ⟨⟨k1, hk1⟩, -⟩ := hi a n e hn hsib
    rw [hk] at hk1
    cases hk1

/-- A procedure that returns from every state and lets the heap grow keeps
the sibling invariant. -/
theorem Built.of_total {F : Nat → PState → Res} (ht : ∀ s, ∃ r s1, Returns F s r s1)
    (hs : ∀ f s r s1, F f s = some (r, s1) → Grows s.heap s1.heap) : Built F :=
  fun s hi => ⟨ht s, fun f r s1 h => (hs f s r s1 h).ok hi⟩

theorem Built.of_consumes {F : Nat → PState → Res} (hc : Consumes F)
    (hs : ∀ f s r s1, F f s = some (r, s1) → Grows s.heap s1.heap) : Built F :=
  Built.of_total (fun s => by obtain ⟨r, s1, hR, -⟩ := hc s; exact ⟨r, s1, hR⟩) hs

/-- C18: the sibling invariant `SibInv` (every node whose sibling field is
set is a statement-category node, and so is the node it points to) holds of
the empty heap in which a parse starts, and every grammar procedure, started
in any state whose heap has it, returns and leaves a heap that has it, for
every token stream and at whatever budget it returns.  In a heap with the
invariant every expression-category node (BinaryOp, Constant, Identifier,
StringLiteral; the Identifier nodes of `varlist` are among them) has an
absent sibling, and a node whose sibling is set is a statement-category
node; so it is in the heap `parse` leaves on any token stream. -/
theorem sibling_only_statements : SiblingInvariant where
  start := fun toks => ⟨SibInv.empty, by rw [startOn, advance_heap]; exact SibInv.empty⟩
  parse := fun indet => Built.of_total
    (fun s => by
      obtain ⟨d, q, sF, -, hR⟩ := parse_runs s
      exact ⟨_, _, hR indet⟩)
    (parse_sib indet)
  program := fun indet => Built.of_total
    (fun s => by
      obtain ⟨d, q, sF, H⟩ := program_runs s
      exact ⟨_, _, H.returns indet⟩)
    (program_sib indet)
  declarations := Built.of_total
    (fun s => by
      obtain ⟨r, s1, hR, -⟩ := declarations_runs s
      exact ⟨r, s1, hR⟩)
    (fun f s r s1 h => (declarations_sib f s r s1 h).1)
  decl_stmt := Built.of_total
    (fun s => by
      by_cases hk : isTypeKw s.token
      · obtain ⟨sv, -, -, -, hR⟩ := decl_stmt_some s hk
        exact ⟨_, _, hR⟩
      · exact ⟨none, s, ⟨0, fun f _ => decl_stmt_none f s hk⟩⟩)
    (fun f s r s1 h => (decl_stmt_sib f s r s1 h).1)
  varlist := Built.of_total
    (fun s => by
      obtain ⟨s1, hR, -⟩ := varlist_runs s
      exact ⟨_, s1, hR⟩)
    varlist_sib
  stmt_sequence := Built.of_total
    (fun s => by
      obtain ⟨r, s1, hR, -⟩ := (stmt_level s).1
      exact ⟨r, s1, hR⟩)
    (fun f s r s1 h => ((sibAt f).stmt_sequence s r s1 h).1)
  statement := Built.of_consumes (Consumes.of_stmt fun s => (stmt_level s).2.2.1)
    (fun f s r s1 h => ((sibAt f).statement s r s1 h).1)
  if_stmt := Built.of_consumes
    (Consumes.of_stmt fun s => if_stmt_runs s fun s1 _ => (stmt_level s1).1)
    (fun f s r s1 h => ((sibAt f).if_stmt s r s1 h).1)
  repeat_stmt := Built.of_consumes
    (Consumes.of_stmt fun s => repeat_stmt_runs s fun s1 _ => (stmt_level s1).1)
    (fun f s r s1 h => ((sibAt f).repeat_stmt s r s1 h).1)
  assign_stmt := Built.of_consumes (Consumes.of_stmt assign_stmt_runs)
    (fun f s r s1 h => ((sibAt f).assign_stmt s r s1 h).1)
  read_stmt := Built.of_total
    (fun s => by
      obtain ⟨s1, h, -⟩ := read_stmt_runs s
      exact ⟨_, s1, ⟨0, fun _ _ => h⟩⟩)
    (fun _ s r s1 h => (read_stmt_sib s r s1 h).1)
  write_stmt := Built.of_consumes (Consumes.of_stmt write_stmt_runs)
    (fun f s r s1 h => ((sibAt f).write_stmt s r s1 h).1)
  while_stmt := Built.of_consumes
    (Consumes.of_stmt fun s => while_stmt_runs s fun s1 _ => (stmt_level s1).1)
    (fun f s r s1 h => ((sibAt f).while_stmt s r s1 h).1)
  for_stmt := Built.of_consumes
    (Consumes.of_stmt fun s => for_stmt_runs s fun s1 _ => (stmt_level s1).1)
    (fun f s r s1 h => ((sibAt f).for_stmt s r s1 h).1)
  to_stmt := Built.of_consumes (Consumes.of_runs to_stmt_runs)
    (fun f s r s1 h => ((sibAt f).to_stmt s r s1 h).1)
  switch_stmt := Built.of_consumes
    (Consumes.of_stmt fun s => switch_stmt_runs s fun s1 _ => (stmt_level s1).2.1)
    (fun f s r s1 h => ((sibAt f).switch_stmt s r s1 h).1)
  case_stmt := Built.of_total
    (fun s => by
      obtain ⟨r, s1, hR, -⟩ := (stmt_level s).2.1
      exact ⟨r, s1, hR⟩)
    (fun f s r s1 h => ((sibAt f).case_stmt s r s1 h).1)
  exp := Built.of_consumes (Consumes.of_runs fun s => (exp_level s).2.2.2.2.2)
    (fun f => (sibAt f).exp)
  simple_exp := Built.of_consumes (Consumes.of_runs fun s => (exp_level s).2.2.2.2.1)
    (fun f => (sibAt f).simple_exp)
  term := Built.of_consumes (Consumes.of_runs fun s => (exp_level s).2.2.1)
    (fun f => (sibAt f).term)
  factor := Built.of_consumes (Consumes.of_runs fun s => (exp_level s).1)
    (fun f => (sibAt f).factor)
  whole_parse := fun toks indet f r s1 h a n k hn hk =>
    ((parse_sib indet f _ r s1 h).ok SibInv.empty).exp_absent hn hk
  exp_nodes := fun h hi a n k hn hk => hi.exp_absent hn hk
  set_only := fun h hi a n hn hs => by
    cases hsib : n.sibling with
    | none => exact absurd hsib hs
    | some e => exact (hi a n e hn hsib).1

/-! ## Expressions as written -/

theorem flatOps_append (a b : List (Token × List Token × Tree)) :
    flatOps (a ++ b) = flatOps a ++ flatOps b := by
  induction a with
  | nil => rfl
  | cons x a ih =>
    obtain ⟨o, l, T⟩ := x
    simp [flatOps, ih]

theorem foldOps_snoc (T0 : Tree) (ops : List (Token × List Token × Tree))
    (x : Token × List Token × Tree) :
    foldOps T0 (ops ++ [x]) = .binop x.1.type (foldOps T0 ops) x.2.2 := by
  simp [foldOps, List.foldl_append]

/-- A parenthesised expression is read by `factor` as the expression. -/
theorem reads_paren {l : List Token} {T : Tree} {lp rp : Token} (hl : lp.type = .LPAREN)
    (hr : rp.type = .RPAREN) (h : Reads exp okExp l T) :
    Reads factor (fun _ => True) (lp :: (l ++ [rp])) T := by
  intro s rest hp _
  have htok : s.token = .LPAREN := hp.1.trans hl
  have hp0 : Pending s (lp :: (l ++ rp :: rest)) := by simpa [List.append_assoc] using hp
  have hpA : Pending (match_ .LPAREN s) (l ++ rp :: rest) := by
    rw [match_hit htok]
    exact Pending.step hp0
  obtain ⟨r, s1, ⟨N, hN⟩, hp1, herr, hlist, hext, hd⟩ := h _ _ hpA (by
    simp [nextType, hr, okExp, okSimple, isRelop])
  have htok1 : s1.token = .RPAREN := hp1.1.trans hr
  simp only [match_heap] at hext hd
  refine ⟨r, advance s1, ⟨N + 1, fun f hf => ?_⟩, Pending.step hp1, ?_, ?_, by simpa using hext,
    by simpa using hd⟩
  · obtain ⟨f, rfl⟩ : ∃ g, f = g + 1 := ⟨f - 1, by omega⟩
    rw [factor.eq_2]
    simp only [htok, Option.bind_eq_bind, hN f (by omega), Option.some_bind, Option.pure_def,
      match_hit htok1]
  · rw [advance_Error, herr, match_hit htok, advance_Error]
  · rw [advance_listing, hlist, match_hit htok, advance_listing]

theorem TermSpine.of_factor {l : List Token} {T : Tree}
    (h : Reads factor (fun _ => True) l T) : TermSpine l T :=
  ⟨l, T, [], by simp [flatOps], rfl, h, by simp⟩

theorem TermSpine.snoc {la lb : List Token} {Ta Tb : Tree} {o : Token} (ha : TermSpine la Ta)
    (ho : o.type = .TIMES ∨ o.type = .OVER) (hb : Reads factor (fun _ => True) lb Tb) :
    TermSpine (la ++ o :: lb) (.binop o.type Ta Tb) := by
  obtain ⟨l0, T0, ops, rfl, rfl, h0, hops⟩ := ha
  refine ⟨l0, T0, ops ++ [(o, lb, Tb)], ?_, ?_, h0, fun x hx => ?_⟩
  · simp [flatOps_append, flatOps, List.append_assoc]
  · rw [foldOps_snoc]
  · rcases List.mem_append.mp hx with hx | hx
    · exact hops x hx
    · simp only [List.mem_singleton] at hx
      subst hx
      exact ⟨ho, hb⟩

theorem TermSpine.reads {l : List Token} {T : Tree} (h : TermSpine l T) :
    Reads term okTerm l T := by
  obtain ⟨l0, T0, ops, rfl, rfl, h0, hops⟩ := h
  exact reads_term ops h0 hops

theorem SimpleSpine.of_term {l : List Token} {T : Tree} (h : Reads term okTerm l T) :
    SimpleSpine l T :=
  ⟨l, T, [], by simp [flatOps], rfl, h, by simp⟩

theorem SimpleSpine.snoc_term {la lb : List Token} {Ta Tb : Tree} {o : Token}
    (ha : SimpleSpine la Ta) (ho : o.type = .PLUS ∨ o.type = .MINUS)
    (hb : Reads term okTerm lb Tb) : SimpleSpine (la ++ o :: lb) (.binop o.type Ta Tb) := by
  obtain ⟨l0, T0, ops, rfl, rfl, h0, hops⟩ := ha
  refine ⟨l0, T0, ops ++ [(o, lb, Tb)], ?_, ?_, h0, fun x hx => ?_⟩
  · simp [flatOps_append, flatOps, List.append_assoc]
  · rw [foldOps_snoc]
  · rcases List.mem_append.mp hx with hx | hx
    · exact hops x hx
    · simp only [List.mem_singleton] at hx
      subst hx
      exact ⟨ho, hb⟩

theorem SimpleSpine.reads_simple {l : List Token} {T : Tree} (h : SimpleSpine l T) :
    Reads simple_exp okSimple l T := by
  obtain ⟨l0, T0, ops, rfl, rfl, h0, hops⟩ := h
  exact reads_simple_exp ops h0 hops

/-- An expression that follows the grammar is read as its tree, at each
level by the procedure of that level. -/
theorem ex_reads (e : Ex) :
    (e.wf 0 = true → Reads factor (fun _ => True) e.toks e.tree) ∧
    (e.wf 1 = true → TermSpine e.toks e.tree) ∧
    (e.wf 2 = true → SimpleSpine e.toks e.tree) ∧
    (e.wf 3 = true → Reads exp okExp e.toks e.tree) := by
  induction e with
  | atom tk =>
    have h0 : ∀ lvl, Ex.wf lvl (.atom tk) = true → Reads factor (fun _ => True) [tk] (leaf tk) :=
      fun lvl h => factor_atom (by simpa [Ex.wf] using h)
    exact ⟨h0 0, fun h => .of_factor (h0 1 h), fun h => .of_term (TermSpine.of_factor (h0 2 h)).reads,
      fun h => reads_exp_plain (SimpleSpine.of_term (TermSpine.of_factor (h0 3 h)).reads).reads_simple⟩
  | paren lp e rp ih =>
    have h0 : ∀ lvl, Ex.wf lvl (.paren lp e rp) = true →
        Reads factor (fun _ => True) (lp :: (e.toks ++ [rp])) e.tree := fun lvl h => by
      simp only [Ex.wf, Bool.and_eq_true, decide_eq_true_eq] at h
      exact reads_paren h.1.1 h.2 (ih.2.2.2 h.1.2)
    exact ⟨h0 0, fun h => .of_factor (h0 1 h), fun h => .of_term (TermSpine.of_factor (h0 2 h)).reads,
      fun h => reads_exp_plain (SimpleSpine.of_term (TermSpine.of_factor (h0 3 h)).reads).reads_simple⟩
  | bin a o b iha ihb =>
    have hmul : (o.type = .TIMES ∨ o.type = .OVER) → a.wf 1 = true → b.wf 0 = true →
        TermSpine (a.toks ++ o :: b.toks) (.binop o.type a.tree b.tree) :=
      fun ho ha hb => (iha.2.1 ha).snoc ho (ihb.1 hb)
    have hadd : (o.type = .PLUS ∨ o.type = .MINUS) → a.wf 2 = true → b.wf 1 = true →
        SimpleSpine (a.toks ++ o :: b.toks) (.binop o.type a.tree b.tree) :=
      fun ho ha hb => (iha.2.2.1 ha).snoc_term ho (ihb.2.1 hb).reads
    have hrel : isRelop o.type → a.wf 2 = true → b.wf 2 = true →
        Reads exp okExp (a.toks ++ o :: b.toks) (.binop o.type a.tree b.tree) :=
      fun ho ha hb => (reads_exp_rel (iha.2.2.1 ha).reads_simple ho
        (ihb.2.2.1 hb).reads_simple).narrow (fun _ h => h.1)
    refine ⟨fun h => ?_, fun h => ?_, fun h => ?_, fun h => ?_⟩ <;>
      simp only [Ex.wf, Bool.or_eq_true, Bool.and_eq_true, decide_eq_true_eq] at h
    · rcases h with (h | h) | h <;> omega
    · rcases h with (h | h) | h
      · exact hmul h.1.1.2 h.1.2 h.2
      · omega
      · omega
    · rcases h with (h | h) | h
      · exact .of_term (hmul h.1.1.2 h.1.2 h.2).reads
      · exact hadd h.1.1.2 h.1.2 h.2
      · omega
    · rcases h with (h | h) | h
      · exact reads_exp_plain (SimpleSpine.of_term (hmul h.1.1.2 h.1.2 h.2).reads).reads_simple
      · exact reads_exp_plain (hadd h.1.1.2 h.1.2 h.2).reads_simple
      · exact hrel h.1.1.2 h.1.2 h.2

/-! ## Building one statement node -/

theorem Mid.start {s : PState} {l : List Token} (k : StmtKind) (hp : Pending s l) :
    Mid s k .zero .absent .absent .absent l (newStmtNode k s).2 (freshNode (.stmt k) s) where
  pending := by simpa [newStmtNode, alloc] using hp
  err := rfl
  listing := rfl
  ext := by simpa [newStmtNode, alloc] using HExt.append s.heap _ (Nat.le_refl _)
  cell := by simp [newStmtNode, alloc]
  kind := rfl
  attr := rfl
  sibling := rfl
  d0 := rfl
  d1 := rfl
  d2 := rfl

/-- The expected token is matched. -/
theorem Mid.token {s σ : PState} {k : StmtKind} {a : Attr} {c0 c1 c2 : Tree} {tk : Token}
    {rest : List Token} {n : TreeNode} (M : Mid s k a c0 c1 c2 (tk :: rest) σ n)
    {e : TokenType} (h : tk.type = e) : Mid s k a c0 c1 c2 rest (match_ e σ) n := by
  have hA : match_ e σ = advance σ := match_hit (M.pending.1.trans h)
  rw [hA]
  exact
    { pending := Pending.step M.pending
      err := by rw [advance_Error, M.err]
      listing := by rw [advance_listing, M.listing]
      ext := by rw [advance_heap]; exact M.ext
      cell := by rw [advance_heap]; exact M.cell
      kind := M.kind
      attr := M.attr
      sibling := M.sibling
      d0 := by rw [advance_heap]; exact M.d0
      d1 := by rw [advance_heap]; exact M.d1
      d2 := by rw [advance_heap]; exact M.d2 }

/-- A part of the statement is read by the procedure `F`. -/
theorem Mid.part {s σ : PState} {k : StmtKind} {a : Attr} {c0 c1 c2 : Tree} {l rest : List Token}
    {n : TreeNode} {F : Nat → PState → Res} {ok : TokenType → Prop} {T : Tree}
    (M : Mid s k a c0 c1 c2 (l ++ rest) σ n) (h : Reads F ok l T) (hok : ok (nextType rest)) :
    ∃ r σ1, Returns F σ r σ1 ∧ Mid s k a c0 c1 c2 rest σ1 n ∧
      denotes σ1.heap (s.heap.length + 1) T r = true := by
  obtain ⟨r, σ1, hR, hp1, herr, hlist, hext, hd⟩ := h σ rest M.pending hok
  have hlt := cell_lt M.cell
  refine ⟨r, σ1, hR, ?_, denotes_lower (by omega) _ _ hd⟩
  exact
    { pending := hp1
      err := herr.trans M.err
      listing := hlist.trans M.listing
      ext := M.ext.trans (hext.weaken M.ext.1)
      cell := by rw [hext.2 _ hlt]; exact M.cell
      kind := M.kind
      attr := M.attr
      sibling := M.sibling
      d0 := denotes_of_HExt hext (Nat.le_refl _) M.d0
      d1 := denotes_of_HExt hext (Nat.le_refl _) M.d1
      d2 := denotes_of_HExt hext (Nat.le_refl _) M.d2 }

/-- A write to the node that changes neither kind nor sibling. -/
theorem Mid.write {s σ : PState} {k : StmtKind} {a a1 : Attr} {c0 c1 c2 d0 d1 d2 : Tree}
    {rest : List Token} {n : TreeNode} (M : Mid s k a c0 c1 c2 rest σ n) (g : TreeNode → TreeNode)
    (hk : (g n).kind = n.kind) (hs : (g n).sibling = n.sibling) (ha : (g n).attr = a1)
    (h0 : denotes σ.heap (s.heap.length + 1) d0 (g n).child0 = true)
    (h1 : denotes σ.heap (s.heap.length + 1) d1 (g n).child1 = true)
    (h2 : denotes σ.heap (s.heap.length + 1) d2 (g n).child2 = true) :
    modifyNode s.heap.length g σ = some (σ.withHeap (σ.heap.set s.heap.length (g n))) ∧
      Mid s k a1 d0 d1 d2 rest (σ.withHeap (σ.heap.set s.heap.length (g n))) (g n) := by
  have hlt := cell_lt M.cell
  refine ⟨write_at _ M.cell, ?_⟩
  exact
    { pending := (Pending_withHeap _ _ _).mpr M.pending
      err := M.err
      listing := M.listing
      ext := M.ext.trans (HExt.set _ _ _ (Nat.le_refl _))
      cell := cell_set _ hlt
      kind := hk.trans M.kind
      attr := ha
      sibling := hs.trans M.sibling
      d0 := denotes_set_below _ (Nat.lt_succ_self _) h0
      d1 := denotes_set_below _ (Nat.lt_succ_self _) h1
      d2 := denotes_set_below _ (Nat.lt_succ_self _) h2 }

theorem Mid.set0 {s σ : PState} {k : StmtKind} {a : Attr} {c0 c1 c2 T : Tree}
    {rest : List Token} {n : TreeNode} (M : Mid s k a c0 c1 c2 rest σ n) {v : Option Nat}
    (hv : denotes σ.heap (s.heap.length + 1) T v = true) :
    setChild0 s.heap.length v σ =
        some (σ.withHeap (σ.heap.set s.heap.length (n.withChild0 v))) ∧
      Mid s k a T c1 c2 rest (σ.withHeap (σ.heap.set s.heap.length (n.withChild0 v)))
        (n.withChild0 v) :=
  M.write (TreeNode.withChild0 v) rfl rfl M.attr hv M.d1 M.d2

theorem Mid.set1 {s σ : PState} {k : StmtKind} {a : Attr} {c0 c1 c2 T : Tree}
    {rest : List Token} {n : TreeNode} (M : Mid s k a c0 c1 c2 rest σ n) {v : Option Nat}
    (hv : denotes σ.heap (s.heap.length + 1) T v = true) :
    setChild1 s.heap.length v σ =
        some (σ.withHeap (σ.heap.set s.heap.length (n.withChild1 v))) ∧
      Mid s k a c0 T c2 rest (σ.withHeap (σ.heap.set s.heap.length (n.withChild1 v)))
        (n.withChild1 v) :=
  M.write (TreeNode.withChild1 v) rfl rfl M.attr M.d0 hv M.d2

theorem Mid.set2 {s σ : PState} {k : StmtKind} {a : Attr} {c0 c1 c2 T : Tree}
    {rest : List Token} {n : TreeNode} (M : Mid s k a c0 c1 c2 rest σ n) {v : Option Nat}
    (hv : denotes σ.heap (s.heap.length + 1) T v = true) :
    setChild2 s.heap.length v σ =
        some (σ.withHeap (σ.heap.set s.heap.length (n.withChild2 v))) ∧
      Mid s k a c0 c1 T rest (σ.withHeap (σ.heap.set s.heap.length (n.withChild2 v)))
        (n.withChild2 v) :=
  M.write (TreeNode.withChild2 v) rfl rfl M.attr M.d0 M.d1 hv

/-- The guarded copy of the lexeme in front of an identifier. -/
theorem Mid.name {s σ : PState} {k : StmtKind} {a : Attr} {c0 c1 c2 : Tree} {x : Token}
    {rest : List Token} {n : TreeNode} (M : Mid s k a c0 c1 c2 (x :: rest) σ n)
    (hx : x.type = .ID) :
    (if σ.token = .ID then setAttr s.heap.length (.name σ.tokenString) σ else some σ) =
        some (σ.withHeap (σ.heap.set s.heap.length (n.withAttr (.name x.text)))) ∧
      Mid s k (.name x.text) c0 c1 c2 (x :: rest)
        (σ.withHeap (σ.heap.set s.heap.length (n.withAttr (.name x.text))))
        (n.withAttr (.name x.text)) := by
  have htok : σ.token = .ID := M.pending.1.trans hx
  have htxt : σ.tokenString = x.text := M.pending.2.1
  obtain ⟨h1, h2⟩ := M.write (TreeNode.withAttr (.name x.text)) rfl rfl rfl M.d0 M.d1 M.d2
  refine ⟨?_, h2⟩
  rw [if_pos htok, htxt]
  exact h1

/-- What has been reached when the procedure returns the node. -/
theorem Mid.done {s σ : PState} {k : StmtKind} {a : Attr} {c0 c1 c2 : Tree}
    {rest : List Token} {n : TreeNode} {F : Nat → PState → Res}
    (M : Mid s k a c0 c1 c2 rest σ n) (hR : Returns F s (some s.heap.length) σ) :
    ∃ s1 n, Returns F s (some s.heap.length) s1 ∧ Pending s1 rest ∧ s1.Error = s.Error ∧
      s1.listing = s.listing ∧ HExt s.heap.length s.heap s1.heap ∧
      s1.heap[s.heap.length]? = some n ∧ n.kind = .stmt k ∧ n.attr = a ∧ n.sibling = none ∧
      denotes s1.heap (s.heap.length + 1) c0 n.child0 = true ∧
      denotes s1.heap (s.heap.length + 1) c1 n.child1 = true ∧
      denotes s1.heap (s.heap.length + 1) c2 n.child2 = true :=
  ⟨σ, n, hR, M.pending, M.err, M.listing, M.ext, M.cell, M.kind, M.attr, M.sibling, M.d0,
    M.d1, M.d2⟩

theorem ReadsNode.narrow_node {F : Nat → PState → Res} {ok ok1 : TokenType → Prop}
    {l : List Token} {k : StmtKind} {a : Attr} {c0 c1 c2 : Tree}
    (h : ReadsNode F ok l k a c0 c1 c2) (hok : ∀ tk, ok1 tk → ok tk) :
    ReadsNode F ok1 l k a c0 c1 c2 :=
  fun s rest hp h1 => h s rest hp (hok _ h1)

/-- The node read, as a tree without sibling. -/
theorem ReadsNode.reads_tree {F : Nat → PState → Res} {ok : TokenType → Prop}
    {l : List Token} {k : StmtKind} {a : Attr} {c0 c1 c2 : Tree}
    (h : ReadsNode F ok l k a c0 c1 c2) : Reads F ok l (.stmt k a c0 c1 c2 .absent) := by
  intro s rest hp hok
  obtain ⟨s1, n, hR, hp1, herr, hlist, hext, hcell, hk, ha, hs, d0, d1, d2⟩ := h s rest hp hok
  exact ⟨_, s1, hR, hp1, herr, hlist, hext,
    denotes_node hcell hk ha d0 d1 d2 (by rw [hs]; rfl)⟩

/-- A statement procedure reached through the dispatch of `statement`. -/
theorem ReadsNode.dispatch {F : Nat → PState → Res} {ok : TokenType → Prop} {tk : Token}
    {l : List Token} {k : StmtKind} {a : Attr} {c0 c1 c2 : Tree}
    (hF : ∀ f s, s.token = tk.type → statement (f + 1) s = F f s)
    (h : ReadsNode F ok (tk :: l) k a c0 c1 c2) :
    ReadsNode statement ok (tk :: l) k a c0 c1 c2 := by
  intro s rest hp hok
  obtain ⟨s1, n, ⟨N, hN⟩, hrest⟩ := h s rest hp hok
  refine ⟨s1, n, ⟨N + 1, fun f hf => ?_⟩, hrest⟩
  obtain ⟨f, rfl⟩ : ∃ g, f = g + 1 := ⟨f - 1, by omega⟩
  rw [hF f s hp.1]
  exact hN f (by omega)

theorem newStmtNode_fst (k : StmtKind) (s : PState) : (newStmtNode k s).1 = s.heap.length := rfl

/-! ## The statement forms -/

/-- `read x`. -/
theorem reads_read_node {kw x : Token} (hkw : kw.type = .READ) (hx : x.type = .ID) :
    ReadsNode (fun _ => read_stmt) (fun _ => True) [kw, x] .ReadK (.name x.text) .absent .absent
      .absent := by
  intro s rest hp _
  have M1 := (Mid.start .ReadK hp).token hkw
  obtain ⟨hw, M2⟩ := M1.name hx
  have M3 := M2.token hx
  refine M3.done ⟨0, fun f _ => ?_⟩
  show read_stmt s = _
  unfold read_stmt
  simp only [Option.bind_eq_bind, Option.pure_def, newStmtNode_fst, hw, Option.some_bind]

/-- An assignment `x := e`, for an expression `e` that `exp` reads. -/
theorem reads_assign_node {l : List Token} {T : Tree} {ok : TokenType → Prop} {x asg : Token}
    (hx : x.type = .ID) (ha : asg.type = .ASSIGN) (h : Reads exp ok l T) :
    ReadsNode assign_stmt ok (x :: asg :: l) .AssignK (.name x.text) T .absent .absent := by
  intro s rest hp hok
  obtain ⟨hw, M1⟩ := (Mid.start .AssignK hp).name hx
  have M2 := (M1.token hx).token ha
  obtain ⟨c, s3, ⟨N, hN⟩, M3, hd⟩ := M2.part h hok
  obtain ⟨hw4, M4⟩ := M3.set0 hd
  refine M4.done ⟨N + 1, fun f hf => ?_⟩
  obtain ⟨f, rfl⟩ : ∃ g, f = g + 1 := ⟨f - 1, by omega⟩
  rw [assign_stmt.eq_2]
  simp only [Option.bind_eq_bind, Option.pure_def, newStmtNode_fst, hw, Option.some_bind,
    hN f (by omega), hw4]

/-- `write e`, through the dispatch of `statement`. -/
theorem reads_write_stmt {l : List Token} {T : Tree} {ok : TokenType → Prop} {w : Token}
    (hw : w.type = .WRITE) (h : Reads exp ok l T) :
    ReadsNode statement ok (w :: l) .WriteK .zero T .absent .absent :=
  ReadsNode.dispatch (fun f s hs => by rw [statement.eq_2]; simp only [hs, hw])
    (reads_write_node hw h)

/-- `if e then seq end`, without an else part. -/
theorem reads_cond_node {lc lb : List Token} {Tc Tb : Tree} {kw th en : Token}
    (hkw : kw.type = .IF) (hth : th.type = .THEN) (hen : en.type = .END)
    (hc : Reads exp okExp lc Tc) (hb : Reads stmt_sequence okSeq lb Tb) :
    ReadsNode if_stmt (fun _ => True) (kw :: (lc ++ th :: (lb ++ [en]))) .IfK .zero Tc Tb
      .absent := by
  intro s rest hp _
  have hp0 : Pending s (kw :: (lc ++ (th :: (lb ++ (en :: rest))))) := by
    simpa [List.append_assoc] using hp
  have M1 := (Mid.start .IfK hp0).token hkw
  obtain ⟨c, s2, ⟨N2, hN2⟩, M2, hd2⟩ := M1.part hc (by
    simp [nextType, hth, okExp, okSimple, isRelop])
  obtain ⟨hw3, M3⟩ := M2.set0 hd2
  have M4 := M3.token hth
  obtain ⟨b, s5, ⟨N5, hN5⟩, M5, hd5⟩ := M4.part hb (by simp [nextType, hen, okSeq, seqContinues])
  obtain ⟨hw6, M6⟩ := M5.set1 hd5
  have hne : ¬ (s5.withHeap (s5.heap.set s.heap.length
      (((freshNode (.stmt .IfK) s).withChild0 c).withChild1 b))).token = .ELSE := by
    have := M6.pending.1
    rw [this, hen]
    decide
  have M7 := M6.token hen
  refine M7.done ⟨max N2 N5 + 1, fun f hf => ?_⟩
  obtain ⟨f, rfl⟩ : ∃ g, f = g + 1 := ⟨f - 1, by omega⟩
  rw [if_stmt.eq_2]
  simp only [Option.bind_eq_bind, Option.pure_def, newStmtNode_fst, Option.some_bind,
    hN2 f (by omega), hw3, hN5 f (by omega), hw6, if_neg hne]

/-- `repeat seq until e`. -/
theorem reads_repeat_node {lb le : List Token} {Tb Te : Tree} {ok : TokenType → Prop}
    {kw u : Token} (hkw : kw.type = .REPEAT) (hu : u.type = .UNTIL)
    (hb : Reads stmt_sequence okSeq lb Tb) (he : Reads exp ok le Te) :
    ReadsNode repeat_stmt ok (kw :: (lb ++ u :: le)) .RepeatK .zero Tb Te .absent := by
  intro s rest hp hok
  have hp0 : Pending s (kw :: (lb ++ (u :: (le ++ rest)))) := by
    simpa [List.append_assoc] using hp
  have M1 := (Mid.start .RepeatK hp0).token hkw
  obtain ⟨b, s2, ⟨N2, hN2⟩, M2, hd2⟩ := M1.part hb (by simp [nextType, hu, okSeq, seqContinues])
  obtain ⟨hw3, M3⟩ := M2.set0 hd2
  have M4 := M3.token hu
  obtain ⟨c, s5, ⟨N5, hN5⟩, M5, hd5⟩ := M4.part he hok
  obtain ⟨hw6, M6⟩ := M5.set1 hd5
  refine M6.done ⟨max N2 N5 + 1, fun f hf => ?_⟩
  obtain ⟨f, rfl⟩ : ∃ g, f = g + 1 := ⟨f - 1, by omega⟩
  rw [repeat_stmt.eq_2]
  simp only [Option.bind_eq_bind, Option.pure_def, newStmtNode_fst, Option.some_bind,
    hN2 f (by omega), hw3, hN5 f (by omega), hw6]

/-- `do seq while e`. -/
theorem reads_while_node {lb le : List Token} {Tb Te : Tree} {ok : TokenType → Prop}
    {kw w : Token} (hkw : kw.type = .DO) (hw : w.type = .WHILE)
    (hb : Reads stmt_sequence okSeq lb Tb) (he : Reads exp ok le Te) :
    ReadsNode while_stmt ok (kw :: (lb ++ w :: le)) .WhileK .zero Tb Te .absent := by
  intro s rest hp hok
  have hp0 : Pending s (kw :: (lb ++ (w :: (le ++ rest)))) := by
    simpa [List.append_assoc] using hp
  have M1 := (Mid.start .WhileK hp0).token hkw
  obtain ⟨b, s2, ⟨N2, hN2⟩, M2, hd2⟩ := M1.part hb (by simp [nextType, hw, okSeq, seqContinues])
  obtain ⟨hw3, M3⟩ := M2.set0 hd2
  have M4 := M3.token hw
  obtain ⟨c, s5, ⟨N5, hN5⟩, M5, hd5⟩ := M4.part he hok
  obtain ⟨hw6, M6⟩ := M5.set1 hd5
  refine M6.done ⟨max N2 N5 + 1, fun f hf => ?_⟩
  obtain ⟨f, rfl⟩ : ∃ g, f = g + 1 := ⟨f - 1, by omega⟩
  rw [while_stmt.eq_2]
  simp only [Option.bind_eq_bind, Option.pure_def, newStmtNode_fst, Option.some_bind,
    hN2 f (by omega), hw3, hN5 f (by omega), hw6]

/-- The bound clause `to f` or `downto f`. -/
theorem reads_to_node {l : List Token} {T : Tree} {dir : Token}
    (hdir : dir.type = .TO ∨ dir.type = .DOWNTO) (h : Reads factor (fun _ => True) l T) :
    ReadsNode to_stmt (fun _ => True) (dir :: l) (dirKind dir) .zero T .absent .absent := by
  intro s rest hp hok
  have htok : s.token = dir.type := hp.1
  by_cases hto : dir.type = .TO
  · have M1 := (Mid.start .ToK hp).token hto
    obtain ⟨c, s2, ⟨N2, hN2⟩, M2, hd2⟩ := M1.part h trivial
    obtain ⟨hw3, M3⟩ := M2.set0 hd2
    have hk : dirKind dir = .ToK := by simp [dirKind, hto]
    rw [hk]
    refine M3.done ⟨N2 + 1, fun f hf => ?_⟩
    obtain ⟨f, rfl⟩ : ∃ g, f = g + 1 := ⟨f - 1, by omega⟩
    rw [to_stmt.eq_2]
    simp only [htok, hto, if_true, Option.bind_eq_bind, Option.pure_def, newStmtNode_fst,
      Option.some_bind, hN2 f (by omega), hw3]
  · have hdown : dir.type = .DOWNTO := hdir.resolve_left hto
    have M1 := (Mid.start .DownK hp).token hdown
    obtain ⟨c, s2, ⟨N2, hN2⟩, M2, hd2⟩ := M1.part h trivial
    obtain ⟨hw3, M3⟩ := M2.set0 hd2
    have hk : dirKind dir = .DownK := by simp [dirKind, hto]
    rw [hk]
    refine M3.done ⟨N2 + 1, fun f hf => ?_⟩
    obtain ⟨f, rfl⟩ : ∃ g, f = g + 1 := ⟨f - 1, by omega⟩
    rw [to_stmt.eq_2]
    have hne : ¬ s.token = .TO := by rw [htok]; exact hto
    simp only [if_neg hne, Option.bind_eq_bind, Option.pure_def, newStmtNode_fst,
      Option.some_bind, hN2 f (by omega), hw3]

/-- `for x := e to f then seq end`. -/
theorem reads_for_node {le lf lb : List Token} {Te Tf Tb : Tree} {kw x asg dir th en : Token}
    (hkw : kw.type = .FOR) (hx : x.type = .ID) (ha : asg.type = .ASSIGN)
    (he : Reads exp okExp le Te) (hdir : dir.type = .TO ∨ dir.type = .DOWNTO)
    (hf : Reads factor (fun _ => True) lf Tf) (hth : th.type = .THEN)
    (hb : Reads stmt_sequence okSeq lb Tb) (hen : en.type = .END) :
    ReadsNode for_stmt (fun _ => True)
      (kw :: x :: asg :: (le ++ dir :: (lf ++ th :: (lb ++ [en])))) .ForK .zero
      (.stmt .AssignK (.name x.text) Te .absent .absent .absent)
      (.stmt (dirKind dir) .zero Tf .absent .absent .absent) Tb := by
  intro s rest hp _
  have hp0 : Pending s (kw :: ((x :: asg :: le) ++ ((dir :: lf) ++ (th :: (lb ++ en :: rest))))) := by
    simpa [List.append_assoc] using hp
  have M1 := (Mid.start .ForK hp0).token hkw
  obtain ⟨a, s2, ⟨N2, hN2⟩, M2, hd2⟩ := M1.part (reads_assign_node hx ha he).reads_tree (by
    rcases hdir with h | h <;> simp [nextType, h, okExp, okSimple, isRelop])
  obtain ⟨hw3, M3⟩ := M2.set0 hd2
  obtain ⟨b, s4, ⟨N4, hN4⟩, M4, hd4⟩ := M3.part (reads_to_node hdir hf).reads_tree trivial
  obtain ⟨hw5, M5⟩ := M4.set1 hd4
  have M6 := M5.token hth
  obtain ⟨q, s7, ⟨N7, hN7⟩, M7, hd7⟩ := M6.part hb (by simp [nextType, hen, okSeq, seqContinues])
  obtain ⟨hw8, M8⟩ := M7.set2 hd7
  have M9 := M8.token hen
  refine M9.done ⟨max N2 (max N4 N7) + 1, fun f hf => ?_⟩
  obtain ⟨f, rfl⟩ : ∃ g, f = g + 1 := ⟨f - 1, by omega⟩
  rw [for_stmt.eq_2]
  simp only [Option.bind_eq_bind, Option.pure_def, newStmtNode_fst, Option.some_bind,
    hN2 f (by omega), hw3, hN4 f (by omega), hw5, hN7 f (by omega), hw8]

/-- `switch f` followed by clauses and an optional default part. -/
theorem reads_switch_node {sel : List Token} {selTree : Tree} {sw : Token} (c : Clause)
    (cs : List Clause) (d : Option DefaultPart) (hsw : sw.type = .SWITCH)
    (hsel : Reads factor (fun _ => True) sel selTree) (hc : ∀ x ∈ c :: cs, x.wf)
    (hd : ∀ x ∈ d, x.wf) :
    ReadsNode switch_stmt (okSwitch d)
      (sw :: (sel ++ (clauseTokens (c :: cs) ++ defaultTokens d))) .SwitchK .zero selTree
      (caseChain (c :: cs) (defaultTree d)) .absent := by
  intro s rest hp hok
  have hp0 : Pending s (sw :: (sel ++ ((c.tokens ++ (clauseTokens cs ++ defaultTokens d)) ++
      rest))) := by
    simpa [clauseTokens, List.append_assoc] using hp
  have M1 := (Mid.start .SwitchK hp0).token hsw
  obtain ⟨v, s2, ⟨N2, hN2⟩, M2, hd2⟩ := M1.part hsel trivial
  obtain ⟨hw3, M3⟩ := M2.set0 hd2
  obtain ⟨q, s4, ⟨N4, hN4⟩, M4, hd4⟩ := M3.part
    (reads_cases d hd cs c (hc c (List.mem_cons_self _ _))
      (fun x hx => hc x (List.mem_cons_of_mem _ hx))) hok
  obtain ⟨hw5, M5⟩ := M4.set1 hd4
  refine M5.done ⟨max N2 N4 + 1, fun f hf => ?_⟩
  obtain ⟨f, rfl⟩ : ∃ g, f = g + 1 := ⟨f - 1, by omega⟩
  rw [switch_stmt.eq_2]
  simp only [Option.bind_eq_bind, Option.pure_def, newStmtNode_fst, Option.some_bind,
    hN2 f (by omega), hw3, hN4 f (by omega), hw5]

/-! ## Sequences whose last statement may be open -/

theorem itemsOk.tail {x : Simple} {m : List (Token × Simple)} (h : itemsOk x m) : restOk m := by
  cases m with
  | nil => trivial
  | cons p m =>
    obtain ⟨sep, y⟩ := p
    exact ⟨h.2.1, h.2.2⟩

/-- The first statement is read where it stands: in front of the semicolon of
the next one, or in front of the token that ends the sequence. -/
theorem itemsOk.head {x : Simple} {m : List (Token × Simple)} (h : itemsOk x m)
    {rest : List Token} (hok : okSeq (nextType rest)) (s : PState)
    (hp : Pending s (x.toks ++ (restTokens m ++ rest))) :
    ∃ s1 n, Returns statement s (some s.heap.length) s1 ∧ Pending s1 (restTokens m ++ rest) ∧
      s1.Error = s.Error ∧ s1.listing = s.listing ∧ HExt s.heap.length s.heap s1.heap ∧
      s1.heap[s.heap.length]? = some n ∧ n.kind = .stmt x.kind ∧ n.attr = x.attr ∧
      n.sibling = none ∧
      denotes s1.heap (s.heap.length + 1) x.c0 n.child0 = true ∧
      denotes s1.heap (s.heap.length + 1) x.c1 n.child1 = true ∧
      denotes s1.heap (s.heap.length + 1) x.c2 n.child2 = true := by
  cases m with
  | nil => exact h s _ hp (by simpa [restTokens] using hok)
  | cons p m =>
    obtain ⟨sep, y⟩ := p
    exact h.1 s _ hp (Or.inl (by simp [restTokens, nextType, h.2.1]))

/-- The loop of `stmt_sequence` on `; s2 ; s3 ...`, the last statement in
front of the token that ends the sequence: the chain of these statements is
built above the nodes that exist, and the last node `p` so far gets it as its
sibling; nothing else is changed. -/
theorem seq_loop_last : ∀ (m : List (Token × Simple)), restOk m →
    ∀ (t p : Nat) (np : TreeNode) (s : PState) (rest : List Token),
      Pending s (restTokens m ++ rest) → okSeq (nextType rest) →
      s.heap[p]? = some np → np.sibling = none →
      ∃ x s1, Returns (fun f => stmt_sequence_loop f (some t) (some p)) s (some t) s1 ∧
        Pending s1 rest ∧ s1.Error = s.Error ∧ s1.listing = s.listing ∧
        s.heap.length ≤ s1.heap.length ∧
        (∀ a, a < s.heap.length → a ≠ p → s1.heap[a]? = s.heap[a]?) ∧
        s1.heap[p]? = some (np.withSibling x) ∧
        denotes s1.heap s.heap.length (restTree m) x = true := by
  intro m
  induction m with
  | nil =>
    intro _ t p np s rest hp hok hnp hsib
    refine ⟨none, s, Returns.intro 1 (fun f => ?_), hp, rfl, rfl, Nat.le_refl _,
      fun _ _ _ => rfl, by rw [withSibling_none hsib]; exact hnp, rfl⟩
    rw [Nat.add_comm]
    exact stmt_sequence_loop_exit f _ _ s (by rw [hp.token_next]; exact hok)
  | cons px m ih =>
    obtain ⟨sep, x⟩ := px
    intro hm t p np s rest hp hok hnp hsib
    obtain ⟨hsep, hx⟩ := hm
    have hm1 : restOk m := hx.tail
    have hplt := cell_lt hnp
    have htok : s.token = .SEMI := hp.1.trans hsep
    have hA : match_ .SEMI s = advance s := match_hit htok
    have hpA : Pending (match_ .SEMI s) (x.toks ++ (restTokens m ++ rest)) := by
      rw [hA]
      have hp1 : Pending s (sep :: (x.toks ++ (restTokens m ++ rest))) := by
        simpa [restTokens, List.append_assoc] using hp
      exact Pending.step hp1
    obtain ⟨σ, n, ⟨N1, hN1⟩, hp1, herr1, hlist1, hext1, hcell1, hk1, ha1, hs1, d0, d1, d2⟩ :=
      hx.head hok _ hpA
    simp only [match_heap] at hext1 hcell1 d0 d1 d2 hN1
    have hqlt := cell_lt hcell1
    have hnpσ : σ.heap[p]? = some np := by rw [hext1.2 _ hplt]; exact hnp
    have hne : p ≠ s.heap.length := by omega
    have hcellq : (σ.withHeap (σ.heap.set p (np.withSibling (some s.heap.length)))).heap[
        s.heap.length]? = some n := by
      rw [PState.withHeap_heap, cell_set_ne _ hne]
      exact hcell1
    obtain ⟨x1, s1, ⟨N2, hN2⟩, hp2, herr2, hlist2, hlen2, hfr2, hq2, hd2⟩ :=
      ih hm1 t s.heap.length n (σ.withHeap (σ.heap.set p (np.withSibling (some s.heap.length))))
        rest ((Pending_withHeap _ _ _).mpr hp1) hok hcellq hs1
    simp only [PState.withHeap_heap, List.length_set, PState.withHeap_Error,
      PState.withHeap_listing] at hlen2 hfr2 hd2 herr2 hlist2
    have hlen1 := hext1.1
    refine ⟨some s.heap.length, s1, ⟨max N1 N2 + 1, fun f hf => ?_⟩, hp2, ?_, ?_, by omega,
      fun a ha1 ha2 => ?_, ?_, ?_⟩
    · obtain ⟨f, rfl⟩ : ∃ g, f = g + 1 := ⟨f - 1, by omega⟩
      show stmt_sequence_loop (f + 1) (some t) (some p) s = _
      rw [stmt_sequence_loop_step f _ _ s (by rw [htok]; rfl), hN1 f (by omega)]
      simp only [Option.some_bind, hnpσ, hsib, setSibling, write_at _ hnpσ]
      exact hN2 f (by omega)
    · rw [herr2, herr1, hA, advance_Error]
    · rw [hlist2, hlist1, hA, advance_listing]
    · rw [hfr2 a (by omega) (by omega), cell_set_ne _ (Ne.symm ha2), hext1.2 a ha1]
    · rw [hfr2 p (by omega) hne]
      exact cell_set _ (by omega)
    · have hagree : ∀ a, s.heap.length + 1 ≤ a → a < σ.heap.length → s1.heap[a]? = σ.heap[a]? :=
        fun a h1 h2 => by
          rw [hfr2 a h2 (by omega), cell_set_ne _ (by omega)]
      exact denotes_node hq2 hk1 ha1 (denotes_of_agree hagree _ _ d0)
        (denotes_of_agree hagree _ _ d1) (denotes_of_agree hagree _ _ d2)
        (denotes_lower (by omega) _ _ hd2)

/-- Statements `s1 ; s2 ; ... ; sn`, each read by `statement` as one node
where it stands, are read by `stmt_sequence` as the chain
`s1 -> s2 -> ... -> sn`. -/
theorem reads_seq_last (x : Simple) (m : List (Token × Simple)) (hx : itemsOk x m) :
    Reads stmt_sequence okSeq (x.toks ++ restTokens m) (x.tree (restTree m)) := by
  intro s rest hp hok
  obtain ⟨σ, n, ⟨N1, hN1⟩, hp1, herr1, hlist1, hext1, hcell1, hk1, ha1, hs1, d0, d1, d2⟩ :=
    hx.head hok s (by simpa [List.append_assoc] using hp)
  obtain ⟨x1, s1, ⟨N2, hN2⟩, hp2, herr2, hlist2, hlen2, hfr2, hq2, hd2⟩ :=
    seq_loop_last m hx.tail s.heap.length s.heap.length n σ rest hp1 hok hcell1 hs1
  have hqlt := cell_lt hcell1
  refine ⟨some s.heap.length, s1, ⟨max N1 N2 + 1, fun f hf => ?_⟩, hp2, herr2.trans herr1,
    hlist2.trans hlist1, ⟨Nat.le_trans hext1.1 hlen2, fun a ha => ?_⟩, ?_⟩
  · obtain ⟨f, rfl⟩ : ∃ g, f = g + 1 := ⟨f - 1, by omega⟩
    rw [stmt_sequence.eq_2, hN1 f (by omega)]
    exact hN2 f (by omega)
  · rw [hfr2 a (by omega) (by omega), hext1.2 a ha]
  · have hagree : ∀ a, s.heap.length + 1 ≤ a → a < σ.heap.length → s1.heap[a]? = σ.heap[a]? :=
      fun a h1 h2 => hfr2 a h2 (by omega)
    exact denotes_node hq2 hk1 ha1 (denotes_of_agree hagree _ _ d0)
      (denotes_of_agree hagree _ _ d1) (denotes_of_agree hagree _ _ d2)
      (denotes_lower (by omega) _ _ hd2)

/-! ## Phrases as written are read as their trees -/

theorem okStmt_exp {tk : TokenType} (h : okStmt tk) : okExp tk := by
  rcases h with rfl | h
  · exact ⟨by simp [okSimple], by simp [isRelop]⟩
  · exact okSeq_exp h

theorem okStmt_switch {tk : TokenType} (h : okStmt tk) : okSwitch none tk := by
  rcases h with rfl | h
  · exact ⟨by decide, by decide⟩
  · unfold okSeq seqContinues at h
    unfold okSwitch
    cases tk <;> simp_all

theorem SeqAs.reads_seq_as {p : Ph} {x : Simple} {m : List (Token × Simple)} (h : SeqAs p x m) :
    Reads stmt_sequence okSeq p.toks (p.tree .absent) := by
  rw [h.1, h.2.1]
  exact reads_seq_last x m h.2.2

/-- One statement is a sequence. -/
theorem SeqAs.one {p : Ph} (h : p.simple.wfLast) (ht : p.toks = p.simple.toks)
    (hT : p.tree .absent = p.simple.tree .absent) : SeqAs p p.simple [] :=
  ⟨by simp [restTokens, ht], by simp [restTree, hT], h⟩

/-- A statement read in front of a semicolon or of a token that ends the
sequence is read in both roles. -/
theorem Simple.wf_last {x : Simple} (h : x.wf) : x.wfLast :=
  h.narrow_node (fun _ hk => Or.inr hk)

theorem ph_reads (p : Ph) :
    (p.wf .stmt = true → p.toks = p.simple.toks ∧ (∀ sib, p.tree sib = p.simple.tree sib) ∧
      p.simple.wfLast ∧ (p.closed = true → p.simple.wf)) ∧
    (p.wf .seq = true → ∃ x m, SeqAs p x m) ∧
    (p.wf .tail = true → ∃ cs d, ChainAs p cs d) ∧
    (p.wf .chain = true → ∃ c cs d, ChainAs p (c :: cs) d) := by
  induction p with
  | read kw x =>
    have hS : ∀ r, (Ph.read kw x).wf r = true → (Ph.read kw x).simple.wf := fun r h => by
      simp only [Ph.wf, Bool.and_eq_true, decide_eq_true_eq] at h
      exact (ReadsNode.dispatch (fun f s hs => by rw [statement.eq_2]; simp only [hs, h.1.2])
        (reads_read_node h.1.2 h.2)).narrow_node (fun _ _ => trivial)
    exact ⟨fun h => ⟨rfl, fun _ => rfl, Simple.wf_last (hS _ h), fun _ => hS _ h⟩,
      fun h => ⟨_, [], SeqAs.one (Simple.wf_last (hS _ h)) rfl rfl⟩,
      fun h => by simp [Ph.wf] at h, fun h => by simp [Ph.wf] at h⟩
  | write kw e =>
    have hS : ∀ r, (Ph.write kw e).wf r = true → (Ph.write kw e).simple.wf := fun r h => by
      simp only [Ph.wf, Bool.and_eq_true, decide_eq_true_eq] at h
      exact reads_write_stmt h.1.2 (((ex_reads e).2.2.2 h.2).narrow (fun _ => okStmt_exp))
    exact ⟨fun h => ⟨rfl, fun _ => rfl, Simple.wf_last (hS _ h), fun _ => hS _ h⟩,
      fun h => ⟨_, [], SeqAs.one (Simple.wf_last (hS _ h)) rfl rfl⟩,
      fun h => by simp [Ph.wf] at h, fun h => by simp [Ph.wf] at h⟩
  | assign x asg e =>
    have hS : ∀ r, (Ph.assign x asg e).wf r = true → (Ph.assign x asg e).simple.wf :=
      fun r h => by
        simp only [Ph.wf, Bool.and_eq_true, decide_eq_true_eq] at h
        exact ReadsNode.dispatch (fun f s hs => by rw [statement.eq_2]; simp only [hs, h.1.1.2])
          (reads_assign_node h.1.1.2 h.1.2 (((ex_reads e).2.2.2 h.2).narrow
            (fun _ => okStmt_exp)))
    exact ⟨fun h => ⟨rfl, fun _ => rfl, Simple.wf_last (hS _ h), fun _ => hS _ h⟩,
      fun h => ⟨_, [], SeqAs.one (Simple.wf_last (hS _ h)) rfl rfl⟩,
      fun h => by simp [Ph.wf] at h, fun h => by simp [Ph.wf] at h⟩
  | cond kw c th body en ihb =>
    have hS : ∀ r, (Ph.cond kw c th body en).wf r = true → (Ph.cond kw c th body en).simple.wf :=
      fun r h => by
        simp only [Ph.wf, Bool.and_eq_true, decide_eq_true_eq] at h
        obtain ⟨⟨⟨⟨⟨-, hkw⟩, hc⟩, hth⟩, hbody⟩, hen⟩ := h
        obtain ⟨x1, m, hq⟩ := ihb.2.1 hbody
        exact ReadsNode.dispatch (fun f s hs => by rw [statement.eq_2]; simp only [hs, hkw])
          ((reads_cond_node hkw hth hen ((ex_reads c).2.2.2 hc) hq.reads_seq_as).narrow_node
            (fun _ _ => trivial))
    exact ⟨fun h => ⟨rfl, fun _ => rfl, Simple.wf_last (hS _ h), fun _ => hS _ h⟩,
      fun h => ⟨_, [], SeqAs.one (Simple.wf_last (hS _ h)) rfl rfl⟩,
      fun h => by simp [Ph.wf] at h, fun h => by simp [Ph.wf] at h⟩
  | rep kw body u e ihb =>
    have hS : ∀ r, (Ph.rep kw body u e).wf r = true → (Ph.rep kw body u e).simple.wf :=
      fun r h => by
        simp only [Ph.wf, Bool.and_eq_true, decide_eq_true_eq] at h
        obtain ⟨x, m, hb⟩ := ihb.2.1 h.1.1.2
        exact ReadsNode.dispatch
          (fun f s hs => by rw [statement.eq_2]; simp only [hs, h.1.1.1.2])
          (reads_repeat_node h.1.1.1.2 h.1.2 hb.reads_seq_as
            (((ex_reads e).2.2.2 h.2).narrow (fun _ => okStmt_exp)))
    exact ⟨fun h => ⟨rfl, fun _ => rfl, Simple.wf_last (hS _ h), fun _ => hS _ h⟩,
      fun h => ⟨_, [], SeqAs.one (Simple.wf_last (hS _ h)) rfl rfl⟩,
      fun h => by simp [Ph.wf] at h, fun h => by simp [Ph.wf] at h⟩
  | whl kw body w e ihb =>
    have hS : ∀ r, (Ph.whl kw body w e).wf r = true → (Ph.whl kw body w e).simple.wf :=
      fun r h => by
        simp only [Ph.wf, Bool.and_eq_true, decide_eq_true_eq] at h
        obtain ⟨x, m, hb⟩ := ihb.2.1 h.1.1.2
        exact ReadsNode.dispatch
          (fun f s hs => by rw [statement.eq_2]; simp only [hs, h.1.1.1.2])
          (reads_while_node h.1.1.1.2 h.1.2 hb.reads_seq_as
            (((ex_reads e).2.2.2 h.2).narrow (fun _ => okStmt_exp)))
    exact ⟨fun h => ⟨rfl, fun _ => rfl, Simple.wf_last (hS _ h), fun _ => hS _ h⟩,
      fun h => ⟨_, [], SeqAs.one (Simple.wf_last (hS _ h)) rfl rfl⟩,
      fun h => by simp [Ph.wf] at h, fun h => by simp [Ph.wf] at h⟩
  | for_ kw x asg e dir b th body en ihb =>
    have hS : ∀ r, (Ph.for_ kw x asg e dir b th body en).wf r = true →
        (Ph.for_ kw x asg e dir b th body en).simple.wf := fun r h => by
      simp only [Ph.wf, Bool.and_eq_true, decide_eq_true_eq] at h
      obtain ⟨⟨⟨⟨⟨⟨⟨⟨⟨-, hkw⟩, hx⟩, ha⟩, he⟩, hdir⟩, hb⟩, hth⟩, hbody⟩, hen⟩ := h
      obtain ⟨x1, m, hq⟩ := ihb.2.1 hbody
      exact ReadsNode.dispatch (fun f s hs => by rw [statement.eq_2]; simp only [hs, hkw])
        ((reads_for_node hkw hx ha ((ex_reads e).2.2.2 he) hdir ((ex_reads b).1 hb) hth
          hq.reads_seq_as hen).narrow_node (fun _ _ => trivial))
    exact ⟨fun h => ⟨rfl, fun _ => rfl, Simple.wf_last (hS _ h), fun _ => hS _ h⟩,
      fun h => ⟨_, [], SeqAs.one (Simple.wf_last (hS _ h)) rfl rfl⟩,
      fun h => by simp [Ph.wf] at h, fun h => by simp [Ph.wf] at h⟩
  | switch kw sel cs ihc =>
    have hS : ∀ r, (Ph.switch kw sel cs).wf r = true →
        (Ph.switch kw sel cs).simple.wfLast ∧
          ((Ph.switch kw sel cs).closed = true → (Ph.switch kw sel cs).simple.wf) := fun r h => by
      simp only [Ph.wf, Bool.and_eq_true, decide_eq_true_eq] at h
      obtain ⟨c, cs1, d, ht, hT, hc, hd, hnd⟩ := ihc.2.2.2 h.2
      have hnode := reads_switch_node c cs1 d h.1.1.2 ((ex_reads sel).1 h.1.2) hc hd
      rw [← ht, ← hT] at hnode
      have hdisp := ReadsNode.dispatch
        (fun f s hs => by rw [statement.eq_2]; simp only [hs, h.1.1.2]) hnode
      refine ⟨hdisp.narrow_node (fun tk hk => ?_), fun hcl => hdisp.narrow_node (fun tk hk => ?_)⟩
      · cases d with
        | none => exact okStmt_switch (Or.inr hk)
        | some _ => exact hk
      · have hd0 : d = none := hnd.mp hcl
        subst hd0
        exact okStmt_switch hk
    exact ⟨fun h => ⟨rfl, fun _ => rfl, (hS _ h).1, (hS _ h).2⟩,
      fun h => ⟨_, [], SeqAs.one (hS _ h).1 rfl rfl⟩,
      fun h => by simp [Ph.wf] at h, fun h => by simp [Ph.wf] at h⟩
  | case kw v body brk next ihb ihn =>
    have hC : ∀ r, (Ph.case kw v body brk next).wf r = true →
        ∃ c cs d, ChainAs (Ph.case kw v body brk next) (c :: cs) d := fun r h => by
      simp only [Ph.wf, Bool.and_eq_true, decide_eq_true_eq] at h
      obtain ⟨⟨⟨⟨⟨-, hkw⟩, hv⟩, hbody⟩, hbrk⟩, hnext⟩ := h
      obtain ⟨x1, m, hq⟩ := ihb.2.1 hbody
      obtain ⟨cs, d, ht, hT, hc, hd, hnd⟩ := ihn.2.2.1 hnext
      refine ⟨⟨kw, v.toks, v.tree, body.toks, body.tree .absent, brk⟩, cs, d, ?_, ?_, ?_, hd, ?_⟩
      · simp [Ph.toks, clauseTokens, Clause.tokens, ht, List.append_assoc]
      · simp only [Ph.tree, caseChain, hT]
      · intro c hc1
        rcases List.mem_cons.mp hc1 with rfl | hc1
        · exact ⟨hkw, (ex_reads v).1 hv, hq.reads_seq_as, hbrk⟩
        · exact hc c hc1
      · simpa [Ph.noDefault] using hnd
    refine ⟨fun h => by simp [Ph.wf] at h, fun h => by simp [Ph.wf] at h, fun h => ?_, hC _⟩
    obtain ⟨c, cs, d, hchain⟩ := hC _ h
    exact ⟨c :: cs, d, hchain⟩
  | done =>
    refine ⟨fun h => by simp [Ph.wf] at h, fun h => by simp [Ph.wf] at h,
      fun _ => ⟨[], none, ?_⟩, fun h => by simp [Ph.wf] at h⟩
    exact ⟨rfl, rfl, by simp, by simp, by simp [Ph.noDefault]⟩
  | dflt kw body ihb =>
    refine ⟨fun h => by simp [Ph.wf] at h, fun h => by simp [Ph.wf] at h, fun h => ?_,
      fun h => by simp [Ph.wf] at h⟩
    simp only [Ph.wf, Bool.and_eq_true, decide_eq_true_eq] at h
    obtain ⟨x1, m, hq⟩ := ihb.2.1 h.2
    refine ⟨[], some ⟨kw, body.toks, body.tree .absent⟩, rfl, rfl, by simp, ?_,
      by simp [Ph.noDefault]⟩
    intro x hx
    cases hx
    exact ⟨h.1.2, hq.reads_seq_as⟩
  | seq a semi rest iha ihr =>
    refine ⟨fun h => by simp [Ph.wf] at h, fun h => ?_, fun h => by simp [Ph.wf] at h,
      fun h => by simp [Ph.wf] at h⟩
    simp only [Ph.wf, Bool.and_eq_true, decide_eq_true_eq] at h
    obtain ⟨⟨⟨⟨-, ha⟩, hcl⟩, hsemi⟩, hrest⟩ := h
    obtain ⟨hta, hTa, -, hwa⟩ := iha.1 ha
    obtain ⟨x1, m, ht, hT, hok⟩ := ihr.2.1 hrest
    refine ⟨a.simple, (semi, x1) :: m, ?_, ?_, hwa hcl, hsemi, hok⟩
    · simp [Ph.toks, restTokens, hta, ht]
    · simp only [Ph.tree, restTree, hTa, hT]

/-- Statements `s1 ; ... ; sn` that follow the grammar without `if`, every
one but the last closed, are read by `stmt_sequence` as the sibling chain
`s1 -> ... -> sn`. -/
theorem reads_phrase (p : Ph) (h : p.wf .seq = true) :
    Reads stmt_sequence okSeq p.toks (p.tree .absent) := by
  obtain ⟨x, m, hq⟩ := (ph_reads p).2.1 h
  exact hq.reads_seq_as

/-! ## A switch with a default part takes what follows -/

theorem Pending.at_start (l : List Token) : Pending (startOn l) l := by
  cases l with
  | nil => exact ⟨rfl, rfl⟩
  | cons tk l => exact ⟨rfl, rfl, rfl, rfl⟩

theorem open_checked :
    (stmt_sequence_log 12 (startOn openTokens)).map
      (fun x => decide (x.2.1.map Prod.fst = [some 0]) && !x.2.2.Error &&
        decide (x.2.2.token = .ENDFILE) && denotes x.2.2.heap 0 swallowTree x.1 &&
        !denotes x.2.2.heap 0 (openSwitch.tree ((writePh "z").tree .absent)) x.1) = some true := by
  decide!

theorem sample_checked :
    (openSwitch.wf .stmt && (writePh "z").wf .stmt && !openSwitch.closed &&
      samplePh.wf .seq) = true := by
  decide!

/-- C4, the claim as stated fails: `switch x case 1 write a break default
write c` and `write z` are statements that follow the grammar, without
if/else, but `stmt_sequence` on the first, a semicolon and the second does not
return the chain of the two: the tree of the Switch statement with the tree of
`write z` as its sibling is not what it returns. -/
theorem default_takes_rest :
    openSwitch.wf .stmt = true ∧ (writePh "z").wf .stmt = true ∧
      ¬ ∃ r s1, Returns stmt_sequence
          (startOn (openSwitch.toks ++ tok .SEMI ";" :: (writePh "z").toks)) r s1 ∧
        denotes s1.heap 0 (openSwitch.tree ((writePh "z").tree .absent)) r = true := by
  have hs := sample_checked
  simp only [Bool.and_eq_true, Bool.not_eq_true'] at hs
  refine ⟨hs.1.1.1, hs.1.1.2, ?_⟩
  rintro ⟨r, s1, hR, hd⟩
  obtain ⟨r0, log, s0, hL, hc⟩ := checked_log open_checked
  simp only [Bool.and_eq_true, Bool.not_eq_true', decide_eq_true_eq] at hc
  obtain ⟨N, hN⟩ := hL
  have hR0 : Returns stmt_sequence (startOn openTokens) r0 s0 :=
    ⟨N, fun f hf => by rw [← unlog_seq, hN f hf]; rfl⟩
  obtain ⟨h1, h2⟩ := hR0.agree (fun f g h => (monoAt f g h).stmt_sequence) hR
  subst h1 h2
  rw [hc.2] at hd
  cases hd

/-- A sequence that follows the grammar, parsed from the start of the
input. -/
theorem reads_phrase_start (p : Ph) (h : p.wf .seq = true) :
    ∃ r s1, Returns stmt_sequence (startOn p.toks) r s1 ∧ s1.Error = false ∧ s1.listing = [] ∧
      s1.token = .ENDFILE ∧ s1.input = [] ∧ denotes s1.heap 0 (p.tree .absent) r = true := by
  obtain ⟨r, s1, hR, hp, herr, hlist, -, hd⟩ :=
    reads_phrase p h (startOn p.toks) [] (by simpa using Pending.at_start p.toks) rfl
  refine ⟨r, s1, hR, ?_, ?_, hp.1, hp.2, ?_⟩
  · rw [herr, startOn, advance_Error]; rfl
  · rw [hlist, startOn, advance_listing]; rfl
  · have h0 : (startOn p.toks).heap.length = 0 := by rw [startOn, advance_heap]; rfl
    rw [h0] at hd
    exact hd

/-- C4, amended: from every state `stmt_sequence` returns, in front of a token
that ends a sequence, and the sibling chain it returns (an Else node directly
after an If being passed over) visits exactly the nodes that its successive
calls of `statement` returned, absent results left out, in the order of the
calls and each once, and then ends.  Where none of these nodes is an If node
the chain is by the sibling field alone.  The record of the calls is that of
`stmt_sequence_log`, which without the record is `stmt_sequence`.  On the
tokens of `write x ; ; write y` the three calls return a node, absent and a
node, and the chain is `Write x -> Write y`.  Statements `s1 ; s2 ; ... ; sn`
that follow the grammar without `else` (`Ph.wf`: read, write, assignment,
`if ... then ... end`, repeat, do-while, for, switch, their bodies such
sequences again, their expressions by the expression grammar), every one but
the last closed, that is not a switch with a default part, are read without
error as the chain `s1 -> s2 -> ... -> sn`; `samplePh` is such a sequence with
every statement form in it.  A switch with a default part takes the
statements that follow it into the body of its Default node: on
`switch x case 1 write a break default write c ; write z` the sequence makes
one call of `statement` and returns the Switch node alone, `write z` being
the sibling of `write c`. -/
theorem sequence_chain :
    (∀ s : PState, ∃ r log s1, ReturnsLog s r log s1 ∧ Returns stmt_sequence s r s1 ∧
      seqContinues s1.token = false ∧
      chainIs s1.heap (log.filterMap Prod.fst) r ∧ (log.filterMap Prod.fst).Nodup ∧
      ((∀ q ∈ log.filterMap Prod.fst, ∀ n, s1.heap[q]? = some n → n.kind ≠ .stmt .IfK) →
        plainChain s1.heap (log.filterMap Prod.fst) r)) ∧
    (∀ f s, unlog (stmt_sequence_log f s) = stmt_sequence f s) ∧
    (∃ r log s1, ReturnsLog (startOn skipTokens) r log s1 ∧
      log.map Prod.fst = [some 0, none, some 2] ∧ s1.token = .ENDFILE ∧
      denotes s1.heap 0 skipTree r = true) ∧
    (∀ p : Ph, p.wf .seq = true → Reads stmt_sequence okSeq p.toks (p.tree .absent)) ∧
    (∀ p : Ph, p.wf .seq = true →
      ∃ r s1, Returns stmt_sequence (startOn p.toks) r s1 ∧ s1.Error = false ∧
        s1.listing = [] ∧ s1.token = .ENDFILE ∧ s1.input = [] ∧
        denotes s1.heap 0 (p.tree .absent) r = true) ∧
    samplePh.wf .seq = true ∧
    (∃ r log s1, ReturnsLog (startOn openTokens) r log s1 ∧ log.map Prod.fst = [some 0] ∧
      s1.Error = false ∧ s1.token = .ENDFILE ∧ denotes s1.heap 0 swallowTree r = true) := by
  refine ⟨fun s => ?_, unlog_seq, ?_, reads_phrase, reads_phrase_start, ?_, ?_⟩
  · obtain ⟨r, log, s1, hR, hR1⟩ := seq_log_runs s
    obtain ⟨N, hN⟩ := hR
    obtain ⟨hr, hT, hL⟩ := seq_log_post (hN N (Nat.le_refl _))
    subst hr
    refine ⟨_, log, s1, ⟨N, hN⟩, hR1, hL.stop, ?_⟩
    rw [← results_map_fst]
    exact ⟨Threaded.chain _ hT, hT.nodup, Threaded.plain _ hT⟩
  · obtain ⟨r, log, s1, hR, hc⟩ := checked_log skip_checked
    simp only [Bool.and_eq_true, decide_eq_true_eq] at hc
    exact ⟨r, log, s1, hR, hc.1.2, hc.2, hc.1.1⟩
  · have hs := sample_checked
    simp only [Bool.and_eq_true] at hs
    exact hs.2
  · obtain ⟨r, log, s1, hR, hc⟩ := checked_log open_checked
    simp only [Bool.and_eq_true, Bool.not_eq_true', decide_eq_true_eq] at hc
    exact ⟨r, log, s1, hR, hc.1.1.1.1, hc.1.1.1.2, hc.1.1.2, hc.1.2⟩

end Parse
